import Mathlib

/-!
# cronctl: build-cache engine

A shallow embedding of `internal/build` (`hash.go`, `ignore.go`, `state.go`,
`build.go`, `exec.go`) of cronctl, followed by theorems about it.

Conventions of the embedding:

* a Go `string` or `[]byte` is a list of bytes (`GoString`), each byte a `Nat`
  below 256; `str` turns an ASCII literal into such a list;
* the program runs on Unix: the path separator is `/` and `filepath.ToSlash`,
  `filepath.FromSlash` are the identity;
* the filesystem is an explicit tree (`Node`) that operations read and return;
* what the program only calls (SHA-256, the regexp library, the `git` tool, the
  child process, the context's cancellation) is a field of `Env` or an explicit
  argument, never fixed by the embedding; the small worlds (`quietEnv`, `gitEnv`,
  `worktreeEnv`) serve to run the program on concrete inputs.
-/

set_option autoImplicit false

namespace Cronctl

/-! ## Go strings -/

/-- Go `string` / `[]byte`: a sequence of bytes. -/
abbrev GoString := List Nat

/-- The bytes of an ASCII literal. -/
def str (s : String) : GoString := s.toList.map Char.toNat

/-- Go's `a < b` on strings: byte-wise lexicographic order. -/
def strLess : GoString → GoString → Bool
  | [], [] => false
  | [], _ :: _ => true
  | _ :: _, [] => false
  | a :: as, b :: bs => if a < b then true else if b < a then false else strLess as bs

/-- `strings.HasPrefix`. -/
def HasPrefix (s pre : GoString) : Bool := pre.isPrefixOf s

/-- `strings.HasSuffix`. -/
def HasSuffix (s suf : GoString) : Bool := suf.isSuffixOf s

/-- `strings.TrimPrefix`: `s` without the leading `pre`, or `s` itself. -/
def TrimPrefix (s pre : GoString) : GoString :=
  if HasPrefix s pre then s.drop pre.length else s

/-- `strings.TrimSuffix`: `s` without the trailing `suf`, or `s` itself. -/
def TrimSuffix (s suf : GoString) : GoString :=
  if HasSuffix s suf then s.take (s.length - suf.length) else s

/-- The ASCII white space of `strings.TrimSpace`: tab, newline, vertical tab, form
feed, carriage return, space. -/
def asciiSpace (c : Nat) : Bool :=
  c == 9 || c == 10 || c == 11 || c == 12 || c == 13 || c == 32

/-- The width in bytes of the white-space character (`unicode.IsSpace`) whose
UTF-8 encoding starts the string, 0 when the string starts otherwise: one of the
six ASCII characters, U+0085, U+00A0, U+1680, U+2000 to U+200A, U+2028, U+2029,
U+202F, U+205F, U+3000. -/
def spaceWidth : GoString → Nat
  | [] => 0
  | c :: rest =>
    let d := rest.getD 0 0
    let e := rest.getD 1 0
    if asciiSpace c then 1
    else if c = 194 ∧ (d = 133 ∨ d = 160) then 2
    else if c = 225 ∧ d = 154 ∧ e = 128 then 3
    else if c = 226 ∧ d = 128 ∧ ((128 ≤ e ∧ e ≤ 138) ∨ e = 168 ∨ e = 169 ∨ e = 175) then 3
    else if c = 226 ∧ d = 129 ∧ e = 159 then 3
    else if c = 227 ∧ d = 128 ∧ e = 128 then 3
    else 0

/-- The width of the white-space character whose encoding ends the string, 0 when
the string ends otherwise. -/
def spaceWidthEnd (s : GoString) : Nat :=
  if 1 ≤ s.length ∧ spaceWidth (s.drop (s.length - 1)) = 1 then 1
  else if 2 ≤ s.length ∧ spaceWidth (s.drop (s.length - 2)) = 2 then 2
  else if 3 ≤ s.length ∧ spaceWidth (s.drop (s.length - 3)) = 3 then 3
  else 0

/-- The string without leading white space (at most `fuel` characters of it). -/
def trimLeftSpace : Nat → GoString → GoString
  | 0, s => s
  | fuel + 1, s => if spaceWidth s = 0 then s else trimLeftSpace fuel (s.drop (spaceWidth s))

/-- The string without trailing white space (at most `fuel` characters of it). -/
def trimRightSpace : Nat → GoString → GoString
  | 0, s => s
  | fuel + 1, s =>
    if spaceWidthEnd s = 0 then s
    else trimRightSpace fuel (s.take (s.length - spaceWidthEnd s))

/-- `strings.TrimSpace`: the string without leading and trailing white space, as
`unicode.IsSpace` defines it on the UTF-8 decoding (a byte that does not decode is
not white space). -/
def TrimSpace (s : GoString) : GoString :=
  trimRightSpace s.length (trimLeftSpace s.length s)

/-- `strings.Split(s, sep)` for a one-byte separator: the pieces between
occurrences of `sep`; always at least one piece. -/
def splitOn (sep : Nat) : GoString → List GoString
  | [] => [[]]
  | c :: cs =>
    if c = sep then [] :: splitOn sep cs
    else match splitOn sep cs with
      | [] => [[c]]
      | p :: ps => (c :: p) :: ps

/-- `strings.Join(parts, "/")`. -/
def joinSlash : List GoString → GoString
  | [] => []
  | [p] => p
  | p :: q :: ps => p ++ 47 :: joinSlash (q :: ps)

/-! ## `io/fs.FileMode` -/

/-- The type bits of a mode: `ModeDir | ModeSymlink | ModeNamedPipe | ModeSocket |
ModeDevice | ModeCharDevice | ModeIrregular`. -/
def ModeType : Nat := 2 ^ 31 + 2 ^ 27 + 2 ^ 25 + 2 ^ 24 + 2 ^ 26 + 2 ^ 21 + 2 ^ 19

/-- `fs.ModeSymlink`. -/
def ModeSymlink : Nat := 2 ^ 27

/-- `fs.ModeDir`. -/
def ModeDir : Nat := 2 ^ 31

/-- `FileMode.IsRegular`: no type bit is set. -/
def FileMode.IsRegular (m : Nat) : Bool := m &&& ModeType == 0

/-- `FileMode.String`: one letter of `dalTLDpSugct?` per set flag bit (bit 31
downwards), `-` when none is set, then the nine permission letters. -/
def FileMode.String (m : Nat) : GoString :=
  let flags := (List.range 13).filterMap fun i =>
    if m.testBit (31 - i) then (str "dalTLDpSugct?").get? i else none
  let perm := (List.range 9).map fun i =>
    if m.testBit (8 - i) then (str "rwxrwxrwx").getD i 45 else 45
  (if flags.isEmpty then [45] else flags) ++ perm

/-! ## The filesystem -/

/-- A filesystem entry.

* `file mode data`: anything that is neither a directory nor a symbolic link;
  `mode` is what `Lstat` reports (a regular file when no type bit is set, a
  device, pipe or socket otherwise); `data` is what reading it returns, `none`
  when the read fails;
* `symlink target`;
* `dir entries`: the entries in the order `os.ReadDir` returns them. -/
inductive Node where
  | file (mode : Nat) (data : Option (List Nat))
  | symlink (target : GoString)
  | dir (entries : List (GoString × Node))

/-- `DirEntry.IsDir`. -/
def Node.isDir : Node → Bool
  | .dir _ => true
  | _ => false

/-- The `execError` of `exec.go`. -/
structure execError where
  Path : GoString
  Code : Int
  Stdout : GoString
  Stderr : GoString
  deriving DecidableEq, Repr

/-- Errors of the build package, by kind (the wrapped message text is dropped). -/
inductive Error where
  | canceled
  | walkRoot
  | readFile
  | statInput
  | readInput
  | loadIgnore
  | relJobDir
  | gitLsFiles
  | emptyHash
  | mkdirState
  | writeTemp
  | renameState
  | startFailed
  | exitError (e : execError)
  | runFailed
  deriving DecidableEq, Repr

/-! ## `ignore.go`: the matcher -/

/-- `filepath.Base` on Unix. -/
def Base (path : GoString) : GoString :=
  if path = [] then str "."
  else
    let p := (path.reverse.dropWhile (· == 47)).reverse
    let b := (p.reverse.takeWhile (· != 47)).reverse
    if b = [] then str "/" else b

/-- An ignore rule; `re` is the compiled pattern seen through `MatchString`,
`none` for a nil pointer. -/
structure ignoreRule where
  negate : Bool
  dirOnly : Bool
  anchored : Bool
  re : Option (GoString → Bool)

/-- The compiled rule list. -/
structure ignoreMatcher where
  rules : List ignoreRule

/-- One iteration of the loop of `ignoreMatcher.match`: the new value of
`ignored` after rule `r`. -/
def ruleStep (rel : GoString) (isDir : Bool) (ignored : Bool) (r : ignoreRule) : Bool :=
  if r.dirOnly && !isDir then ignored
  else match r.re with
    | none => ignored
    | some re =>
      if !r.anchored then
        if !re rel && !re (Base rel) then ignored
        else if r.negate then false else true
      else
        if !re rel then ignored
        else if r.negate then false else true

/-- `ignoreMatcher.match`. -/
def ignoreMatcher.match_ (m : ignoreMatcher) (rel : GoString) (isDir : Bool) : Bool :=
  if rel = [] ∨ rel = str "." then false
  else m.rules.foldl (ruleStep rel isDir) false

/-! ## `hash.go`: the walk-aware strategy -/

/-- The `item` of `walkHash`. -/
structure item where
  path : GoString
  mode : Nat
  data : List Nat
  deriving DecidableEq, Repr

/-- The path of an entry `name` relative to the job directory, given the relative
path of its directory (`.` for the job directory itself): what
`filepath.Rel(jobDir, filepath.Join(dir, name))` returns. -/
def joinRel (relDir name : GoString) : GoString :=
  if relDir = str "." then name else relDir ++ 47 :: name

/-- Two stretches of the walk one after the other: the first error stops the
walk, otherwise the items of the second are appended to those of the first. -/
def thenItems (x y : Except Error (List item)) : Except Error (List item) :=
  match x with
  | .error e => .error e
  | .ok a =>
    match y with
    | .error e => .error e
    | .ok b => .ok (a ++ b)

mutual
/-- The callback of `walkHash` on one entry below the job directory, followed by
the descent `filepath.WalkDir` makes when the entry is a directory and the callback
did not return `SkipDir`. Yields the items appended, in order. Listing a directory
and `d.Info()` are taken to succeed; reading a file may fail. -/
def walkNode (cancelled : Bool) (ignore : ignoreMatcher) (rel : GoString) :
    Node → Except Error (List item)
  | .dir es =>
    if cancelled then .error .canceled
    else if ignore.match_ rel true then .ok []
    else walkEntries cancelled ignore rel es
  | .symlink _ =>
    if cancelled then .error .canceled
    else if ignore.match_ rel false then .ok []
    else .ok []
  | .file mode data =>
    if cancelled then .error .canceled
    else if ignore.match_ rel false then .ok []
    else if !FileMode.IsRegular mode then .ok []
    else match data with
      | none => .error .readFile
      | some b => .ok [{ path := rel, mode := mode, data := b }]
/-- The loop of `filepath.WalkDir` over the entries of one directory. -/
def walkEntries (cancelled : Bool) (ignore : ignoreMatcher) (relDir : GoString) :
    List (GoString × Node) → Except Error (List item)
  | [] => .ok []
  | (name, n) :: es =>
    thenItems (walkNode cancelled ignore (joinRel relDir name) n)
      (walkEntries cancelled ignore relDir es)
end

/-- `filepath.WalkDir(jobDir, fn)` with the callback of `walkHash`; `root` is what
`Lstat(jobDir)` found. The callback returns at once on the root (`rel == "."`),
`WalkDir` descends only into a directory. -/
def walkItems (cancelled : Bool) (ignore : ignoreMatcher) :
    Option Node → Except Error (List item)
  | none => .error .walkRoot
  | some (.dir es) =>
    if cancelled then .error .canceled else walkEntries cancelled ignore (str ".") es
  | some _ => if cancelled then .error .canceled else .ok []

/-- `sort.Slice(items, func(i, j) bool { return items[i].path < items[j].path })`.
The library sort is not stable; on items with pairwise distinct paths every
sorting algorithm returns the same list (`sortItems_unique` below). -/
def sortItems (items : List item) : List item :=
  items.insertionSort fun a b => strLess b.path a.path = false

/-- What the loop over the sorted items writes into the digest for one item. -/
def encodeItem (it : item) : List Nat :=
  it.path ++ 0 :: (FileMode.String it.mode ++ 0 :: (it.data ++ [0]))

/-- The byte stream written into the digest by the final loop. -/
def foldItems (items : List item) : List Nat :=
  (items.map encodeItem).flatten

/-- The byte stream `walkHash` feeds to SHA-256 for the collected items. -/
def hashStream (items : List item) : List Nat := foldItems (sortItems items)

/-- The part of `walkHash` after the walk: sort, fold, digest, hex. `sha256hex` is
`hex.EncodeToString(sha256.Sum(..))`. -/
def hashItems (sha256hex : List Nat → GoString) (items : List item) : GoString :=
  sha256hex (hashStream items)

/-- `walkHash` on the entry found at `jobDir`. -/
def walkHashNode (sha256hex : List Nat → GoString) (cancelled : Bool) (root : Option Node)
    (ignore : ignoreMatcher) : Except Error GoString :=
  if cancelled then .error .canceled
  else match walkItems cancelled ignore root with
    | .error e => .error e
    | .ok items => .ok (hashItems sha256hex items)

/-! ## Addressing an entry inside a tree -/

/-- One directory on the way from the job directory down to an entry: the entries
listed before the one the way goes through, its name, and the entries after it. -/
structure Frame where
  pre : List (GoString × Node)
  name : GoString
  post : List (GoString × Node)

/-- The tree that has `n` at the end of the way `fs` (outermost directory first). -/
def plug : List Frame → Node → Node
  | [], n => n
  | f :: fs, n => .dir (f.pre ++ (f.name, plug fs n) :: f.post)

/-- The tree of `plug fs n` without the entry at the end of the way. -/
def plugOut : List Frame → Node
  | [] => .dir []
  | [f] => .dir (f.pre ++ f.post)
  | f :: g :: fs => .dir (f.pre ++ (f.name, plugOut (g :: fs)) :: f.post)

/-- The relative path of the entry at the end of the way `fs` that starts in the
directory whose relative path is `rel`. -/
def holeRel (rel : GoString) : List Frame → GoString
  | [] => rel
  | f :: fs => holeRel (joinRel rel f.name) fs

/-- The relative paths of the directories passed strictly between the start of
the way and the entry at its end. -/
def ancestorRels (rel : GoString) : List Frame → List GoString
  | [] => []
  | [_] => []
  | f :: g :: fs => joinRel rel f.name :: ancestorRels (joinRel rel f.name) (g :: fs)

/-- Some directory strictly above the entry at the end of `fs` is reported as
ignored, so the walk never reaches the entry. -/
def beneathIgnored (m : ignoreMatcher) (rel : GoString) (fs : List Frame) : Bool :=
  (ancestorRels rel fs).any fun r => m.match_ r true


/-- The order `sortItems` sorts by: not `b.path < a.path`. -/
def pathLe (a b : item) : Prop := strLess b.path a.path = false

instance : DecidableRel pathLe := fun a b => inferInstanceAs (Decidable (strLess b.path a.path = false))

/-- Strictly ascending paths. -/
def pathLt (a b : item) : Prop := strLess a.path b.path = true

/-- Same path, same mode, content of the same length. -/
def sameShape (a b : item) : Prop :=
  a.path = b.path ∧ a.mode = b.mode ∧ a.data.length = b.data.length

/-! ## `path/filepath` on Unix -/

/-- The elements of a path with `.` and empty elements dropped and `..` resolved
against the element before it, as `filepath.Clean` does. A rooted path drops a
`..` that would climb above the root, a relative path keeps it. -/
def cleanElems (rooted : Bool) : List GoString → List GoString → List GoString
  | acc, [] => acc
  | acc, c :: cs =>
    if c = [] ∨ c = str "." then cleanElems rooted acc cs
    else if c = str ".." then
      match acc.getLast? with
      | some l =>
        if l = str ".." then cleanElems rooted (acc ++ [c]) cs
        else cleanElems rooted acc.dropLast cs
      | none => if rooted then cleanElems rooted acc cs else cleanElems rooted (acc ++ [c]) cs
    else cleanElems rooted (acc ++ [c]) cs

/-- `filepath.IsAbs`. -/
def IsAbs (path : GoString) : Bool := path.head? == some 47

/-- `filepath.Clean`. -/
def Clean (path : GoString) : GoString :=
  if path = [] then str "."
  else
    let out := cleanElems (IsAbs path) [] (splitOn 47 path)
    if IsAbs path then 47 :: joinSlash out
    else if out = [] then str "." else joinSlash out

/-- `filepath.Join`: leading empty elements are dropped, the rest is joined with
`/` and cleaned; the result is empty when every element is empty. -/
def Join (elem : List GoString) : GoString :=
  match elem.dropWhile (· == []) with
  | [] => []
  | rest => Clean (joinSlash rest)

/-- `filepath.Dir`: the path up to and including its last `/`, cleaned. -/
def Dir (path : GoString) : GoString :=
  Clean (path.reverse.dropWhile (· != 47)).reverse

/-- `filepath.Abs`, with the working directory `cwd` (an absolute path). -/
def Abs (cwd path : GoString) : GoString :=
  if IsAbs path then Clean path else Join [cwd, path]

/-- The non-empty elements of a path. -/
def elems (path : GoString) : List GoString := (splitOn 47 path).filter (· != [])

/-- The two element lists without their longest common prefix. -/
def dropCommon : List GoString → List GoString → List GoString × List GoString
  | b :: bs, t :: ts => if b = t then dropCommon bs ts else (b :: bs, t :: ts)
  | bs, ts => (bs, ts)

/-- `filepath.Rel`: `targpath` relative to `basepath`; `none` when one is rooted and
the other is not, or when the base would have to be left through an unknown `..`. -/
def Rel (basepath targpath : GoString) : Option GoString :=
  let base := Clean basepath
  let targ := Clean targpath
  if targ = base then some (str ".")
  else
    let base := if base = str "." then [] else base
    if IsAbs base != IsAbs targ then none
    else
      let r := dropCommon (elems base) (elems targ)
      if r.1.head? = some (str "..") then none
      else some (joinSlash (r.1.map (fun _ => str "..") ++ r.2))

/-! ## The operating system's file operations -/

/-- The entry called `name` in a list of directory entries. -/
def lookupEntry (name : GoString) : List (GoString × Node) → Option Node
  | [] => none
  | (k, v) :: es => if k = name then some v else lookupEntry name es

/-- The entries with `name` bound to `n`: replaced where it stands, otherwise
inserted before the first greater name (directories list their entries by name). -/
def setEntry (name : GoString) (n : Node) : List (GoString × Node) → List (GoString × Node)
  | [] => [(name, n)]
  | (k, v) :: es =>
    if k = name then (name, n) :: es
    else if strLess name k then (name, n) :: (k, v) :: es
    else (k, v) :: setEntry name n es

/-- The entries without those called `name`. -/
def eraseEntry (name : GoString) : List (GoString × Node) → List (GoString × Node)
  | [] => []
  | (k, v) :: es => if k = name then eraseEntry name es else (k, v) :: eraseEntry name es

/-- The entry reached from `n` through the directories `comps`; links are not
followed. -/
def Node.find : Node → List GoString → Option Node
  | n, [] => some n
  | .dir es, c :: cs =>
    match lookupEntry c es with
    | some child => child.find cs
    | none => none
  | _, _ :: _ => none

/-- Whether the lookup of `comps` fails because a name is missing (`ENOENT`, true)
or because a non-directory stands in the way (`ENOTDIR`, false); true also when the
lookup succeeds. -/
def Node.missing : Node → List GoString → Bool
  | _, [] => true
  | .dir es, c :: cs =>
    match lookupEntry c es with
    | some child => child.missing cs
    | none => true
  | _, _ :: _ => false

/-- The tree with `new` put at `comps`; every directory on the way must exist. -/
def Node.put : Node → List GoString → Node → Option Node
  | _, [], _ => none
  | .dir es, [c], new => some (.dir (setEntry c new es))
  | .dir es, c :: d :: cs, new =>
    match lookupEntry c es with
    | some child =>
      match child.put (d :: cs) new with
      | some child2 => some (.dir (setEntry c child2 es))
      | none => none
    | none => none
  | _, _ :: _, _ => none

/-- The tree without the entry at `comps`, which must exist. -/
def Node.del : Node → List GoString → Option Node
  | _, [] => none
  | .dir es, [c] =>
    match lookupEntry c es with
    | some _ => some (.dir (eraseEntry c es))
    | none => none
  | .dir es, c :: d :: cs =>
    match lookupEntry c es with
    | some child =>
      match child.del (d :: cs) with
      | some child2 => some (.dir (setEntry c child2 es))
      | none => none
    | none => none
  | _, _ :: _ => none

/-- The directories named by `comps` below `n`, created where missing
(`os.MkdirAll`); fails when something that is not a directory stands in the way.
Directories are reached through directories only (see `fsPath`): a link where a
directory is asked for is answered with the error also when it leads to a
directory, where `os.MkdirAll` would pass through it and the calls that follow
would work below the target of the link. -/
def Node.mkdirAll : Node → List GoString → Option Node
  | .dir es, [] => some (.dir es)
  | .dir es, c :: cs =>
    match lookupEntry c es with
    | some child =>
      match child.mkdirAll cs with
      | some child2 => some (.dir (setEntry c child2 es))
      | none => none
    | none =>
      match (Node.dir []).mkdirAll cs with
      | some child2 => some (.dir (setEntry c child2 es))
      | none => none
  | _, _ => none

/-- The names that lead from the root to the entry `path` addresses, for a
process whose working directory is `cwd`: the elements of `path`, after those of
`cwd` when `path` is relative, with empty and `.` elements skipped and `..`
stepping back to the parent. The directories on the way are taken to be real
directories: a link is followed only as the last element of a path (`statAt`,
`followLinks`), a path that passes through a link is not found. The empty path,
which the system calls reject, reads as the working directory. -/
def fsPath (cwd path : GoString) : List GoString :=
  cleanElems true [] ((if IsAbs path then [] else splitOn 47 cwd) ++ splitOn 47 path)

/-- The elements addressed by the link target `target` found in directory `dir`. -/
def linkPath (dir : List GoString) (target : GoString) : List GoString :=
  if IsAbs target then cleanElems true [] (splitOn 47 target)
  else cleanElems true dir (splitOn 47 target)

/-- `os.Stat` on an element list: a link in last position is followed, at most
`fuel` times in a row. -/
def statAt (fs : Node) : Nat → List GoString → Option Node
  | 0, _ => none
  | fuel + 1, comps =>
    match fs.find comps with
    | some (.symlink target) => statAt fs fuel (linkPath comps.dropLast target)
    | r => r

/-- The number of links the system follows in a row before giving up. -/
def maxLinks : Nat := 40

/-- `os.Lstat`. -/
def Lstat (cwd : GoString) (fs : Node) (path : GoString) : Option Node :=
  fs.find (fsPath cwd path)

/-- `os.Stat`. -/
def Stat (cwd : GoString) (fs : Node) (path : GoString) : Option Node :=
  statAt fs (maxLinks + 1) (fsPath cwd path)

/-- The mode `FileInfo.Mode()` reports for an entry. -/
def Node.mode : Node → Nat
  | .file mode _ => mode
  | .symlink _ => ModeSymlink + 511
  | .dir _ => ModeDir + 493

/-- How `os.ReadFile` can fail. -/
inductive ReadError where
  | notExist
  | other
  deriving DecidableEq, Repr

/-- The elements an open of `comps` ends at: a link in last position is followed,
at most `fuel` times in a row, whether or not its target exists; `none` when the
links do not end (`ELOOP`). -/
def followLinks (fs : Node) : Nat → List GoString → Option (List GoString)
  | 0, _ => none
  | fuel + 1, comps =>
    match fs.find comps with
    | some (.symlink target) => followLinks fs fuel (linkPath comps.dropLast target)
    | _ => some comps

/-- `os.ReadFile`. A link at `path` is followed; the error is `ErrNotExist` when
a name is missing on the way to the file the links lead to, and another one when
something that is not a directory stands in the way or the links do not end. -/
def ReadFile (cwd : GoString) (fs : Node) (path : GoString) : Except ReadError (List Nat) :=
  match Stat cwd fs path with
  | some (.file _ (some data)) => .ok data
  | some _ => .error .other
  | none =>
    match followLinks fs (maxLinks + 1) (fsPath cwd path) with
    | none => .error .other
    | some comps => if fs.missing comps then .error .notExist else .error .other

/-- `os.MkdirAll(path, 0o755)`. -/
def MkdirAll (cwd : GoString) (fs : Node) (path : GoString) : Option Node :=
  fs.mkdirAll (fsPath cwd path)

/-- The write of `data` to the entry at `comps`, which is no link: the file is
created with permission `0o644` (the umask of the process is not applied), or
truncated and rewritten, keeping its mode, when it exists. -/
def writeAt (fs : Node) (comps : List GoString) (data : List Nat) : Option Node :=
  match fs.find comps with
  | none => fs.put comps (.file 420 (some data))
  | some (.file mode (some _)) => fs.put comps (.file mode (some data))
  | some _ => none

/-- `os.WriteFile(path, data, 0o644)` run to completion. The file is opened with
`O_WRONLY|O_CREATE|O_TRUNC`, which follows a link at `path`: the write goes to the
file the link leads to, and creates it when it is missing. -/
def WriteFile (cwd : GoString) (fs : Node) (path : GoString) (data : List Nat) : Option Node :=
  match followLinks fs (maxLinks + 1) (fsPath cwd path) with
  | none => none
  | some comps => writeAt fs comps data

/-- `os.Rename(oldpath, newpath)`: the entry replaces what was at `newpath`, a
link there included. `os.Rename` looks at `newpath` first and answers `EEXIST`
when a directory stands there, unless the two paths are different spellings of
one entry; a directory does not replace a file or a link. -/
def Rename (cwd : GoString) (fs : Node) (oldpath newpath : GoString) : Option Node :=
  match fs.find (fsPath cwd oldpath) with
  | none => none
  | some src =>
    if fsPath cwd oldpath = fsPath cwd newpath then
      if src.isDir && oldpath == newpath then none else some fs
    else
      let ok := match fs.find (fsPath cwd newpath) with
        | none => true
        | some (.dir _) => false
        | some _ => !src.isDir
      if ok then
        match fs.del (fsPath cwd oldpath) with
        | some fs1 => fs1.put (fsPath cwd newpath) src
        | none => none
      else none

/-- `os.Remove`: a file, a link or an empty directory. -/
def Remove (cwd : GoString) (fs : Node) (path : GoString) : Option Node :=
  match fs.find (fsPath cwd path) with
  | some (.dir (_ :: _)) => none
  | some _ => fs.del (fsPath cwd path)
  | none => none

/-- Whether a link stands at `path`. -/
def linkAt (cwd : GoString) (fs : Node) (path : GoString) : Bool :=
  match Lstat cwd fs path with
  | some (.symlink _) => true
  | _ => false

/-! ## What the program calls but does not contain -/

/-- What a started child process does. -/
structure Run where
  /-- The exit status `cmd.Wait` reports (`-1` after a signal), `none` when `Wait`
  fails without an exit status. -/
  exit : Option Int
  /-- The filesystem when the process is done. -/
  done : Node
  /-- The filesystem at the moment the process is killed, should the context be
  cancelled before the process is done. -/
  killed : Node
  /-- What the process has written to its standard output when it is done. -/
  stdout : List Nat := []
  /-- What the process has written to its standard error when it is done. -/
  stderr : List Nat := []

/-- The collaborators of the build package. -/
structure Env where
  /-- The working directory of the process, an absolute path. -/
  cwd : GoString
  /-- `hex.EncodeToString` of the SHA-256 digest of a byte stream. -/
  sha256hex : List Nat → GoString
  /-- `regexp.Compile`, a compiled expression seen through `MatchString`. -/
  regexpCompile : GoString → Option (GoString → Bool)
  /-- Standard output of `git -C dir rev-parse --show-toplevel`; `none` when `git`
  is not on `PATH` or the command fails. -/
  gitTopLevel : Node → GoString → Option GoString
  /-- Standard output of `git -C rootAbs ls-files --cached --others
  --exclude-standard -- rel`; `none` when the command fails. -/
  gitLsFiles : Node → GoString → GoString → Option GoString
  /-- `cmd.Start` on the program `abs` in directory `dir`: `none` when the start
  fails, otherwise what the process does. -/
  exec : Node → GoString → GoString → Option Run

/-- The state of the context at the points where `one` and its callees consult
it. Cancellation is asynchronous; the embedding samples it once per phase. -/
structure Ctx where
  /-- `ctx.Err() != nil` when `one` begins. -/
  atStart : Bool
  /-- Cancelled during the first `InputsHash`. -/
  atHash : Bool
  /-- `ctx.Err() != nil` when `runBuild` begins. -/
  atRun : Bool
  /-- `ctx.Done()` fires while the child process runs. -/
  duringRun : Bool
  /-- Cancelled during the second `InputsHash`. -/
  atRehash : Bool

/-! ## `state.go` -/

/-- `ReadHash`. -/
def ReadHash (cwd : GoString) (fs : Node) (path : GoString) : GoString × Bool :=
  match ReadFile cwd fs path with
  | .error _ => ([], false)
  | .ok b =>
    let s := TrimSpace b
    if s = [] then ([], false) else (s, true)

/-- A fault of the system in the step that writes the temporary file. -/
inductive WriteFault where
  | none
  | atOpen
  | after (written : Nat)

/-- Faults of the system in the three filesystem steps of `WriteHash`, beyond the
failures the tree itself determines. -/
structure Faults where
  mkdirAll : Bool
  writeTemp : WriteFault
  rename : Bool

/-- No fault. -/
def Faults.none : Faults := { mkdirAll := false, writeTemp := WriteFault.none, rename := false }

/-- The result of `WriteHash` together with the states the filesystem passes
through, oldest first (the state before the call is not listed). A write is
listed byte by byte: a crash may leave any prefix of the data in the file. -/
structure WriteRun where
  err : Option Error
  states : List Node

/-- The states of the file `tmp` while `data` is written to it, up to `upto` bytes. -/
def writeStates (cwd : GoString) (fs : Node) (tmp : GoString) (data : List Nat) (upto : Nat) :
    List Node :=
  (List.range (upto + 1)).filterMap fun k => WriteFile cwd fs tmp (data.take k)

/-- `WriteHash`, step by step. The cleanup `os.Remove(tmp)` after a failed rename
is taken to succeed whenever the tree allows it. -/
def WriteHashRun (cwd : GoString) (faults : Faults) (fs : Node) (path hash : GoString) :
    WriteRun :=
  if TrimSpace hash = [] then { err := some .emptyHash, states := [] }
  else
    match (if faults.mkdirAll then none else MkdirAll cwd fs (Dir path)) with
    | none => { err := some .mkdirState, states := [] }
    | some fs1 =>
      let data := hash ++ str "\n"
      let tmp := path ++ str ".tmp"
      match faults.writeTemp, WriteFile cwd fs1 tmp data with
      | .atOpen, _ => { err := some .writeTemp, states := [fs1] }
      | _, none => { err := some .writeTemp, states := [fs1] }
      | .after k, some _ =>
        { err := some .writeTemp, states := fs1 :: writeStates cwd fs1 tmp data (min k data.length) }
      | .none, some fs2 =>
        let written := fs1 :: writeStates cwd fs1 tmp data data.length
        match (if faults.rename then none else Rename cwd fs2 tmp path) with
        | some fs3 => { err := none, states := written ++ [fs3] }
        | none =>
          match Remove cwd fs2 tmp with
          | some fs4 => { err := some .renameState, states := written ++ [fs4] }
          | none => { err := some .renameState, states := written }

/-- `WriteHash`: the error, if any, and the filesystem afterwards. -/
def WriteHash (cwd : GoString) (faults : Faults) (fs : Node) (path hash : GoString) :
    Option Error × Node :=
  let r := WriteHashRun cwd faults fs path hash
  (r.err, r.states.getLastD fs)

/-- `StateFilePath`. -/
def StateFilePath (jobDir : GoString) : GoString :=
  Join [jobDir, str ".cronctl", str "filehash"]

/-! ## `ignore.go`: compiling the rules -/

/-- The characters `gitignorePatternToRegexp` escapes with a backslash:
`. + ( ) | ^ $ { } \`. -/
def isEscaped (c : Nat) : Bool :=
  c == 46 || c == 43 || c == 40 || c == 41 || c == 124 || c == 94 || c == 36 || c == 123 ||
    c == 125 || c == 92

/-- The loop of `gitignorePatternToRegexp` over the pattern. -/
def patternBody : GoString → GoString
  | [] => []
  | c :: cs =>
    if c = 42 then
      match cs with
      | d :: ds =>
        if d = 42 then str ".*" ++ patternBody ds else str "[^/]*" ++ patternBody (d :: ds)
      | [] => str "[^/]*"
    else if c = 63 then str "[^/]" ++ patternBody cs
    else if isEscaped c then 92 :: c :: patternBody cs
    else c :: patternBody cs

/-- The expression text `gitignorePatternToRegexp` hands to `regexp.Compile`. -/
def patternRegexp (pat : GoString) (anchored : Bool) : GoString :=
  (if anchored then str "^" else str "(?:^|.*/)") ++ patternBody pat ++ str "$"

/-- `gitignorePatternToRegexp`. -/
def gitignorePatternToRegexp (env : Env) (pat : GoString) (anchored : Bool) :
    Option (GoString → Bool) :=
  env.regexpCompile (patternRegexp pat anchored)

/-- The body of the loop of `compileIgnore`: the rule for one raw line, if any. -/
def compileLine (env : Env) (raw : GoString) : Option ignoreRule :=
  let line := TrimSpace raw
  if line = [] then none
  else if HasPrefix line (str "#") then none
  else
    let negate := HasPrefix line (str "!")
    let line := if negate then TrimSpace (TrimPrefix line (str "!")) else line
    let dirOnly := HasSuffix line (str "/")
    let line := if dirOnly then TrimSuffix line (str "/") else line
    let anchored := HasPrefix line (str "/")
    let line := if anchored then TrimPrefix line (str "/") else line
    if line = [] then none
    else
      match gitignorePatternToRegexp env line anchored with
      | none => none
      | some re => some { negate := negate, dirOnly := dirOnly, anchored := anchored, re := some re }

/-- `compileIgnore`. -/
def compileIgnore (env : Env) (lines : List GoString) : ignoreMatcher :=
  { rules := lines.filterMap (compileLine env) }

/-- The longest line `bufio.Scanner` accepts is one byte short of this. -/
def maxScanTokenSize : Nat := 65536

/-- The lines `bufio.Scanner` yields: the text between newlines, each without one
trailing carriage return; nothing after a final newline; `none` when a line is
too long for the scanner. -/
def scanLines (b : List Nat) : Option (List GoString) :=
  let pieces := splitOn 10 b
  let lines := if pieces.getLast? = some [] then pieces.dropLast else pieces
  if lines.any (fun l => decide (maxScanTokenSize ≤ l.length)) then none
  else some (lines.map fun l => if l.getLast? = some 13 then l.dropLast else l)

/-- `loadJobIgnore`. -/
def loadJobIgnore (env : Env) (fs : Node) (jobDir : GoString) : Except Error ignoreMatcher :=
  let lines := [str ".cronctl/", str ".git/"]
  match ReadFile env.cwd fs (Join [jobDir, str ".gitignore"]) with
  | .error .notExist => .ok (compileIgnore env lines)
  | .error .other => .error .loadIgnore
  | .ok b =>
    match scanLines b with
    | none => .error .loadIgnore
    | some more => .ok (compileIgnore env (lines ++ more))

/-! ## `ignore.go`: the `git` tool -/

/-- `detectGitRoot`. -/
def detectGitRoot (env : Env) (cancelled : Bool) (fs : Node) (dir : GoString) : Option GoString :=
  if cancelled then none
  else
    let dir := if TrimSpace dir = [] then str "." else dir
    match env.gitTopLevel fs dir with
    | none => none
    | some out =>
      let root := TrimSpace out
      if root = [] then none
      else
        match Stat env.cwd fs root with
        | none => none
        | some _ => some root

/-- `sort.Strings`. -/
def sortStrings (l : List GoString) : List GoString :=
  l.insertionSort fun a b => strLess b a = false

/-- `gitListInputs`. -/
def gitListInputs (env : Env) (fs : Node) (gitRoot jobDir : GoString) :
    Except Error (List GoString) :=
  let jobAbs := Abs env.cwd jobDir
  let rootAbs := Abs env.cwd gitRoot
  match Rel rootAbs jobAbs with
  | none => .error .relJobDir
  | some rel =>
    match env.gitLsFiles fs rootAbs rel with
    | none => .error .gitLsFiles
    | some out =>
      let lines := splitOn 10 (TrimSpace out)
      if lines = [[]] then .ok []
      else .ok (sortStrings (lines.map TrimSpace))

/-! ## `hash.go`: the tree-aware strategy and `InputsHash` -/

/-- What one iteration of the loop of `gitInputsHash` folds into the digest: the
path string after trimming, the mode and the content; `none` when the entry is
skipped. -/
def gitItem (env : Env) (fs : Node) (rootAbs relJobFromRoot p : GoString) :
    Except Error (Option item) :=
  if p = [] then .ok none
  else
    let p := if relJobFromRoot ≠ [] then TrimPrefix p relJobFromRoot else p
    let abs := Join [rootAbs, relJobFromRoot ++ p]
    match Stat env.cwd fs abs with
    | none => .error .statInput
    | some info =>
      if !FileMode.IsRegular info.mode then .ok none
      else
        match ReadFile env.cwd fs abs with
        | .error _ => .error .readInput
        | .ok b => .ok (some { path := p, mode := info.mode, data := b })

/-- The loop of `gitInputsHash`: the items folded into the digest, in order; the
first failing entry stops the loop. -/
def gitItems (env : Env) (fs : Node) (rootAbs relJobFromRoot : GoString) :
    List GoString → Except Error (List item)
  | [] => .ok []
  | p :: ps =>
    match gitItem env fs rootAbs relJobFromRoot p with
    | .error e => .error e
    | .ok it =>
      match gitItems env fs rootAbs relJobFromRoot ps with
      | .error e => .error e
      | .ok rest => .ok (it.toList ++ rest)

/-- The prefix `gitInputsHash` strips from the listed paths. -/
def relJobFromRoot (rel : GoString) : GoString :=
  if rel ≠ [] ∧ rel ≠ str "." then rel ++ str "/" else rel

/-- `gitInputsHash`. -/
def gitInputsHash (env : Env) (fs : Node) (gitRoot jobDir : GoString) : Except Error GoString :=
  match gitListInputs env fs gitRoot jobDir with
  | .error e => .error e
  | .ok paths =>
    match Rel (Abs env.cwd gitRoot) (Abs env.cwd jobDir) with
    | none => .error .relJobDir
    | some rel =>
      match gitItems env fs (Abs env.cwd gitRoot) (relJobFromRoot rel) paths with
      | .error e => .error e
      | .ok items => .ok (env.sha256hex (foldItems items))

/-- `walkHash`. -/
def walkHash (env : Env) (cancelled : Bool) (fs : Node) (jobDir : GoString)
    (ignore : ignoreMatcher) : Except Error GoString :=
  walkHashNode env.sha256hex cancelled (Lstat env.cwd fs jobDir) ignore

/-- `InputsHash`. -/
def InputsHash (env : Env) (cancelled : Bool) (fs : Node) (jobDir : GoString) :
    Except Error GoString :=
  if cancelled then .error .canceled
  else
    match detectGitRoot env cancelled fs jobDir with
    | some root => gitInputsHash env fs root jobDir
    | none =>
      match loadJobIgnore env fs jobDir with
      | .error e => .error e
      | .ok m => walkHash env cancelled fs jobDir m

/-! ## `exec.go` and `build.go` -/

/-- The fields of `job.BuildSpec`. -/
structure BuildSpec where
  Enabled : Bool
  Entrypoint : GoString

/-- The fields of `job.ScheduleItem`. -/
structure ScheduleItem where
  Cron : GoString
  Args : List GoString := []
  Env : List (GoString × GoString) := []
  Silent : Bool := false

/-- The fields of `job.Spec` the build package and the syncer read. -/
structure Spec where
  Enabled : Bool
  Build : BuildSpec
  User : GoString := []
  Schedule : List ScheduleItem := []

/-- The fields of `job.Job` the build package and the syncer read. -/
structure Job where
  ID : GoString
  Dir : GoString
  Spec : Spec

/-- `job.DefaultBuildEntrypoint`. -/
def DefaultBuildEntrypoint : GoString := str "build.sh"

/-- What a call leaves behind: the error returned, the filesystem, and the
programs `cmd.Start` was called on, in order. -/
structure Outcome where
  err : Option Error
  fs : Node
  started : List GoString

/-- `trimOneLine`: the text before the first `\n` or `\r`. -/
def trimOneLine : GoString → GoString
  | [] => []
  | c :: s => if c = 10 ∨ c = 13 then [] else c :: trimOneLine s

/-- `strconv.Itoa`, which is what `%d` prints. -/
def Itoa (i : Int) : GoString :=
  if i < 0 then 45 :: (Nat.toDigits 10 (-i).toNat).map Char.toNat
  else (Nat.toDigits 10 i.toNat).map Char.toNat

/-- `(*execError).Error`. -/
def execError.Error (e : execError) : GoString :=
  let msg := str "exit " ++ Itoa e.Code
  if e.Stderr ≠ [] then msg ++ str ": " ++ e.Stderr else msg

/-- `runBuild`. -/
def runBuild (env : Env) (atRun duringRun : Bool) (fs : Node) (jobDir entrypoint : GoString) :
    Outcome :=
  if atRun then { err := some .canceled, fs := fs, started := [] }
  else
    let abs := Abs env.cwd (Join [jobDir, entrypoint])
    match env.exec fs abs jobDir with
    | none => { err := some .startFailed, fs := fs, started := [abs] }
    | some run =>
      if duringRun then { err := some .canceled, fs := run.killed, started := [abs] }
      else
        match run.exit with
        | none => { err := some .runFailed, fs := run.done, started := [abs] }
        | some code =>
          if code = 0 then { err := none, fs := run.done, started := [abs] }
          else
            { err := some (.exitError { Path := abs, Code := code, Stdout := run.stdout,
                                        Stderr := trimOneLine run.stderr })
              fs := run.done, started := [abs] }

/-- The entrypoint `one` runs: the cleaned configured one, or the default. -/
def buildEntrypoint (j : Job) : GoString :=
  let entrypoint := Clean j.Spec.Build.Entrypoint
  if entrypoint = str "." ∨ entrypoint = [] then DefaultBuildEntrypoint else entrypoint

/-- The cache test of `one`: `!force && ok && prevHash == curHash`. -/
def cacheHit (force : Bool) (prev : GoString × Bool) (curHash : GoString) : Bool :=
  !force && prev.2 && prev.1 == curHash

/-- `one`. -/
def one (env : Env) (ctx : Ctx) (faults : Faults) (fs : Node) (j : Job) (force : Bool) :
    Outcome :=
  if ctx.atStart then { err := some .canceled, fs := fs, started := [] }
  else if !j.Spec.Enabled then { err := none, fs := fs, started := [] }
  else if !j.Spec.Build.Enabled then { err := none, fs := fs, started := [] }
  else
    match InputsHash env ctx.atHash fs j.Dir with
    | .error e => { err := some e, fs := fs, started := [] }
    | .ok curHash =>
      if cacheHit force (ReadHash env.cwd fs (StateFilePath j.Dir)) curHash then
        { err := none, fs := fs, started := [] }
      else
        let r := runBuild env ctx.atRun ctx.duringRun fs j.Dir (buildEntrypoint j)
        match r.err with
        | some e => { err := some e, fs := r.fs, started := r.started }
        | none =>
          match InputsHash env ctx.atRehash r.fs j.Dir with
          | .error e => { err := some e, fs := r.fs, started := r.started }
          | .ok newHash =>
            let w := WriteHash env.cwd faults r.fs (StateFilePath j.Dir) newHash
            { err := w.1, fs := w.2, started := r.started }

/-! ## A regexp engine for the expressions the matcher generates

`patternRegexp` produces, for a pattern of ASCII characters, the expressions of a
small fragment of Go's regexp syntax: a head `^` or `(?:^|.*/)`, then literals,
escaped punctuation, `.*`, `[^/]*`, `[^/]` and, where the pattern has a `[`, a
character class, then `$`. `fragmentCompile` implements Go's `MatchString` on this
fragment (unanchored search, `.` does not match a newline, `[^/]` does). Of the
character classes it knows those that list their members one by one (`[ab]`,
`[a\.]`); a class that is not closed is a syntax error, as in Go. Every other
expression is reported as not compiling, so the engine stands for
`regexp.Compile` only where the expressions stay inside the fragment. As in Go,
the text is matched character by character: it is decoded as UTF-8 first, and a
byte that does not decode counts as the character U+FFFD. -/

/-- One piece of an expression of the fragment. -/
inductive Tok where
  /-- `^`. -/
  | bol
  /-- `$`. -/
  | eol
  /-- `(?:^|.*/)`. -/
  | head
  /-- One character accepted by the predicate. -/
  | one (p : Nat → Bool)
  /-- Any run of characters accepted by the predicate. -/
  | star (p : Nat → Bool)

/-- The characters with a meaning of their own in Go's regexp syntax. -/
def isSpecial (c : Nat) : Bool :=
  isEscaped c || c == 42 || c == 63 || c == 91 || c == 93

/-- The members of a character class, read after its opening bracket, and the
text after its closing bracket: members are single characters, punctuation may be
escaped; `none` when the class is not closed (a syntax error) or has a range, a
nested bracket or a character outside ASCII (outside the fragment). -/
def classItems : GoString → Option (List Nat × GoString)
  | [] => none
  | c :: cs =>
    if c = 93 then some ([], cs)
    else if c = 92 then
      match cs with
      | d :: ds =>
        if isSpecial d then (classItems ds).map fun r => (d :: r.1, r.2) else none
      | [] => none
    else if c = 91 || c = 45 || decide (128 ≤ c) then none
    else (classItems cs).map fun r => (c :: r.1, r.2)

/-- The pieces of an expression of the fragment, `none` outside the fragment. -/
def tokenize : Nat → GoString → Option (List Tok)
  | 0, _ => none
  | _ + 1, [] => some []
  | fuel + 1, c :: cs =>
    if HasPrefix (c :: cs) (str "(?:^|.*/)") then
      (tokenize fuel (cs.drop 8)).map (Tok.head :: ·)
    else if HasPrefix (c :: cs) (str "[^/]*") then
      (tokenize fuel (cs.drop 4)).map (Tok.star (· != 47) :: ·)
    else if HasPrefix (c :: cs) (str "[^/]") then
      (tokenize fuel (cs.drop 3)).map (Tok.one (· != 47) :: ·)
    else if HasPrefix (c :: cs) (str ".*") then
      (tokenize fuel (cs.drop 1)).map (Tok.star (· != 10) :: ·)
    else if c = 94 then (tokenize fuel cs).map (Tok.bol :: ·)
    else if c = 36 then (tokenize fuel cs).map (Tok.eol :: ·)
    else if c = 92 then
      match cs with
      | d :: ds => if isSpecial d then (tokenize fuel ds).map (Tok.one (· == d) :: ·) else none
      | [] => none
    else if c = 93 then (tokenize fuel cs).map (Tok.one (· == c) :: ·)
    else if c = 91 then
      match cs with
      | [] => none
      | d :: ds =>
        if d = 94 || d = 93 then none
        else
          match classItems (d :: ds) with
          | some (items, rest) => (tokenize fuel rest).map (Tok.one (items.contains ·) :: ·)
          | none => none
    else if isSpecial c || decide (128 ≤ c) then none
    else (tokenize fuel cs).map (Tok.one (· == c) :: ·)

/-- Whether the continuation accepts the text after some run of characters
accepted by `p`. -/
def starMatch (p : Nat → Bool) (k : GoString → Bool) : GoString → Bool
  | [] => k []
  | c :: cs => k (c :: cs) || (p c && starMatch p k cs)

/-- Whether the pieces match a prefix of the text; `atStart` says whether the
text begins at the beginning of the input. -/
def matchToks : List Tok → Bool → GoString → Bool
  | [], _, _ => true
  | .bol :: ts, atStart, s => atStart && matchToks ts atStart s
  | .eol :: ts, atStart, s => s.isEmpty && matchToks ts atStart s
  | .head :: ts, atStart, s =>
    (atStart && matchToks ts atStart s) ||
      starMatch (· != 10)
        (fun r => match r with
          | c :: cs => c == 47 && matchToks ts false cs
          | [] => false) s
  | .one p :: ts, _, s =>
    match s with
    | c :: cs => p c && matchToks ts false cs
    | [] => false
  | .star p :: ts, atStart, s =>
    matchToks ts atStart s ||
      match s with
      | c :: cs => p c && starMatch p (matchToks ts false) cs
      | [] => false

/-- Unanchored search: the pieces match at some position of the text. -/
def searchToks (ts : List Tok) : Bool → GoString → Bool
  | atStart, [] => matchToks ts atStart []
  | atStart, c :: cs => matchToks ts atStart (c :: cs) || searchToks ts false cs

/-- Whether a byte continues a UTF-8 encoding. -/
def isCont (b : Nat) : Bool := decide (128 ≤ b ∧ b ≤ 191)

/-- `utf8.DecodeRuneInString`: the character that starts the text and the number
of bytes of its encoding; U+FFFD with width 1 where the bytes do not decode
(overlong forms, surrogates and values beyond U+10FFFF included). -/
def decodeRune : GoString → Nat × Nat
  | [] => (65533, 1)
  | b0 :: rest =>
    let b1 := rest.getD 0 0
    let b2 := rest.getD 1 0
    let b3 := rest.getD 2 0
    if b0 < 128 then (b0, 1)
    else if 194 ≤ b0 ∧ b0 ≤ 223 ∧ isCont b1 then ((b0 - 192) * 64 + (b1 - 128), 2)
    else if ((b0 = 224 ∧ 160 ≤ b1 ∧ b1 ≤ 191) ∨ (225 ≤ b0 ∧ b0 ≤ 236 ∧ isCont b1) ∨
        (b0 = 237 ∧ 128 ≤ b1 ∧ b1 ≤ 159) ∨ (238 ≤ b0 ∧ b0 ≤ 239 ∧ isCont b1)) ∧ isCont b2 then
      ((b0 - 224) * 4096 + (b1 - 128) * 64 + (b2 - 128), 3)
    else if ((b0 = 240 ∧ 144 ≤ b1 ∧ b1 ≤ 191) ∨ (241 ≤ b0 ∧ b0 ≤ 243 ∧ isCont b1) ∨
        (b0 = 244 ∧ 128 ≤ b1 ∧ b1 ≤ 143)) ∧ isCont b2 ∧ isCont b3 then
      ((b0 - 240) * 262144 + (b1 - 128) * 4096 + (b2 - 128) * 64 + (b3 - 128), 4)
    else (65533, 1)

/-- The characters of the text after its first `skip` bytes. -/
def runesFrom : Nat → GoString → List Nat
  | _, [] => []
  | skip + 1, _ :: cs => runesFrom skip cs
  | 0, c :: cs => (decodeRune (c :: cs)).1 :: runesFrom ((decodeRune (c :: cs)).2 - 1) cs

/-- The characters of a text, as a `range` loop over a Go string yields them. -/
def runes (s : GoString) : List Nat := runesFrom 0 s

/-- `regexp.Compile` followed by `MatchString`, on the fragment. -/
def fragmentCompile (expr : GoString) : Option (GoString → Bool) :=
  (tokenize (expr.length + 1) expr).map fun ts s => searchToks ts true (runes s)

/-! ## A small world to run the program in -/

/-- Two hexadecimal digits per byte: a digest without collisions. -/
def hexEncode (b : List Nat) : GoString :=
  b.flatMap fun c => [(str "0123456789abcdef").getD (c / 16 % 16) 48, (str "0123456789abcdef").getD (c % 16) 48]

/-- A world without `git`, in which every program can be started, exits with
status 0 and leaves the filesystem as it found it. -/
def quietEnv : Env :=
  { cwd := str "/"
    sha256hex := hexEncode
    regexpCompile := fragmentCompile
    gitTopLevel := fun _ _ => none
    gitLsFiles := fun _ _ _ => none
    exec := fun fs _ _ => some { exit := some 0, done := fs, killed := fs } }

/-- A context that is never cancelled. -/
def liveCtx : Ctx :=
  { atStart := false, atHash := false, atRun := false, duringRun := false, atRehash := false }

/-- The filesystem as the build run of `one` leaves it: what `runBuild` returns
with, before the fingerprint is recomputed. -/
def afterRun (env : Env) (ctx : Ctx) (fs : Node) (j : Job) : Node :=
  (runBuild env ctx.atRun ctx.duringRun fs j.Dir (buildEntrypoint j)).fs

/-- A job directory `/job` with a build script and a stored fingerprint `old`. -/
def staleFs : Node :=
  .dir [(str "job", .dir [
    (str ".cronctl", .dir [(str "filehash", .file 420 (some (str "old\n")))]),
    (str "build.sh", .file 493 (some (str "#!/bin/sh\n")))])]

/-- The job in `/job`, enabled, with an enabled build step. -/
def demoJob : Job :=
  { ID := str "job", Dir := str "/job",
    Spec := { Enabled := true, Build := { Enabled := true, Entrypoint := str "build.sh" } } }

/-- The temporary state file cannot be created (the state directory is not
writable). -/
def noTempFile : Faults := { mkdirAll := false, writeTemp := WriteFault.atOpen, rename := false }

/-- The job directory of `staleFs` with a link to the state file at the path of
the temporary state file, `/job/.cronctl/filehash.tmp`. -/
def linkedJobFs : Node :=
  .dir [(str "job", .dir [
    (str ".cronctl", .dir [
      (str "filehash", .file 420 (some (str "old\n"))),
      (str "filehash.tmp", .symlink (str "filehash"))]),
    (str "build.sh", .file 493 (some (str "#!/bin/sh\n")))])]

/-- The rename of the temporary state file fails. -/
def noRename : Faults := { mkdirAll := false, writeTemp := WriteFault.none, rename := true }

/-- A state file `/s/filehash` with the value `old`, and at the path of its
temporary file, `/s/filehash.tmp`, a link to the state file. -/
def linkedStateFs : Node :=
  .dir [(str "s", .dir [
    (str "filehash", .file 420 (some (str "old\n"))),
    (str "filehash.tmp", .symlink (str "filehash"))])]

deriving instance DecidableEq for Except

/-- A world in which `git` finds the work tree `/repo` and `ls-files` prints
`listing`. -/
def gitEnv (listing : GoString) : Env :=
  { cwd := str "/"
    sha256hex := hexEncode
    regexpCompile := fragmentCompile
    gitTopLevel := fun _ _ => some (str "/repo\n")
    gitLsFiles := fun _ _ _ => some listing
    exec := fun fs _ _ => some { exit := some 0, done := fs, killed := fs } }

/-- A work tree `/repo` with the job `jobs/a`, which holds a build script and a
link `conf` to `/etc/conf`; `/etc/conf` holds `content`. -/
def linkFs (content : GoString) : Node :=
  .dir [
    (str "etc", .dir [(str "conf", .file 420 (some content))]),
    (str "repo", .dir [(str "jobs", .dir [(str "a", .dir [
      (str "build.sh", .file 493 (some (str "#!/bin/sh\n"))),
      (str "conf", .symlink (str "/etc/conf"))])])])]

/-- A work tree `/repo` that is itself the job directory, with a build script and
a file `.env`. -/
def rootJobFs : Node :=
  .dir [(str "repo", .dir [
    (str ".env", .file 420 (some (str "A=1\n"))),
    (str "build.sh", .file 493 (some (str "#!/bin/sh\n")))])]

/-- A job directory `/job`, outside every work tree, whose ignore file
re-includes the cache-state directory. -/
def unignoredFs : Node :=
  .dir [(str "job", .dir [
    (str ".gitignore", .file 420 (some (str "!.cronctl/\n"))),
    (str "build.sh", .file 493 (some (str "#!/bin/sh\n")))])]

mutual
/-- The paths of the files and links at and below an entry, `path` being the path
of the entry. -/
def nodeFiles (path : GoString) : Node → List GoString
  | .dir es => entryFiles path es
  | .file _ _ => [path]
  | .symlink _ => [path]
/-- The paths of the files and links below a directory. -/
def entryFiles (dir : GoString) : List (GoString × Node) → List GoString
  | [] => []
  | (name, n) :: es => nodeFiles (dir ++ 47 :: name) n ++ entryFiles dir es
end

/-- A world in which `/repo` is a `git` work tree without ignore files:
`ls-files --cached --others --exclude-standard -- rel` prints every file below
`rel`, one per line, tracked or not. -/
def worktreeEnv : Env :=
  { cwd := str "/"
    sha256hex := hexEncode
    regexpCompile := fragmentCompile
    gitTopLevel := fun _ _ => some (str "/repo\n")
    gitLsFiles := fun fs rootAbs rel =>
      (Stat (str "/") fs (rootAbs ++ 47 :: rel)).map fun n =>
        ((nodeFiles rel n).map (· ++ str "\n")).flatten
    exec := fun fs _ _ => some { exit := some 0, done := fs, killed := fs } }

/-- A work tree `/repo` with the job `jobs/a`, which holds a build script. -/
def worktreeFs : Node :=
  .dir [(str "repo", .dir [(str "jobs", .dir [(str "a", .dir [
    (str "build.sh", .file 493 (some (str "#!/bin/sh\n")))])])])]

/-- The job in `/repo/jobs/a`, enabled, with an enabled build step. -/
def worktreeJob : Job :=
  { ID := str "a", Dir := str "/repo/jobs/a",
    Spec := { Enabled := true, Build := { Enabled := true, Entrypoint := str "build.sh" } } }

/-- A job directory `/job`, outside every work tree, with a build script only. -/
def plainFs : Node :=
  .dir [(str "job", .dir [(str "build.sh", .file 493 (some (str "#!/bin/sh\n")))])]

/-! ## White-space-only contents -/

/-- Whether the string is a sequence of encodings of white-space characters, at most
`fuel` of them. -/
def spacesOnly : Nat → GoString → Bool
  | _, [] => true
  | 0, _ :: _ => false
  | fuel + 1, c :: cs =>
    spaceWidth (c :: cs) != 0 && spacesOnly fuel ((c :: cs).drop (spaceWidth (c :: cs)))

/-- Whether a content is white space only; the empty content is. -/
def whitespaceOnly (s : GoString) : Bool := spacesOnly s.length s

/-- A string put together from encodings of white-space characters. -/
inductive Blank : GoString → Prop where
  | nil : Blank []
  | cons (w r : GoString) : w ≠ [] → spaceWidth w = w.length → Blank r → Blank (w ++ r)

/-! ## When a rule fires -/

/-- Whether a rule fires on an entry: the rule is not directory-only or the entry
is a directory, and the pattern of the rule matches the relative path or, for a
rule that is not anchored, the last element of the path. A rule without a pattern
fires on nothing. -/
def fires (rel : GoString) (isDir : Bool) (r : ignoreRule) : Bool :=
  (!r.dirOnly || isDir) &&
    match r.re with
    | none => false
    | some re => re rel || (!r.anchored && re (Base rel))

/-- A job directory `/job`, outside every work tree, with a stored fingerprint and
version-control metadata, whose ignore file re-includes both directories. -/
def reincludedFs : Node :=
  .dir [(str "job", .dir [
    (str ".cronctl", .dir [(str "filehash", .file 420 (some (str "0a1f\n")))]),
    (str ".git", .dir [(str "HEAD", .file 420 (some (str "ref: refs/heads/main\n")))]),
    (str ".gitignore", .file 420 (some (str "!.cronctl/\n!.git/\n"))),
    (str "build.sh", .file 493 (some (str "#!/bin/sh\n")))])]

/-- The verdicts of the matcher `loadJobIgnore` returns on the two built-in
directories at the job root, `.cronctl` first. -/
def builtinVerdicts (env : Env) (fs : Node) (jobDir : GoString) : Except Error (Bool × Bool) :=
  match loadJobIgnore env fs jobDir with
  | .error e => .error e
  | .ok m => .ok (m.match_ (str ".cronctl") true, m.match_ (str ".git") true)

/-- The paths `walkHash` folds into the fingerprint of a job directory, with the
matcher `loadJobIgnore` returns. -/
def walkedPaths (env : Env) (fs : Node) (jobDir : GoString) : Except Error (List GoString) :=
  match loadJobIgnore env fs jobDir with
  | .error e => .error e
  | .ok m =>
    match walkItems false m (Lstat env.cwd fs jobDir) with
    | .error e => .error e
    | .ok items => .ok ((sortItems items).map item.path)

/-! ## The markers of an ignore line -/

/-- What a raw line says, read off as the format describes it: whether the
trimmed line starts with `!`; whether the text after that (trimmed again) ends
with `/`; whether the text before that `/` starts with `/`; and the pattern that
is left when the three markers are taken away, in that order. -/
def lineMarkers (raw : GoString) : Bool × Bool × Bool × GoString :=
  let t := TrimSpace raw
  let negate := t.head? == some 33
  let t1 := if negate then TrimSpace t.tail else t
  let dirOnly := t1.getLast? == some 47
  let t2 := if dirOnly then t1.dropLast else t1
  let anchored := t2.head? == some 47
  (negate, dirOnly, anchored, if anchored then t2.tail else t2)

/-- Whether a raw line yields a rule: it is not blank, is not a comment, has a
pattern left after its markers, and the pattern translates to an expression that
compiles. -/
def lineKept (env : Env) (raw : GoString) : Bool :=
  TrimSpace raw != [] && (TrimSpace raw).head? != some 35 &&
    (lineMarkers raw).2.2.2 != [] &&
    (gitignorePatternToRegexp env (lineMarkers raw).2.2.2 (lineMarkers raw).2.2.1).isSome

/-- Whether a rule carries the markers of a raw line and the matcher of its
pattern. -/
def ruleOfLine (env : Env) (raw : GoString) (r : ignoreRule) : Prop :=
  r.negate = (lineMarkers raw).1 ∧ r.dirOnly = (lineMarkers raw).2.1 ∧
    r.anchored = (lineMarkers raw).2.2.1 ∧
    r.re = gitignorePatternToRegexp env (lineMarkers raw).2.2.2 (lineMarkers raw).2.2.1

/-! ## Patterns read as globs -/

/-- The pieces the expression of a pattern consists of, read off the pattern:
`**` is a run of characters other than newline, `*` a run of characters other
than `/`, `?` one character other than `/`, every other character itself. -/
def globToks : GoString → List Tok
  | [] => []
  | c :: cs =>
    if c = 42 then
      match cs with
      | d :: ds =>
        if d = 42 then Tok.star (· != 10) :: globToks ds
        else Tok.star (· != 47) :: globToks (d :: ds)
      | [] => [Tok.star (· != 47)]
    else if c = 63 then Tok.one (· != 47) :: globToks cs
    else Tok.one (· == c) :: globToks cs

/-- A split of a path along a pattern: every literal character of the pattern
stands for itself, `?` for one character other than `/`, a single `*` for a
possibly empty run of characters other than `/`, and `**` for a possibly empty
run of characters other than newline, `/` included. A `*` followed by another
`*` is read together with it as `**`. -/
inductive GlobSplit : GoString → GoString → Prop where
  | done : GlobSplit [] []
  | lit (c : Nat) (p s : GoString) : c ≠ 42 → c ≠ 63 → GlobSplit p s →
      GlobSplit (c :: p) (c :: s)
  | any (c : Nat) (p s : GoString) : c ≠ 47 → GlobSplit p s → GlobSplit (63 :: p) (c :: s)
  | star (p a s : GoString) : p.head? ≠ some 42 → (∀ c ∈ a, c ≠ 47) → GlobSplit p s →
      GlobSplit (42 :: p) (a ++ s)
  | dstar (p a s : GoString) : (∀ c ∈ a, c ≠ 10) → GlobSplit p s →
      GlobSplit (42 :: 42 :: p) (a ++ s)

/-! ## `build.go`: `All`

`All` runs a dispatching loop and `workers` goroutines that share an unbuffered
channel of jobs, a one-slot channel of errors and a cancellable context. The
embedding is a transition system: a state holds where the dispatcher and each
worker stand, and an action moves one of them (or, for a hand-over on the
unbuffered channel, the dispatcher and the receiving worker together). A call of
`one` takes effect on the filesystem when it returns. The context handed to `All`
is taken to stay live during the call. -/

/-- `Options`. -/
structure Options where
  Force : Bool
  Parallel : Int

/-- An error `All` returns: one that `one` returned for a job (`job <id>: ...`), or
the state of the context (`build jobs: ...`). -/
inductive AllError where
  | job (id : GoString) (e : Error)
  | jobs (e : Error)
  deriving DecidableEq, Repr

/-- Where a worker stands. -/
inductive Worker where
  /-- At `for j := range workCh`, ready to receive. -/
  | recv
  /-- Has received `j`, before `ctx.Err()`. -/
  | got (j : Job)
  /-- Inside `one(ctx, j, opts.Force)`. -/
  | running (j : Job)
  /-- Returned (`wg.Done` has run). -/
  | exited

/-- Where the dispatcher stands. -/
inductive Dispatch where
  /-- At the top of `for _, j := range jobs`. -/
  | check
  /-- At `workCh <- j`, which completes when a worker receives. -/
  | send
  /-- Past `close(workCh)`, at `wg.Wait()`. -/
  | closed
  /-- Returned. -/
  | returned (r : Option AllError)

/-- A state of a call of `All`. -/
structure AllState where
  fs : Node
  /-- `ctx.Err() != nil` for the context derived with `WithCancel`. -/
  cancelled : Bool
  /-- The content of `errCh`. -/
  errCh : Option AllError
  /-- The index of the next job the loop hands out. -/
  next : Nat
  disp : Dispatch
  workers : List Worker

/-- The actions of the goroutines. -/
inductive Act where
  /-- The dispatcher takes the next job and tests `ctx.Err()`, or leaves the loop
  and closes the channel. -/
  | check
  /-- Worker `i` receives the job the dispatcher is sending. -/
  | handoff (i : Nat)
  /-- Worker `i` tests `ctx.Err()` after receiving. -/
  | test (i : Nat)
  /-- The call of `one` in worker `i` returns; `c` is the state of the context as
  the call saw it. -/
  | finish (i : Nat) (c : Ctx)
  /-- Worker `i` finds the channel closed and returns. -/
  | leave (i : Nat)
  /-- `wg.Wait()` returns and the dispatcher returns from `All`. -/
  | ret

/-- A call of `one` can see the context cancelled only if it is cancelled when the
call returns. -/
def validSample (c : Ctx) (cancelled : Bool) : Bool :=
  !(c.atStart || c.atHash || c.atRun || c.duringRun || c.atRehash) || cancelled

/-- The state in which the goroutines start, or the state of an immediate
return. -/
def allInit (parentCancelled : Bool) (fs : Node) (jobs : List Job) (opts : Options) : AllState :=
  if parentCancelled then
    { fs := fs, cancelled := true, errCh := none, next := 0,
      disp := .returned (some (.jobs .canceled)), workers := [] }
  else if jobs.length = 0 then
    { fs := fs, cancelled := false, errCh := none, next := 0,
      disp := .returned none, workers := [] }
  else
    let parallel : Int := if opts.Parallel < 1 then 1 else opts.Parallel
    { fs := fs, cancelled := false, errCh := none, next := 0, disp := .check,
      workers := List.replicate (min parallel jobs.length).toNat .recv }

/-- One action of a call of `All`; `none` when the action is not enabled. -/
def allStep (env : Env) (faults : Faults) (jobs : List Job) (force : Bool) (s : AllState) :
    Act → Option AllState
  | .check =>
    match s.disp with
    | .check =>
      if s.next < jobs.length ∧ s.cancelled = false then some { s with disp := .send }
      else some { s with disp := .closed }
    | _ => none
  | .handoff i =>
    match s.disp, s.workers.get? i, jobs.get? s.next with
    | .send, some .recv, some j =>
      some { s with disp := .check, next := s.next + 1, workers := s.workers.set i (.got j) }
    | _, _, _ => none
  | .test i =>
    match s.workers.get? i with
    | some (.got j) =>
      if s.cancelled then some { s with workers := s.workers.set i .exited }
      else some { s with workers := s.workers.set i (.running j) }
    | _ => none
  | .finish i c =>
    match s.workers.get? i with
    | some (.running j) =>
      if validSample c s.cancelled then
        let o := one env c faults s.fs j force
        match o.err with
        | none => some { s with fs := o.fs, workers := s.workers.set i .recv }
        | some e =>
          some { s with
            fs := o.fs
            errCh := match s.errCh with
              | some first => some first
              | none => some (.job j.ID e)
            cancelled := true
            workers := s.workers.set i .exited }
      else none
    | _ => none
  | .leave i =>
    match s.disp, s.workers.get? i with
    | .closed, some .recv => some { s with workers := s.workers.set i .exited }
    | _, _ => none
  | .ret =>
    match s.disp with
    | .closed =>
      if s.workers.all (fun w => match w with | .exited => true | _ => false) then
        some { s with disp := .returned (match s.errCh with
          | some e => some e
          | none => if s.cancelled then some (.jobs .canceled) else none) }
      else none
    | _ => none

/-- A schedule: the actions taken one after the other. -/
def allRun (env : Env) (faults : Faults) (jobs : List Job) (force : Bool) :
    List Act → AllState → Option AllState
  | [], s => some s
  | a :: as, s =>
    match allStep env faults jobs force s a with
    | some s2 => allRun env faults jobs force as s2
    | none => none

/-- What can be seen of a state: whether the dispatcher stands at the send, what it
returned if it has, whether every worker has returned, the recorded error, and
whether the context is cancelled. -/
def AllState.view (s : AllState) : Bool × Option (Option AllError) × Bool × Option AllError × Bool :=
  ((match s.disp with | .send => true | _ => false),
   (match s.disp with | .returned r => some r | _ => none),
   s.workers.all (fun w => match w with | .exited => true | _ => false),
   s.errCh, s.cancelled)

/-- A world without `git` in which the build script of the job in `/jobs/k` exits
with status 1 and every other program with status 0. -/
def failEnv : Env :=
  { cwd := str "/"
    sha256hex := hexEncode
    regexpCompile := fragmentCompile
    gitTopLevel := fun _ _ => none
    gitLsFiles := fun _ _ _ => none
    exec := fun fs abs _ =>
      some { exit := some (if abs = str "/jobs/k/build.sh" then 1 else 0), done := fs, killed := fs } }

/-- Two job directories, `/jobs/k` and `/jobs/b`, each with a build script. -/
def twoJobsFs : Node :=
  .dir [(str "jobs", .dir [
    (str "b", .dir [(str "build.sh", .file 493 (some (str "#!/bin/sh\n")))]),
    (str "k", .dir [(str "build.sh", .file 493 (some (str "#!/bin/sh\nexit 1\n")))])])]

/-- The job in `/jobs/k`. -/
def jobK : Job :=
  { ID := str "k", Dir := str "/jobs/k",
    Spec := { Enabled := true, Build := { Enabled := true, Entrypoint := str "build.sh" } } }

/-- The job in `/jobs/b`. -/
def jobB : Job :=
  { ID := str "b", Dir := str "/jobs/b",
    Spec := { Enabled := true, Build := { Enabled := true, Entrypoint := str "build.sh" } } }

/-! ## `syncer/fs.go` -/

/-- Two element lists that part ways: neither is a prefix of the other, so neither
entry is the other or lies below it. -/
def diverge (p q : List GoString) : Prop := ¬ p <+: q ∧ ¬ q <+: p

/-- Whether a path ends in a `.` element, which `os.RemoveAll` rejects. -/
def endsWithDot (path : GoString) : Bool :=
  path == str "." || HasSuffix path (str "/.")

/-- `os.RemoveAll`: the entry and everything below it; no error when nothing is
there. -/
def RemoveAll (cwd : GoString) (fs : Node) (path : GoString) : Option Node :=
  if path = [] then some fs
  else if endsWithDot path then none
  else
    match fs.find (fsPath cwd path) with
    | some _ => fs.del (fsPath cwd path)
    | none => if fs.missing (fsPath cwd path) then some fs else none

/-- Whether the error of a failing `os.Rename` is `ENOENT` (`os.IsNotExist`): the
old path does not exist, or the directory of the new path does not. -/
def RenameNotExist (cwd : GoString) (fs : Node) (oldpath newpath : GoString) : Bool :=
  match fs.find (fsPath cwd oldpath) with
  | none => fs.missing (fsPath cwd oldpath)
  | some _ =>
    match fs.find (fsPath cwd newpath).dropLast with
    | none => fs.missing (fsPath cwd newpath).dropLast
    | some _ => false

/-- Whether the error of a failing `os.Remove` is `ENOENT`. -/
def RemoveNotExist (cwd : GoString) (fs : Node) (path : GoString) : Bool :=
  match fs.find (fsPath cwd path) with
  | none => fs.missing (fsPath cwd path)
  | some _ => false

/-- The errors of the syncer, by the step that failed. -/
inductive SyncError where
  | canceled
  | mkdirTarget
  | remove
  | removeAll
  | resolveUser
  | stage
  | copy
  | carryOver
  | chown
  | build
  | rename
  | writeCron
  | prune
  /-- `errPathTraversal`. -/
  | pathTraversal
  /-- `errBuildNeedsRoot`. -/
  | buildNeedsRoot
  deriving DecidableEq, Repr

/-- Faults of the system in the five filesystem steps of `replaceDir`, beyond the
failures the tree itself determines; a step that fails this way leaves the tree
as it is. -/
structure SwapFaults where
  removeOld : Bool
  moveAway : Bool
  moveIn : Bool
  moveBack : Bool
  removeBackup : Bool

/-- No fault. -/
def SwapFaults.none : SwapFaults :=
  { removeOld := false, moveAway := false, moveIn := false, moveBack := false,
    removeBackup := false }

/-- `replaceDir`. -/
def replaceDir (cwd : GoString) (faults : SwapFaults) (dryRun : Bool) (fs : Node)
    (srcTmp dst : GoString) : Option SyncError × Node :=
  if dryRun then (none, fs)
  else
    let backup := dst ++ str ".cronctl-old"
    let fs1 := if faults.removeOld then fs else (RemoveAll cwd fs backup).getD fs
    let away : Option Node :=
      if faults.moveAway then none
      else
        match Rename cwd fs1 dst backup with
        | some fs2 => some fs2
        | none => if RenameNotExist cwd fs1 dst backup then some fs1 else none
    match away with
    | none => (some .rename, fs1)
    | some fs2 =>
      match (if faults.moveIn then none else Rename cwd fs2 srcTmp dst) with
      | none =>
        -- Best-effort rollback.
        (some .rename, if faults.moveBack then fs2 else (Rename cwd fs2 backup dst).getD fs2)
      | some fs3 =>
        (none, if faults.removeBackup then fs3 else (RemoveAll cwd fs3 backup).getD fs3)

/-- A target directory `/opt/jobs` with the deployed payload of job `a` and a
staged payload for it. -/
def swapFs : Node :=
  .dir [(str "opt", .dir [(str "jobs", .dir [
    (str ".cronctl-staging-a-1", .dir [(str "run.sh", .file 493 (some (str "new\n")))]),
    (str "a", .dir [(str "run.sh", .file 493 (some (str "old\n")))])])])]

/-- The second rename and the rollback both fail (the filesystem has turned
read-only after the first rename, say). -/
def noWayBack : SwapFaults :=
  { removeOld := false, moveAway := false, moveIn := true, moveBack := true,
    removeBackup := false }

/-! ## `syncer/sync.go`

`Sync` works through the jobs one after the other. The embedding keeps its
control flow and the steps on which the staging directories and the cron
registrations depend (`stageJobDir`, `replaceDir`, `removeFileIfExists`,
`removeDirIfExists`, the deferred cleanup); the steps that fill and build a
staged tree, write a registration and prune enter through `SyncSteps`, so that
what is proved of `Sync` holds for every behaviour of these steps that meets the
hypotheses stated. `worldSteps` further down puts the embedded steps in. -/

/-- `syncer.Options`. -/
structure SyncOptions where
  CronDir : GoString
  TargetDir : GoString
  DryRun : Bool := false
  RemoveOrphans : Bool := false
  RemovePayloadOnDisable : Bool := false
  ForceBuild : Bool := false
  Chown : Bool := false
  RunBuildAsJobUser : Bool := false

/-- What a step that may run the build leaves behind: the error, the filesystem,
and the programs it started, in order. -/
structure BuildOutcome where
  err : Option SyncError
  fs : Node
  started : List GoString := []

/-- The steps `Sync` calls for a job besides those embedded here, each with the
filesystem it finds and the one it leaves, and the source of random names. -/
structure SyncSteps where
  /-- `resolveJobUser`: the uid and gid of a user. -/
  resolveJobUser : Node → GoString → Option (Int × Int)
  /-- The random decimal string `os.MkdirTemp` puts into a name. -/
  random : Node → GoString
  /-- `copyJobDir(dryRun, src, dst)`. -/
  copyJobDir : Bool → Node → GoString → GoString → Option SyncError × Node
  /-- `carryOverFilehash(dryRun, deployedDir, stagingDir)`. -/
  carryOverFilehash : Bool → Node → GoString → GoString → Option SyncError × Node
  /-- `chownTree(dryRun, root, uid, gid)`. -/
  chownTree : Bool → Node → GoString → Int → Int → Option SyncError × Node
  /-- `runBuildIfNeeded(ctx, dryRun, jobID, jobDir, entrypoint, force, runAsUser,
  uid, gid)`; the first argument says whether the context is cancelled while the
  step runs. -/
  runBuildIfNeeded : Bool → Bool → Node → GoString → GoString → GoString → Bool → Bool → Int →
    Int → BuildOutcome
  /-- `writeCronFile(dryRun, cronPath, j, targetPath)`. -/
  writeCronFile : Bool → Node → GoString → Job → GoString → Option SyncError × Node
  /-- `pruneOrphans(dryRun, cronDir, keep)`. -/
  pruneOrphans : Bool → Node → GoString → List GoString → Option SyncError × Node

/-- The state of the context where `Sync` and its callees consult it: on entry, at
the top of the loop and during the build step, by the index of the job. -/
structure SyncCtx where
  atStart : Bool
  atJob : Nat → Bool
  atBuild : Nat → Bool

/-- Faults of the system in `replaceDir` and in the deferred removal of a staging
directory. -/
structure SyncFaults where
  swap : SwapFaults
  cleanup : Bool

/-- `removeFileIfExists`. -/
def removeFileIfExists (cwd : GoString) (dryRun : Bool) (fs : Node) (path : GoString) :
    Option SyncError × Node :=
  if dryRun then (none, fs)
  else
    match Remove cwd fs path with
    | some fs2 => (none, fs2)
    | none => if RemoveNotExist cwd fs path then (none, fs) else (some .remove, fs)

/-- `removeDirIfExists`. -/
def removeDirIfExists (cwd : GoString) (dryRun : Bool) (fs : Node) (path : GoString) :
    Option SyncError × Node :=
  if dryRun then (none, fs)
  else
    match RemoveAll cwd fs path with
    | some fs2 => (none, fs2)
    | none => (some .removeAll, fs)

/-- The prefix and the suffix `os.MkdirTemp` puts around the random string: the
pattern up to its last `*` and after it, the whole pattern when it has none;
`none` when the pattern has a path separator. -/
def prefixAndSuffix (pattern : GoString) : Option (GoString × GoString) :=
  if pattern.contains 47 then none
  else if pattern.contains 42 then
    some ((pattern.reverse.dropWhile (· != 42)).reverse.dropLast,
      (pattern.reverse.takeWhile (· != 42)).reverse)
  else some (pattern, [])

/-- `os.MkdirTemp(dir, pattern)` for a non-empty `dir`: a new, empty directory
whose name has the random string `rand` between prefix and suffix, and its path.
The random string stands for the first one the system draws whose name is free:
the call fails when the name is taken. -/
def MkdirTemp (cwd : GoString) (rand : GoString) (fs : Node) (dir pattern : GoString) :
    Option (GoString × Node) :=
  match prefixAndSuffix pattern with
  | none => none
  | some (pre, suf) =>
    let path := if dir.getLast? = some 47 then dir ++ (pre ++ rand ++ suf)
      else dir ++ 47 :: (pre ++ rand ++ suf)
    if rand = [] ∨ rand.any (fun c => decide (c < 48 ∨ 57 < c)) then none
    else
      match fs.find (fsPath cwd path) with
      | some _ => none
      | none => (fs.put (fsPath cwd path) (.dir [])).map fun fs2 => (path, fs2)

/-- `stageJobDir`. -/
def stageJobDir (cwd : GoString) (rand : GoString) (dryRun : Bool) (fs : Node)
    (targetDir jobID : GoString) : Option (GoString × Node) :=
  if dryRun then some (Join [targetDir, str ".cronctl-staging-" ++ jobID], fs)
  else MkdirTemp cwd rand fs targetDir (str ".cronctl-staging-" ++ jobID ++ str "-")

/-- The steps of the loop body that fill a staged tree: `copyJobDir`,
`carryOverFilehash`, `chownTree` if asked for, `runBuildIfNeeded` if the job has a
build step; the first error ends them. -/
def fillStaging (steps : SyncSteps) (cancelled : Bool) (opts : SyncOptions) (fs : Node)
    (j : Job) (tmpDir targetPath : GoString) (uid gid : Int) : BuildOutcome :=
  let r2 := steps.copyJobDir opts.DryRun fs j.Dir tmpDir
  match r2.1 with
  | some e => { err := some e, fs := r2.2 }
  | none =>
    let r3 := steps.carryOverFilehash opts.DryRun r2.2 targetPath tmpDir
    match r3.1 with
    | some e => { err := some e, fs := r3.2 }
    | none =>
      let r4 := if opts.Chown then steps.chownTree opts.DryRun r3.2 tmpDir uid gid
        else (none, r3.2)
      match r4.1 with
      | some e => { err := some e, fs := r4.2 }
      | none =>
        if j.Spec.Build.Enabled then
          steps.runBuildIfNeeded cancelled opts.DryRun r4.2 j.ID tmpDir j.Spec.Build.Entrypoint
            opts.ForceBuild opts.RunBuildAsJobUser uid gid
        else { err := none, fs := r4.2 }

/-- The steps of the loop body after the swap: `chownTree` of the deployed tree
if asked for, then the cron registration, removed when the schedule is empty and
written otherwise. -/
def settleJob (steps : SyncSteps) (cwd : GoString) (opts : SyncOptions) (fs : Node) (j : Job)
    (cronPath targetPath : GoString) (uid gid : Int) : Option SyncError × Node :=
  let r7 := if opts.Chown then steps.chownTree opts.DryRun fs targetPath uid gid else (none, fs)
  match r7.1 with
  | some e => (some e, r7.2)
  | none =>
    if j.Spec.Schedule.length = 0 then removeFileIfExists cwd opts.DryRun r7.2 cronPath
    else steps.writeCronFile opts.DryRun r7.2 cronPath j targetPath

/-- What the body of the loop of `Sync` leaves behind for one job: the error, the
filesystem, the staging directory it created if any, whether that directory
was deployed, and the programs started. -/
structure JobOutcome where
  err : Option SyncError
  fs : Node
  staged : Option GoString
  deployed : Bool
  started : List GoString := []

/-- The body of the loop of `Sync`, after the test of the context. -/
def syncJob (steps : SyncSteps) (cwd : GoString) (faults : SyncFaults) (cancelled : Bool)
    (opts : SyncOptions) (fs : Node) (j : Job) : JobOutcome :=
  let cronPath := Join [opts.CronDir, str "cronctl-" ++ j.ID]
  let targetPath := Join [opts.TargetDir, j.ID]
  if !j.Spec.Enabled then
    let r := removeFileIfExists cwd opts.DryRun fs cronPath
    match r.1 with
    | some e => { err := some e, fs := r.2, staged := none, deployed := false }
    | none =>
      if opts.RemovePayloadOnDisable then
        let r2 := removeDirIfExists cwd opts.DryRun r.2 targetPath
        { err := r2.1, fs := r2.2, staged := none, deployed := false }
      else { err := none, fs := r.2, staged := none, deployed := false }
  else
    match steps.resolveJobUser fs j.Spec.User with
    | none => { err := some .resolveUser, fs := fs, staged := none, deployed := false }
    | some (uid, gid) =>
      match stageJobDir cwd (steps.random fs) opts.DryRun fs opts.TargetDir j.ID with
      | none => { err := some .stage, fs := fs, staged := none, deployed := false }
      | some (tmpDir, fs1) =>
        let staged := if opts.DryRun then none else some tmpDir
        let r5 := fillStaging steps cancelled opts fs1 j tmpDir targetPath uid gid
        match r5.err with
        | some e =>
          { err := some e, fs := r5.fs, staged := staged, deployed := false,
            started := r5.started }
        | none =>
          let r6 := replaceDir cwd faults.swap opts.DryRun r5.fs tmpDir targetPath
          match r6.1 with
          | some e =>
            { err := some e, fs := r6.2, staged := staged, deployed := false,
              started := r5.started }
          | none =>
            let r8 := settleJob steps cwd opts r6.2 j cronPath targetPath uid gid
            { err := r8.1, fs := r8.2, staged := staged, deployed := true,
              started := r5.started }

/-- What the loop of `Sync` leaves behind: the error, the filesystem, the staging
directories created, the one whose deferred removal is still to act (the one
of the job that failed, unless it was deployed), and the programs started. -/
structure LoopOutcome where
  err : Option SyncError
  fs : Node
  staged : List GoString
  pending : Option GoString
  started : List GoString := []

/-- The loop of `Sync` over the jobs from index `k` on. -/
def syncLoop (steps : SyncSteps) (cwd : GoString) (faults : SyncFaults) (ctx : SyncCtx)
    (opts : SyncOptions) : Nat → List Job → Node → LoopOutcome
  | _, [], fs => { err := none, fs := fs, staged := [], pending := none }
  | k, j :: js, fs =>
    if ctx.atJob k then { err := some .canceled, fs := fs, staged := [], pending := none }
    else
      let r := syncJob steps cwd faults (ctx.atBuild k) opts fs j
      match r.err with
      | some e =>
        { err := some e, fs := r.fs, staged := r.staged.toList,
          pending := if r.deployed then none else r.staged, started := r.started }
      | none =>
        let rest := syncLoop steps cwd faults ctx opts (k + 1) js r.fs
        { rest with staged := r.staged.toList ++ rest.staged,
                    started := r.started ++ rest.started }

/-- The deferred function of the loop body, for the staging directory that was
not deployed: `_ = os.RemoveAll(tmpDir)`. -/
def cleanupStaging (cwd : GoString) (faults : SyncFaults) (fs : Node) :
    Option GoString → Node
  | none => fs
  | some tmpDir => if faults.cleanup then fs else (RemoveAll cwd fs tmpDir).getD fs

/-- The options with the defaults for the two directories filled in. -/
def SyncOptions.withDefaults (opts : SyncOptions) : SyncOptions :=
  { opts with
    CronDir := if opts.CronDir = [] then str "/etc/cron.d" else opts.CronDir
    TargetDir := if opts.TargetDir = [] then str "/opt/cronctl/jobs" else opts.TargetDir }

/-- What `Sync` leaves behind: the error, the filesystem, the staging
directories the call created, and the programs it started. -/
structure SyncOutcome where
  err : Option SyncError
  fs : Node
  staged : List GoString
  started : List GoString := []

/-- `Sync`. -/
def Sync (steps : SyncSteps) (cwd : GoString) (faults : SyncFaults) (ctx : SyncCtx)
    (opts : SyncOptions) (fs : Node) (jobs : List Job) : SyncOutcome :=
  if ctx.atStart then { err := some .canceled, fs := fs, staged := [] }
  else
    let opts := opts.withDefaults
    if jobs.length = 0 then { err := none, fs := fs, staged := [] }
    else
      match MkdirAll cwd fs opts.TargetDir with
      | none => { err := some .mkdirTarget, fs := fs, staged := [] }
      | some fs0 =>
        let l := syncLoop steps cwd faults ctx opts 0 jobs fs0
        match l.err with
        | some e =>
          { err := some e, fs := cleanupStaging cwd faults l.fs l.pending, staged := l.staged,
            started := l.started }
        | none =>
          if opts.RemoveOrphans then
            let p := steps.pruneOrphans opts.DryRun l.fs opts.CronDir (jobs.map (·.ID))
            { err := p.1, fs := p.2, staged := l.staged, started := l.started }
          else { err := none, fs := l.fs, staged := l.staged, started := l.started }

/-- Steps that keep to their directories: what `copyJobDir`, `carryOverFilehash`,
`chownTree` and `runBuildIfNeeded` change lies in the directory they are given,
what `writeCronFile` changes lies in the directory of the registration, and
`pruneOrphans` creates nothing. -/
structure SyncSteps.Framed (steps : SyncSteps) (cwd : GoString) : Prop where
  copy : ∀ dry fs src dst q, dst ≠ [] → diverge (fsPath cwd dst) q →
    (steps.copyJobDir dry fs src dst).2.find q = fs.find q
  carry : ∀ dry fs dep stg q, stg ≠ [] → diverge (fsPath cwd stg) q →
    (steps.carryOverFilehash dry fs dep stg).2.find q = fs.find q
  chown : ∀ dry fs root uid gid q, diverge (fsPath cwd root) q →
    (steps.chownTree dry fs root uid gid).2.find q = fs.find q
  build : ∀ c dry fs id dir ep force asUser uid gid q, dir ≠ [] → diverge (fsPath cwd dir) q →
    (steps.runBuildIfNeeded c dry fs id dir ep force asUser uid gid).fs.find q = fs.find q
  cron : ∀ dry fs cronPath j target q, diverge (fsPath cwd cronPath).dropLast q →
    (steps.writeCronFile dry fs cronPath j target).2.find q = fs.find q
  prune : ∀ dry fs cronDir keep q, fs.find q = none →
    (steps.pruneOrphans dry fs cronDir keep).2.find q = none

/-- A job whose identifier is a plain name: its target, the backup of its target
and its registration are entries of the target directory and of the cron
directory under the names built from the identifier, and the identifier is not
empty, does not start with a dot and has no `*`. -/
def jobPlain (cwd : GoString) (opts : SyncOptions) (j : Job) : Prop :=
  fsPath cwd (Join [opts.TargetDir, j.ID]) = fsPath cwd opts.TargetDir ++ [j.ID] ∧
  fsPath cwd (Join [opts.TargetDir, j.ID] ++ str ".cronctl-old")
    = fsPath cwd opts.TargetDir ++ [j.ID ++ str ".cronctl-old"] ∧
  fsPath cwd (Join [opts.CronDir, str "cronctl-" ++ j.ID])
    = fsPath cwd opts.CronDir ++ [str "cronctl-" ++ j.ID] ∧
  j.ID ≠ [] ∧ j.ID.head? ≠ some 46 ∧ 42 ∉ j.ID

/-- The steps of `replaceDir` from the second rename on, written out for a tree
`fs2` that the first rename has left. -/
def swapIn (cwd : GoString) (faults : SwapFaults) (fs2 : Node) (srcTmp dst : GoString) :
    Option SyncError × Node :=
  match (if faults.moveIn then none else Rename cwd fs2 srcTmp dst) with
  | none =>
    (some .rename,
      if faults.moveBack then fs2 else (Rename cwd fs2 (dst ++ str ".cronctl-old") dst).getD fs2)
  | some fs3 =>
    (none,
      if faults.removeBackup then fs3
      else (RemoveAll cwd fs3 (dst ++ str ".cronctl-old")).getD fs3)

/-! ## The steps of the syncer

`copyJobDir`, `carryOverFilehash`, `chownTree`, `runBuildIfNeeded` and
`pruneOrphans`, from `copy.go`, `cache.go`, `chown.go`, `build.go` and `prune.go`.
`writeCronFile` is not among the sources: it stays a parameter. -/

/-- `strings.Contains`. -/
def Contains (s sub : GoString) : Bool := s.tails.any fun t => sub.isPrefixOf t

/-- `os.Symlink(target, path)`: a new link; fails when something is at `path`. -/
def Symlink (cwd : GoString) (fs : Node) (target path : GoString) : Option Node :=
  match fs.find (fsPath cwd path) with
  | some _ => none
  | none => fs.put (fsPath cwd path) (.symlink target)

/-- `copyFile(src, dst, perm)` run to completion, for a source whose content is
`data` (`none`: the file cannot be opened). The destination is opened with
`O_CREATE|O_WRONLY|O_TRUNC`, which follows a link at `dst`: the copy goes to the
file the link leads to, and creates it when it is missing. A file that exists is
truncated and keeps its mode; a new file gets the bits `perm` as they are asked
for, the umask of the process is not applied. -/
def copyFile (cwd : GoString) (fs : Node) (data : Option (List Nat)) (dst : GoString)
    (perm : Nat) : Option Node :=
  match data with
  | none => none
  | some b =>
    match followLinks fs (maxLinks + 1) (fsPath cwd dst) with
    | none => none
    | some comps =>
      match fs.find comps with
      | none => fs.put comps (.file perm (some b))
      | some (.file mode (some _)) => fs.put comps (.file mode (some b))
      | some _ => none

/-- The tests the callback of `copyJobDir` makes on the relative path of an entry
before it copies: `some (some e)` when it returns the error `e`, `some none` when
it skips the entry (and what is below it), `none` when it goes on to copy. -/
def copyVerdict (rel : GoString) : Option (Option SyncError) :=
  if Contains rel (str "..") then some (some .pathTraversal)
  else if rel = str ".cronctl" ∨ rel = str ".git" ∨ rel = str ".DS_Store" then some none
  else if HasPrefix rel (str ".cronctl/") ∨ HasPrefix rel (str ".git/") then some none
  else none

mutual
/-- The callback of `copyJobDir` on one entry below the job directory, at the
relative path `rel`, followed by the descent `filepath.WalkDir` makes when the
entry is a directory and the callback did not return `SkipDir`. The first tree is
the entry as the walk finds it, `fs` is the filesystem the copy writes to. -/
def copyNode (cwd dst rel : GoString) : Node → Node → Option SyncError × Node
  | .dir es, fs =>
    match copyVerdict rel with
    | some r => (r, fs)
    | none =>
      match MkdirAll cwd fs (Join [dst, rel]) with
      | none => (some .copy, fs)
      | some fs1 => copyEntries cwd dst rel es fs1
  | .symlink target, fs =>
    match copyVerdict rel with
    | some r => (r, fs)
    | none =>
      match MkdirAll cwd fs (Dir (Join [dst, rel])) with
      | none => (some .copy, fs)
      | some fs1 =>
        match Symlink cwd fs1 target (Join [dst, rel]) with
        | none => (some .copy, fs1)
        | some fs2 => (none, fs2)
  | .file mode data, fs =>
    match copyVerdict rel with
    | some r => (r, fs)
    | none =>
      if !FileMode.IsRegular mode then (none, fs)
      else
        match MkdirAll cwd fs (Dir (Join [dst, rel])) with
        | none => (some .copy, fs)
        | some fs1 =>
          match copyFile cwd fs1 data (Join [dst, rel]) (mode &&& 511) with
          | none => (some .copy, fs1)
          | some fs2 => (none, fs2)
/-- The loop of `filepath.WalkDir` over the entries of one directory. -/
def copyEntries (cwd dst relDir : GoString) :
    List (GoString × Node) → Node → Option SyncError × Node
  | [], fs => (none, fs)
  | (name, n) :: es, fs =>
    match copyNode cwd dst (joinRel relDir name) n fs with
    | (some e, fs1) => (some e, fs1)
    | (none, fs1) => copyEntries cwd dst relDir es fs1
end

/-- `copyJobDir`. The walk visits the source as it stands when it starts: the
embedding is of a copy whose destination does not lie in the source. -/
def copyJobDir (cwd : GoString) (dryRun : Bool) (fs : Node) (src dst : GoString) :
    Option SyncError × Node :=
  if dryRun then (none, fs)
  else
    match MkdirAll cwd fs dst with
    | none => (some .copy, fs)
    | some fs1 =>
      match Lstat cwd fs1 src with
      | none => (some .copy, fs1)
      | some (.dir es) => copyEntries cwd dst (str ".") es fs1
      | some _ => (none, fs1)

/-- Whether `name` can be the name of a directory entry: it is not empty, not `.`
or `..`, and holds no `/`. -/
def entryName (name : GoString) : Bool :=
  !name.contains 47 && name != [] && name != str "." && name != str ".."

mutual
/-- Whether the tree is one a filesystem can hold: in every directory at and
below the node each name is the name of an entry and no name stands twice. -/
def Node.listed : Node → Bool
  | .dir es => listedEntries es
  | _ => true
/-- Whether the entries are those of a directory a filesystem can hold. -/
def listedEntries : List (GoString × Node) → Bool
  | [] => true
  | (name, n) :: es =>
    entryName name && !(es.map Prod.fst).contains name && Node.listed n && listedEntries es
end

/-- Whether a copy of `src` to `dst` starts on a new staging directory, as in
`Sync`, where `os.MkdirTemp` has just created it: `dst` is an empty directory,
it does not lie in `src`, and what stands at `src` is a tree a filesystem can
hold. -/
def freshCopy (cwd : GoString) (fs : Node) (src dst : GoString) : Bool :=
  (match Lstat cwd fs dst with
    | some (.dir []) => true
    | _ => false) &&
  !(fsPath cwd src).isPrefixOf (fsPath cwd dst) &&
  (match Lstat cwd fs src with
    | some n => n.listed
    | none => true)

/-- A job directory `/job` with a file `x`, and a staging directory `/stage` that
is not new: it holds a link `x` to the file `/victim`. -/
def linkedStageFs : Node :=
  .dir [
    (str "job", .dir [(str "x", .file 420 (some (str "new\n")))]),
    (str "stage", .dir [(str "x", .symlink (str "/victim"))]),
    (str "victim", .file 384 (some (str "old\n")))]

/-- `carryOverFilehash`. -/
def carryOverFilehash (cwd : GoString) (dryRun : Bool) (fs : Node)
    (deployedDir stagingDir : GoString) : Option SyncError × Node :=
  let src := Join [deployedDir, str ".cronctl", str "filehash"]
  let toDir := Join [stagingDir, str ".cronctl"]
  let dstFile := Join [toDir, str "filehash"]
  if dryRun then (none, fs)
  else
    match ReadFile cwd fs src with
    | .error .notExist => (none, fs)
    | .error .other => (some .carryOver, fs)
    | .ok b =>
      match MkdirAll cwd fs toDir with
      | none => (some .carryOver, fs)
      | some fs1 =>
        match WriteFile cwd fs1 dstFile b with
        | none => (some .carryOver, fs1)
        | some fs2 => (none, fs2)

/-- What the syncer finds around it besides the filesystem. -/
structure SyncWorld where
  /-- The collaborators of the build package. -/
  env : Env
  /-- `os.Geteuid()`. -/
  euid : Int
  /-- The uid and gid `resolveJobUser` finds for a user name. -/
  users : GoString → Option (Int × Int)
  /-- The random decimal string `os.MkdirTemp` draws. -/
  random : Node → GoString
  /-- Whether `os.Lchown` is permitted. -/
  chownOk : Bool
  /-- Faults in the write of the state file. -/
  stateFaults : Faults

/-- `chownTree`. Ownership is not part of the tree: the call leaves the tree as
it is and fails when the root is missing or `Lchown` is not permitted. -/
def chownTree (w : SyncWorld) (dryRun : Bool) (fs : Node) (root : GoString) (_uid _gid : Int) :
    Option SyncError × Node :=
  if dryRun then (none, fs)
  else
    match Lstat w.env.cwd fs root with
    | none => (some .chown, fs)
    | some _ => if w.chownOk then (none, fs) else (some .chown, fs)

/-- `toUint32` succeeds. -/
def fitsUint32 (v : Int) : Bool := decide (0 ≤ v ∧ v ≤ 4294967295)

/-- `runBuildIfNeeded`. The context is sampled once for the step: a cancelled
context shows in the first `InputsHash`. `started` lists the programs
`cmd.CombinedOutput` was called on. -/
def runBuildIfNeeded (w : SyncWorld) (cancelled dryRun : Bool) (fs : Node)
    (_jobID jobDir entrypoint : GoString) (force runAsUser : Bool) (uid gid : Int) :
    BuildOutcome :=
  let entrypoint := if entrypoint = [] then DefaultBuildEntrypoint else entrypoint
  if dryRun then { err := none, fs := fs }
  else
    let statePath := Join [jobDir, str ".cronctl", str "filehash"]
    match InputsHash w.env cancelled fs jobDir with
    | .error _ => { err := some .build, fs := fs }
    | .ok curHash =>
      if cacheHit force (ReadHash w.env.cwd fs statePath) curHash then { err := none, fs := fs }
      else
        let cmdPath := Join [jobDir, entrypoint]
        if runAsUser && w.euid != 0 then { err := some .buildNeedsRoot, fs := fs }
        else if runAsUser && !(fitsUint32 uid && fitsUint32 gid) then
          { err := some .build, fs := fs }
        else
          match w.env.exec fs cmdPath jobDir with
          | none => { err := some .build, fs := fs, started := [cmdPath] }
          | some run =>
            if run.exit != some 0 then { err := some .build, fs := run.done, started := [cmdPath] }
            else
              match InputsHash w.env cancelled run.done jobDir with
              | .error _ => { err := some .build, fs := run.done, started := [cmdPath] }
              | .ok newHash =>
                let r := WriteHash w.env.cwd w.stateFaults run.done statePath newHash
                match r.1 with
                | some _ => { err := some .build, fs := r.2, started := [cmdPath] }
                | none => { err := none, fs := r.2, started := [cmdPath] }

/-- The loop of `pruneOrphans` over the names of the entries. -/
def pruneLoop (cwd : GoString) (dryRun : Bool) (cronDir : GoString) (keep : List GoString) :
    List GoString → Node → Option SyncError × Node
  | [], fs => (none, fs)
  | name :: names, fs =>
    if !HasPrefix name (str "cronctl-") then pruneLoop cwd dryRun cronDir keep names fs
    else if keep.contains (TrimPrefix name (str "cronctl-")) then
      pruneLoop cwd dryRun cronDir keep names fs
    else if dryRun then pruneLoop cwd dryRun cronDir keep names fs
    else
      match Remove cwd fs (Join [cronDir, name]) with
      | none => (some .prune, fs)
      | some fs1 => pruneLoop cwd dryRun cronDir keep names fs1

/-- `pruneOrphans`. -/
def pruneOrphans (cwd : GoString) (dryRun : Bool) (fs : Node) (cronDir : GoString)
    (keep : List GoString) : Option SyncError × Node :=
  match Stat cwd fs cronDir with
  | some (.dir es) => pruneLoop cwd dryRun cronDir keep (es.map Prod.fst) fs
  | _ => (some .prune, fs)

/-- The steps of the syncer in a world; `writeCron` stands for `writeCronFile`. -/
def worldSteps (w : SyncWorld)
    (writeCron : Bool → Node → GoString → Job → GoString → Option SyncError × Node) :
    SyncSteps :=
  { resolveJobUser := fun _ user => w.users user
    random := w.random
    copyJobDir := fun dry fs src dst => copyJobDir w.env.cwd dry fs src dst
    carryOverFilehash := fun dry fs dep stg => carryOverFilehash w.env.cwd dry fs dep stg
    chownTree := fun dry fs root uid gid => chownTree w dry fs root uid gid
    runBuildIfNeeded := fun c dry fs id dir ep force asUser uid gid =>
      runBuildIfNeeded w c dry fs id dir ep force asUser uid gid
    writeCronFile := writeCron
    pruneOrphans := fun dry fs cronDir keep => pruneOrphans w.env.cwd dry fs cronDir keep }

/-- The steps of `worldSteps` kept from writing through a link. `copyJobDir`,
`carryOverFilehash` and `runBuildIfNeeded` are those of the program, except that
each returns its error at once, without a step, where a write of it could go
through a link: the copy when it does not start on a new staging directory
(`freshCopy`); the other two when a link stands at the path their `os.WriteFile`
opens, the state file of the staging directory for the first, the temporary file
next to it for the second. Elsewhere the steps are those of `worldSteps`. -/
def plainSteps (w : SyncWorld)
    (writeCron : Bool → Node → GoString → Job → GoString → Option SyncError × Node) :
    SyncSteps :=
  { worldSteps w writeCron with
    copyJobDir := fun dry fs src dst =>
      if dry || freshCopy w.env.cwd fs src dst then copyJobDir w.env.cwd dry fs src dst
      else (some .copy, fs)
    carryOverFilehash := fun dry fs dep stg =>
      if linkAt w.env.cwd fs (Join [Join [stg, str ".cronctl"], str "filehash"]) then
        (some .carryOver, fs)
      else carryOverFilehash w.env.cwd dry fs dep stg
    runBuildIfNeeded := fun c dry fs id dir ep force asUser uid gid =>
      if linkAt w.env.cwd fs (Join [dir, str ".cronctl", str "filehash"] ++ str ".tmp") then
        { err := some .build, fs := fs }
      else runBuildIfNeeded w c dry fs id dir ep force asUser uid gid }


/-! ## Worlds and trees for the syncer -/

/-- A world around the syncer without `git`, in which every program exits with
status 0 and leaves the filesystem as it found it, the process runs as root, every
user resolves to root, and the random string of `os.MkdirTemp` is `1`. -/
def quietWorld : SyncWorld :=
  { env := quietEnv, euid := 0, users := fun _ => some (0, 0), random := fun _ => str "1",
    chownOk := true, stateFaults := Faults.none }

/-- The world `quietWorld` with build scripts that exit with status 1. -/
def failingBuildWorld : SyncWorld :=
  { quietWorld with
    env := { quietEnv with
      exec := fun fs _ _ => some { exit := some 1, done := fs, killed := fs } } }

/-- What stands for `writeCronFile` in the examples, none of which has a job with
a schedule, so that it is never called: a call that fails and writes nothing. -/
def cronRefused : Bool → Node → GoString → Job → GoString → Option SyncError × Node :=
  fun _ fs _ _ _ => (some .writeCron, fs)

/-- A context that is never cancelled. -/
def liveSyncCtx : SyncCtx :=
  { atStart := false, atJob := fun _ => false, atBuild := fun _ => false }

/-- No fault in the swap, none in the deferred removal. -/
def SyncFaults.none : SyncFaults := { swap := SwapFaults.none, cleanup := false }

/-- The deferred removal of a staging directory fails. -/
def stuckStaging : SyncFaults := { swap := SwapFaults.none, cleanup := true }

/-- The job directory `/src/a` with a script, and an empty `/etc/cron.d`. -/
def payloadFs : Node :=
  .dir [
    (str "etc", .dir [(str "cron.d", .dir [])]),
    (str "src", .dir [(str "a", .dir [
      (str "build.sh", .file 493 (some (str "#!/bin/sh\n")))])])]

/-- The options of the examples: `/etc/cron.d` and `/opt/jobs`. -/
def demoOptions : SyncOptions := { CronDir := str "/etc/cron.d", TargetDir := str "/opt/jobs" }

/-- The job `a` in `/src/a`, enabled, without build step and without schedule. -/
def plainJobA : Job :=
  { ID := str "a", Dir := str "/src/a",
    Spec := { Enabled := true, Build := { Enabled := false, Entrypoint := [] } } }

/-- The job `a` in `/src/a`, enabled, with a build step and without schedule. -/
def builtJobA : Job :=
  { ID := str "a", Dir := str "/src/a",
    Spec := { Enabled := true, Build := { Enabled := true, Entrypoint := str "build.sh" } } }


/-- A world like `quietWorld` in which the build script of job `a` succeeds only
while nothing is deployed at `/opt/jobs/a`: it exits with status 1 otherwise. The
script leaves the filesystem as it found it. -/
def firstInstallWorld : SyncWorld :=
  { quietWorld with
    env := { quietEnv with
      exec := fun fs _ _ =>
        some { exit := some (if (Lstat (str "/") fs (str "/opt/jobs/a")).isSome then 1 else 0),
               done := fs, killed := fs } } }

/-- The options of the examples with a forced build. -/
def forcedOptions : SyncOptions := { demoOptions with ForceBuild := true }

/-- Options with one directory, `/srv`, for the payloads and for the
registrations. -/
def sharedDirOptions : SyncOptions := { CronDir := str "/srv", TargetDir := str "/srv" }

/-- The job `cronctl-a` in `/src/a`, enabled, without build step and without
schedule. -/
def plainJobCronctlA : Job :=
  { ID := str "cronctl-a", Dir := str "/src/a",
    Spec := { Enabled := true, Build := { Enabled := false, Entrypoint := [] } } }

/-- The tree `payloadFs` with a registration of job `a` in `/etc/cron.d`. -/
def registeredFs : Node :=
  .dir [
    (str "etc", .dir [(str "cron.d", .dir [
      (str "cronctl-a", .file 420 (some (str "# old cron\n")))])]),
    (str "src", .dir [(str "a", .dir [
      (str "build.sh", .file 493 (some (str "#!/bin/sh\n")))])])]


/-- A plain name: not empty, without `/` and without `*`, and not starting with a
dot. The identifiers `validate` accepts (`^[a-z0-9][a-z0-9-]*$`) are plain. -/
def plainName (id : GoString) : Prop :=
  id ≠ [] ∧ 47 ∉ id ∧ 42 ∉ id ∧ id.head? ≠ some 46


/-- Nothing is at `p`, and a lookup of `p` fails because a name is missing
(`ENOENT`). -/
def Node.gone (fs : Node) (p : List GoString) : Prop := fs.find p = none ∧ fs.missing p = true

/-- A disabled job at rest: its registration is gone and, when the payload of
disabled jobs is removed, its payload is gone too and `os.RemoveAll` accepts its
path. -/
def jobSettled (cwd : GoString) (opts : SyncOptions) (fs : Node) (j : Job) : Prop :=
  fs.gone (fsPath cwd (Join [opts.CronDir, str "cronctl-" ++ j.ID])) ∧
  (opts.RemovePayloadOnDisable = true →
    fs.gone (fsPath cwd (Join [opts.TargetDir, j.ID])) ∧
    endsWithDot (Join [opts.TargetDir, j.ID]) = false)

/-- The job `a`, disabled. -/
def disabledJobA : Job :=
  { ID := str "a", Dir := str "/src/a",
    Spec := { Enabled := false, Build := { Enabled := false, Entrypoint := [] } } }

/-- What the digest receives of an item: relative path, mode string, content. -/
def item.triple (it : item) : GoString × GoString × List Nat :=
  (it.path, FileMode.String it.mode, it.data)

/-- One file `a` whose content holds NUL bytes: `x`, NUL, `b`, NUL, the mode string
of `0644`, NUL, `y`. -/
def nulFileItems : List item :=
  [{ path := str "a", mode := 420,
     data := str "x" ++ 0 :: (str "b" ++ 0 :: (str "-rw-r--r--" ++ 0 :: str "y")) }]

/-- Two files, `a` holding `x` and `b` holding `y`, both of mode `0644`. -/
def twoFileItems : List item :=
  [{ path := str "a", mode := 420, data := str "x" }, { path := str "b", mode := 420, data := str "y" }]

instance : DecidableRel pathLt := fun a b => inferInstanceAs (Decidable (strLess a.path b.path = true))

/-- An environment whose build script prints `compiling` on standard output and two
lines, `boom` and `stack trace`, on standard error, and exits with status 2. -/
def noisyEnv : Env :=
  { quietEnv with
    exec := fun fs _ _ =>
      some { exit := some 2, done := fs, killed := fs,
             stdout := str "compiling\n", stderr := str "boom\nstack trace\n" } }

/-! ## `user.go` -/

/-- What `bufio.Scanner` yields before it stops: the lines up to the first one that
is too long for the scanner (lines as in `scanLines`), and whether it stopped at
such a line (`s.Err() != nil`). -/
def scanRun (b : List Nat) : List GoString × Bool :=
  let pieces := splitOn 10 b
  let lines := if pieces.getLast? = some [] then pieces.dropLast else pieces
  let good := lines.takeWhile fun l => decide (l.length < maxScanTokenSize)
  (good.map fun l => if l.getLast? = some 13 then l.dropLast else l,
    decide (good.length < lines.length))

/-- The value of a non-empty run of decimal digits, read after the digits `acc`. -/
def parseDigits (acc : Nat) : GoString → Option Nat
  | [] => some acc
  | c :: cs => if 48 ≤ c ∧ c ≤ 57 then parseDigits (acc * 10 + (c - 48)) cs else none

/-- `strconv.Atoi` where `int` has 64 bits: an optional sign, then one or more
decimal digits, the value within the range of `int`; `none` for an error. -/
def Atoi (s : GoString) : Option Int :=
  let neg := s.head? = some 45
  let body := if s.head? = some 45 ∨ s.head? = some 43 then s.drop 1 else s
  if body = [] then none
  else
    match parseDigits 0 body with
    | none => none
    | some n =>
      let v : Int := if neg then -(n : Int) else (n : Int)
      if -(2 : Int) ^ 63 ≤ v ∧ v ≤ (2 : Int) ^ 63 - 1 then some v else none

/-- The errors of `lookupPasswd`, by kind. -/
inductive UserError where
  | openPasswd
  | parseUid
  | parseGid
  | scanPasswd
  | userNotFound
  deriving DecidableEq, Repr

/-- The loop of `lookupPasswd` over the lines the scanner yields: `none` when the
loop ends without returning. -/
def passwdLoop (username : GoString) : List GoString → Option (Except UserError (Int × Int))
  | [] => none
  | raw :: rest =>
    let line := TrimSpace raw
    if line = [] ∨ HasPrefix line (str "#") then passwdLoop username rest
    else
      let parts := splitOn 58 line
      if parts.length < 4 then passwdLoop username rest
      else if parts.getD 0 [] ≠ username then passwdLoop username rest
      else
        match Atoi (parts.getD 2 []) with
        | none => some (.error .parseUid)
        | some uid =>
          match Atoi (parts.getD 3 []) with
          | none => some (.error .parseGid)
          | some gid => some (.ok (uid, gid))

/-- `lookupPasswd`. `os.Open` fails on a missing or unreadable file; on a directory
it succeeds and the first read fails, which the scanner reports. -/
def lookupPasswd (cwd : GoString) (fs : Node) (username : GoString) :
    Except UserError (Int × Int) :=
  match Stat cwd fs (str "/etc/passwd") with
  | some (.file _ (some data)) =>
    let run := scanRun data
    match passwdLoop username run.1 with
    | some r => r
    | none => if run.2 then .error .scanPasswd else .error .userNotFound
  | some (.dir _) => .error .scanPasswd
  | _ => .error .openPasswd

/-- `resolveJobUser`. -/
def resolveJobUser (cwd : GoString) (fs : Node) (username : GoString) :
    Except UserError (Int × Int) :=
  match lookupPasswd cwd fs username with
  | .error e => .error e
  | .ok u => .ok (u.1, u.2)

/-- The field lists of the lines the claim keeps: each line trimmed, blank lines
and lines starting with `#` dropped, split at `:`, lines with fewer than four
fields dropped. -/
def passwdEntries (lines : List GoString) : List (List GoString) :=
  (((lines.map TrimSpace).filter fun l => decide (l ≠ []) && !HasPrefix l (str "#")).map
    (splitOn 58)).filter fun p => decide (4 ≤ p.length)

/-- The first kept line whose first field is the user name. -/
def passwdMatch (username : GoString) (lines : List GoString) : Option (List GoString) :=
  (passwdEntries lines).find? fun p => decide (p.head? = some username)

/-- What the claim says of the matching line: uid and gid from the third and the
fourth field when both parse, a parse error otherwise, not found without a
matching line. -/
def passwdResult : Option (List GoString) → Except UserError (Int × Int)
  | none => .error .userNotFound
  | some p =>
    match Atoi (p.getD 2 []), Atoi (p.getD 3 []) with
    | some uid, some gid => .ok (uid, gid)
    | none, _ => .error .parseUid
    | some _, none => .error .parseGid

/-- A user database of three lines, one of them a comment. -/
def passwdText : GoString :=
  str "root:x:0:0:root:/root:/bin/sh\n# staff\n  alice:x:1000:100::/home/alice:/bin/sh\nbob:x:abc:1\n"

/-- A tree with the user database `passwdText`. -/
def passwdFs : Node :=
  .dir [(str "etc", .dir [(str "passwd", .file 420 (some passwdText))])]

/-- A tree whose user database is one line of 65536 letters `x`. -/
def longLineFs : Node :=
  .dir [(str "etc", .dir [(str "passwd", .file 420 (some (List.replicate 65536 120)))])]

mutual
/-- Whether the name of some entry below the node holds the two characters `..`. -/
def Node.dotted : Node → Bool
  | .dir es => entriesDotted es
  | _ => false
/-- Whether the name of some of the entries, or of an entry below one of them,
holds the two characters `..`. -/
def entriesDotted : List (GoString × Node) → Bool
  | [] => false
  | (name, n) :: es => Contains name (str "..") || Node.dotted n || entriesDotted es
end

/-- A job directory `/job` with a build script and a file called `a..b`. -/
def dottedFs : Node :=
  .dir [(str "job", .dir [
    (str "a..b", .file 420 (some (str "x"))),
    (str "build.sh", .file 493 (some (str "#!/bin/sh\n")))])]

/-- A job directory `/job` with a build script and a link `escape` to
`../etc/passwd`, next to `/etc/passwd`. -/
def escapeFs : Node :=
  .dir [
    (str "etc", .dir [(str "passwd", .file 420 (some (str "root:x:0:0::/root:/bin/sh\n")))]),
    (str "job", .dir [
      (str "build.sh", .file 493 (some (str "#!/bin/sh\n"))),
      (str "escape", .symlink (str "../etc/passwd"))])]

/-- An orphan in the words of the claim: the name starts with `cronctl-` and what
follows the prefix is not in the keep set. -/
def orphanName (keep : List GoString) (name : GoString) : Bool :=
  HasPrefix name (str "cronctl-") && !keep.contains (TrimPrefix name (str "cronctl-"))

/-- A cron directory `/etc/cron.d` with the registrations of the jobs `a` and `b`
and a file `other-file`. -/
def cronFs : Node :=
  .dir [(str "etc", .dir [(str "cron.d", .dir [
    (str "cronctl-a", .file 420 (some (str "* * * * * root /opt/jobs/a/run.sh\n"))),
    (str "cronctl-b", .file 420 (some (str "* * * * * root /opt/jobs/b/run.sh\n"))),
    (str "other-file", .file 420 (some (str "MAILTO=root\n")))])])]

/-- The world `quietWorld` seen from a process that is not root (euid 1000). -/
def unprivilegedWorld : SyncWorld := { quietWorld with euid := 1000 }

/-- A staged job directory `/stage/a` with a build script and a file `secret` that
cannot be read. -/
def unreadableFs : Node :=
  .dir [(str "stage", .dir [(str "a", .dir [
    (str "build.sh", .file 493 (some (str "#!/bin/sh\n"))),
    (str "secret", .file 384 none)])])]

/-- Steps that in a dry run leave the filesystem as it is and start no program. -/
structure SyncSteps.DryQuiet (steps : SyncSteps) : Prop where
  copy : ∀ fs src dst, (steps.copyJobDir true fs src dst).2 = fs
  carry : ∀ fs dep stg, (steps.carryOverFilehash true fs dep stg).2 = fs
  chown : ∀ fs root uid gid, (steps.chownTree true fs root uid gid).2 = fs
  build : ∀ c fs id dir ep force asUser uid gid,
    (steps.runBuildIfNeeded c true fs id dir ep force asUser uid gid).fs = fs ∧
      (steps.runBuildIfNeeded c true fs id dir ep force asUser uid gid).started = []
  cron : ∀ fs cronPath j target, (steps.writeCronFile true fs cronPath j target).2 = fs
  prune : ∀ fs cronDir keep, (steps.pruneOrphans true fs cronDir keep).2 = fs

/-- The job `a` in `/src/a` with a build step and a schedule. -/
def scheduledJobA : Job :=
  { ID := str "a", Dir := str "/src/a",
    Spec := { Enabled := true, Build := { Enabled := true, Entrypoint := str "build.sh" },
              Schedule := [{ Cron := str "* * * * *" }] } }

/-- What stands for `writeCronFile` in the examples of a dry run: in a dry run it
returns without error and writes nothing, otherwise it fails and writes nothing. -/
def cronDryOnly : Bool → Node → GoString → Job → GoString → Option SyncError × Node :=
  fun dry fs _ _ _ => if dry then (none, fs) else (some .writeCron, fs)

/-- The options of the examples, for a dry run with pruning. -/
def dryOptions : SyncOptions := { demoOptions with DryRun := true, RemoveOrphans := true }

/-- Options with the cron directory `/srv` on the way to the target directory
`/srv/jobs`, for a dry run. -/
def nestedDirOptions : SyncOptions :=
  { CronDir := str "/srv", TargetDir := str "/srv/jobs", DryRun := true }

/-- Options for a dry run with a cron directory `/var/cron.d` and a target
directory `/opt/jobs`. -/
def freshDirOptions : SyncOptions :=
  { CronDir := str "/var/cron.d", TargetDir := str "/opt/jobs", DryRun := true,
    RemoveOrphans := true }

/-- The options of the examples with pruning asked for. -/
def pruneOptions : SyncOptions := { demoOptions with RemoveOrphans := true }

/-- The tree `cronFs` with the job directory `/src/a` of `payloadFs`. -/
def cronPayloadFs : Node :=
  .dir [
    (str "etc", .dir [(str "cron.d", .dir [
      (str "cronctl-a", .file 420 (some (str "* * * * * root /opt/jobs/a/run.sh\n"))),
      (str "cronctl-b", .file 420 (some (str "* * * * * root /opt/jobs/b/run.sh\n"))),
      (str "other-file", .file 420 (some (str "MAILTO=root\n")))])]),
    (str "src", .dir [(str "a", .dir [
      (str "build.sh", .file 493 (some (str "#!/bin/sh\n")))])])]

/-- What stands for `writeCronFile` in the example of pruning: a call that writes
the registration with a fixed line, the cron directory being there. -/
def cronWritten : Bool → Node → GoString → Job → GoString → Option SyncError × Node :=
  fun dry fs cronPath _ _ =>
    if dry then (none, fs)
    else
      match WriteFile (str "/") fs cronPath (str "* * * * * root run\n") with
      | none => (some .writeCron, fs)
      | some fs1 => (none, fs1)

/-! # Properties -/

/-! ## The order on paths -/

theorem strLess_irrefl : ∀ a : GoString, strLess a a = false
  | [] => rfl
  | x :: xs => by simp [strLess, strLess_irrefl xs]

theorem strLess_trans : ∀ a b c : GoString,
    strLess a b = true → strLess b c = true → strLess a c = true
  | [], [], _ => by simp [strLess]
  | [], _ :: _, [] => by simp [strLess]
  | [], _ :: _, _ :: _ => by simp [strLess]
  | _ :: _, [], _ => by simp [strLess]
  | _ :: _, _ :: _, [] => by simp [strLess]
  | x :: xs, y :: ys, z :: zs => by
    have ih := strLess_trans xs ys zs
    simp only [strLess]
    intro h1 h2
    split_ifs at h1 h2 ⊢ <;> first | rfl | omega | exact ih h1 h2

theorem strLess_connex : ∀ a b : GoString,
    strLess a b = false → strLess b a = false → a = b
  | [], [] => by simp
  | [], _ :: _ => by simp [strLess]
  | _ :: _, [] => by simp [strLess]
  | x :: xs, y :: ys => by
    have ih := strLess_connex xs ys
    simp only [strLess]
    intro h1 h2
    by_cases hxy : x < y
    · simp [hxy] at h1
    · by_cases hyx : y < x
      · simp [hyx] at h2
      · have hEq : x = y := by omega
        subst hEq
        simp only [lt_self_iff_false, if_false] at h1 h2
        rw [ih h1 h2]

theorem strLess_append_left : ∀ pre a b : GoString, strLess (pre ++ a) (pre ++ b) = strLess a b
  | [], _, _ => rfl
  | c :: cs, a, b => by
    simp only [List.cons_append, strLess, lt_self_iff_false, if_false]
    exact strLess_append_left cs a b

theorem strLess_asymm (a b : GoString) (h : strLess a b = true) : strLess b a = false := by
  by_contra hc
  have hba : strLess b a = true := by simpa using hc
  have := strLess_trans a b a h hba
  rw [strLess_irrefl] at this
  exact Bool.noConfusion this

theorem pathLe_total : IsTotal item pathLe where
  total a b := by
    unfold pathLe
    cases h : strLess b.path a.path
    · exact Or.inl rfl
    · exact Or.inr (strLess_asymm _ _ h)

theorem pathLe_trans : IsTrans item pathLe where
  trans a b c hab hbc := by
    unfold pathLe at *
    by_contra hc
    have hca : strLess c.path a.path = true := by simpa using hc
    cases hbc2 : strLess b.path c.path
    · have hEq : b.path = c.path := strLess_connex _ _ hbc2 hbc
      rw [hEq] at hab
      rw [hab] at hca
      exact Bool.noConfusion hca
    · have hba := strLess_trans _ _ _ hbc2 hca
      rw [hab] at hba
      exact Bool.noConfusion hba

theorem sortStrings_sorted (l : List GoString) :
    (sortStrings l).Pairwise (fun a b => strLess b a = false) := by
  have htotal : IsTotal GoString (fun a b => strLess b a = false) :=
    ⟨fun a b => (pathLe_total.total ⟨a, 0, []⟩ ⟨b, 0, []⟩)⟩
  have htrans : IsTrans GoString (fun a b => strLess b a = false) :=
    ⟨fun a b c hab hbc => pathLe_trans.trans ⟨a, 0, []⟩ ⟨b, 0, []⟩ ⟨c, 0, []⟩ hab hbc⟩
  exact @List.sorted_insertionSort _ (fun a b => strLess b a = false) _ htotal htrans l

theorem sortItems_eq (items : List item) : sortItems items = items.insertionSort pathLe := rfl

theorem sortItems_perm (items : List item) : (sortItems items).Perm items :=
  List.perm_insertionSort _ _

theorem sortItems_sorted (items : List item) : (sortItems items).Sorted pathLe :=
  @List.sorted_insertionSort _ pathLe _ pathLe_total pathLe_trans items

theorem pathLt_antisymm : IsAntisymm item pathLt where
  antisymm a b hab hba := by
    unfold pathLt at *
    rw [strLess_asymm _ _ hab] at hba
    exact Bool.noConfusion hba

theorem sorted_pathLt_of_nodup {l : List item} (hs : l.Sorted pathLe)
    (hn : (l.map item.path).Nodup) : l.Sorted pathLt := by
  have hn2 : l.Pairwise (fun a b => a.path ≠ b.path) := by
    rw [List.Nodup, List.pairwise_map] at hn
    exact hn
  refine (List.Pairwise.and hs hn2).imp ?_
  intro a b h
  obtain ⟨hle, hne⟩ := h
  unfold pathLe at hle
  unfold pathLt
  cases hlt : strLess a.path b.path
  · exact absurd (strLess_connex _ _ hlt hle) hne
  · rfl

/-- On items with pairwise distinct paths the result of sorting is determined:
every rearrangement of the items that is ascending by path is `sortItems items`. -/
theorem sortItems_unique (items s : List item) (hn : (items.map item.path).Nodup)
    (hp : s.Perm items) (hs : s.Sorted pathLe) : s = sortItems items := by
  have hn1 : (s.map item.path).Nodup := (hp.map item.path).nodup_iff.mpr hn
  have hn2 : ((sortItems items).map item.path).Nodup :=
    ((sortItems_perm items).map item.path).nodup_iff.mpr hn
  exact @List.eq_of_perm_of_sorted _ pathLt pathLt_antisymm _ _ (hp.trans (sortItems_perm items).symm)
    (sorted_pathLt_of_nodup hs hn1) (sorted_pathLt_of_nodup (sortItems_sorted items) hn2)


/-! ## The walk through a tree with one entry singled out -/

theorem thenItems_nil_left (y : Except Error (List item)) : thenItems (.ok []) y = y := by
  cases y <;> rfl

theorem thenItems_assoc (x y z : Except Error (List item)) :
    thenItems (thenItems x y) z = thenItems x (thenItems y z) := by
  cases x <;> cases y <;> cases z <;> simp [thenItems]

theorem thenItems_eq_ok {x y : Except Error (List item)} {l : List item}
    (h : thenItems x y = .ok l) : ∃ a b, x = .ok a ∧ y = .ok b ∧ l = a ++ b := by
  cases x with
  | error e => simp [thenItems] at h
  | ok a =>
    cases y with
    | error e => simp [thenItems] at h
    | ok b =>
      simp only [thenItems, Except.ok.injEq] at h
      exact ⟨a, b, rfl, rfl, h.symm⟩

theorem walkEntries_append (c : Bool) (m : ignoreMatcher) (rel : GoString) :
    ∀ pre post : List (GoString × Node),
      walkEntries c m rel (pre ++ post)
        = thenItems (walkEntries c m rel pre) (walkEntries c m rel post)
  | [], post => by simp [walkEntries, thenItems_nil_left]
  | (name, n) :: pre, post => by
    show walkEntries c m rel ((name, n) :: (pre ++ post)) = _
    rw [walkEntries, walkEntries_append c m rel pre post, walkEntries, thenItems_assoc]

theorem walkEntries_hole (c : Bool) (m : ignoreMatcher) (rel name : GoString) (n : Node)
    (pre post : List (GoString × Node)) :
    walkEntries c m rel (pre ++ (name, n) :: post)
      = thenItems (walkEntries c m rel pre)
          (thenItems (walkNode c m (joinRel rel name) n) (walkEntries c m rel post)) := by
  rw [walkEntries_append]
  simp only [walkEntries]

theorem walkNode_dir (m : ignoreMatcher) (rel : GoString) (es : List (GoString × Node)) :
    walkNode false m rel (.dir es)
      = if m.match_ rel true then .ok [] else walkEntries false m rel es := by
  simp [walkNode]

theorem walkNode_ignored (m : ignoreMatcher) (rel : GoString) (n : Node)
    (h : m.match_ rel n.isDir = true) : walkNode false m rel n = .ok [] := by
  cases n <;> simp_all [walkNode, Node.isDir]

theorem match_dot (m : ignoreMatcher) (isDir : Bool) : m.match_ (str ".") isDir = false := by
  simp [ignoreMatcher.match_]

theorem walkItems_dir (c : Bool) (m : ignoreMatcher) (es : List (GoString × Node)) :
    walkItems c m (some (.dir es))
      = if c then .error .canceled else walkNode false m (str ".") (.dir es) := by
  cases c <;> simp [walkItems, walkNode_dir, match_dot]

/-- An entry for which the callback appends nothing, or which lies beneath an
ignored directory, contributes nothing: the walk of the tree with it equals the
walk of the tree without it. -/
theorem walkNode_plugOut_of_nil (m : ignoreMatcher) (n : Node) :
    ∀ (fs : List Frame) (f : Frame) (rel : GoString),
      (walkNode false m (holeRel rel (f :: fs)) n = .ok [] ∨
        beneathIgnored m rel (f :: fs) = true) →
      walkNode false m rel (plug (f :: fs) n) = walkNode false m rel (plugOut (f :: fs))
  | [], f, rel, h => by
    have hm : walkNode false m (joinRel rel f.name) n = .ok [] := by
      simpa [holeRel, beneathIgnored, ancestorRels] using h
    simp only [plug, plugOut]
    rw [walkNode_dir, walkNode_dir, walkEntries_hole, walkEntries_append, hm, thenItems_nil_left]
  | g :: fs, f, rel, h => by
    simp only [plug, plugOut]
    rw [walkNode_dir, walkNode_dir, walkEntries_hole, walkEntries_hole]
    by_cases hm : m.match_ (joinRel rel f.name) true = true
    · have e1 : walkNode false m (joinRel rel f.name)
          (.dir (g.pre ++ (g.name, plug fs n) :: g.post)) = .ok [] :=
        walkNode_ignored m _ _ (by simpa [Node.isDir] using hm)
      have e2 : walkNode false m (joinRel rel f.name) (plugOut (g :: fs)) = .ok [] := by
        cases fs <;> exact walkNode_ignored m _ _ (by simpa [plugOut, Node.isDir] using hm)
      rw [e1, e2]
    · have h2 : walkNode false m (holeRel (joinRel rel f.name) (g :: fs)) n = .ok [] ∨
          beneathIgnored m (joinRel rel f.name) (g :: fs) = true := by
        rcases h with h | h
        · exact Or.inl (by simpa [holeRel] using h)
        · right
          simp only [beneathIgnored, ancestorRels, List.any_cons, Bool.or_eq_true] at h
          rcases h with h | h
          · exact absurd h hm
          · simpa [beneathIgnored] using h
      have ih := walkNode_plugOut_of_nil m n fs g (joinRel rel f.name) h2
      simp only [plug] at ih
      rw [ih]

/-- An entry that is ignored, or lies beneath an ignored directory, contributes
nothing. -/
theorem walkNode_plugOut (m : ignoreMatcher) (n : Node) (fs : List Frame) (f : Frame)
    (rel : GoString)
    (h : m.match_ (holeRel rel (f :: fs)) n.isDir = true ∨ beneathIgnored m rel (f :: fs) = true) :
    walkNode false m rel (plug (f :: fs) n) = walkNode false m rel (plugOut (f :: fs)) :=
  walkNode_plugOut_of_nil m n fs f rel (h.imp (walkNode_ignored m _ n) id)

/-- In the walk-aware strategy a symbolic link is never part of the fingerprint:
the result of `walkHash` is the same with the link, whatever its target, and
without it. -/
theorem walkHash_symlink_excluded (sha256hex : List Nat → GoString) (c : Bool)
    (m : ignoreMatcher) (f : Frame) (fs : List Frame) (target : GoString) :
    walkHashNode sha256hex c (some (plug (f :: fs) (.symlink target))) m
      = walkHashNode sha256hex c (some (plugOut (f :: fs))) m := by
  have hw : walkItems c m (some (plug (f :: fs) (.symlink target)))
      = walkItems c m (some (plugOut (f :: fs))) := by
    have h1 : plug (f :: fs) (.symlink target)
        = .dir (f.pre ++ (f.name, plug fs (.symlink target)) :: f.post) := rfl
    have h2 : ∃ es, plugOut (f :: fs) = .dir es := by
      cases fs
      · exact ⟨_, rfl⟩
      · exact ⟨_, rfl⟩
    obtain ⟨es, h2⟩ := h2
    have key := walkNode_plugOut_of_nil m (.symlink target) fs f (str ".")
      (Or.inl (by simp [walkNode]))
    rw [h1, walkItems_dir, ← h1, key, h2, walkItems_dir]
  simp only [walkHashNode, hw]

/-- The walk of a tree around an entry that the walk reaches: the items collected
before and after the entry do not depend on what the entry is. -/
theorem walkNode_plug_split (m : ignoreMatcher) (X : Node) :
    ∀ (fs : List Frame) (f : Frame) (rel : GoString) (items : List item),
      beneathIgnored m rel (f :: fs) = false → m.match_ rel true = false →
      walkNode false m rel (plug (f :: fs) X) = .ok items →
      ∃ A B xs, walkNode false m (holeRel rel (f :: fs)) X = .ok xs ∧ items = A ++ xs ++ B ∧
        ∀ Y ys, walkNode false m (holeRel rel (f :: fs)) Y = .ok ys →
          walkNode false m rel (plug (f :: fs) Y) = .ok (A ++ ys ++ B)
  | [], f, rel, items, _, hrel, hw => by
    simp only [plug] at hw
    rw [walkNode_dir, hrel, walkEntries_hole] at hw
    simp only [Bool.false_eq_true, if_false] at hw
    obtain ⟨a, r, ha, hr, rfl⟩ := thenItems_eq_ok hw
    obtain ⟨xs, b, hx, hb, rfl⟩ := thenItems_eq_ok hr
    refine ⟨a, b, xs, hx, by simp, ?_⟩
    intro Y ys hY
    simp only [plug]
    rw [walkNode_dir, hrel, walkEntries_hole]
    simp only [Bool.false_eq_true, if_false]
    simp only [holeRel] at hY
    rw [ha, hY, hb]
    simp [thenItems]
  | g :: fs, f, rel, items, hb, hrel, hw => by
    simp only [beneathIgnored, ancestorRels, List.any_cons, Bool.or_eq_false_iff] at hb
    obtain ⟨hrel2, hb2⟩ := hb
    simp only [plug] at hw
    rw [walkNode_dir, hrel, walkEntries_hole] at hw
    simp only [Bool.false_eq_true, if_false] at hw
    obtain ⟨a, r, ha, hr, rfl⟩ := thenItems_eq_ok hw
    obtain ⟨p, b, hp, hbb, rfl⟩ := thenItems_eq_ok hr
    obtain ⟨A, B, xs, hx, hpe, hY⟩ :=
      walkNode_plug_split m X fs g (joinRel rel f.name) p
        (by simpa [beneathIgnored] using hb2) hrel2 (by simpa [plug] using hp)
    refine ⟨a ++ A, B ++ b, xs, by simpa [holeRel] using hx, by simp [hpe], ?_⟩
    intro Y ys hYs
    have h2 := hY Y ys (by simpa [holeRel] using hYs)
    simp only [plug] at h2 ⊢
    rw [walkNode_dir, hrel, walkEntries_hole]
    simp only [Bool.false_eq_true, if_false]
    rw [ha, h2, hbb]
    simp [thenItems]

/-! ## The byte stream of items that differ in one content only -/

theorem orderedInsert_sameShape {a b : item} (hab : sameShape a b) :
    ∀ {l l2 : List item}, List.Forall₂ sameShape l l2 →
      List.Forall₂ sameShape (l.orderedInsert pathLe a) (l2.orderedInsert pathLe b)
  | [], _, h => by
    cases h
    exact List.Forall₂.cons hab List.Forall₂.nil
  | x :: xs, _, h => by
    cases h with
    | cons hxy hrest =>
      rename_i y ys
      simp only [List.orderedInsert]
      have hiff : pathLe a x ↔ pathLe b y := by
        unfold pathLe
        rw [hab.1, hxy.1]
      by_cases hc : pathLe a x
      · rw [if_pos hc, if_pos (hiff.mp hc)]
        exact List.Forall₂.cons hab (List.Forall₂.cons hxy hrest)
      · rw [if_neg hc, if_neg (fun h => hc (hiff.mpr h))]
        exact List.Forall₂.cons hxy (orderedInsert_sameShape hab hrest)

theorem sortItems_sameShape : ∀ {l l2 : List item}, List.Forall₂ sameShape l l2 →
    List.Forall₂ sameShape (sortItems l) (sortItems l2)
  | [], _, h => by
    cases h
    exact List.Forall₂.nil
  | _ :: xs, _, h => by
    cases h with
    | cons hxy hrest =>
      simp only [sortItems_eq, List.insertionSort]
      exact orderedInsert_sameShape hxy (sortItems_sameShape hrest)

theorem encodeItem_append_inj {a b : item} (hab : sameShape a b) {s t : List Nat}
    (h : encodeItem a ++ s = encodeItem b ++ t) : a = b ∧ s = t := by
  obtain ⟨hp, hm, hl⟩ := hab
  cases a with
  | mk pa ma da =>
    cases b with
    | mk pb mb db =>
      simp only at hp hm hl
      subst hp
      subst hm
      simp only [encodeItem, List.append_assoc, List.cons_append, List.append_cancel_left_eq,
        List.cons.injEq, true_and, List.nil_append] at h
      have h2 := List.append_inj h hl
      simp only [List.cons.injEq, true_and] at h2
      exact ⟨by rw [h2.1], h2.2⟩

theorem foldItems_inj_of_sameShape : ∀ {l l2 : List item}, List.Forall₂ sameShape l l2 →
    foldItems l = foldItems l2 → l = l2
  | [], _, h, _ => by
    cases h
    rfl
  | _ :: _, _, h, he => by
    cases h with
    | cons hxy hrest =>
      simp only [foldItems, List.map_cons, List.flatten_cons] at he
      obtain ⟨h1, h2⟩ := encodeItem_append_inj hxy he
      rw [h1, foldItems_inj_of_sameShape hrest h2]

theorem forall₂_sameShape_refl : ∀ l : List item, List.Forall₂ sameShape l l
  | [] => List.Forall₂.nil
  | _ :: xs => List.Forall₂.cons ⟨rfl, rfl, rfl⟩ (forall₂_sameShape_refl xs)

theorem set_ne_self (d : List Nat) (i b : Nat) (hi : i < d.length)
    (hne : d.get ⟨i, hi⟩ ≠ b) : d ≠ d.set i b := by
  intro hd
  have hg : (d.set i b)[i]? = some b := by simp [hi]
  rw [← hd] at hg
  have hgd : d[i]? = some (d.get ⟨i, hi⟩) := by simp
  rw [hgd] at hg
  exact hne (by simpa using hg)

/-- Replacing the content of one item by a different content of the same length
changes the byte stream. -/
theorem hashStream_ne_of_data_ne (A B : List item) (a b : item) (hab : sameShape a b)
    (hne : a ≠ b) : hashStream (A ++ a :: B) ≠ hashStream (A ++ b :: B) := by
  intro h
  have hshape : List.Forall₂ sameShape (A ++ a :: B) (A ++ b :: B) :=
    List.rel_append (forall₂_sameShape_refl A)
      (List.Forall₂.cons hab (forall₂_sameShape_refl B))
  have hs : sortItems (A ++ a :: B) = sortItems (A ++ b :: B) :=
    foldItems_inj_of_sameShape (sortItems_sameShape hshape) h
  have hperm : (A ++ a :: B).Perm (A ++ b :: B) :=
    (sortItems_perm _).symm.trans (hs ▸ sortItems_perm _)
  have hc := hperm.count_eq a
  simp only [List.count_append, List.count_cons, beq_self_eq_true, if_true] at hc
  have : (b == a) = false := by simpa using fun h2 : b = a => hne h2.symm
  rw [this] at hc
  simp at hc


/-! ## Fingerprint of the walk-aware strategy: order, content, ignored entries -/

/-- C4 (fingerprint determinism). For items with pairwise distinct relative paths
(a set of files), the byte stream that `walkHash` feeds to the digest, and hence the
fingerprint, is the same for every order in which the walk collected the items:
it is invariant under every permutation of the collected items, so two walks that
collect the same files in different orders make `walkHash` return the same value. -/
theorem walkHash_order_invariant (sha256hex : List Nat → GoString) (items items2 : List item)
    (hn : (items.map item.path).Nodup) (hp : items2.Perm items) :
    hashStream items2 = hashStream items ∧
      hashItems sha256hex items2 = hashItems sha256hex items ∧
      ∀ (c : Bool) (m : ignoreMatcher) (root root2 : Option Node),
        walkItems c m root = .ok items → walkItems c m root2 = .ok items2 →
        walkHashNode sha256hex c root2 m = walkHashNode sha256hex c root m := by
  have hs : sortItems items2 = sortItems items :=
    sortItems_unique items (sortItems items2) hn ((sortItems_perm items2).trans hp)
      (sortItems_sorted items2)
  have hh : hashItems sha256hex items2 = hashItems sha256hex items := by
    rw [hashItems, hashStream, hs, hashItems, hashStream]
  refine ⟨by rw [hashStream, hs, hashStream], hh, ?_⟩
  intro c m root root2 h1 h2
  simp only [walkHashNode, h1, h2, hh]

/-- Witness of C4: two files collected in either order. -/
theorem walkHash_order_invariant_witness :
    hashStream [⟨str "b", 420, [1]⟩, ⟨str "a", 493, [2]⟩]
        = hashStream [⟨str "a", 493, [2]⟩, ⟨str "b", 420, [1]⟩] ∧
      hashItems hexEncode [⟨str "b", 420, [1]⟩, ⟨str "a", 493, [2]⟩]
        = hashItems hexEncode [⟨str "a", 493, [2]⟩, ⟨str "b", 420, [1]⟩] ∧
      ∀ (c : Bool) (m : ignoreMatcher) (root root2 : Option Node),
        walkItems c m root = .ok [⟨str "a", 493, [2]⟩, ⟨str "b", 420, [1]⟩] →
        walkItems c m root2 = .ok [⟨str "b", 420, [1]⟩, ⟨str "a", 493, [2]⟩] →
        walkHashNode hexEncode c root2 m = walkHashNode hexEncode c root m :=
  walkHash_order_invariant hexEncode [⟨str "a", 493, [2]⟩, ⟨str "b", 420, [1]⟩]
    [⟨str "b", 420, [1]⟩, ⟨str "a", 493, [2]⟩] (by decide) (List.Perm.swap _ _ _)

/-- C5 (one changed byte changes the fingerprint). Take a job directory and a
regular, readable file in it that the walk reaches: it is not ignored and no
directory above it is ignored. Replacing one byte of its content by a different
byte leaves the walk successful and changes the byte stream fed to the digest,
hence the fingerprint under every collision-free digest. -/
theorem walkHash_one_byte_change (c : Bool) (m : ignoreMatcher) (f : Frame) (fs : List Frame)
    (mode : Nat) (d : List Nat) (i b : Nat) (items : List item)
    (hb : beneathIgnored m (str ".") (f :: fs) = false)
    (hm : m.match_ (holeRel (str ".") (f :: fs)) false = false)
    (hr : FileMode.IsRegular mode = true)
    (hi : i < d.length) (hne : d.get ⟨i, hi⟩ ≠ b)
    (hw : walkItems c m (some (plug (f :: fs) (.file mode (some d)))) = .ok items) :
    ∃ items2, walkItems c m (some (plug (f :: fs) (.file mode (some (d.set i b))))) = .ok items2 ∧
      hashStream items ≠ hashStream items2 ∧
      ∀ sha256hex : List Nat → GoString, Function.Injective sha256hex →
        hashItems sha256hex items ≠ hashItems sha256hex items2 := by
  have hplug : ∀ X, plug (f :: fs) X = .dir (f.pre ++ (f.name, plug fs X) :: f.post) :=
    fun _ => rfl
  rw [hplug, walkItems_dir] at hw
  cases c with
  | true => simp at hw
  | false =>
    simp only [Bool.false_eq_true, if_false] at hw
    rw [← hplug] at hw
    obtain ⟨A, B, xs, hx, hitems, hY⟩ :=
      walkNode_plug_split m (.file mode (some d)) fs f (str ".") items hb (match_dot m true) hw
    have hx1 : xs = [⟨holeRel (str ".") (f :: fs), mode, d⟩] := by
      simp [walkNode, hm, hr] at hx
      exact hx.symm
    have h2 := hY (.file mode (some (d.set i b))) [⟨holeRel (str ".") (f :: fs), mode, d.set i b⟩]
      (by simp [walkNode, hm, hr])
    refine ⟨A ++ [⟨holeRel (str ".") (f :: fs), mode, d.set i b⟩] ++ B, ?_, ?_, ?_⟩
    · rw [hplug, walkItems_dir]
      simp only [Bool.false_eq_true, if_false]
      rw [← hplug]
      exact h2
    · rw [hitems, hx1]
      simp only [List.append_assoc, List.singleton_append]
      refine hashStream_ne_of_data_ne A B _ _ ⟨rfl, rfl, by simp⟩ ?_
      intro he
      exact set_ne_self d i b hi hne (by simpa using he)
    · intro sha256hex hinj he
      have hstream : hashStream items ≠
          hashStream (A ++ [⟨holeRel (str ".") (f :: fs), mode, d.set i b⟩] ++ B) := by
        rw [hitems, hx1]
        simp only [List.append_assoc, List.singleton_append]
        refine hashStream_ne_of_data_ne A B _ _ ⟨rfl, rfl, by simp⟩ ?_
        intro he2
        exact set_ne_self d i b hi hne (by simpa using he2)
      exact hstream (hinj he)

/-- Witness of C5: the first byte of the only file of a job directory changes. -/
theorem walkHash_one_byte_change_witness :
    ∃ items2, walkItems false { rules := [] }
        (some (plug [{ pre := [], name := str "a", post := [] }]
          (.file 420 (some ([1, 2].set 0 9))))) = .ok items2 ∧
      hashStream [{ path := str "a", mode := 420, data := [1, 2] }] ≠ hashStream items2 ∧
      ∀ sha256hex : List Nat → GoString, Function.Injective sha256hex →
        hashItems sha256hex [{ path := str "a", mode := 420, data := [1, 2] }]
          ≠ hashItems sha256hex items2 :=
  walkHash_one_byte_change false { rules := [] } { pre := [], name := str "a", post := [] } []
    420 [1, 2] 0 9 [{ path := str "a", mode := 420, data := [1, 2] }]
    (by decide) (by decide) (by decide) (by decide) (by decide) rfl

/-- C6 (ignored entries do not count). For every compiled matcher and every job
directory, an entry (file or whole subtree) that the matcher reports as ignored,
or that lies beneath a directory the matcher reports as ignored, can be added or
removed without changing the result of `walkHash`. -/
theorem walkHash_ignored_entry (sha256hex : List Nat → GoString) (c : Bool) (m : ignoreMatcher)
    (f : Frame) (fs : List Frame) (n : Node)
    (h : m.match_ (holeRel (str ".") (f :: fs)) n.isDir = true ∨
      beneathIgnored m (str ".") (f :: fs) = true) :
    walkHashNode sha256hex c (some (plug (f :: fs) n)) m
      = walkHashNode sha256hex c (some (plugOut (f :: fs))) m := by
  have hw : walkItems c m (some (plug (f :: fs) n)) = walkItems c m (some (plugOut (f :: fs))) := by
    have h1 : plug (f :: fs) n = .dir (f.pre ++ (f.name, plug fs n) :: f.post) := rfl
    have h2 : ∃ es, plugOut (f :: fs) = .dir es := by
      cases fs
      · exact ⟨_, rfl⟩
      · exact ⟨_, rfl⟩
    obtain ⟨es, h2⟩ := h2
    have key := walkNode_plugOut m n fs f (str ".") h
    rw [h1, walkItems_dir, ← h1, key, h2, walkItems_dir]
  simp only [walkHashNode, hw]

/-- Witness of C6: the cache-state directory, ignored by the built-in rule, is
added to a job directory that holds one file. -/
theorem walkHash_ignored_entry_witness :
    walkHashNode hexEncode false
        (some (plug [{ pre := [], name := str ".cronctl", post := [(str "run.sh", .file 493 (some [35]))] }]
          (.dir [(str "filehash", .file 420 (some (str "0a1f\n")))])))
        (compileIgnore quietEnv [str ".cronctl/"])
      = walkHashNode hexEncode false
        (some (plugOut [{ pre := [], name := str ".cronctl", post := [(str "run.sh", .file 493 (some [35]))] }]))
        (compileIgnore quietEnv [str ".cronctl/"]) :=
  walkHash_ignored_entry hexEncode false (compileIgnore quietEnv [str ".cronctl/"])
    { pre := [], name := str ".cronctl", post := [(str "run.sh", .file 493 (some [35]))] } []
    (.dir [(str "filehash", .file 420 (some (str "0a1f\n")))]) (Or.inl (by decide))

/-! ## The filesystem operations -/

theorem lookupEntry_setEntry (a b : GoString) (n : Node) :
    ∀ es : List (GoString × Node),
      lookupEntry a (setEntry b n es) = if a = b then some n else lookupEntry a es
  | [] => by
    by_cases h : a = b
    · simp [setEntry, lookupEntry, h]
    · simp [setEntry, lookupEntry, h, Ne.symm h]
  | (k, v) :: es => by
    have ih := lookupEntry_setEntry a b n es
    simp only [setEntry]
    by_cases hk : k = b
    · subst hk
      by_cases h : a = k
      · simp [lookupEntry, h]
      · simp [lookupEntry, h, Ne.symm h]
    · simp only [hk, if_false]
      by_cases hl : strLess b k = true
      · simp only [hl, if_true]
        by_cases h : a = b
        · simp [lookupEntry, h]
        · simp [lookupEntry, h, Ne.symm h]
      · simp only [hl]
        by_cases h : a = b
        · subst h
          simp only [lookupEntry, hk, if_false, ih, if_true, Bool.false_eq_true]
        · simp only [lookupEntry, ih, h, if_false, Bool.false_eq_true]

theorem lookupEntry_eraseEntry (a b : GoString) :
    ∀ es : List (GoString × Node),
      lookupEntry a (eraseEntry b es) = if a = b then none else lookupEntry a es
  | [] => by simp [eraseEntry, lookupEntry]
  | (k, v) :: es => by
    have ih := lookupEntry_eraseEntry a b es
    simp only [eraseEntry]
    by_cases hk : k = b
    · subst hk
      simp only [if_true, ih]
      by_cases h : a = k
      · simp [h]
      · simp [lookupEntry, h, Ne.symm h]
    · simp only [hk, if_false, lookupEntry, ih]
      by_cases h : a = b
      · subst h
        simp [hk]
      · simp [h]

theorem find_nil (n : Node) : n.find [] = some n := by
  cases n <;> rfl

theorem find_cons_dir (es : List (GoString × Node)) (c : GoString) (cs : List GoString) :
    (Node.dir es).find (c :: cs) = (lookupEntry c es).bind fun child => child.find cs := by
  simp only [Node.find]
  cases lookupEntry c es <;> rfl

theorem find_cons_isDir {n : Node} {c : GoString} {cs : List GoString} {r : Node}
    (h : n.find (c :: cs) = some r) : n.isDir = true := by
  cases n <;> simp_all [Node.find, Node.isDir]

theorem find_put_same : ∀ (p : List GoString) (fs new fs2 : Node),
    fs.put p new = some fs2 → fs2.find p = some new
  | [], fs, new, fs2, h => by cases fs <;> simp [Node.put] at h
  | [c], fs, new, fs2, h => by
    cases fs with
    | dir es =>
      simp only [Node.put, Option.some.injEq] at h
      subst h
      rw [find_cons_dir, lookupEntry_setEntry]
      simp [find_nil]
    | file _ _ => simp [Node.put] at h
    | symlink _ => simp [Node.put] at h
  | c :: d :: cs, fs, new, fs2, h => by
    cases fs with
    | dir es =>
      simp only [Node.put] at h
      cases hl : lookupEntry c es with
      | none => simp [hl] at h
      | some child =>
        simp only [hl] at h
        cases hp : child.put (d :: cs) new with
        | none => simp [hp] at h
        | some child2 =>
          simp only [hp, Option.some.injEq] at h
          subst h
          rw [find_cons_dir, lookupEntry_setEntry]
          simp only [if_true, Option.some_bind]
          exact find_put_same (d :: cs) child new child2 hp
    | file _ _ => simp [Node.put] at h
    | symlink _ => simp [Node.put] at h

/-- Putting an entry where no directory stands leaves every other file or link
where it is. -/
theorem find_put_other : ∀ (p : List GoString) (fs new fs2 : Node) (q : List GoString) (n : Node),
    fs.put p new = some fs2 → (∀ r, fs.find p = some r → r.isDir = false) → q ≠ p →
    fs.find q = some n → n.isDir = false → fs2.find q = some n
  | [], fs, new, fs2, _, _, h, _, _, _, _ => by cases fs <;> simp [Node.put] at h
  | [c], fs, new, fs2, q, n, h, hp, hq, hf, hn => by
    cases fs with
    | dir es =>
      simp only [Node.put, Option.some.injEq] at h
      subst h
      cases q with
      | nil =>
        simp only [find_nil, Option.some.injEq] at hf
        subst hf
        simp [Node.isDir] at hn
      | cons q0 qs =>
        rw [find_cons_dir] at hf ⊢
        rw [lookupEntry_setEntry]
        by_cases h0 : q0 = c
        · subst h0
          cases hl : lookupEntry q0 es with
          | none => simp [hl] at hf
          | some child =>
            simp only [hl, Option.some_bind] at hf
            cases qs with
            | nil => exact absurd rfl hq
            | cons q1 qs2 =>
              have hd := find_cons_isDir hf
              have := hp child (by rw [find_cons_dir, hl]; simp [find_nil])
              rw [this] at hd
              exact Bool.noConfusion hd
        · simpa [h0] using hf
    | file _ _ => simp [Node.put] at h
    | symlink _ => simp [Node.put] at h
  | c :: d :: cs, fs, new, fs2, q, n, h, hp, hq, hf, hn => by
    cases fs with
    | dir es =>
      simp only [Node.put] at h
      cases hl : lookupEntry c es with
      | none => simp [hl] at h
      | some child =>
        simp only [hl] at h
        cases hpc : child.put (d :: cs) new with
        | none => simp [hpc] at h
        | some child2 =>
          simp only [hpc, Option.some.injEq] at h
          subst h
          cases q with
          | nil =>
            simp only [find_nil, Option.some.injEq] at hf
            subst hf
            simp [Node.isDir] at hn
          | cons q0 qs =>
            rw [find_cons_dir] at hf ⊢
            rw [lookupEntry_setEntry]
            by_cases h0 : q0 = c
            · subst h0
              simp only [hl, Option.some_bind] at hf
              simp only [if_true, Option.some_bind]
              refine find_put_other (d :: cs) child new child2 qs n hpc ?_ ?_ hf hn
              · intro r hr
                exact hp r (by rw [find_cons_dir, hl]; simpa using hr)
              · intro he
                exact hq (by rw [he])
            · simpa [h0] using hf
    | file _ _ => simp [Node.put] at h
    | symlink _ => simp [Node.put] at h

theorem find_del_same : ∀ (p : List GoString) (fs fs2 : Node),
    fs.del p = some fs2 → fs2.find p = none
  | [], fs, fs2, h => by cases fs <;> simp [Node.del] at h
  | [c], fs, fs2, h => by
    cases fs with
    | dir es =>
      simp only [Node.del] at h
      cases hl : lookupEntry c es with
      | none => simp [hl] at h
      | some child =>
        simp only [hl, Option.some.injEq] at h
        subst h
        rw [find_cons_dir, lookupEntry_eraseEntry]
        simp
    | file _ _ => simp [Node.del] at h
    | symlink _ => simp [Node.del] at h
  | c :: d :: cs, fs, fs2, h => by
    cases fs with
    | dir es =>
      simp only [Node.del] at h
      cases hl : lookupEntry c es with
      | none => simp [hl] at h
      | some child =>
        simp only [hl] at h
        cases hp : child.del (d :: cs) with
        | none => simp [hp] at h
        | some child2 =>
          simp only [hp, Option.some.injEq] at h
          subst h
          rw [find_cons_dir, lookupEntry_setEntry]
          simp only [if_true, Option.some_bind]
          exact find_del_same (d :: cs) child child2 hp
    | file _ _ => simp [Node.del] at h
    | symlink _ => simp [Node.del] at h

/-- Removing an entry that is not a directory leaves every other file or link
where it is. -/
theorem find_del_other : ∀ (p : List GoString) (fs fs2 : Node) (q : List GoString) (n : Node),
    fs.del p = some fs2 → (∀ r, fs.find p = some r → r.isDir = false) → q ≠ p →
    fs.find q = some n → n.isDir = false → fs2.find q = some n
  | [], fs, fs2, _, _, h, _, _, _, _ => by cases fs <;> simp [Node.del] at h
  | [c], fs, fs2, q, n, h, hp, hq, hf, hn => by
    cases fs with
    | dir es =>
      simp only [Node.del] at h
      cases hl : lookupEntry c es with
      | none => simp [hl] at h
      | some child =>
        simp only [hl, Option.some.injEq] at h
        subst h
        cases q with
        | nil =>
          simp only [find_nil, Option.some.injEq] at hf
          subst hf
          simp [Node.isDir] at hn
        | cons q0 qs =>
          rw [find_cons_dir] at hf ⊢
          rw [lookupEntry_eraseEntry]
          by_cases h0 : q0 = c
          · subst h0
            simp only [hl, Option.some_bind] at hf
            cases qs with
            | nil => exact absurd rfl hq
            | cons q1 qs2 =>
              have hd := find_cons_isDir hf
              have := hp child (by rw [find_cons_dir, hl]; simp [find_nil])
              rw [this] at hd
              exact Bool.noConfusion hd
          · simpa [h0] using hf
    | file _ _ => simp [Node.del] at h
    | symlink _ => simp [Node.del] at h
  | c :: d :: cs, fs, fs2, q, n, h, hp, hq, hf, hn => by
    cases fs with
    | dir es =>
      simp only [Node.del] at h
      cases hl : lookupEntry c es with
      | none => simp [hl] at h
      | some child =>
        simp only [hl] at h
        cases hpc : child.del (d :: cs) with
        | none => simp [hpc] at h
        | some child2 =>
          simp only [hpc, Option.some.injEq] at h
          subst h
          cases q with
          | nil =>
            simp only [find_nil, Option.some.injEq] at hf
            subst hf
            simp [Node.isDir] at hn
          | cons q0 qs =>
            rw [find_cons_dir] at hf ⊢
            rw [lookupEntry_setEntry]
            by_cases h0 : q0 = c
            · subst h0
              simp only [hl, Option.some_bind] at hf
              simp only [if_true, Option.some_bind]
              refine find_del_other (d :: cs) child child2 qs n hpc ?_ ?_ hf hn
              · intro r hr
                exact hp r (by rw [find_cons_dir, hl]; simpa using hr)
              · intro he
                exact hq (by rw [he])
            · simpa [h0] using hf
    | file _ _ => simp [Node.del] at h
    | symlink _ => simp [Node.del] at h

theorem del_of_find : ∀ (p : List GoString) (fs r : Node), p ≠ [] →
    fs.find p = some r → ∃ fs2, fs.del p = some fs2
  | [], _, _, hp, _ => absurd rfl hp
  | [c], fs, r, _, h => by
    cases fs with
    | dir es =>
      rw [find_cons_dir] at h
      cases hl : lookupEntry c es with
      | none => simp [hl] at h
      | some child => exact ⟨.dir (eraseEntry c es), by simp [Node.del, hl]⟩
    | file _ _ => simp [Node.find] at h
    | symlink _ => simp [Node.find] at h
  | c :: d :: cs, fs, r, _, h => by
    cases fs with
    | dir es =>
      rw [find_cons_dir] at h
      cases hl : lookupEntry c es with
      | none => simp [hl] at h
      | some child =>
        simp only [hl, Option.some_bind] at h
        obtain ⟨c2, hc2⟩ := del_of_find (d :: cs) child r (by simp) h
        exact ⟨.dir (setEntry c c2 es), by simp [Node.del, hl, hc2]⟩
    | file _ _ => simp [Node.find] at h
    | symlink _ => simp [Node.find] at h

/-- Creating directories leaves every file or link where it is. -/
theorem find_mkdirAll : ∀ (p : List GoString) (fs fs1 : Node) (q : List GoString) (n : Node),
    fs.mkdirAll p = some fs1 → fs.find q = some n → n.isDir = false → fs1.find q = some n
  | [], fs, fs1, q, n, h, hf, _ => by
    cases fs with
    | dir es =>
      simp only [Node.mkdirAll, Option.some.injEq] at h
      subst h
      exact hf
    | file _ _ => simp [Node.mkdirAll] at h
    | symlink _ => simp [Node.mkdirAll] at h
  | c :: cs, fs, fs1, q, n, h, hf, hn => by
    cases fs with
    | dir es =>
      cases q with
      | nil =>
        simp only [find_nil, Option.some.injEq] at hf
        subst hf
        simp [Node.isDir] at hn
      | cons q0 qs =>
        simp only [Node.mkdirAll] at h
        rw [find_cons_dir] at hf
        cases hl : lookupEntry c es with
        | none =>
          simp only [hl] at h
          cases hm : (Node.dir []).mkdirAll cs with
          | none => simp [hm] at h
          | some child2 =>
            simp only [hm, Option.some.injEq] at h
            subst h
            rw [find_cons_dir, lookupEntry_setEntry]
            by_cases h0 : q0 = c
            · subst h0
              simp [hl] at hf
            · simpa [h0] using hf
        | some child =>
          simp only [hl] at h
          cases hm : child.mkdirAll cs with
          | none => simp [hm] at h
          | some child2 =>
            simp only [hm, Option.some.injEq] at h
            subst h
            rw [find_cons_dir, lookupEntry_setEntry]
            by_cases h0 : q0 = c
            · subst h0
              simp only [hl, Option.some_bind] at hf
              simp only [if_true, Option.some_bind]
              exact find_mkdirAll cs child child2 qs n hm hf hn
            · simpa [h0] using hf
    | file _ _ => simp [Node.mkdirAll] at h
    | symlink _ => simp [Node.mkdirAll] at h

/-- Creating directories creates no link. -/
theorem find_mkdirAll_link : ∀ (p : List GoString) (fs fs1 : Node) (q : List GoString)
    (t : GoString), fs.mkdirAll p = some fs1 → fs1.find q = some (.symlink t) →
      fs.find q = some (.symlink t)
  | [], fs, fs1, q, t, h, hf => by
    cases fs with
    | dir es =>
      simp only [Node.mkdirAll, Option.some.injEq] at h
      subst h
      exact hf
    | file _ _ => simp [Node.mkdirAll] at h
    | symlink _ => simp [Node.mkdirAll] at h
  | c :: cs, fs, fs1, q, t, h, hf => by
    cases fs with
    | dir es =>
      simp only [Node.mkdirAll] at h
      cases hl : lookupEntry c es with
      | none =>
        simp only [hl] at h
        cases hm : (Node.dir []).mkdirAll cs with
        | none => simp [hm] at h
        | some child2 =>
          simp only [hm, Option.some.injEq] at h
          subst h
          cases q with
          | nil => simp [find_nil] at hf
          | cons q0 qs =>
            rw [find_cons_dir, lookupEntry_setEntry] at hf
            rw [find_cons_dir]
            by_cases h0 : q0 = c
            · subst h0
              simp only [if_true, Option.some_bind] at hf
              have h2 := find_mkdirAll_link cs (.dir []) child2 qs t hm hf
              cases qs with
              | nil => simp [find_nil] at h2
              | cons a as => simp [find_cons_dir, lookupEntry] at h2
            · simpa [h0] using hf
      | some child =>
        simp only [hl] at h
        cases hm : child.mkdirAll cs with
        | none => simp [hm] at h
        | some child2 =>
          simp only [hm, Option.some.injEq] at h
          subst h
          cases q with
          | nil => simp [find_nil] at hf
          | cons q0 qs =>
            rw [find_cons_dir, lookupEntry_setEntry] at hf
            rw [find_cons_dir]
            by_cases h0 : q0 = c
            · subst h0
              simp only [if_true, Option.some_bind] at hf
              simp only [hl, Option.some_bind]
              exact find_mkdirAll_link cs child child2 qs t hm hf
            · simpa [h0] using hf
    | file _ _ => simp [Node.mkdirAll] at h
    | symlink _ => simp [Node.mkdirAll] at h

/-- The directories `os.MkdirAll` creates put no link where none was. -/
theorem MkdirAll_no_link (cwd : GoString) (fs fs1 : Node) (dir path : GoString)
    (h : MkdirAll cwd fs dir = some fs1)
    (hnl : ∀ t, Lstat cwd fs path ≠ some (.symlink t)) :
    ∀ t, Lstat cwd fs1 path ≠ some (.symlink t) :=
  fun t ht => hnl t (find_mkdirAll_link _ fs fs1 _ t h ht)

/-! ## The temporary file is a sibling of the state file -/

theorem splitOn_no_sep (sep : Nat) : ∀ t : GoString, sep ∉ t → splitOn sep t = [t]
  | [], _ => rfl
  | c :: cs, h => by
    have hc : c ≠ sep := fun e => h (by simp [e])
    have ih := splitOn_no_sep sep cs (fun hm => h (List.mem_cons_of_mem _ hm))
    simp [splitOn, hc, ih]

theorem splitOn_append (sep : Nat) (t : GoString) (ht : sep ∉ t) :
    ∀ s : GoString, ∃ init l, splitOn sep s = init ++ [l] ∧ splitOn sep (s ++ t) = init ++ [l ++ t]
  | [] => ⟨[], [], rfl, by simpa using splitOn_no_sep sep t ht⟩
  | c :: cs => by
    obtain ⟨init, l, h1, h2⟩ := splitOn_append sep t ht cs
    by_cases hc : c = sep
    · exact ⟨[] :: init, l, by simp [splitOn, hc, h1], by simp [splitOn, hc, h2]⟩
    · cases init with
      | nil =>
        refine ⟨[], c :: l, ?_, ?_⟩
        · simp only [splitOn, hc, if_false, h1, List.nil_append]
        · simp only [List.cons_append, splitOn, hc, if_false, List.append_eq, h2, List.nil_append]
      | cons i is =>
        refine ⟨(c :: i) :: is, l, ?_, ?_⟩
        · simp only [splitOn, hc, if_false, h1, List.cons_append]
        · simp only [List.cons_append, splitOn, hc, if_false, List.append_eq, h2]

theorem cleanElems_append (rooted : Bool) : ∀ (xs ys acc : List GoString),
    cleanElems rooted acc (xs ++ ys) = cleanElems rooted (cleanElems rooted acc xs) ys
  | [], _, _ => rfl
  | c :: cs, ys, acc => by
    have ih := fun a => cleanElems_append rooted cs ys a
    show cleanElems rooted acc (c :: (cs ++ ys)) = _
    simp only [cleanElems]
    by_cases h1 : c = [] ∨ c = str "."
    · simp only [h1, if_true]
      exact ih _
    · simp only [h1, if_false]
      by_cases h2 : c = str ".."
      · simp only [h2, if_true]
        cases hg : acc.getLast? with
        | none => cases rooted <;> simp [ih]
        | some l => by_cases h3 : l = str ".." <;> simp [h3, ih]
      · simp only [h2, if_false]
        exact ih _

theorem isAbs_append_tmp (path : GoString) : IsAbs (path ++ str ".tmp") = IsAbs path := by
  cases path with
  | nil => decide
  | cons c cs => rfl

/-- The temporary file of `WriteHash` is an entry of its own: its name ends in
`.tmp` and it is addressed differently from the state file, for every path. -/
theorem fsPath_tmp (cwd path : GoString) :
    ∃ X l, fsPath cwd (path ++ str ".tmp") = X ++ [l ++ str ".tmp"] ∧
      fsPath cwd path ≠ fsPath cwd (path ++ str ".tmp") := by
  obtain ⟨init, l, h1, h2⟩ := splitOn_append 47 (str ".tmp") (by decide) path
  have hne1 : l ++ str ".tmp" ≠ [] := by simp [str]
  have hlen : (l ++ str ".tmp").length = l.length + 4 := by simp [str]
  have hne2 : l ++ str ".tmp" ≠ str "." := fun h => by
    have := congrArg List.length h
    rw [hlen] at this
    simp [str] at this
  have hne3 : l ++ str ".tmp" ≠ str ".." := fun h => by
    have := congrArg List.length h
    rw [hlen] at this
    simp [str] at this
  have htmp : fsPath cwd (path ++ str ".tmp")
      = cleanElems true [] ((if IsAbs path then [] else splitOn 47 cwd) ++ init)
          ++ [l ++ str ".tmp"] := by
    rw [fsPath, isAbs_append_tmp, h2, ← List.append_assoc, cleanElems_append]
    simp [cleanElems, hne1, hne2, hne3]
  have hpath : fsPath cwd path
      = cleanElems true (cleanElems true [] ((if IsAbs path then [] else splitOn 47 cwd) ++ init))
          [l] := by
    rw [fsPath, h1, ← List.append_assoc, cleanElems_append]
  refine ⟨_, l, htmp, ?_⟩
  rw [htmp, hpath]
  generalize cleanElems true [] ((if IsAbs path then [] else splitOn 47 cwd) ++ init) = X
  intro he
  have hl := congrArg List.length he
  simp only [cleanElems] at he hl
  split_ifs at he hl with ha hb
  · simp at hl
  · cases hX : X.getLast? with
    | none =>
      simp only [hX, if_true] at hl
      simp at hl
    | some g =>
      simp only [hX] at he hl
      split_ifs at he hl
      · have := List.append_cancel_left he
        simp only [List.cons.injEq, and_true] at this
        have h4 := congrArg List.length this
        rw [hlen] at h4
        omega
      · simp at hl
  · have := List.append_cancel_left he
    simp only [List.cons.injEq, and_true] at this
    have h4 := congrArg List.length this
    rw [hlen] at h4
    omega

/-! ## `state.go`: atomic write and round trip -/

theorem ReadFile_of_find (cwd : GoString) (fs : Node) (path : GoString) (mode : Nat)
    (d : List Nat) (h : fs.find (fsPath cwd path) = some (.file mode (some d))) :
    ReadFile cwd fs path = .ok d := by
  simp [ReadFile, Stat, statAt, maxLinks, h]

theorem followLinks_plain (fs : Node) (fuel : Nat) (comps : List GoString)
    (h : ∀ t, fs.find comps ≠ some (.symlink t)) :
    followLinks fs (fuel + 1) comps = some comps := by
  unfold followLinks
  split
  · next target heq => exact absurd heq (h target)
  · rfl

/-- Where no link stands at `path`, `os.WriteFile` writes the entry at `path`. -/
theorem WriteFile_plain (cwd : GoString) (fs : Node) (path : GoString) (d : List Nat)
    (hnl : ∀ t, Lstat cwd fs path ≠ some (.symlink t)) :
    WriteFile cwd fs path d = writeAt fs (fsPath cwd path) d := by
  unfold WriteFile
  rw [followLinks_plain fs maxLinks _ hnl]

theorem linkAt_false (cwd : GoString) (fs : Node) (path : GoString)
    (h : linkAt cwd fs path = false) : ∀ t, Lstat cwd fs path ≠ some (.symlink t) := by
  intro t ht
  simp [linkAt, ht] at h

theorem WriteFile_find (cwd : GoString) (fs s : Node) (tmp : GoString) (d : List Nat)
    (hnl : ∀ t, Lstat cwd fs tmp ≠ some (.symlink t))
    (h : WriteFile cwd fs tmp d = some s) :
    (∃ m, s.find (fsPath cwd tmp) = some (.file m (some d))) ∧
      ∀ q n, q ≠ fsPath cwd tmp → fs.find q = some n → n.isDir = false → s.find q = some n := by
  rw [WriteFile_plain cwd fs tmp d hnl] at h
  unfold writeAt at h
  cases hf : fs.find (fsPath cwd tmp) with
  | none =>
    rw [hf] at h
    simp only at h
    exact ⟨⟨_, find_put_same _ _ _ _ h⟩, fun q n hq hn hd =>
      find_put_other _ _ _ _ q n h (by simp [hf]) hq hn hd⟩
  | some r =>
    rw [hf] at h
    cases r with
    | file m data =>
      cases data with
      | none => simp at h
      | some old =>
        simp only at h
        exact ⟨⟨_, find_put_same _ _ _ _ h⟩, fun q n hq hn hd =>
          find_put_other _ _ _ _ q n h (by simp [hf, Node.isDir]) hq hn hd⟩
    | symlink _ => simp at h
    | dir _ => simp at h

theorem Rename_find (cwd : GoString) (fs2 fs3 : Node) (tmp path : GoString) (src : Node)
    (hne : fsPath cwd tmp ≠ fsPath cwd path)
    (hsrc : fs2.find (fsPath cwd tmp) = some src)
    (h : Rename cwd fs2 tmp path = some fs3) :
    fs3.find (fsPath cwd path) = some src := by
  unfold Rename at h
  rw [hsrc] at h
  simp only [hne, if_false] at h
  split_ifs at h
  cases hd : fs2.del (fsPath cwd tmp) with
  | none => simp [hd] at h
  | some fs1 =>
    simp only [hd] at h
    exact find_put_same _ _ _ _ h

theorem Remove_find (cwd : GoString) (fs2 : Node) (tmp : GoString) (m : Nat) (d : Option (List Nat))
    (hne : fsPath cwd tmp ≠ [])
    (hsrc : fs2.find (fsPath cwd tmp) = some (.file m d)) :
    ∃ fs4, Remove cwd fs2 tmp = some fs4 ∧ fs4.find (fsPath cwd tmp) = none ∧
      ∀ q n, q ≠ fsPath cwd tmp → fs2.find q = some n → n.isDir = false → fs4.find q = some n := by
  obtain ⟨fs4, hdel⟩ := del_of_find _ _ _ hne hsrc
  refine ⟨fs4, by simp [Remove, hsrc, hdel], find_del_same _ _ _ hdel, ?_⟩
  intro q n hq hn hd
  exact find_del_other _ _ _ q n hdel (by simp [hsrc, Node.isDir]) hq hn hd

theorem mem_writeStates (cwd : GoString) (fs1 s : Node) (tmp : GoString) (data : List Nat)
    (upto : Nat) (h : s ∈ writeStates cwd fs1 tmp data upto) :
    ∃ k, WriteFile cwd fs1 tmp (data.take k) = some s := by
  simp only [writeStates, List.mem_filterMap] at h
  obtain ⟨k, _, hk⟩ := h
  exact ⟨k, hk⟩

/-- What `WriteHashRun` does, as seen from the state file, for an invariant `P`
that excludes a link at the path of the temporary file: every state listed has
`P`, except the last state of a successful run, which holds the new content; a
failed rename leaves no temporary file. -/
theorem WriteHashRun_spec (cwd : GoString) (faults : Faults) (fs : Node) (path hash : GoString)
    (P : Node → Prop)
    (hplain : ∀ s, P s → ∀ t, Lstat cwd s (path ++ str ".tmp") ≠ some (.symlink t))
    (hmk : ∀ s1, MkdirAll cwd fs (Dir path) = some s1 → P s1)
    (hput : ∀ s1 s2 d, P s1 → WriteFile cwd s1 (path ++ str ".tmp") d = some s2 → P s2)
    (hrm : ∀ s2 s4 m d, P s2 → s2.find (fsPath cwd (path ++ str ".tmp")) = some (.file m d) →
      Remove cwd s2 (path ++ str ".tmp") = some s4 → P s4)
    (r : WriteRun) (hr : r = WriteHashRun cwd faults fs path hash) :
    (r.err = none →
      ∃ init last m, r.states = init ++ [last] ∧ (∀ s ∈ init, P s) ∧
        last.find (fsPath cwd path) = some (.file m (some (hash ++ str "\n")))) ∧
    (r.err ≠ none → ∀ s ∈ r.states, P s) ∧
    (r.err = some .renameState →
      (r.states.getLastD fs).find (fsPath cwd (path ++ str ".tmp")) = none) := by
  obtain ⟨X, l, hX, hne⟩ := fsPath_tmp cwd path
  have hne2 : fsPath cwd (path ++ str ".tmp") ≠ [] := by rw [hX]; simp
  unfold WriteHashRun at hr
  by_cases h0 : TrimSpace hash = []
  · simp only [h0, if_true] at hr
    subst hr
    simp
  simp only [h0, if_false] at hr
  cases hm : (if faults.mkdirAll then none else MkdirAll cwd fs (Dir path)) with
  | none =>
    simp only [hm] at hr
    subst hr
    simp
  | some fs1 =>
    simp only [hm] at hr
    have hm1 : MkdirAll cwd fs (Dir path) = some fs1 := by
      split_ifs at hm
      exact hm
    have hP1 : P fs1 := hmk fs1 hm1
    have hwP : ∀ k, ∀ s ∈ writeStates cwd fs1 (path ++ str ".tmp") (hash ++ str "\n") k, P s := by
      intro k s hs
      obtain ⟨j, hj⟩ := mem_writeStates _ _ _ _ _ _ hs
      exact hput fs1 s _ hP1 hj
    cases hw : WriteFile cwd fs1 (path ++ str ".tmp") (hash ++ str "\n") with
    | none =>
      have : r = { err := some .writeTemp, states := [fs1] } := by
        rw [hr, hw]
        cases faults.writeTemp <;> rfl
      subst this
      simp [hP1]
    | some fs2 =>
      rw [hw] at hr
      have hP2 : P fs2 := hput fs1 fs2 _ hP1 hw
      obtain ⟨⟨m2, hsrc⟩, _⟩ := WriteFile_find _ _ _ _ _ (hplain fs1 hP1) hw
      cases hft : faults.writeTemp with
      | atOpen =>
        rw [hft] at hr
        subst hr
        simp [hP1]
      | after k =>
        rw [hft] at hr
        subst hr
        refine ⟨by simp, ?_, by simp⟩
        intro _ s hs
        rcases List.mem_cons.mp hs with h | h
        · rw [h]; exact hP1
        · exact hwP _ s h
      | none =>
        rw [hft] at hr
        simp only at hr
        cases hrn : (if faults.rename then none
            else Rename cwd fs2 (path ++ str ".tmp") path) with
        | some fs3 =>
          simp only [hrn] at hr
          have hrn1 : Rename cwd fs2 (path ++ str ".tmp") path = some fs3 := by
            split_ifs at hrn
            exact hrn
          have h3 := Rename_find cwd fs2 fs3 _ _ _ (Ne.symm hne) hsrc hrn1
          subst hr
          simp only [true_implies, ne_eq, not_true_eq_false, false_implies, reduceCtorEq, and_true]
          refine ⟨fs1 :: writeStates cwd fs1 (path ++ str ".tmp") (hash ++ str "\n")
            (hash ++ str "\n").length, fs3, m2, by simp, ?_, h3⟩
          intro s hs
          rcases List.mem_cons.mp hs with h | h
          · rw [h]; exact hP1
          · exact hwP _ s h
        | none =>
          simp only [hrn] at hr
          obtain ⟨fs4, hrm4, hgone, _⟩ := Remove_find cwd fs2 _ m2 _ hne2 hsrc
          rw [hrm4] at hr
          simp only at hr
          have hP4 : P fs4 := hrm fs2 fs4 m2 _ hP2 hsrc hrm4
          subst hr
          simp only [reduceCtorEq, false_implies, ne_eq, not_false_eq_true, true_implies, true_and]
          refine ⟨?_, ?_⟩
          · intro s hs
            rcases List.mem_append.mp hs with h | h
            · rcases List.mem_cons.mp h with h | h
              · rw [h]; exact hP1
              · exact hwP _ s h
            · simp only [List.mem_singleton] at h
              rw [h]; exact hP4
          · show (List.getLastD ((fs1 :: writeStates cwd fs1 (path ++ str ".tmp")
              (hash ++ str "\n") (hash ++ str "\n").length) ++ [fs4]) fs).find _ = none
            rw [List.getLastD_concat]
            exact hgone

theorem getLastD_mem_or {α : Type} (l : List α) (d : α) : l.getLastD d = d ∨ l.getLastD d ∈ l := by
  cases l with
  | nil => exact Or.inl rfl
  | cons a l =>
    right
    rw [List.getLastD_cons]
    induction l generalizing a with
    | nil => simp
    | cons b l ih =>
      rw [List.getLastD_cons]
      exact List.mem_cons_of_mem _ (ih b)

/-- The invariant of `WriteHashRun` for a state path that holds a file: every
operation on the way leaves that file as it is. -/
theorem WriteHashRun_keeps (cwd : GoString) (faults : Faults) (fs : Node) (path hash : GoString)
    (mode : Nat) (old : List Nat)
    (hprior : Lstat cwd fs path = some (.file mode (some old)))
    (htmp : ∀ t, Lstat cwd fs (path ++ str ".tmp") ≠ some (.symlink t)) :
    ((WriteHashRun cwd faults fs path hash).err = none →
      ∃ init last m, (WriteHashRun cwd faults fs path hash).states = init ++ [last] ∧
        (∀ s ∈ init, s.find (fsPath cwd path) = some (.file mode (some old))) ∧
        last.find (fsPath cwd path) = some (.file m (some (hash ++ str "\n")))) ∧
    ((WriteHashRun cwd faults fs path hash).err ≠ none →
      ∀ s ∈ (WriteHashRun cwd faults fs path hash).states,
        s.find (fsPath cwd path) = some (.file mode (some old))) ∧
    ((WriteHashRun cwd faults fs path hash).err = some .renameState →
      ((WriteHashRun cwd faults fs path hash).states.getLastD fs).find
        (fsPath cwd (path ++ str ".tmp")) = none) := by
  obtain ⟨_, _, _, hne⟩ := fsPath_tmp cwd path
  have hspec := WriteHashRun_spec cwd faults fs path hash
    (fun s => s.find (fsPath cwd path) = some (.file mode (some old)) ∧
      ∀ t, Lstat cwd s (path ++ str ".tmp") ≠ some (.symlink t))
    (fun _ hs => hs.2)
    (fun s1 h1 => ⟨find_mkdirAll _ _ _ _ _ h1 hprior rfl,
      MkdirAll_no_link cwd fs s1 _ _ h1 htmp⟩)
    (fun s1 s2 d h1 h2 => ⟨(WriteFile_find _ _ _ _ _ h1.2 h2).2 _ _ hne h1.1 rfl, fun t ht => by
      obtain ⟨m, hm⟩ := (WriteFile_find _ _ _ _ _ h1.2 h2).1
      rw [Lstat, hm] at ht
      cases ht⟩)
    (fun s2 s4 m d h2 hsrc hrm => by
      obtain ⟨X, l, hX, _⟩ := fsPath_tmp cwd path
      obtain ⟨fs4, h4, hgone, hkeep⟩ := Remove_find cwd s2 (path ++ str ".tmp") m d
        (by rw [hX]; simp) hsrc
      rw [h4] at hrm
      cases hrm
      refine ⟨hkeep _ _ hne h2.1 rfl, fun t ht => ?_⟩
      rw [Lstat, hgone] at ht
      cases ht)
    _ rfl
  refine ⟨fun he => ?_, fun he s hs => (hspec.2.1 he s hs).1, hspec.2.2⟩
  obtain ⟨init, last, m, h1, h2, h3⟩ := hspec.1 he
  exact ⟨init, last, m, h1, fun s hs => (h2 s hs).1, h3⟩

/-- A failed `WriteHash` leaves a state file that existed as it was. -/
theorem WriteHash_failure_keeps (cwd : GoString) (faults : Faults) (fs : Node)
    (path hash : GoString) (mode : Nat) (old : List Nat)
    (hprior : Lstat cwd fs path = some (.file mode (some old)))
    (htmp : ∀ t, Lstat cwd fs (path ++ str ".tmp") ≠ some (.symlink t))
    (hfail : (WriteHash cwd faults fs path hash).1 ≠ none) :
    Lstat cwd (WriteHash cwd faults fs path hash).2 path = some (.file mode (some old)) := by
  show ((WriteHashRun cwd faults fs path hash).states.getLastD fs).find _ = _
  rcases getLastD_mem_or (WriteHashRun cwd faults fs path hash).states fs with h | h
  · rw [h]
    exact hprior
  · exact (WriteHashRun_keeps cwd faults fs path hash mode old hprior htmp).2.1 hfail _ h

set_option maxRecDepth 200000 in
/-- C9, counterexample: the state file `/s/filehash` holds `old`, and at the path
of the temporary file, `/s/filehash.tmp`, stands a link to the state file.
`os.WriteFile` opens the temporary path with `O_TRUNC` and follows the link, so
the write goes to the state file itself: the reads of the state path in the
states the filesystem passes through yield the old value, then the empty file,
`n`, `ne`, `new` and the new value, and after the rename, which puts the link
over the state file, no value at all, while `WriteHash` returns no error. When
the rename fails, the state file holds the new value, not the old one. -/
theorem WriteHash_through_link :
    Lstat (str "/") linkedStateFs (str "/s/filehash")
        = some (.file 420 (some (str "old\n"))) ∧
      (WriteHash (str "/") Faults.none linkedStateFs (str "/s/filehash") (str "new")).1 = none ∧
      ((WriteHashRun (str "/") Faults.none linkedStateFs (str "/s/filehash") (str "new")).states.map
          fun s => (ReadFile (str "/") s (str "/s/filehash")).toOption)
        = [some (str "old\n"), some [], some (str "n"), some (str "ne"), some (str "new"),
            some (str "new\n"), none] ∧
      (WriteHash (str "/") noRename linkedStateFs (str "/s/filehash") (str "new")).1
        = some .renameState ∧
      Lstat (str "/") (WriteHash (str "/") noRename linkedStateFs (str "/s/filehash")
          (str "new")).2 (str "/s/filehash") = some (.file 420 (some (str "new\n"))) :=
  ⟨rfl, by decide, by decide, by decide, rfl⟩

/-- C9, amended (atomic cache write). `WriteHash` is run as its sequence of
filesystem steps (create the parent, write the sibling temporary file byte by
byte, rename over the target), any of which may fail. When the state path held a
file with a prior value and no link stands at the path of the temporary file, a
read of the state path in every state the filesystem passes through yields the
complete prior value or the complete new value; whenever the call fails the state
file is left as it was; and when the rename fails the temporary file is gone. -/
theorem WriteHash_atomic (cwd : GoString) (faults : Faults) (fs : Node) (path hash : GoString)
    (mode : Nat) (old : List Nat)
    (hprior : Lstat cwd fs path = some (.file mode (some old)))
    (htmp : ∀ t, Lstat cwd fs (path ++ str ".tmp") ≠ some (.symlink t)) :
    (∀ s ∈ (WriteHashRun cwd faults fs path hash).states,
        ReadFile cwd s path = .ok old ∨ ReadFile cwd s path = .ok (hash ++ str "\n")) ∧
    ((WriteHash cwd faults fs path hash).1 ≠ none →
        Lstat cwd (WriteHash cwd faults fs path hash).2 path = some (.file mode (some old))) ∧
    ((WriteHash cwd faults fs path hash).1 = some .renameState →
        Lstat cwd (WriteHash cwd faults fs path hash).2 (path ++ str ".tmp") = none) := by
  obtain ⟨hok, hfail, hrn⟩ := WriteHashRun_keeps cwd faults fs path hash mode old hprior htmp
  refine ⟨?_, ?_, fun h => hrn h⟩
  · intro s hs
    cases he : (WriteHashRun cwd faults fs path hash).err with
    | none =>
      obtain ⟨init, last, m, hst, hinit, hlast⟩ := hok he
      rw [hst] at hs
      rcases List.mem_append.mp hs with h | h
      · exact Or.inl (ReadFile_of_find _ _ _ _ _ (hinit s h))
      · simp only [List.mem_singleton] at h
        rw [h]
        exact Or.inr (ReadFile_of_find _ _ _ _ _ hlast)
    | some e =>
      exact Or.inl (ReadFile_of_find _ _ _ _ _ (hfail (by simp [he]) s hs))
  · intro he
    show ((WriteHashRun cwd faults fs path hash).states.getLastD fs).find _ = _
    rcases getLastD_mem_or (WriteHashRun cwd faults fs path hash).states fs with h | h
    · rw [h]
      exact hprior
    · exact hfail he _ h

/-- Witness of C9, amended: the rename fails over an existing state file. -/
theorem WriteHash_atomic_witness :
    (∀ s ∈ (WriteHashRun (str "/") { mkdirAll := false, writeTemp := WriteFault.none, rename := true }
          (.dir [(str "s", .file 420 (some (str "old\n")))]) (str "/s") (str "new")).states,
        ReadFile (str "/") s (str "/s") = .ok (str "old\n") ∨
          ReadFile (str "/") s (str "/s") = .ok (str "new" ++ str "\n")) ∧
    ((WriteHash (str "/") { mkdirAll := false, writeTemp := WriteFault.none, rename := true }
          (.dir [(str "s", .file 420 (some (str "old\n")))]) (str "/s") (str "new")).1 ≠ none →
        Lstat (str "/") (WriteHash (str "/")
          { mkdirAll := false, writeTemp := WriteFault.none, rename := true }
          (.dir [(str "s", .file 420 (some (str "old\n")))]) (str "/s") (str "new")).2 (str "/s")
          = some (.file 420 (some (str "old\n")))) ∧
    ((WriteHash (str "/") { mkdirAll := false, writeTemp := WriteFault.none, rename := true }
          (.dir [(str "s", .file 420 (some (str "old\n")))]) (str "/s") (str "new")).1
          = some .renameState →
        Lstat (str "/") (WriteHash (str "/")
          { mkdirAll := false, writeTemp := WriteFault.none, rename := true }
          (.dir [(str "s", .file 420 (some (str "old\n")))]) (str "/s") (str "new")).2
          (str "/s" ++ str ".tmp") = none) :=
  WriteHash_atomic (str "/") { mkdirAll := false, writeTemp := WriteFault.none, rename := true }
    (.dir [(str "s", .file 420 (some (str "old\n")))]) (str "/s") (str "new") 420 (str "old\n")
    rfl (fun t h => Option.noConfusion (h : (none : Option Node) = some (.symlink t)))

/-- A successful `WriteHash` leaves the new content in the state file, when no
link stands at the path of the temporary file. -/
theorem WriteHash_ok_content (cwd : GoString) (faults : Faults) (fs : Node) (path h : GoString)
    (htmp : ∀ t, Lstat cwd fs (path ++ str ".tmp") ≠ some (.symlink t))
    (hok : (WriteHash cwd faults fs path h).1 = none) :
    ReadFile cwd (WriteHash cwd faults fs path h).2 path = .ok (h ++ str "\n") := by
  have hspec := WriteHashRun_spec cwd faults fs path h
    (fun s => ∀ t, Lstat cwd s (path ++ str ".tmp") ≠ some (.symlink t))
    (fun _ hs => hs)
    (fun s1 h1 => MkdirAll_no_link cwd fs s1 _ _ h1 htmp)
    (fun s1 s2 d h1 h2 t ht => by
      obtain ⟨m, hm⟩ := (WriteFile_find _ _ _ _ _ h1 h2).1
      rw [Lstat, hm] at ht
      cases ht)
    (fun s2 s4 m d _ hsrc hrm t ht => by
      obtain ⟨X, l, hX, _⟩ := fsPath_tmp cwd path
      obtain ⟨fs4, h4, hgone, _⟩ := Remove_find cwd s2 (path ++ str ".tmp") m d
        (by rw [hX]; simp) hsrc
      rw [h4] at hrm
      cases hrm
      rw [Lstat, hgone] at ht
      cases ht)
    _ rfl
  obtain ⟨init, last, m, hst, _, hlast⟩ := hspec.1 hok
  have hfin : (WriteHash cwd faults fs path h).2 = last := by
    show (WriteHashRun cwd faults fs path h).states.getLastD fs = last
    rw [hst, List.getLastD_concat]
  rw [hfin]
  exact ReadFile_of_find _ _ _ _ _ hlast

theorem spaceWidth_append_newline (c : Nat) (cs : List Nat) (h : spaceWidth (c :: cs) = 0) :
    spaceWidth (c :: cs ++ str "\n") = 0 := by
  have e : str "\n" = [10] := by decide
  rw [e]
  cases cs with
  | nil =>
    simp only [spaceWidth, List.getD, List.nil_append, List.cons_append, List.get?] at h ⊢
    split_ifs at h ⊢ <;> simp_all
  | cons a as =>
    cases as with
    | nil =>
      simp only [spaceWidth, List.getD, List.nil_append, List.cons_append, List.get?] at h ⊢
      split_ifs at h ⊢ <;> simp_all
    | cons b bs =>
      simp only [spaceWidth, List.getD, List.cons_append, List.get?] at h ⊢
      exact h

/-- A string of ASCII characters none of which is white space, such as a hex
digest, contains no white space. -/
theorem spaceWidth_of_ascii (h : GoString) (hs : ∀ c ∈ h, c < 128 ∧ asciiSpace c = false) :
    ∀ k, spaceWidth (h.drop k) = 0 := by
  intro k
  cases hd : h.drop k with
  | nil => rfl
  | cons c cs =>
    have hc : c ∈ h := List.mem_of_mem_drop (by rw [hd]; simp)
    obtain ⟨h1, h2⟩ := hs c hc
    simp only [spaceWidth, h2, Bool.false_eq_true, if_false]
    split_ifs <;> first | rfl | omega

theorem spaceWidthEnd_append_newline (h : GoString) : spaceWidthEnd (h ++ str "\n") = 1 := by
  have e : str "\n" = [10] := by decide
  have hd : (h ++ [10]).drop ((h ++ [10]).length - 1) = [10] := by
    simp
  rw [e, spaceWidthEnd, hd]
  simp [spaceWidth, asciiSpace]

theorem spaceWidthEnd_of_no_space (h : GoString) (hs : ∀ k, spaceWidth (h.drop k) = 0) :
    spaceWidthEnd h = 0 := by
  simp [spaceWidthEnd, hs]

theorem TrimSpace_line (h : GoString) (hne : h ≠ []) (hs : ∀ k, spaceWidth (h.drop k) = 0) :
    TrimSpace (h ++ str "\n") = h := by
  cases h with
  | nil => exact absurd rfl hne
  | cons c cs =>
    have h0 : spaceWidth (c :: cs) = 0 := by simpa using hs 0
    have hl : trimLeftSpace (c :: cs ++ str "\n").length (c :: cs ++ str "\n")
        = c :: cs ++ str "\n" := by
      have e : (c :: cs ++ str "\n").length = (cs ++ str "\n").length + 1 := rfl
      rw [e, trimLeftSpace, if_pos (spaceWidth_append_newline c cs h0)]
    have e2 : (c :: cs ++ str "\n").length = cs.length + 1 + 1 := by simp [str]
    have ht : (c :: cs ++ str "\n").take ((c :: cs ++ str "\n").length - 1) = c :: cs := by
      have e3 : (c :: cs ++ str "\n").length - 1 = (c :: cs).length := by simp [str]
      rw [e3]
      simp
    rw [TrimSpace, hl, e2, trimRightSpace, spaceWidthEnd_append_newline (c :: cs)]
    simp only [one_ne_zero, if_false]
    rw [ht, trimRightSpace, if_pos (spaceWidthEnd_of_no_space _ hs)]

set_option maxRecDepth 200000 in
/-- C10, counterexample: at the path of the temporary file, `/s/filehash.tmp`,
stands a link to the state file `/s/filehash`. `WriteHash` with the digest `0a1f`
returns no error: the write goes through the link and the rename puts the link
over the state file, which is then a link to itself. The state path holds no
file, and `ReadHash` returns the empty string and false. -/
theorem WriteHash_ReadHash_link :
    (WriteHash (str "/") Faults.none linkedStateFs (str "/s/filehash") (str "0a1f")).1 = none ∧
      Lstat (str "/") (WriteHash (str "/") Faults.none linkedStateFs (str "/s/filehash")
          (str "0a1f")).2 (str "/s/filehash") = some (.symlink (str "filehash")) ∧
      Lstat (str "/") (WriteHash (str "/") Faults.none linkedStateFs (str "/s/filehash")
          (str "0a1f")).2 (str "/s/filehash.tmp") = none ∧
      ReadHash (str "/") (WriteHash (str "/") Faults.none linkedStateFs (str "/s/filehash")
          (str "0a1f")).2 (str "/s/filehash") = ([], false) :=
  ⟨by decide, rfl, rfl, by decide⟩

/-- C10, amended (write/read round trip). For every path at whose temporary path
`path.tmp` no link stands, and every fingerprint `h` that contains no white space
(at no position of `h` does the encoding of a white-space character start; every
hex digest is such), a successful `WriteHash(path, h)` leaves the state file
holding exactly `h` followed by one newline, and a following `ReadHash(path)`
returns `(h, true)`. -/
theorem WriteHash_ReadHash (cwd : GoString) (faults : Faults) (fs : Node) (path h : GoString)
    (htmp : ∀ t, Lstat cwd fs (path ++ str ".tmp") ≠ some (.symlink t))
    (hnospace : ∀ k, spaceWidth (h.drop k) = 0)
    (hok : (WriteHash cwd faults fs path h).1 = none) :
    ReadFile cwd (WriteHash cwd faults fs path h).2 path = .ok (h ++ str "\n") ∧
      ReadHash cwd (WriteHash cwd faults fs path h).2 path = (h, true) := by
  have hread := WriteHash_ok_content cwd faults fs path h htmp hok
  refine ⟨hread, ?_⟩
  have hne : h ≠ [] := by
    intro he
    subst he
    have : (WriteHash cwd faults fs path []).1 = some .emptyHash := by
      simp [WriteHash, WriteHashRun, TrimSpace, trimRightSpace, trimLeftSpace]
    rw [this] at hok
    exact Option.noConfusion hok
  simp only [ReadHash, hread, TrimSpace_line h hne hnospace, hne, if_false]

/-- Witness of C10, amended: the first write of a digest below a job directory. -/
theorem WriteHash_ReadHash_witness :
    ReadFile (str "/") (WriteHash (str "/") Faults.none (.dir [(str "job", .dir [])])
        (str "/job/.cronctl/filehash") (str "0a1f")).2 (str "/job/.cronctl/filehash")
        = .ok (str "0a1f" ++ str "\n") ∧
      ReadHash (str "/") (WriteHash (str "/") Faults.none (.dir [(str "job", .dir [])])
        (str "/job/.cronctl/filehash") (str "0a1f")).2 (str "/job/.cronctl/filehash")
        = (str "0a1f", true) :=
  WriteHash_ReadHash (str "/") Faults.none (.dir [(str "job", .dir [])])
    (str "/job/.cronctl/filehash") (str "0a1f")
    (fun t h => Option.noConfusion (h : (none : Option Node) = some (.symlink t)))
    (spaceWidth_of_ascii _ (by decide)) (by decide)

/-! ## `build.go`: when `one` runs the entrypoint -/

theorem runBuild_started (env : Env) (duringRun : Bool) (fs : Node) (jobDir entrypoint : GoString) :
    (runBuild env false duringRun fs jobDir entrypoint).started
      = [Abs env.cwd (Join [jobDir, entrypoint])] := by
  simp only [runBuild, Bool.false_eq_true, if_false]
  cases env.exec fs (Abs env.cwd (Join [jobDir, entrypoint])) jobDir with
  | none => rfl
  | some run =>
    simp only
    cases duringRun with
    | true => rfl
    | false =>
      simp only [Bool.false_eq_true, if_false]
      cases run.exit with
      | none => rfl
      | some code =>
        simp only
        split_ifs <;> rfl

/-- C2 (when the entrypoint is executed). With the context not cancelled and the
input hashing successful, `one` calls `cmd.Start` on the build entrypoint, once,
if and only if the job is enabled, its build step is enabled, and force is set or
no stored fingerprint can be read or the stored fingerprint differs from the
current one; otherwise it starts nothing. In particular `force = true` always
executes the entrypoint of an enabled job with an enabled build step. -/
theorem one_executes_iff (env : Env) (ctx : Ctx) (faults : Faults) (fs : Node) (j : Job)
    (force : Bool) (cur : GoString)
    (hstart : ctx.atStart = false) (hhashing : ctx.atHash = false) (hrun : ctx.atRun = false)
    (hcur : InputsHash env false fs j.Dir = .ok cur) :
    ((one env ctx faults fs j force).started = [Abs env.cwd (Join [j.Dir, buildEntrypoint j])] ↔
      (j.Spec.Enabled = true ∧ j.Spec.Build.Enabled = true ∧
        (force = true ∨ (ReadHash env.cwd fs (StateFilePath j.Dir)).2 = false ∨
          (ReadHash env.cwd fs (StateFilePath j.Dir)).1 ≠ cur))) ∧
    ((one env ctx faults fs j force).started = [Abs env.cwd (Join [j.Dir, buildEntrypoint j])] ∨
      (one env ctx faults fs j force).started = []) ∧
    (force = true → j.Spec.Enabled = true → j.Spec.Build.Enabled = true →
      (one env ctx faults fs j force).started
        = [Abs env.cwd (Join [j.Dir, buildEntrypoint j])]) := by
  have key : (one env ctx faults fs j force).started =
      if j.Spec.Enabled = true ∧ j.Spec.Build.Enabled = true ∧
        (force = true ∨ (ReadHash env.cwd fs (StateFilePath j.Dir)).2 = false ∨
          (ReadHash env.cwd fs (StateFilePath j.Dir)).1 ≠ cur)
      then [Abs env.cwd (Join [j.Dir, buildEntrypoint j])] else [] := by
    unfold one
    rw [hstart, hhashing, hcur, hrun]
    simp only [Bool.false_eq_true, if_false]
    cases he : j.Spec.Enabled with
    | false => simp
    | true =>
      cases hb : j.Spec.Build.Enabled with
      | false => simp
      | true =>
        simp only [Bool.not_true, Bool.false_eq_true, if_false, true_and]
        have hst := runBuild_started env ctx.duringRun fs j.Dir (buildEntrypoint j)
        by_cases hc : cacheHit force (ReadHash env.cwd fs (StateFilePath j.Dir)) cur = true
        · rw [if_pos hc]
          simp only [cacheHit, Bool.and_eq_true, Bool.not_eq_true', beq_iff_eq] at hc
          obtain ⟨⟨hf, h2⟩, h1⟩ := hc
          simp [hf, h2, h1]
        · rw [if_neg hc]
          have hcond : force = true ∨ (ReadHash env.cwd fs (StateFilePath j.Dir)).2 = false ∨
              (ReadHash env.cwd fs (StateFilePath j.Dir)).1 ≠ cur := by
            simp only [cacheHit, Bool.and_eq_true, Bool.not_eq_true', beq_iff_eq, not_and] at hc
            cases hf : force with
            | true => exact Or.inl rfl
            | false =>
              right
              cases h2 : (ReadHash env.cwd fs (StateFilePath j.Dir)).2 with
              | false => exact Or.inl rfl
              | true => exact Or.inr (hc ⟨hf, h2⟩)
          rw [if_pos hcond]
          cases hre : (runBuild env false ctx.duringRun fs j.Dir (buildEntrypoint j)).err with
          | some e => simpa [hre] using hst
          | none =>
            simp only [hre]
            cases InputsHash env ctx.atRehash
              (runBuild env false ctx.duringRun fs j.Dir (buildEntrypoint j)).fs j.Dir with
            | error e => simpa using hst
            | ok newHash => simpa using hst
  refine ⟨?_, ?_, ?_⟩
  · rw [key]
    split_ifs with h
    · simp [h]
    · simp [h]
  · rw [key]
    split_ifs
    · exact Or.inl rfl
    · exact Or.inr rfl
  · intro hf he hb
    rw [key, if_pos ⟨he, hb, Or.inl hf⟩]

/-- Witness of C2: a forced build of an enabled job. -/
theorem one_executes_iff_witness :
    ((one quietEnv liveCtx Faults.none (.dir [(str "job", .dir [])])
          { ID := str "job", Dir := str "/job",
            Spec := { Enabled := true, Build := { Enabled := true, Entrypoint := [] } } } true).started
        = [Abs quietEnv.cwd (Join [str "/job", buildEntrypoint
            { ID := str "job", Dir := str "/job",
              Spec := { Enabled := true, Build := { Enabled := true, Entrypoint := [] } } }])] ↔
      (true = true ∧ true = true ∧
        (true = true ∨ (ReadHash quietEnv.cwd (.dir [(str "job", .dir [])])
            (StateFilePath (str "/job"))).2 = false ∨
          (ReadHash quietEnv.cwd (.dir [(str "job", .dir [])]) (StateFilePath (str "/job"))).1
            ≠ hexEncode []))) ∧
    ((one quietEnv liveCtx Faults.none (.dir [(str "job", .dir [])])
          { ID := str "job", Dir := str "/job",
            Spec := { Enabled := true, Build := { Enabled := true, Entrypoint := [] } } } true).started
        = [Abs quietEnv.cwd (Join [str "/job", buildEntrypoint
            { ID := str "job", Dir := str "/job",
              Spec := { Enabled := true, Build := { Enabled := true, Entrypoint := [] } } }])] ∨
      (one quietEnv liveCtx Faults.none (.dir [(str "job", .dir [])])
          { ID := str "job", Dir := str "/job",
            Spec := { Enabled := true, Build := { Enabled := true, Entrypoint := [] } } } true).started
        = []) ∧
    (true = true → true = true → true = true →
      (one quietEnv liveCtx Faults.none (.dir [(str "job", .dir [])])
          { ID := str "job", Dir := str "/job",
            Spec := { Enabled := true, Build := { Enabled := true, Entrypoint := [] } } } true).started
        = [Abs quietEnv.cwd (Join [str "/job", buildEntrypoint
            { ID := str "job", Dir := str "/job",
              Spec := { Enabled := true, Build := { Enabled := true, Entrypoint := [] } } }])]) :=
  one_executes_iff quietEnv liveCtx Faults.none (.dir [(str "job", .dir [])])
    { ID := str "job", Dir := str "/job",
      Spec := { Enabled := true, Build := { Enabled := true, Entrypoint := [] } } } true
    (hexEncode []) rfl rfl rfl rfl

/-! ## `build.go`: the state file after `one` -/

theorem runBuild_not_started (env : Env) (atRun duringRun : Bool) (fs : Node)
    (jobDir entrypoint : GoString)
    (h : (runBuild env atRun duringRun fs jobDir entrypoint).started = []) :
    (runBuild env atRun duringRun fs jobDir entrypoint).fs = fs ∧
      (runBuild env atRun duringRun fs jobDir entrypoint).err ≠ none := by
  cases atRun with
  | true => simp [runBuild]
  | false =>
    rw [runBuild_started] at h
    exact absurd h (by simp)

/-- The ways through `one`: nothing is started and the filesystem is untouched;
or the build run fails; or the recomputation of the fingerprint fails; or the
state write decides the outcome. -/
theorem one_cases (env : Env) (ctx : Ctx) (faults : Faults) (fs : Node) (j : Job) (force : Bool) :
    ((one env ctx faults fs j force).started = [] ∧ (one env ctx faults fs j force).fs = fs) ∨
    ((runBuild env ctx.atRun ctx.duringRun fs j.Dir (buildEntrypoint j)).err ≠ none ∧
      one env ctx faults fs j force =
        { err := (runBuild env ctx.atRun ctx.duringRun fs j.Dir (buildEntrypoint j)).err
          fs := afterRun env ctx fs j
          started := (runBuild env ctx.atRun ctx.duringRun fs j.Dir (buildEntrypoint j)).started }) ∨
    ((runBuild env ctx.atRun ctx.duringRun fs j.Dir (buildEntrypoint j)).err = none ∧
      ∃ e, InputsHash env ctx.atRehash (afterRun env ctx fs j) j.Dir = .error e ∧
        one env ctx faults fs j force =
          { err := some e
            fs := afterRun env ctx fs j
            started := (runBuild env ctx.atRun ctx.duringRun fs j.Dir (buildEntrypoint j)).started }) ∨
    ((runBuild env ctx.atRun ctx.duringRun fs j.Dir (buildEntrypoint j)).err = none ∧
      ∃ newHash, InputsHash env ctx.atRehash (afterRun env ctx fs j) j.Dir = .ok newHash ∧
        one env ctx faults fs j force =
          { err := (WriteHash env.cwd faults (afterRun env ctx fs j) (StateFilePath j.Dir) newHash).1
            fs := (WriteHash env.cwd faults (afterRun env ctx fs j) (StateFilePath j.Dir) newHash).2
            started := (runBuild env ctx.atRun ctx.duringRun fs j.Dir (buildEntrypoint j)).started }) := by
  unfold one afterRun
  by_cases h1 : ctx.atStart = true
  · exact Or.inl (by simp [h1])
  by_cases h2 : (!j.Spec.Enabled) = true
  · exact Or.inl (by simp [h1, h2])
  by_cases h3 : (!j.Spec.Build.Enabled) = true
  · exact Or.inl (by simp [h1, h2, h3])
  simp only [h1, h2, h3, if_false, Bool.false_eq_true]
  cases h4 : InputsHash env ctx.atHash fs j.Dir with
  | error e => exact Or.inl (by simp)
  | ok curHash =>
    simp only
    by_cases h5 : cacheHit force (ReadHash env.cwd fs (StateFilePath j.Dir)) curHash = true
    · exact Or.inl (by simp [h5])
    simp only [h5, if_false, Bool.false_eq_true]
    cases h6 : (runBuild env ctx.atRun ctx.duringRun fs j.Dir (buildEntrypoint j)).err with
    | some e => exact Or.inr (Or.inl ⟨by simp, by simp⟩)
    | none =>
      simp only
      cases h7 : InputsHash env ctx.atRehash
          (runBuild env ctx.atRun ctx.duringRun fs j.Dir (buildEntrypoint j)).fs j.Dir with
      | error e =>
        refine Or.inr (Or.inr (Or.inl ⟨?_, e, ?_, ?_⟩)) <;> first | rfl | trivial
      | ok newHash =>
        refine Or.inr (Or.inr (Or.inr ⟨?_, newHash, ?_, ?_⟩)) <;> first | rfl | trivial

/-- C3, amended (the state file after `one`). When `one` started the entrypoint
and returned no error (the entrypoint exited successfully, the fingerprint was
recomputed and the state write succeeded), the state file holds the fingerprint
recomputed on the filesystem the build run left, followed by a newline. When `one`
started nothing (job or build step disabled, cache hit, hashing error,
cancellation) the filesystem is exactly as before. When `one` started the
entrypoint and returned an error (failure to start, nonzero exit, cancellation
during the run, failed recomputation, failed state write) an existing state file
is left byte for byte as the build run left it. The first and the last are
stated for a build run that leaves no link at the path of the temporary file,
the path of the state file with `.tmp` added, through which `os.WriteFile` would
write. -/
theorem one_state_file (env : Env) (ctx : Ctx) (faults : Faults) (fs : Node) (j : Job)
    (force : Bool) :
    ((∀ t, Lstat env.cwd (afterRun env ctx fs j) (StateFilePath j.Dir ++ str ".tmp")
        ≠ some (.symlink t)) →
      (one env ctx faults fs j force).err = none ∧ (one env ctx faults fs j force).started ≠ [] →
      ∃ newHash, InputsHash env ctx.atRehash (afterRun env ctx fs j) j.Dir = .ok newHash ∧
        ReadFile env.cwd (one env ctx faults fs j force).fs (StateFilePath j.Dir)
          = .ok (newHash ++ str "\n")) ∧
    ((one env ctx faults fs j force).started = [] → (one env ctx faults fs j force).fs = fs) ∧
    ((∀ t, Lstat env.cwd (afterRun env ctx fs j) (StateFilePath j.Dir ++ str ".tmp")
        ≠ some (.symlink t)) →
      (one env ctx faults fs j force).err ≠ none ∧ (one env ctx faults fs j force).started ≠ [] →
      ∀ mode old,
        Lstat env.cwd (afterRun env ctx fs j) (StateFilePath j.Dir) = some (.file mode (some old)) →
        Lstat env.cwd (one env ctx faults fs j force).fs (StateFilePath j.Dir)
          = some (.file mode (some old))) := by
  rcases one_cases env ctx faults fs j force with h | h | h | h
  · obtain ⟨hs, hf⟩ := h
    exact ⟨fun _ hh => absurd hs hh.2, fun _ => hf, fun _ hh => absurd hs hh.2⟩
  · obtain ⟨he, hone⟩ := h
    rw [hone]
    refine ⟨fun _ hh => absurd hh.1 he, fun hh => (runBuild_not_started _ _ _ _ _ _ hh).1, ?_⟩
    intro _ _ mode old hprior
    exact hprior
  · obtain ⟨he, e, _, hone⟩ := h
    have hst : (runBuild env ctx.atRun ctx.duringRun fs j.Dir (buildEntrypoint j)).started ≠ [] :=
      fun hh => (runBuild_not_started _ _ _ _ _ _ hh).2 he
    rw [hone]
    refine ⟨fun _ hh => by simp at hh, fun hh => absurd hh hst, ?_⟩
    intro _ _ mode old hprior
    exact hprior
  · obtain ⟨he, newHash, hnew, hone⟩ := h
    have hst : (runBuild env ctx.atRun ctx.duringRun fs j.Dir (buildEntrypoint j)).started ≠ [] :=
      fun hh => (runBuild_not_started _ _ _ _ _ _ hh).2 he
    rw [hone]
    refine ⟨?_, fun hh => absurd hh hst, ?_⟩
    · intro htmp hh
      exact ⟨newHash, hnew, WriteHash_ok_content _ _ _ _ _ htmp hh.1⟩
    · intro htmp hh mode old hprior
      have hw : (WriteHash env.cwd faults (afterRun env ctx fs j) (StateFilePath j.Dir)
          newHash).1 ≠ none := hh.1
      exact WriteHash_failure_keeps env.cwd faults _ (StateFilePath j.Dir) newHash mode old hprior
        htmp hw

/-- Witness of C3, amended: a first build that succeeds stores the recomputed
fingerprint; no link stands at the path of the temporary file. -/
theorem one_state_file_witness :
    Lstat quietEnv.cwd (afterRun quietEnv liveCtx staleFs demoJob)
        (StateFilePath demoJob.Dir ++ str ".tmp") = none ∧
      ∃ newHash,
        InputsHash quietEnv liveCtx.atRehash (afterRun quietEnv liveCtx staleFs demoJob)
          demoJob.Dir = .ok newHash ∧
        ReadFile quietEnv.cwd (one quietEnv liveCtx Faults.none staleFs demoJob false).fs
            (StateFilePath demoJob.Dir)
          = .ok (newHash ++ str "\n") :=
  ⟨rfl, (one_state_file quietEnv liveCtx Faults.none staleFs demoJob false).1
    (fun t h => Option.noConfusion (h : (none : Option Node) = some (.symlink t)))
    ⟨by decide, by decide⟩⟩

/-- C3 as stated fails: the entrypoint runs and exits with status 0, the
fingerprint is recomputed, but the temporary state file cannot be created; `one`
returns the write error and the state file still holds the old value, not the
recomputed fingerprint. -/
theorem one_state_not_rewritten :
    (runBuild quietEnv false false staleFs demoJob.Dir (buildEntrypoint demoJob)).err = none ∧
    (one quietEnv liveCtx noTempFile staleFs demoJob false).started = [str "/job/build.sh"] ∧
    (one quietEnv liveCtx noTempFile staleFs demoJob false).err = some .writeTemp ∧
    ReadHash quietEnv.cwd (one quietEnv liveCtx noTempFile staleFs demoJob false).fs
      (StateFilePath demoJob.Dir) = (str "old", true) ∧
    InputsHash quietEnv false (afterRun quietEnv liveCtx staleFs demoJob) demoJob.Dir
      = .ok (hexEncode (str "build.sh" ++ 0 :: (str "-rwxr-xr-x" ++ 0 :: (str "#!/bin/sh\n" ++ [0])))) ∧
    str "old" ≠ hexEncode (str "build.sh" ++ 0 :: (str "-rwxr-xr-x" ++ 0 :: (str "#!/bin/sh\n" ++ [0]))) := by
  refine ⟨by decide, by decide, by decide, by decide, rfl, by decide⟩

set_option maxRecDepth 200000 in
/-- The state write of `one` goes through a link at the path of the temporary
file: with a link to the state file at `/job/.cronctl/filehash.tmp` the
entrypoint runs, `one` returns no error, and the state path holds the link,
renamed over the state file, and no fingerprint. -/
theorem one_state_through_link :
    (one quietEnv liveCtx Faults.none linkedJobFs demoJob false).err = none ∧
      (one quietEnv liveCtx Faults.none linkedJobFs demoJob false).started
        = [str "/job/build.sh"] ∧
      Lstat quietEnv.cwd (one quietEnv liveCtx Faults.none linkedJobFs demoJob false).fs
        (StateFilePath demoJob.Dir) = some (.symlink (str "filehash")) ∧
      ReadHash quietEnv.cwd (one quietEnv liveCtx Faults.none linkedJobFs demoJob false).fs
        (StateFilePath demoJob.Dir) = ([], false) :=
  ⟨by decide, by decide, rfl, by decide⟩

/-! ## `hash.go`: the tree-aware strategy -/

/-- C7 at a failing input (tree-aware strategy). The job `jobs/a` holds a link
`conf` to `/etc/conf`, and `git ls-files` lists it. `gitInputsHash` calls `os.Stat`,
which follows the link, so the entry counts as a regular file: it is folded into
the digest under the path `conf` with the mode and the content of its target, and
the fingerprint changes when the content of `/etc/conf`, a file outside the job
directory, changes. -/
theorem gitInputsHash_follows_symlink :
    gitItems (gitEnv (str "jobs/a/build.sh\njobs/a/conf\n")) (linkFs (str "x=1\n")) (str "/repo")
        (str "jobs/a/") [str "jobs/a/build.sh", str "jobs/a/conf"]
      = .ok [{ path := str "build.sh", mode := 493, data := str "#!/bin/sh\n" },
             { path := str "conf", mode := 420, data := str "x=1\n" }] ∧
    gitInputsHash (gitEnv (str "jobs/a/build.sh\njobs/a/conf\n")) (linkFs (str "x=1\n"))
        (str "/repo") (str "/repo/jobs/a")
      ≠ gitInputsHash (gitEnv (str "jobs/a/build.sh\njobs/a/conf\n")) (linkFs (str "x=2\n"))
        (str "/repo") (str "/repo/jobs/a") ∧
    walkHashNode hexEncode false
        (Lstat (str "/") (linkFs (str "x=1\n")) (str "/repo/jobs/a")) { rules := [] }
      = walkHashNode hexEncode false
        (Lstat (str "/") (linkFs (str "x=2\n")) (str "/repo/jobs/a")) { rules := [] } := by
  refine ⟨by decide, by decide, by decide⟩

/-- Below the work-tree root the tree-aware strategy folds job-relative paths in
ascending order: when the stripped prefix is not empty and every listed path
starts with it, each folded path is the listed path without the prefix, and the
folded paths ascend byte-wise whenever the listed paths do. -/
theorem gitItems_paths (env : Env) (fs : Node) (rootAbs pre : GoString) (hpre : pre ≠ []) :
    ∀ (ps : List GoString) (items : List item),
      (∀ p ∈ ps, ∃ q, p = pre ++ q) →
      ps.Pairwise (fun a b => strLess b a = false) →
      gitItems env fs rootAbs pre ps = .ok items →
      (∀ it ∈ items, pre ++ it.path ∈ ps) ∧
        (items.map item.path).Pairwise (fun a b => strLess b a = false)
  | [], items, _, _, h => by
    simp only [gitItems, Except.ok.injEq] at h
    subst h
    simp
  | p :: ps, items, hps, hsorted, h => by
    obtain ⟨q, hq⟩ := hps p (by simp)
    rw [List.pairwise_cons] at hsorted
    obtain ⟨hp, hrest⟩ := hsorted
    simp only [gitItems] at h
    cases hi : gitItem env fs rootAbs pre p with
    | error e => simp [hi] at h
    | ok it =>
      simp only [hi] at h
      cases hr : gitItems env fs rootAbs pre ps with
      | error e => simp [hr] at h
      | ok rest =>
        simp only [hr, Except.ok.injEq] at h
        subst h
        obtain ⟨ih1, ih2⟩ := gitItems_paths env fs rootAbs pre hpre ps rest
          (fun x hx => hps x (List.mem_cons_of_mem _ hx)) hrest hr
        cases it with
        | none =>
          simp only [Option.toList, List.nil_append]
          exact ⟨fun x hx => List.mem_cons_of_mem _ (ih1 x hx), ih2⟩
        | some x =>
          have hx : x.path = q := by
            have hpne : p ≠ [] := by
              rw [hq]
              intro he
              exact hpre (List.append_eq_nil.mp he).1
            have htrim : TrimPrefix p pre = q := by
              simp [TrimPrefix, HasPrefix, hq]
            simp only [gitItem, hpne, if_false, ne_eq, hpre, not_false_eq_true, if_true,
              htrim] at hi
            cases hs : Stat env.cwd fs (Join [rootAbs, pre ++ q]) with
            | none => simp [hs] at hi
            | some info =>
              simp only [hs] at hi
              split_ifs at hi
              · simp at hi
              · cases hrd : ReadFile env.cwd fs (Join [rootAbs, pre ++ q]) with
                | error e => simp [hrd] at hi
                | ok b =>
                  simp only [hrd, Except.ok.injEq, Option.some.injEq] at hi
                  rw [← hi]
          simp only [Option.toList, List.singleton_append, List.map_cons, List.pairwise_cons,
            List.mem_cons, forall_eq_or_imp, List.mem_map, forall_exists_index, and_imp,
            forall_apply_eq_imp_iff₂]
          refine ⟨⟨Or.inl (by rw [hx, hq]), fun y hy => Or.inr (ih1 y hy)⟩, ?_, ih2⟩
          intro y hy
          have hy2 := hp _ (ih1 y hy)
          rw [hq, strLess_append_left] at hy2
          rw [hx]
          exact hy2

/-- C8 at a failing input (job directory equal to the work-tree root).
`filepath.Rel` returns `.`, which `gitInputsHash` keeps as the prefix to strip:
the listed file `.env` is folded under the path `env`, not `.env`, and the listed
file `build.sh` is looked up as `/repo/.build.sh`, so the call fails although the
file exists. -/
theorem gitInputsHash_root_job :
    gitItems (gitEnv (str ".env\nbuild.sh\n")) rootJobFs (str "/repo")
        (relJobFromRoot (str ".")) [str ".env"]
      = .ok [{ path := str "env", mode := 420, data := str "A=1\n" }] ∧
    Rel (Abs (str "/") (str "/repo")) (Abs (str "/") (str "/repo")) = some (str ".") ∧
    gitListInputs (gitEnv (str ".env\nbuild.sh\n")) rootJobFs (str "/repo") (str "/repo")
      = .ok [str ".env", str "build.sh"] ∧
    Lstat (str "/") rootJobFs (str "/repo/build.sh") ≠ none ∧
    gitInputsHash (gitEnv (str ".env\nbuild.sh\n")) rootJobFs (str "/repo") (str "/repo")
      = .error .statInput := by
  refine ⟨by decide, by decide, by decide, ?_, by decide⟩
  intro h
  exact Option.noConfusion h

/-! ## `build.go`: the second call -/

set_option maxRecDepth 200000 in
/-- With the built-in rules only (walk-aware strategy, no ignore file) the second
call does hit the cache: it starts nothing and leaves the filesystem as it is. -/
theorem one_second_call_skips :
    (one quietEnv liveCtx Faults.none plainFs demoJob false).err = none ∧
    (one quietEnv liveCtx Faults.none plainFs demoJob false).started = [str "/job/build.sh"] ∧
    (one quietEnv liveCtx Faults.none
        (one quietEnv liveCtx Faults.none plainFs demoJob false).fs demoJob false).started = [] ∧
    (one quietEnv liveCtx Faults.none
        (one quietEnv liveCtx Faults.none plainFs demoJob false).fs demoJob false).err = none := by
  refine ⟨by decide, by decide, by decide, by decide⟩

set_option maxRecDepth 200000 in
/-- The tree-aware strategy has no built-in rule: in a work tree without ignore
files `git ls-files` lists the untracked state file, so the second call finds a
different fingerprint and runs the build again. -/
theorem one_second_call_rebuilds_in_worktree :
    (one worktreeEnv liveCtx Faults.none worktreeFs worktreeJob false).err = none ∧
    (one worktreeEnv liveCtx Faults.none worktreeFs worktreeJob false).started
      = [str "/repo/jobs/a/build.sh"] ∧
    (one worktreeEnv liveCtx Faults.none
        (one worktreeEnv liveCtx Faults.none worktreeFs worktreeJob false).fs worktreeJob
        false).started
      = [str "/repo/jobs/a/build.sh"] := by
  refine ⟨by decide, by decide, by decide⟩

set_option maxRecDepth 200000 in
/-- C1 at a failing input (walk-aware strategy). The job's ignore file holds the
line `!.cronctl/`, which comes after the built-in rules and re-includes the
cache-state directory. The first call runs the build and writes the state file;
the second call, on the otherwise unchanged directory and unforced, hashes the
state file too, finds a different fingerprint, runs the build again and rewrites
the state file with another content. -/
theorem one_second_call_rebuilds :
    (one quietEnv liveCtx Faults.none unignoredFs demoJob false).err = none ∧
    (one quietEnv liveCtx Faults.none unignoredFs demoJob false).started = [str "/job/build.sh"] ∧
    (one quietEnv liveCtx Faults.none
        (one quietEnv liveCtx Faults.none unignoredFs demoJob false).fs demoJob false).started
      = [str "/job/build.sh"] ∧
    ReadHash (str "/") (one quietEnv liveCtx Faults.none
        (one quietEnv liveCtx Faults.none unignoredFs demoJob false).fs demoJob false).fs
        (StateFilePath demoJob.Dir)
      ≠ ReadHash (str "/") (one quietEnv liveCtx Faults.none unignoredFs demoJob false).fs
        (StateFilePath demoJob.Dir) := by
  refine ⟨by decide, by decide, by decide, by decide⟩

/-! ## `state.go`: what `ReadHash` returns -/

theorem spaceWidth_one (c : Nat) : spaceWidth [c] = if asciiSpace c then 1 else 0 := by
  simp only [spaceWidth, List.getD, List.get?, Option.getD]
  by_cases hc : asciiSpace c = true
  · simp [hc]
  · simp [hc]

theorem spaceWidth_two (c d : Nat) :
    spaceWidth [c, d]
      = if asciiSpace c then 1 else if c = 194 ∧ (d = 133 ∨ d = 160) then 2 else 0 := by
  simp only [spaceWidth, List.getD, List.get?, Option.getD]
  by_cases hc : asciiSpace c = true
  · simp [hc]
  · by_cases h2 : c = 194 ∧ (d = 133 ∨ d = 160)
    · simp [hc, h2]
    · simp only [hc, h2, if_false]
      simp

theorem spaceWidth_three (c d e : Nat) (rest : GoString) :
    spaceWidth (c :: d :: e :: rest) = spaceWidth [c, d, e] := by
  simp only [spaceWidth, List.getD, List.get?, Option.getD]

theorem spaceWidth_two_three (c d e : Nat) (h : spaceWidth [c, d] ≠ 0) :
    spaceWidth [c, d, e] = spaceWidth [c, d] := by
  rw [spaceWidth_two] at h ⊢
  simp only [spaceWidth, List.getD, List.get?, Option.getD]
  by_cases hc : asciiSpace c = true
  · simp [hc]
  · by_cases h2 : c = 194 ∧ (d = 133 ∨ d = 160)
    · simp [hc, h2]
    · simp [hc, h2] at h

theorem spaceWidth_le_three (s : GoString) : spaceWidth s ≤ 3 := by
  cases s with
  | nil => simp [spaceWidth]
  | cons c rest =>
    simp only [spaceWidth]
    split_ifs <;> omega

theorem spaceWidth_le (s : GoString) : spaceWidth s ≤ s.length := by
  rcases s with _ | ⟨c, _ | ⟨d, _ | ⟨e, rest⟩⟩⟩
  · simp [spaceWidth]
  · rw [spaceWidth_one]; split_ifs <;> simp
  · rw [spaceWidth_two]; split_ifs <;> simp
  · have := spaceWidth_le_three (c :: d :: e :: rest)
    simp only [List.length_cons]
    omega

theorem spaceWidth_append (s x : GoString) (h : spaceWidth s ≠ 0) :
    spaceWidth (s ++ x) = spaceWidth s := by
  rcases s with _ | ⟨c, _ | ⟨d, _ | ⟨e, rest⟩⟩⟩
  · simp [spaceWidth] at h
  · rw [spaceWidth_one] at h ⊢
    have hc : asciiSpace c = true := by
      by_contra hc
      simp [hc] at h
    simp [spaceWidth, hc]
  · rcases x with _ | ⟨e, x⟩
    · simp
    · show spaceWidth (c :: d :: e :: x) = _
      rw [spaceWidth_three, spaceWidth_two_three c d e h]
  · show spaceWidth (c :: d :: e :: (rest ++ x)) = _
    rw [spaceWidth_three, spaceWidth_three c d e rest]

theorem spaceWidthEnd_spec (s : GoString) (h : spaceWidthEnd s ≠ 0) :
    spaceWidthEnd s ≤ s.length ∧
      spaceWidth (s.drop (s.length - spaceWidthEnd s)) = spaceWidthEnd s := by
  unfold spaceWidthEnd at h ⊢
  split_ifs at h ⊢ with h1 h2 h3
  · exact ⟨h1.1, h1.2⟩
  · exact ⟨h2.1, h2.2⟩
  · exact ⟨h3.1, h3.2⟩
  · exact absurd rfl h

theorem Blank.append {l r : GoString} (hl : Blank l) (hr : Blank r) : Blank (l ++ r) := by
  induction hl with
  | nil => simpa using hr
  | cons w l2 hw hsw _ ih =>
    rw [List.append_assoc]
    exact Blank.cons w _ hw hsw ih

theorem Blank.single (w : GoString) (hw : w ≠ []) (hsw : spaceWidth w = w.length) : Blank w := by
  have := Blank.cons w [] hw hsw Blank.nil
  simpa using this

theorem Blank.eq_nil {t : GoString} (h : Blank t) (h0 : spaceWidth t = 0) : t = [] := by
  cases h with
  | nil => rfl
  | cons w r hw hsw _ =>
    have hne : spaceWidth w ≠ 0 := by
      rw [hsw]
      exact fun h => hw (List.length_eq_zero.mp h)
    rw [spaceWidth_append w r hne, hsw] at h0
    exact absurd (List.length_eq_zero.mp h0) hw

theorem spacesOnly_fuel : ∀ (n m : Nat) (s : GoString), s.length ≤ n → s.length ≤ m →
    spacesOnly n s = spacesOnly m s := by
  intro n
  induction n with
  | zero =>
    intro m s hn _
    have : s = [] := List.length_eq_zero.mp (Nat.le_zero.mp hn)
    subst this
    cases m <;> rfl
  | succ n ih =>
    intro m s hn hm
    cases s with
    | nil => cases m <;> rfl
    | cons c cs =>
      cases m with
      | zero => simp at hm
      | succ m =>
        simp only [spacesOnly]
        by_cases h0 : spaceWidth (c :: cs) = 0
        · simp [h0]
        · have hlen : ((c :: cs).drop (spaceWidth (c :: cs))).length ≤ cs.length := by
            simp only [List.length_drop, List.length_cons]
            omega
          simp only [List.length_cons] at hn hm
          rw [ih m _ (by omega) (by omega)]

theorem Blank.whitespaceOnly {s : GoString} (h : Blank s) : whitespaceOnly s = true := by
  induction h with
  | nil => rfl
  | cons w r hw hsw _ ih =>
    have hne : spaceWidth w ≠ 0 := by
      rw [hsw]
      exact fun h => hw (List.length_eq_zero.mp h)
    cases hwr : w ++ r with
    | nil => rfl
    | cons c cs =>
      have hsw2 : spaceWidth (c :: cs) = w.length := by
        rw [← hwr, spaceWidth_append w r hne, hsw]
      have hdrop : (c :: cs).drop w.length = r := by
        rw [← hwr]
        simp
      have hlen : r.length ≤ cs.length := by
        have : (c :: cs).length = w.length + r.length := by rw [← hwr]; simp
        have : 0 < w.length := List.length_pos.mpr hw
        simp only [List.length_cons] at *
        omega
      unfold Cronctl.whitespaceOnly at ih ⊢
      simp only [List.length_cons, spacesOnly, hsw2, hdrop]
      rw [spacesOnly_fuel cs.length r.length r hlen le_rfl, ih]
      simpa using hw

theorem spaceWidth_three_cases (c d e : Nat) :
    spaceWidth [c, d, e] = 0 ∨ (spaceWidth [c, d, e] = 1 ∧ asciiSpace c = true) ∨
      (spaceWidth [c, d, e] = 2 ∧ spaceWidth [c, d] = 2) ∨ spaceWidth [c, d, e] = 3 := by
  by_cases hc : asciiSpace c = true
  · right; left
    simp [spaceWidth, hc]
  · by_cases h2 : c = 194 ∧ (d = 133 ∨ d = 160)
    · right; right; left
      have h194 : asciiSpace 194 = false := by decide
      rw [spaceWidth_two]
      simp only [spaceWidth, List.getD, List.get?, Option.getD]
      simp [h2, h194]
    · have hc2 : asciiSpace c = false := by simpa using hc
      simp only [spaceWidth, List.getD, List.get?, Option.getD, hc2, h2, Bool.false_eq_true,
        if_false]
      split_ifs <;> simp

theorem spaceWidth_take (s : GoString) :
    spaceWidth (s.take (spaceWidth s)) = spaceWidth s := by
  rcases s with _ | ⟨c, _ | ⟨d, _ | ⟨e, rest⟩⟩⟩
  · rfl
  · by_cases hc : asciiSpace c = true
    · simp [spaceWidth_one, hc]
    · simp [spaceWidth_one, hc, spaceWidth]
  · by_cases hc : asciiSpace c = true
    · simp [spaceWidth_two, spaceWidth_one, hc]
    · by_cases h2 : c = 194 ∧ (d = 133 ∨ d = 160)
      · have h194 : asciiSpace 194 = false := by decide
        simp [spaceWidth_two, h2, h194]
      · simp [spaceWidth_two, hc, h2, spaceWidth]
  · rw [spaceWidth_three]
    rcases spaceWidth_three_cases c d e with h | ⟨h, hc⟩ | ⟨h, h2⟩ | h
    · rw [h]; rfl
    · rw [h]
      simp [spaceWidth_one, hc]
    · rw [h]
      simpa using h2
    · rw [h]
      simpa using h

theorem trimLeftSpace_spec : ∀ (fuel : Nat) (s : GoString),
    ∃ l, s = l ++ trimLeftSpace fuel s ∧ Blank l ∧
      (s.length ≤ fuel → spaceWidth (trimLeftSpace fuel s) = 0) := by
  intro fuel
  induction fuel with
  | zero =>
    intro s
    refine ⟨[], rfl, Blank.nil, ?_⟩
    intro h
    have : s = [] := List.length_eq_zero.mp (Nat.le_zero.mp h)
    subst this
    rfl
  | succ n ih =>
    intro s
    by_cases h0 : spaceWidth s = 0
    · refine ⟨[], ?_, Blank.nil, ?_⟩
      · simp [trimLeftSpace, h0]
      · intro _
        simp [trimLeftSpace, h0]
    · obtain ⟨l, hl, hb, hz⟩ := ih (s.drop (spaceWidth s))
      have hle := spaceWidth_le s
      have htake : spaceWidth (s.take (spaceWidth s)) = (s.take (spaceWidth s)).length := by
        rw [spaceWidth_take, List.length_take]
        omega
      refine ⟨s.take (spaceWidth s) ++ l, ?_, ?_, ?_⟩
      · simp only [trimLeftSpace, h0, if_false]
        rw [List.append_assoc, ← hl, List.take_append_drop]
      · refine Blank.append (Blank.single _ ?_ htake) hb
        intro h
        have := congrArg List.length h
        simp only [List.length_take, List.length_nil] at this
        omega
      · intro hlen
        simp only [trimLeftSpace, h0, if_false]
        apply hz
        simp only [List.length_drop]
        omega

theorem trimRightSpace_nil (fuel : Nat) : trimRightSpace fuel [] = [] := by
  cases fuel <;> simp [trimRightSpace, spaceWidthEnd]

theorem trimRightSpace_spec : ∀ (fuel : Nat) (t : GoString),
    ∃ r, t = trimRightSpace fuel t ++ r ∧ Blank r ∧
      (t.length ≤ fuel → spaceWidthEnd (trimRightSpace fuel t) = 0) := by
  intro fuel
  induction fuel with
  | zero =>
    intro t
    refine ⟨[], by simp [trimRightSpace], Blank.nil, ?_⟩
    intro h
    have : t = [] := List.length_eq_zero.mp (Nat.le_zero.mp h)
    subst this
    simp [trimRightSpace, spaceWidthEnd]
  | succ n ih =>
    intro t
    by_cases h0 : spaceWidthEnd t = 0
    · refine ⟨[], ?_, Blank.nil, ?_⟩
      · simp [trimRightSpace, h0]
      · intro _
        simp [trimRightSpace, h0]
    · obtain ⟨hle, hsw⟩ := spaceWidthEnd_spec t h0
      obtain ⟨r, hr, hb, hz⟩ := ih (t.take (t.length - spaceWidthEnd t))
      have hlen : (t.drop (t.length - spaceWidthEnd t)).length = spaceWidthEnd t := by
        simp only [List.length_drop]
        omega
      refine ⟨r ++ t.drop (t.length - spaceWidthEnd t), ?_, ?_, ?_⟩
      · simp only [trimRightSpace, h0, if_false]
        rw [← List.append_assoc, ← hr, List.take_append_drop]
      · refine Blank.append hb (Blank.single _ ?_ (by rw [hsw, hlen]))
        intro h
        rw [h] at hlen
        exact h0 hlen.symm
      · intro hl
        simp only [trimRightSpace, h0, if_false]
        apply hz
        simp only [List.length_take]
        omega

theorem spacesOnly_trimLeftSpace : ∀ (n : Nat) (s : GoString), spacesOnly n s = true →
    trimLeftSpace n s = [] := by
  intro n
  induction n with
  | zero =>
    intro s h
    cases s with
    | nil => rfl
    | cons c cs => simp [spacesOnly] at h
  | succ n ih =>
    intro s h
    cases s with
    | nil => simp [trimLeftSpace, spaceWidth]
    | cons c cs =>
      simp only [spacesOnly, Bool.and_eq_true, bne_iff_ne, ne_eq] at h
      simp only [trimLeftSpace, h.1, if_false]
      exact ih _ h.2

theorem TrimSpace_blank (b : GoString) :
    ∃ l r, b = l ++ TrimSpace b ++ r ∧ Blank l ∧ Blank r ∧
      spaceWidth (TrimSpace b) = 0 ∧ spaceWidthEnd (TrimSpace b) = 0 := by
  obtain ⟨l, hl, hbl, hzl⟩ := trimLeftSpace_spec b.length b
  obtain ⟨r, hr, hbr, hzr⟩ := trimRightSpace_spec b.length (trimLeftSpace b.length b)
  have hlen : (trimLeftSpace b.length b).length ≤ b.length := by
    have := congrArg List.length hl
    simp only [List.length_append] at this
    omega
  refine ⟨l, r, ?_, hbl, hbr, ?_, hzr hlen⟩
  · show b = l ++ trimRightSpace b.length (trimLeftSpace b.length b) ++ r
    rw [List.append_assoc, ← hr, ← hl]
  · by_contra hne
    have h1 := spaceWidth_append (TrimSpace b) r hne
    have h2 : TrimSpace b ++ r = trimLeftSpace b.length b := hr.symm
    rw [h2, hzl le_rfl] at h1
    exact hne h1.symm

theorem TrimSpace_eq_nil_iff (b : GoString) : TrimSpace b = [] ↔ whitespaceOnly b = true := by
  constructor
  · intro h
    obtain ⟨l, r, hb, hl, hr, _, _⟩ := TrimSpace_blank b
    rw [h, List.append_nil] at hb
    rw [hb]
    exact (Blank.append hl hr).whitespaceOnly
  · intro h
    show trimRightSpace b.length (trimLeftSpace b.length b) = []
    rw [spacesOnly_trimLeftSpace b.length b h, trimRightSpace_nil]

/-- C11 (reading the state file). `ReadHash` has no error result. It reports
`found = true` exactly when the file can be read and its content is not white space
only; the string it then returns is the content without its leading and trailing
white space: the content is a white-space-only string, the returned string, and a
white-space-only string, and the returned string neither starts nor ends with a
white-space character. Whenever it reports `found = false` (the file is missing,
cannot be read, is empty or holds white space only) the returned string is empty. -/
theorem ReadHash_spec (cwd : GoString) (fs : Node) (path : GoString) :
    ((ReadHash cwd fs path).2 = true ↔
        ∃ b, ReadFile cwd fs path = .ok b ∧ whitespaceOnly b = false) ∧
      (∀ b, ReadFile cwd fs path = .ok b → whitespaceOnly b = false →
        ∃ l r, b = l ++ (ReadHash cwd fs path).1 ++ r ∧
          whitespaceOnly l = true ∧ whitespaceOnly r = true ∧
          spaceWidth (ReadHash cwd fs path).1 = 0 ∧
          spaceWidthEnd (ReadHash cwd fs path).1 = 0) ∧
      ((ReadHash cwd fs path).2 = false → (ReadHash cwd fs path).1 = []) := by
  cases hread : ReadFile cwd fs path with
  | error e => simp [ReadHash, hread]
  | ok b =>
    by_cases hw : whitespaceOnly b = true
    · have ht : TrimSpace b = [] := (TrimSpace_eq_nil_iff b).mpr hw
      simp [ReadHash, hread, ht, hw]
    · have ht : TrimSpace b ≠ [] := fun h => hw ((TrimSpace_eq_nil_iff b).mp h)
      have hw2 : whitespaceOnly b = false := by simpa using hw
      refine ⟨?_, ?_, ?_⟩
      · simp [ReadHash, hread, ht, hw2]
      · intro b2 hb2 _
        have : b2 = b := by
          injection hb2 with h
          exact h.symm
        subst this
        obtain ⟨l, r, hb, hl, hr, h1, h2⟩ := TrimSpace_blank b2
        refine ⟨l, r, ?_, hl.whitespaceOnly, hr.whitespaceOnly, ?_, ?_⟩ <;>
          simp only [ReadHash, hread, ht, if_false]
        · exact hb
        · exact h1
        · exact h2
      · simp [ReadHash, hread, ht]

/-- Witness of C11: a state file that holds a digest between white space. -/
theorem ReadHash_spec_witness :
    ∃ l r, str " 0a1f\n" = l ++ (ReadHash (str "/")
        (.dir [(str "job", .dir [(str ".cronctl", .dir [(str "filehash",
          .file 420 (some (str " 0a1f\n")))])])]) (str "/job/.cronctl/filehash")).1 ++ r ∧
      whitespaceOnly l = true ∧ whitespaceOnly r = true ∧
      spaceWidth (ReadHash (str "/")
        (.dir [(str "job", .dir [(str ".cronctl", .dir [(str "filehash",
          .file 420 (some (str " 0a1f\n")))])])]) (str "/job/.cronctl/filehash")).1 = 0 ∧
      spaceWidthEnd (ReadHash (str "/")
        (.dir [(str "job", .dir [(str ".cronctl", .dir [(str "filehash",
          .file 420 (some (str " 0a1f\n")))])])]) (str "/job/.cronctl/filehash")).1 = 0 :=
  (ReadHash_spec (str "/")
    (.dir [(str "job", .dir [(str ".cronctl", .dir [(str "filehash",
      .file 420 (some (str " 0a1f\n")))])])]) (str "/job/.cronctl/filehash")).2.1
    (str " 0a1f\n") (by decide) (by decide)

/-! ## `ignore.go`: the last rule that fires decides -/

theorem ruleStep_eq (rel : GoString) (isDir : Bool) (acc : Bool) (r : ignoreRule) :
    ruleStep rel isDir acc r = if fires rel isDir r = true then !r.negate else acc := by
  unfold ruleStep fires
  cases hre : r.re with
  | none => cases r.dirOnly <;> cases isDir <;> simp
  | some re =>
    cases r.dirOnly <;> cases isDir <;> cases r.anchored <;> cases re rel <;>
      cases re (Base rel) <;> cases r.negate <;> simp

theorem foldl_ruleStep (rel : GoString) (isDir : Bool) : ∀ (rules : List ignoreRule) (acc : Bool),
    rules.foldl (ruleStep rel isDir) acc = true ↔
      (∃ pre r post, rules = pre ++ r :: post ∧ fires rel isDir r = true ∧
        (∀ q ∈ post, fires rel isDir q = false) ∧ r.negate = false) ∨
      (acc = true ∧ ∀ q ∈ rules, fires rel isDir q = false) := by
  intro rules
  induction rules with
  | nil =>
    intro acc
    simp
  | cons a rs ih =>
    intro acc
    rw [List.foldl_cons, ih, ruleStep_eq]
    constructor
    · rintro (⟨pre, r, post, hrs, hf, hpost, hn⟩ | ⟨hacc, hnone⟩)
      · exact Or.inl ⟨a :: pre, r, post, by rw [hrs]; rfl, hf, hpost, hn⟩
      · by_cases hfa : fires rel isDir a = true
        · rw [if_pos hfa] at hacc
          exact Or.inl ⟨[], a, rs, rfl, hfa, hnone, by simpa using hacc⟩
        · rw [if_neg hfa] at hacc
          refine Or.inr ⟨hacc, ?_⟩
          intro q hq
          rcases List.mem_cons.mp hq with h | h
          · rw [h]
            simpa using hfa
          · exact hnone q h
    · rintro (⟨pre, r, post, hrs, hf, hpost, hn⟩ | ⟨hacc, hnone⟩)
      · cases pre with
        | nil =>
          simp only [List.nil_append, List.cons.injEq] at hrs
          obtain ⟨h1, h2⟩ := hrs
          subst h1 h2
          exact Or.inr ⟨by simp [hf, hn], hpost⟩
        | cons p pre =>
          simp only [List.cons_append, List.cons.injEq] at hrs
          exact Or.inl ⟨pre, r, post, hrs.2, hf, hpost, hn⟩
      · have hfa : fires rel isDir a = false := hnone a (List.mem_cons_self _ _)
        refine Or.inr ⟨by simp [hfa, hacc], ?_⟩
        intro q hq
        exact hnone q (List.mem_cons_of_mem _ hq)

/-- C12 (last matching rule wins). For every rule list and every relative path
other than the empty path and `.`, `match` returns true if and only if some rule
fires, no rule after it fires, and it is not a negation; when no rule fires the
result is false. -/
theorem match_last_rule_wins (m : ignoreMatcher) (rel : GoString) (isDir : Bool)
    (hne : rel ≠ []) (hdot : rel ≠ str ".") :
    (m.match_ rel isDir = true ↔
        ∃ pre r post, m.rules = pre ++ r :: post ∧ fires rel isDir r = true ∧
          (∀ q ∈ post, fires rel isDir q = false) ∧ r.negate = false) ∧
      ((∀ q ∈ m.rules, fires rel isDir q = false) → m.match_ rel isDir = false) := by
  have hm : m.match_ rel isDir = m.rules.foldl (ruleStep rel isDir) false := by
    unfold ignoreMatcher.match_
    rw [if_neg]
    rintro (h | h)
    · exact hne h
    · exact hdot h
  have hiff := foldl_ruleStep rel isDir m.rules false
  rw [hm]
  constructor
  · rw [hiff]
    simp
  · intro hnone
    cases hfold : m.rules.foldl (ruleStep rel isDir) false with
    | false => rfl
    | true =>
      rcases hiff.mp hfold with ⟨pre, r, post, hrs, hf, _, _⟩ | ⟨h, _⟩
      · have := hnone r (by rw [hrs]; simp)
        rw [this] at hf
        exact absurd hf (by simp)
      · exact absurd h (by simp)

/-- Witness of C12: a rule that ignores `out`, then one that takes `out/keep`
back; `out/keep` is not ignored, `out/drop` is. -/
theorem match_last_rule_wins_witness :
    ((ignoreMatcher.mk [⟨false, false, false, some (fun s => s.take 3 == str "out")⟩,
          ⟨true, false, true, some (fun s => s == str "out/keep")⟩]).match_
        (str "out/drop") false = true ↔
        ∃ pre r post, (ignoreMatcher.mk [⟨false, false, false,
              some (fun s => s.take 3 == str "out")⟩,
            ⟨true, false, true, some (fun s => s == str "out/keep")⟩]).rules
            = pre ++ r :: post ∧ fires (str "out/drop") false r = true ∧
          (∀ q ∈ post, fires (str "out/drop") false q = false) ∧ r.negate = false) ∧
      ((∀ q ∈ (ignoreMatcher.mk [⟨false, false, false,
              some (fun s => s.take 3 == str "out")⟩,
            ⟨true, false, true, some (fun s => s == str "out/keep")⟩]).rules,
          fires (str "out/drop") false q = false) →
        (ignoreMatcher.mk [⟨false, false, false, some (fun s => s.take 3 == str "out")⟩,
          ⟨true, false, true, some (fun s => s == str "out/keep")⟩]).match_
          (str "out/drop") false = false) :=
  match_last_rule_wins _ (str "out/drop") false (by decide) (by decide)

/-! ## `ignore.go`: the built-in rules -/

theorem ruleStep_keeps_true (rel : GoString) (isDir : Bool) (r : ignoreRule)
    (hn : r.negate = false) : ruleStep rel isDir true r = true := by
  rw [ruleStep_eq]
  split_ifs <;> simp [hn]

theorem foldl_ruleStep_keeps_true (rel : GoString) (isDir : Bool) :
    ∀ rules : List ignoreRule, (∀ r ∈ rules, r.negate = false) →
      rules.foldl (ruleStep rel isDir) true = true := by
  intro rules
  induction rules with
  | nil => intro _; rfl
  | cons a rs ih =>
    intro h
    rw [List.foldl_cons, ruleStep_keeps_true rel isDir a (h a (List.mem_cons_self _ _))]
    exact ih fun r hr => h r (List.mem_cons_of_mem _ hr)

theorem compileIgnore_append (env : Env) (xs ys : List GoString) :
    (compileIgnore env (xs ++ ys)).rules = (compileIgnore env xs).rules ++ (compileIgnore env ys).rules := by
  simp [compileIgnore, List.filterMap_append]

set_option maxRecDepth 200000 in
/-- Without a negation among the lines of the ignore file the built-in rules do
hold: the matcher reports `.cronctl` and `.git` at the job root as ignored. -/
theorem loadJobIgnore_builtin_of_no_negation (env : Env) (fs : Node) (jobDir : GoString)
    (m : ignoreMatcher) (hre : env.regexpCompile = fragmentCompile)
    (hload : loadJobIgnore env fs jobDir = .ok m)
    (hneg : ∀ r ∈ m.rules, r.negate = false) :
    m.match_ (str ".cronctl") true = true ∧ m.match_ (str ".git") true = true := by
  have hpre : ∃ rest, m.rules = (compileIgnore quietEnv [str ".cronctl/", str ".git/"]).rules ++ rest := by
    have hq : (compileIgnore env [str ".cronctl/", str ".git/"]).rules
        = (compileIgnore quietEnv [str ".cronctl/", str ".git/"]).rules := by
      simp only [compileIgnore, List.filterMap, compileLine, gitignorePatternToRegexp, hre]
      rfl
    unfold loadJobIgnore at hload
    simp only at hload
    split at hload
    · injection hload with h
      exact ⟨[], by rw [← h, hq, List.append_nil]⟩
    · exact Except.noConfusion hload
    · split at hload
      · exact Except.noConfusion hload
      · injection hload with h
        rename_i more _
        exact ⟨(compileIgnore env more).rules, by rw [← h, compileIgnore_append, hq]⟩
  obtain ⟨rest, hrules⟩ := hpre
  have hrest : ∀ r ∈ rest, r.negate = false := fun r hr =>
    hneg r (by rw [hrules]; exact List.mem_append_right _ hr)
  have h1 : (compileIgnore quietEnv [str ".cronctl/", str ".git/"]).rules.foldl
      (ruleStep (str ".cronctl") true) false = true := by decide
  have h2 : (compileIgnore quietEnv [str ".cronctl/", str ".git/"]).rules.foldl
      (ruleStep (str ".git") true) false = true := by decide
  constructor
  · unfold ignoreMatcher.match_
    rw [if_neg (by decide), hrules, List.foldl_append, h1]
    exact foldl_ruleStep_keeps_true _ _ rest hrest
  · unfold ignoreMatcher.match_
    rw [if_neg (by decide), hrules, List.foldl_append, h2]
    exact foldl_ruleStep_keeps_true _ _ rest hrest

set_option maxRecDepth 200000 in
/-- C13 at a failing input (an ignore file with the lines `!.cronctl/` and
`!.git/`). `loadJobIgnore` puts the two built-in rules first, so the negations of
the ignore file come later and win: the matcher reports neither `.cronctl` nor
`.git` as ignored, and `walkHash` folds the state file and the version-control
metadata into the fingerprint. -/
theorem loadJobIgnore_builtin_overridden :
    builtinVerdicts quietEnv reincludedFs (str "/job") = .ok (false, false) ∧
    walkedPaths quietEnv reincludedFs (str "/job")
      = .ok [str ".cronctl/filehash", str ".git/HEAD", str ".gitignore", str "build.sh"] := by
  refine ⟨by decide, by decide⟩

/-! ## `ignore.go`: the rules `compileIgnore` returns -/

theorem HasPrefix_one (t : GoString) (c : Nat) : HasPrefix t [c] = (t.head? == some c) := by
  cases t with
  | nil => simp [HasPrefix]
  | cons a as => simp [HasPrefix, List.isPrefixOf, eq_comm]

theorem TrimPrefix_one (t : GoString) (c : Nat) (h : HasPrefix t [c] = true) :
    TrimPrefix t [c] = t.tail := by
  cases t with
  | nil => simp [TrimPrefix]
  | cons a as => simp [TrimPrefix, h]

theorem HasSuffix_one (t : GoString) (c : Nat) : HasSuffix t [c] = (t.getLast? == some c) := by
  rcases List.eq_nil_or_concat t with h | ⟨l, a, h⟩
  · subst h
    simp [HasSuffix]
  · subst h
    by_cases hac : a = c
    · subst hac
      simp [HasSuffix, List.isSuffixOf]
    · have h1 : ¬ c = a := fun h => hac h.symm
      simp [HasSuffix, List.isSuffixOf, List.isPrefixOf, hac, h1]

theorem TrimSuffix_one (t : GoString) (c : Nat) (h : HasSuffix t [c] = true) :
    TrimSuffix t [c] = t.dropLast := by
  simp [TrimSuffix, h, List.dropLast_eq_take]

theorem TrimPrefix_eq (t : GoString) (c : Nat) :
    TrimPrefix t [c] = if (t.head? == some c) = true then t.tail else t := by
  by_cases h : HasPrefix t [c] = true
  · rw [TrimPrefix_one t c h, if_pos (by rw [← HasPrefix_one]; exact h)]
  · have h2 : ¬ (t.head? == some c) = true := by rw [← HasPrefix_one]; exact h
    rw [if_neg h2, TrimPrefix, if_neg h]

theorem TrimSuffix_eq (t : GoString) (c : Nat) :
    TrimSuffix t [c] = if (t.getLast? == some c) = true then t.dropLast else t := by
  by_cases h : HasSuffix t [c] = true
  · rw [TrimSuffix_one t c h, if_pos (by rw [← HasSuffix_one]; exact h)]
  · have h2 : ¬ (t.getLast? == some c) = true := by rw [← HasSuffix_one]; exact h
    rw [if_neg h2, TrimSuffix, if_neg h]

theorem compileLine_eq (env : Env) (raw : GoString) :
    compileLine env raw
      = if lineKept env raw = true then
          some { negate := (lineMarkers raw).1, dirOnly := (lineMarkers raw).2.1,
                 anchored := (lineMarkers raw).2.2.1,
                 re := gitignorePatternToRegexp env (lineMarkers raw).2.2.2
                   (lineMarkers raw).2.2.1 }
        else none := by
  have e33 : str "!" = [33] := by decide
  have e35 : str "#" = [35] := by decide
  have e47 : str "/" = [47] := by decide
  unfold compileLine lineKept lineMarkers
  simp only [e33, e35, e47, HasPrefix_one, HasSuffix_one, TrimPrefix_eq, TrimSuffix_eq]
  generalize TrimSpace raw = t
  by_cases h0 : t = []
  · simp [h0]
  · cases hc0 : (t.head? == some 35)
    · have hc : ¬ t.head? = some 35 := by simpa using hc0
      cases hn : (t.head? == some 33)
      · simp only [h0, hn, Bool.false_eq_true, if_false]
        cases hd : (t.getLast? == some 47)
        · simp only [Bool.false_eq_true, if_false]
          cases ha : (t.head? == some 47)
          · simp only [Bool.false_eq_true, if_false, h0]
            cases hre : gitignorePatternToRegexp env t false <;> simp [h0, hc]
          · simp only [if_true]
            by_cases he : t.tail = []
            · simp [he]
            · cases hre : gitignorePatternToRegexp env t.tail true <;> simp [h0, hc, he]
        · simp only [if_true]
          cases ha : (t.dropLast.head? == some 47)
          · simp only [Bool.false_eq_true, if_false]
            by_cases he : t.dropLast = []
            · simp [he]
            · cases hre : gitignorePatternToRegexp env t.dropLast false <;> simp [h0, hc, he]
          · simp only [if_true]
            by_cases he : t.dropLast.tail = []
            · simp [he]
            · cases hre : gitignorePatternToRegexp env t.dropLast.tail true <;>
                simp [h0, hc, he]
      · simp only [h0, hn, if_true, if_false]
        generalize TrimSpace t.tail = u
        cases hd : (u.getLast? == some 47)
        · simp only [Bool.false_eq_true, if_false]
          cases ha : (u.head? == some 47)
          · simp only [Bool.false_eq_true, if_false]
            by_cases he : u = []
            · simp [he]
            · cases hre : gitignorePatternToRegexp env u false <;> simp [h0, hc, he]
          · simp only [if_true]
            by_cases he : u.tail = []
            · simp [he]
            · cases hre : gitignorePatternToRegexp env u.tail true <;> simp [h0, hc, he]
        · simp only [if_true]
          cases ha : (u.dropLast.head? == some 47)
          · simp only [Bool.false_eq_true, if_false]
            by_cases he : u.dropLast = []
            · simp [he]
            · cases hre : gitignorePatternToRegexp env u.dropLast false <;> simp [h0, hc, he]
          · simp only [if_true]
            by_cases he : u.dropLast.tail = []
            · simp [he]
            · cases hre : gitignorePatternToRegexp env u.dropLast.tail true <;>
                simp [h0, hc, he]
    · have hc : t.head? = some 35 := by simpa using hc0
      simp [h0, hc]

/-- C16 (compiling the ignore lines). `compileIgnore` has no error result. The
rules it returns are, in input order, one for each raw line that is kept: a line
that after trimming is not blank and does not start with `#`, has a pattern left
after its markers are taken away, and whose pattern translates to an expression
that compiles. The rule of a line is a negation iff the trimmed line starts with
`!`, is directory-only iff the text after that ends with `/`, is anchored iff the
text before that `/` starts with `/`, and carries the matcher of the pattern left
after the three markers. -/
theorem compileIgnore_rules (env : Env) (lines : List GoString) :
    List.Forall₂ (ruleOfLine env) (lines.filter (lineKept env))
      (compileIgnore env lines).rules := by
  unfold compileIgnore
  induction lines with
  | nil => exact List.Forall₂.nil
  | cons raw rest ih =>
    by_cases hk : lineKept env raw = true
    · rw [List.filter_cons_of_pos hk, List.filterMap_cons, compileLine_eq, if_pos hk]
      exact List.Forall₂.cons ⟨rfl, rfl, rfl, rfl⟩ ih
    · rw [List.filter_cons_of_neg hk, List.filterMap_cons, compileLine_eq, if_neg hk]
      exact ih

/-! ## The expression of a pattern, piece by piece -/

theorem tokenize_lit (f : Nat) (c : Nat) (rest : GoString) (h128 : c < 128)
    (h42 : c ≠ 42) (h63 : c ≠ 63) (h91 : c ≠ 91) (hesc : isEscaped c = false) :
    tokenize (f + 1) (c :: rest) = (tokenize f rest).map (Tok.one (· == c) :: ·) := by
  have e1 : str "(?:^|.*/)" = [40, 63, 58, 94, 124, 46, 42, 47, 41] := by decide
  have e2 : str "[^/]*" = [91, 94, 47, 93, 42] := by decide
  have e3 : str "[^/]" = [91, 94, 47, 93] := by decide
  have e4 : str ".*" = [46, 42] := by decide
  simp only [isEscaped, Bool.or_eq_false_iff, beq_eq_false_iff_ne, ne_eq] at hesc
  obtain ⟨⟨⟨⟨⟨⟨⟨⟨⟨h46, h43⟩, h40⟩, h41⟩, h124⟩, h94⟩, h36⟩, h123⟩, h125⟩, h92⟩ := hesc
  have p1 : HasPrefix (c :: rest) [40, 63, 58, 94, 124, 46, 42, 47, 41] = false := by
    simp [HasPrefix, List.isPrefixOf, Ne.symm h40]
  have p2 : HasPrefix (c :: rest) [91, 94, 47, 93, 42] = false := by
    simp [HasPrefix, List.isPrefixOf, Ne.symm h91]
  have p3 : HasPrefix (c :: rest) [91, 94, 47, 93] = false := by
    simp [HasPrefix, List.isPrefixOf, Ne.symm h91]
  have p4 : HasPrefix (c :: rest) [46, 42] = false := by
    simp [HasPrefix, List.isPrefixOf, Ne.symm h46]
  have hsp : c ≠ 93 → isSpecial c = false := by
    intro h93
    simp [isSpecial, isEscaped, *]
  simp only [tokenize]
  simp only [e1, e2, e3, e4, p1, p2, p3, p4, Bool.false_eq_true, if_false, h94, h36, h92, h91]
  by_cases h93 : c = 93
  · simp [h93]
  · have : ¬ 128 ≤ c := by omega
    simp [h93, hsp h93, this]

theorem tokenize_esc (f : Nat) (c : Nat) (rest : GoString) (hesc : isEscaped c = true) :
    tokenize (f + 1) (92 :: c :: rest) = (tokenize f rest).map (Tok.one (· == c) :: ·) := by
  have e1 : str "(?:^|.*/)" = [40, 63, 58, 94, 124, 46, 42, 47, 41] := by decide
  have e2 : str "[^/]*" = [91, 94, 47, 93, 42] := by decide
  have e3 : str "[^/]" = [91, 94, 47, 93] := by decide
  have e4 : str ".*" = [46, 42] := by decide
  have hsp : isSpecial c = true := by simp [isSpecial, hesc]
  simp only [tokenize]
  simp [e1, e2, e3, e4, HasPrefix, List.isPrefixOf, hsp]

theorem tokenize_star (f : Nat) (rest : GoString) :
    tokenize (f + 1) (str "[^/]*" ++ rest) = (tokenize f rest).map (Tok.star (· != 47) :: ·) := by
  have e1 : str "(?:^|.*/)" = [40, 63, 58, 94, 124, 46, 42, 47, 41] := by decide
  have e2 : str "[^/]*" = [91, 94, 47, 93, 42] := by decide
  rw [e2]
  show tokenize (f + 1) (91 :: ([94, 47, 93, 42] ++ rest)) = _
  simp only [tokenize]
  simp [e1, e2, HasPrefix, List.isPrefixOf]

theorem tokenize_any (f : Nat) (rest : GoString) (h : rest.head? ≠ some 42) :
    tokenize (f + 1) (str "[^/]" ++ rest) = (tokenize f rest).map (Tok.one (· != 47) :: ·) := by
  have e1 : str "(?:^|.*/)" = [40, 63, 58, 94, 124, 46, 42, 47, 41] := by decide
  have e2 : str "[^/]*" = [91, 94, 47, 93, 42] := by decide
  have e3 : str "[^/]" = [91, 94, 47, 93] := by decide
  rw [e3]
  show tokenize (f + 1) (91 :: ([94, 47, 93] ++ rest)) = _
  simp only [tokenize]
  cases rest with
  | nil => simp [e1, e2, e3, HasPrefix, List.isPrefixOf]
  | cons r rs =>
    have hr : ¬ 42 = r := by
      intro h2
      exact h (by simp [h2])
    simp [e1, e2, e3, HasPrefix, List.isPrefixOf, hr]

theorem tokenize_dstar (f : Nat) (rest : GoString) :
    tokenize (f + 1) (str ".*" ++ rest) = (tokenize f rest).map (Tok.star (· != 10) :: ·) := by
  have e1 : str "(?:^|.*/)" = [40, 63, 58, 94, 124, 46, 42, 47, 41] := by decide
  have e2 : str "[^/]*" = [91, 94, 47, 93, 42] := by decide
  have e3 : str "[^/]" = [91, 94, 47, 93] := by decide
  have e4 : str ".*" = [46, 42] := by decide
  rw [e4]
  show tokenize (f + 1) (46 :: ([42] ++ rest)) = _
  simp only [tokenize]
  simp [e1, e2, e3, e4, HasPrefix, List.isPrefixOf]

theorem tokenize_eol (f : Nat) : tokenize (f + 2) [36] = some [Tok.eol] := by
  have e1 : str "(?:^|.*/)" = [40, 63, 58, 94, 124, 46, 42, 47, 41] := by decide
  have e2 : str "[^/]*" = [91, 94, 47, 93, 42] := by decide
  have e3 : str "[^/]" = [91, 94, 47, 93] := by decide
  have e4 : str ".*" = [46, 42] := by decide
  simp [tokenize, e1, e2, e3, e4, HasPrefix, List.isPrefixOf]

theorem patternBody_head (p : GoString) : (patternBody p ++ [36]).head? ≠ some 42 := by
  have e2 : str "[^/]*" = [91, 94, 47, 93, 42] := by decide
  have e3 : str "[^/]" = [91, 94, 47, 93] := by decide
  have e4 : str ".*" = [46, 42] := by decide
  rcases p with _ | ⟨c, _ | ⟨d, ds⟩⟩
  · simp [patternBody]
  · simp only [patternBody, e2, e3]
    split_ifs with h1 h2 h3 <;> simp
    exact h1
  · simp only [patternBody, e2, e3, e4]
    split_ifs with h1 h2 h3 h4 <;> simp
    exact h1

theorem patternBody_cons (c : Nat) (cs : GoString) (h42 : c ≠ 42) :
    patternBody (c :: cs)
      = if c = 63 then str "[^/]" ++ patternBody cs
        else if isEscaped c = true then 92 :: c :: patternBody cs
        else c :: patternBody cs := by
  cases cs <;> simp [patternBody, h42]

theorem globToks_cons (c : Nat) (cs : GoString) (h42 : c ≠ 42) :
    globToks (c :: cs)
      = if c = 63 then Tok.one (· != 47) :: globToks cs else Tok.one (· == c) :: globToks cs := by
  cases cs <;> simp [globToks, h42]

theorem tokenize_patternBody : ∀ (n : Nat) (pat : GoString), pat.length ≤ n →
    (∀ c ∈ pat, c < 128 ∧ c ≠ 91) → ∀ fuel, n + 2 ≤ fuel →
      tokenize fuel (patternBody pat ++ [36]) = some (globToks pat ++ [Tok.eol]) := by
  intro n
  induction n using Nat.strong_induction_on with
  | _ n ih =>
    intro pat hlen hpat fuel hfuel
    obtain ⟨f, rfl⟩ : ∃ f, fuel = f + 1 := ⟨fuel - 1, by omega⟩
    rcases pat with _ | ⟨c, cs⟩
    · obtain ⟨g, rfl⟩ : ∃ g, f = g + 1 := ⟨f - 1, by omega⟩
      simpa [patternBody, globToks] using tokenize_eol g
    · have hc := hpat c (List.mem_cons_self _ _)
      have hcs : ∀ x ∈ cs, x < 128 ∧ x ≠ 91 := fun x hx => hpat x (List.mem_cons_of_mem _ hx)
      simp only [List.length_cons] at hlen
      by_cases h42 : c = 42
      · subst h42
        rcases cs with _ | ⟨d, ds⟩
        · obtain ⟨g, rfl⟩ : ∃ g, f = g + 2 := ⟨f - 2, by omega⟩
          simp only [patternBody, globToks, if_true]
          rw [tokenize_star, tokenize_eol]
          rfl
        · by_cases hd : d = 42
          · subst hd
            simp only [patternBody, globToks, if_true, List.append_assoc]
            simp only [List.length_cons] at hlen
            rw [tokenize_dstar, ih (n - 2) (by omega) ds (by omega)
              (fun x hx => hcs x (List.mem_cons_of_mem _ hx)) f (by omega)]
            rfl
          · simp only [patternBody, globToks, if_true, if_neg hd, List.append_assoc]
            rw [tokenize_star, ih (n - 1) (by omega) (d :: ds) (by omega) hcs f (by omega)]
            rfl
      · by_cases h63 : c = 63
        · subst h63
          rw [patternBody_cons _ _ h42, globToks_cons _ _ h42]
          simp only [if_true, List.append_assoc]
          rw [tokenize_any _ _ (patternBody_head cs), ih (n - 1) (by omega) cs (by omega)
            hcs f (by omega)]
          rfl
        · cases hesc : isEscaped c
          · rw [patternBody_cons _ _ h42, globToks_cons _ _ h42]
            simp only [if_neg h63, hesc, Bool.false_eq_true, if_false, List.cons_append]
            rw [tokenize_lit f c _ hc.1 h42 h63 hc.2 hesc, ih (n - 1) (by omega) cs (by omega)
              hcs f (by omega)]
            rfl
          · rw [patternBody_cons _ _ h42, globToks_cons _ _ h42]
            simp only [if_neg h63, hesc, if_true, List.cons_append]
            rw [tokenize_esc f c _ hesc, ih (n - 1) (by omega) cs (by omega) hcs f (by omega)]
            rfl

/-! ## What the pieces match -/

theorem starMatch_iff (p : Nat → Bool) (k : GoString → Bool) : ∀ s : GoString,
    starMatch p k s = true ↔ ∃ a r, s = a ++ r ∧ (∀ c ∈ a, p c = true) ∧ k r = true := by
  intro s
  induction s with
  | nil =>
    simp only [starMatch]
    constructor
    · intro h
      exact ⟨[], [], rfl, by simp, h⟩
    · rintro ⟨a, r, hs, _, hk⟩
      have : r = [] := (List.append_eq_nil.mp hs.symm).2
      rw [this] at hk
      exact hk
  | cons c cs ih =>
    simp only [starMatch, Bool.or_eq_true, Bool.and_eq_true, ih]
    constructor
    · rintro (h | ⟨hc, a, r, hs, ha, hk⟩)
      · exact ⟨[], c :: cs, rfl, by simp, h⟩
      · refine ⟨c :: a, r, by rw [hs]; rfl, ?_, hk⟩
        intro x hx
        rcases List.mem_cons.mp hx with h | h
        · rw [h]; exact hc
        · exact ha x h
    · rintro ⟨a, r, hs, ha, hk⟩
      cases a with
      | nil =>
        left
        rw [hs]
        exact hk
      | cons x a =>
        simp only [List.cons_append, List.cons.injEq] at hs
        right
        rw [hs.1]
        exact ⟨ha x (List.mem_cons_self _ _), a, r, hs.2, fun y hy => ha y (List.mem_cons_of_mem _ hy), hk⟩

theorem matchToks_star_iff (p : Nat → Bool) (T : List Tok) (K : GoString → Prop)
    (hT : ∀ b r, matchToks T b r = true ↔ K r) (b : Bool) (s : GoString) :
    matchToks (Tok.star p :: T) b s = true ↔
      ∃ a r, s = a ++ r ∧ (∀ c ∈ a, p c = true) ∧ K r := by
  simp only [matchToks, Bool.or_eq_true]
  constructor
  · rintro (h | h)
    · exact ⟨[], s, rfl, by simp, (hT b s).mp h⟩
    · cases s with
      | nil => simp at h
      | cons c cs =>
        simp only [Bool.and_eq_true] at h
        obtain ⟨hc, hst⟩ := h
        obtain ⟨a, r, hs, ha, hk⟩ := (starMatch_iff p _ cs).mp hst
        refine ⟨c :: a, r, by rw [hs]; rfl, ?_, (hT false r).mp hk⟩
        intro x hx
        rcases List.mem_cons.mp hx with h | h
        · rw [h]; exact hc
        · exact ha x h
  · rintro ⟨a, r, hs, ha, hk⟩
    cases a with
    | nil =>
      left
      rw [hs]
      exact (hT b r).mpr hk
    | cons x a =>
      right
      rw [hs]
      simp only [List.cons_append, Bool.and_eq_true]
      exact ⟨ha x (List.mem_cons_self _ _), (starMatch_iff p _ _).mpr
        ⟨a, r, rfl, fun y hy => ha y (List.mem_cons_of_mem _ hy), (hT false r).mpr hk⟩⟩

theorem matchToks_one_iff (p : Nat → Bool) (T : List Tok) (K : GoString → Prop)
    (hT : ∀ b r, matchToks T b r = true ↔ K r) (b : Bool) (s : GoString) :
    matchToks (Tok.one p :: T) b s = true ↔ ∃ c r, s = c :: r ∧ p c = true ∧ K r := by
  cases s with
  | nil => simp [matchToks]
  | cons c cs =>
    simp only [matchToks, Bool.and_eq_true, hT]
    constructor
    · rintro ⟨hc, hk⟩
      exact ⟨c, cs, rfl, hc, hk⟩
    · rintro ⟨x, r, hs, hc, hk⟩
      simp only [List.cons.injEq] at hs
      rw [hs.1, hs.2]
      exact ⟨hc, hk⟩

theorem matchToks_glob : ∀ (n : Nat) (pat : GoString), pat.length ≤ n → ∀ (b : Bool) (s : GoString),
    matchToks (globToks pat ++ [Tok.eol]) b s = true ↔ GlobSplit pat s := by
  intro n
  induction n using Nat.strong_induction_on with
  | _ n ih =>
    intro pat hlen b s
    rcases pat with _ | ⟨c, cs⟩
    · simp only [globToks, List.nil_append, matchToks, Bool.and_true, List.isEmpty_iff]
      constructor
      · intro h
        rw [h]
        exact GlobSplit.done
      · intro h
        cases h
        rfl
    · simp only [List.length_cons] at hlen
      by_cases h42 : c = 42
      · subst h42
        rcases cs with _ | ⟨d, ds⟩
        · simp only [globToks, if_true, List.cons_append, List.nil_append]
          rw [matchToks_star_iff _ [Tok.eol] (fun r => r = []) (by
            intro b r
            simp [matchToks])]
          constructor
          · rintro ⟨a, r, hs, ha, hr⟩
            rw [hs, hr]
            exact GlobSplit.star [] a [] (by simp) (by simpa using ha) GlobSplit.done
          · intro h
            cases h with
            | lit _ _ _ h => exact absurd rfl h
            | star _ a r _ ha hr =>
              cases hr
              exact ⟨a, [], rfl, by simpa using ha, rfl⟩
        · simp only [List.length_cons] at hlen
          by_cases hd : d = 42
          · subst hd
            simp only [globToks, if_true, List.cons_append]
            rw [matchToks_star_iff _ _ (GlobSplit ds) (ih (n - 2) (by omega) ds (by omega))]
            constructor
            · rintro ⟨a, r, hs, ha, hr⟩
              rw [hs]
              exact GlobSplit.dstar ds a r (by simpa using ha) hr
            · intro h
              cases h with
              | lit _ _ _ h => exact absurd rfl h
              | star _ a r hh _ _ => exact absurd rfl hh
              | dstar _ a r ha hr => exact ⟨a, r, rfl, by simpa using ha, hr⟩
          · simp only [globToks, if_true, if_neg hd, List.cons_append]
            rw [matchToks_star_iff _ _ (GlobSplit (d :: ds)) (by
              intro b r
              have := ih (n - 1) (by omega) (d :: ds) (by simp only [List.length_cons]; omega) b r
              simpa only [List.cons_append] using this)]
            constructor
            · rintro ⟨a, r, hs, ha, hr⟩
              rw [hs]
              exact GlobSplit.star (d :: ds) a r (by simpa using hd) (by simpa using ha) hr
            · intro h
              cases h with
              | lit _ _ _ h => exact absurd rfl h
              | star _ a r _ ha hr => exact ⟨a, r, rfl, by simpa using ha, hr⟩
              | dstar _ a r ha hr => exact absurd rfl hd
      · have hrec := ih (n - 1) (by omega) cs (by omega)
        rw [globToks_cons _ _ h42]
        by_cases h63 : c = 63
        · subst h63
          simp only [if_true, List.cons_append]
          rw [matchToks_one_iff _ _ (GlobSplit cs) hrec]
          constructor
          · rintro ⟨x, r, hs, hx, hr⟩
            rw [hs]
            exact GlobSplit.any x cs r (by simpa using hx) hr
          · intro h
            cases h with
            | lit _ _ _ _ h => exact absurd rfl h
            | any x _ r hx hr => exact ⟨x, r, rfl, by simpa using hx, hr⟩
        · simp only [if_neg h63, List.cons_append]
          rw [matchToks_one_iff _ _ (GlobSplit cs) hrec]
          constructor
          · rintro ⟨x, r, hs, hx, hr⟩
            have hxc : x = c := by simpa using hx
            rw [hs, hxc]
            exact GlobSplit.lit c cs r h42 h63 hr
          · intro h
            cases h with
            | lit _ _ r _ _ hr => exact ⟨c, r, rfl, by simp, hr⟩
            | any x _ r hx hr => exact absurd rfl h63
            | star _ a r _ _ _ => exact absurd rfl h42
            | dstar _ a r _ _ => exact absurd rfl h42

/-! ## The anchored expression of a pattern -/

theorem tokenize_bol (f : Nat) (rest : GoString) :
    tokenize (f + 1) (94 :: rest) = (tokenize f rest).map (Tok.bol :: ·) := by
  have e1 : str "(?:^|.*/)" = [40, 63, 58, 94, 124, 46, 42, 47, 41] := by decide
  have e2 : str "[^/]*" = [91, 94, 47, 93, 42] := by decide
  have e3 : str "[^/]" = [91, 94, 47, 93] := by decide
  have e4 : str ".*" = [46, 42] := by decide
  simp only [tokenize]
  simp [e1, e2, e3, e4, HasPrefix, List.isPrefixOf]

theorem patternBody_length : ∀ (n : Nat) (pat : GoString), pat.length ≤ n →
    pat.length ≤ (patternBody pat).length := by
  intro n
  induction n using Nat.strong_induction_on with
  | _ n ih =>
    intro pat hlen
    rcases pat with _ | ⟨c, cs⟩
    · simp
    · simp only [List.length_cons] at hlen
      by_cases h42 : c = 42
      · subst h42
        rcases cs with _ | ⟨d, ds⟩
        · simp [patternBody, str]
        · simp only [List.length_cons] at hlen
          by_cases hd : d = 42
          · subst hd
            have := ih (n - 2) (by omega) ds (by omega)
            simp only [patternBody, if_true, List.length_append, List.length_cons]
            simp only [str, String.toList, List.map, List.length_cons, List.length_nil]
            omega
          · have := ih (n - 1) (by omega) (d :: ds) (by simp only [List.length_cons]; omega)
            have e5 : (str "[^/]*").length = 5 := by decide
            simp only [patternBody, if_true, if_neg hd, List.length_append, List.length_cons, e5]
            simp only [List.length_cons] at this
            omega
      · have := ih (n - 1) (by omega) cs (by omega)
        have e4 : (str "[^/]").length = 4 := by decide
        rw [patternBody_cons _ _ h42]
        split_ifs <;> simp only [List.length_append, List.length_cons, e4] <;> omega

theorem searchToks_bol_false (T : List Tok) : ∀ s : GoString,
    searchToks (Tok.bol :: T) false s = false := by
  intro s
  induction s with
  | nil => simp [searchToks, matchToks]
  | cons c cs ih => simp [searchToks, matchToks, ih]

theorem searchToks_bol (T : List Tok) (s : GoString) :
    searchToks (Tok.bol :: T) true s = matchToks T true s := by
  cases s with
  | nil => simp [searchToks, matchToks]
  | cons c cs => simp [searchToks, matchToks, searchToks_bol_false]

theorem fragmentCompile_anchored (pat : GoString) (hpat : ∀ c ∈ pat, c < 128 ∧ c ≠ 91) :
    fragmentCompile (patternRegexp pat true)
      = some fun s => searchToks (Tok.bol :: (globToks pat ++ [Tok.eol])) true (runes s) := by
  have e1 : str "^" = [94] := by decide
  have e2 : str "$" = [36] := by decide
  have hlen := patternBody_length pat.length pat le_rfl
  unfold fragmentCompile patternRegexp
  simp only [if_true, e1, e2, List.append_assoc, List.singleton_append, List.length_cons,
    List.length_append, List.length_nil]
  show Option.map _ (tokenize ((patternBody pat).length + 2 + 1) (94 :: (patternBody pat ++ [36])))
    = _
  rw [tokenize_bol, tokenize_patternBody pat.length pat le_rfl hpat _ (by omega)]
  rfl

theorem anchored_matches_iff (env : Env) (pat : GoString)
    (hre : env.regexpCompile = fragmentCompile) (hpat : ∀ c ∈ pat, c < 128 ∧ c ≠ 91) :
    ∃ re, gitignorePatternToRegexp env pat true = some re ∧
      ∀ path, re path = true ↔ GlobSplit pat (runes path) := by
  refine ⟨_, by rw [gitignorePatternToRegexp, hre, fragmentCompile_anchored pat hpat], ?_⟩
  intro path
  rw [searchToks_bol]
  exact matchToks_glob pat.length pat le_rfl true (runes path)

/-- C14 at a failing input: `**` does not consume a newline. The pattern `a**b`
translates to the expression `^a.*b$`, and `.` matches every character but
newline: the rule matches the path `a/x/b` and does not match a path whose name
holds a newline between `a` and `b`, which `**` is said to consume as any
string. -/
theorem double_star_stops_at_newline :
    patternRegexp (str "a**b") true = str "^a.*b$" ∧
      (gitignorePatternToRegexp quietEnv (str "a**b") true).map
        (fun re => (re (str "a/x/b"), re (str "a\nb"))) = some (true, false) := by
  refine ⟨by decide, by decide⟩

/-! ## Patterns without wildcards -/

theorem decodeRune_ascii (c : Nat) (cs : GoString) (h : c < 128) :
    decodeRune (c :: cs) = (c, 1) := by
  simp [decodeRune, h]

theorem decodeRune_ge (c : Nat) (cs : GoString) (h : ¬ c < 128) :
    128 ≤ (decodeRune (c :: cs)).1 := by
  simp only [decodeRune, if_neg h]
  split_ifs with h1 h2 h3
  · show 128 ≤ (c - 192) * 64 + _
    omega
  · show 128 ≤ (c - 224) * 4096 + (_ - 128) * 64 + _
    simp only [isCont, decide_eq_true_eq] at h2
    omega
  · show 128 ≤ (c - 240) * 262144 + (_ - 128) * 4096 + _ + _
    simp only [isCont, decide_eq_true_eq] at h3
    omega
  · show 128 ≤ 65533
    omega

theorem runesFrom_eq_iff : ∀ (s p : GoString), (∀ c ∈ p, c < 128) →
    (runesFrom 0 s = p ↔ s = p) := by
  intro s
  induction s with
  | nil =>
    intro p _
    simp only [runesFrom]
  | cons c cs ih =>
    intro p hp
    by_cases hc : c < 128
    · simp only [runesFrom, decodeRune_ascii c cs hc, Nat.sub_self]
      cases p with
      | nil => simp
      | cons x xs =>
        simp only [List.cons.injEq]
        rw [ih xs fun y hy => hp y (List.mem_cons_of_mem _ hy)]
    · have hge := decodeRune_ge c cs hc
      constructor
      · intro h
        have hmem : (decodeRune (c :: cs)).1 ∈ p := by
          rw [← h]
          simp [runesFrom]
        have := hp _ hmem
        omega
      · intro h
        have := hp c (by rw [← h]; simp)
        omega

theorem GlobSplit_literal : ∀ (pat s : GoString), (∀ c ∈ pat, c ≠ 42 ∧ c ≠ 63) →
    (GlobSplit pat s ↔ s = pat) := by
  intro pat
  induction pat with
  | nil =>
    intro s _
    constructor
    · intro h
      cases h
      rfl
    · intro h
      rw [h]
      exact GlobSplit.done
  | cons c p ih =>
    intro s hp
    have hc := hp c (List.mem_cons_self _ _)
    have hrest : ∀ x ∈ p, x ≠ 42 ∧ x ≠ 63 := fun x hx => hp x (List.mem_cons_of_mem _ hx)
    constructor
    · intro h
      cases h with
      | lit _ _ r _ _ hr => rw [(ih r hrest).mp hr]
      | any x _ r _ _ => exact absurd rfl hc.2
      | star _ a r _ _ _ => exact absurd rfl hc.1
      | dstar _ a r _ _ => exact absurd rfl hc.1
    · intro h
      rw [h]
      exact GlobSplit.lit c p p hc.1 hc.2 ((ih p hrest).mpr rfl)

/-- C15 at a failing input: `[` is not escaped. The pattern `[ab]` translates to
the expression `^[ab]$`, a character class: the rule matches the paths `a` and
`b` and does not match the path `[ab]`; and the pattern `[` translates to `^[$`,
which does not compile, so the translation does not succeed. -/
theorem bracket_pattern_not_literal :
    (gitignorePatternToRegexp quietEnv (str "[ab]") true).map
        (fun re => (re (str "a"), re (str "b"), re (str "[ab]"))) = some (true, true, false) ∧
      patternRegexp (str "[ab]") true = str "^[ab]$" ∧
      patternRegexp (str "[") true = str "^[$" ∧
      (gitignorePatternToRegexp quietEnv (str "[") true).isSome = false := by
  refine ⟨by decide, by decide, by decide, by decide⟩

/-- C15, amended (patterns without wildcards and without `[`). For every pattern
of ASCII characters that contains none of `*`, `?` and `[`, the translation
succeeds and the anchored rule matches a path if and only if the path is equal
to the pattern, byte for byte: the punctuation with a meaning in expressions is
escaped. -/
theorem literal_pattern_matches_itself (env : Env) (pat : GoString)
    (hre : env.regexpCompile = fragmentCompile)
    (hpat : ∀ c ∈ pat, c < 128 ∧ c ≠ 42 ∧ c ≠ 63 ∧ c ≠ 91) :
    ∃ re, gitignorePatternToRegexp env pat true = some re ∧
      ∀ path, re path = true ↔ path = pat := by
  obtain ⟨re, hsome, hmatch⟩ := anchored_matches_iff env pat hre
    (fun c hc => ⟨(hpat c hc).1, (hpat c hc).2.2.2⟩)
  refine ⟨re, hsome, ?_⟩
  intro path
  rw [hmatch, GlobSplit_literal pat _ (fun c hc => ⟨(hpat c hc).2.1, (hpat c hc).2.2.1⟩)]
  exact runesFrom_eq_iff path pat fun c hc => (hpat c hc).1

/-- Witness of C15: the pattern `a.b+(c)` matches the path `a.b+(c)` only. -/
theorem literal_pattern_matches_itself_witness :
    ∃ re, gitignorePatternToRegexp quietEnv (str "a.b+(c)") true = some re ∧
      ∀ path, re path = true ↔ path = str "a.b+(c)" :=
  literal_pattern_matches_itself quietEnv (str "a.b+(c)") rfl (by decide)

/-! ## `build.go`: a failing job and the dispatching loop -/

/-- A dispatcher that stands at the send while every worker has returned stays
there: no action is enabled. -/
theorem allStep_blocked (env : Env) (faults : Faults) (jobs : List Job) (force : Bool)
    (s : AllState) (hview : s.view.1 = true ∧ s.view.2.2.1 = true) (a : Act) :
    allStep env faults jobs force s a = none := by
  obtain ⟨hd, hw⟩ := hview
  have hdisp : s.disp = .send := by
    simp only [AllState.view] at hd
    cases h : s.disp <;> simp [h] at hd ⊢
  have hex : ∀ i w, s.workers.get? i = some w → w = .exited := by
    intro i w hi
    simp only [AllState.view, List.all_eq_true] at hw
    have := hw w (List.get?_mem hi)
    cases w <;> simp at this ⊢
  cases a with
  | check => simp [allStep, hdisp]
  | handoff i =>
    simp only [allStep, hdisp]
    cases hi : s.workers.get? i with
    | none => rfl
    | some w =>
      rw [hex i w hi]
  | test i =>
    simp only [allStep]
    cases hi : s.workers.get? i with
    | none => rfl
    | some w =>
      rw [hex i w hi]
  | finish i c =>
    simp only [allStep]
    cases hi : s.workers.get? i with
    | none => rfl
    | some w =>
      rw [hex i w hi]
  | leave i => simp [allStep, hdisp]
  | ret => simp [allStep, hdisp]

set_option maxRecDepth 200000 in
/-- C17 at a failing input (two jobs, one worker, the first job's build exits with
status 1). The dispatcher hands `k` to the worker, finds the context live and
goes on to send `b`; then the build of `k` fails: the worker records the error,
cancels the context and returns. The dispatcher now stands at `workCh <- b` with
no worker left to receive, and no action is enabled: `All` does not return. In
the schedule in which the dispatcher tests the context only after the failure,
`All` does return, with the error of job `k`. -/
theorem All_blocks_after_failure :
    ((allRun failEnv Faults.none [jobK, jobB] false
        [.check, .handoff 0, .test 0, .check, .finish 0 liveCtx]
        (allInit false twoJobsFs [jobK, jobB] { Force := false, Parallel := 1 })).map
      AllState.view
        = some (true, none, true, some (.job (str "k") (.exitError ⟨str "/jobs/k/build.sh", 1, [], []⟩)), true)) ∧
    (∀ s, allRun failEnv Faults.none [jobK, jobB] false
        [.check, .handoff 0, .test 0, .check, .finish 0 liveCtx]
        (allInit false twoJobsFs [jobK, jobB] { Force := false, Parallel := 1 }) = some s →
      ∀ a, allStep failEnv Faults.none [jobK, jobB] false s a = none) ∧
    ((allRun failEnv Faults.none [jobK, jobB] false
        [.check, .handoff 0, .test 0, .finish 0 liveCtx, .check, .ret]
        (allInit false twoJobsFs [jobK, jobB] { Force := false, Parallel := 1 })).map
      AllState.view
        = some (false, some (some (.job (str "k") (.exitError ⟨str "/jobs/k/build.sh", 1, [], []⟩))), true,
            some (.job (str "k") (.exitError ⟨str "/jobs/k/build.sh", 1, [], []⟩)), true)) := by
  have h1 : (allRun failEnv Faults.none [jobK, jobB] false
        [.check, .handoff 0, .test 0, .check, .finish 0 liveCtx]
        (allInit false twoJobsFs [jobK, jobB] { Force := false, Parallel := 1 })).map
      AllState.view
        = some (true, none, true, some (.job (str "k") (.exitError ⟨str "/jobs/k/build.sh", 1, [], []⟩)), true) := by decide
  refine ⟨h1, ?_, by decide⟩
  intro s hs a
  rw [hs] at h1
  simp only [Option.map_some', Option.some.injEq] at h1
  exact allStep_blocked _ _ _ _ s (by rw [h1]; exact ⟨rfl, rfl⟩) a

/-! ## Entries that part ways -/

theorem diverge_symm {p q : List GoString} (h : diverge p q) : diverge q p := ⟨h.2, h.1⟩

theorem diverge_cons_ne (c d : GoString) (ps qs : List GoString) (h : c ≠ d) :
    diverge (c :: ps) (d :: qs) := by
  constructor <;> intro hp
  · exact h (List.cons_prefix_cons.mp hp).1
  · exact h (List.cons_prefix_cons.mp hp).1.symm

theorem diverge_cons {c : GoString} {ps qs : List GoString} (h : diverge (c :: ps) (c :: qs)) :
    diverge ps qs := by
  constructor <;> intro hp
  · exact h.1 (List.cons_prefix_cons.mpr ⟨rfl, hp⟩)
  · exact h.2 (List.cons_prefix_cons.mpr ⟨rfl, hp⟩)

theorem diverge_siblings (P : List GoString) (a b : GoString) (h : a ≠ b) :
    diverge (P ++ [a]) (P ++ [b]) := by
  induction P with
  | nil => exact diverge_cons_ne a b [] [] h
  | cons c P ih =>
    constructor <;> intro hp
    · exact ih.1 (List.cons_prefix_cons.mp hp).2
    · exact ih.2 (List.cons_prefix_cons.mp hp).2

theorem diverge_ne {p q : List GoString} (h : diverge p q) : p ≠ q := by
  intro he
  exact h.1 (he ▸ List.prefix_refl p)

theorem find_put_diverge : ∀ (p : List GoString) (fs new fs2 : Node) (q : List GoString),
    fs.put p new = some fs2 → diverge p q → fs2.find q = fs.find q
  | [], fs, new, fs2, _, h, _ => by cases fs <;> simp [Node.put] at h
  | [c], fs, new, fs2, q, h, hd => by
    cases fs with
    | dir es =>
      simp only [Node.put, Option.some.injEq] at h
      subst h
      cases q with
      | nil => exact absurd List.nil_prefix hd.2
      | cons c2 qs =>
        have hne : c2 ≠ c := by
          intro he
          subst he
          exact hd.1 (List.cons_prefix_cons.mpr ⟨rfl, List.nil_prefix⟩)
        rw [find_cons_dir, find_cons_dir, lookupEntry_setEntry, if_neg hne]
    | file _ _ => simp [Node.put] at h
    | symlink _ => simp [Node.put] at h
  | c :: d :: cs, fs, new, fs2, q, h, hd => by
    cases fs with
    | dir es =>
      simp only [Node.put] at h
      cases hl : lookupEntry c es with
      | none => simp [hl] at h
      | some child =>
        simp only [hl] at h
        cases hp : child.put (d :: cs) new with
        | none => simp [hp] at h
        | some child2 =>
          simp only [hp, Option.some.injEq] at h
          subst h
          cases q with
          | nil => exact absurd List.nil_prefix hd.2
          | cons c2 qs =>
            rw [find_cons_dir, find_cons_dir, lookupEntry_setEntry]
            by_cases he : c2 = c
            · subst he
              rw [if_pos rfl, hl]
              exact find_put_diverge (d :: cs) child new child2 qs hp (diverge_cons hd)
            · rw [if_neg he]
    | file _ _ => simp [Node.put] at h
    | symlink _ => simp [Node.put] at h

theorem find_del_diverge : ∀ (p : List GoString) (fs fs2 : Node) (q : List GoString),
    fs.del p = some fs2 → diverge p q → fs2.find q = fs.find q
  | [], fs, fs2, _, h, _ => by cases fs <;> simp [Node.del] at h
  | [c], fs, fs2, q, h, hd => by
    cases fs with
    | dir es =>
      simp only [Node.del] at h
      cases hl : lookupEntry c es with
      | none => simp [hl] at h
      | some child =>
        simp only [hl, Option.some.injEq] at h
        subst h
        cases q with
        | nil => exact absurd List.nil_prefix hd.2
        | cons c2 qs =>
          have hne : c2 ≠ c := by
            intro he
            subst he
            exact hd.1 (List.cons_prefix_cons.mpr ⟨rfl, List.nil_prefix⟩)
          rw [find_cons_dir, find_cons_dir, lookupEntry_eraseEntry, if_neg hne]
    | file _ _ => simp [Node.del] at h
    | symlink _ => simp [Node.del] at h
  | c :: d :: cs, fs, fs2, q, h, hd => by
    cases fs with
    | dir es =>
      simp only [Node.del] at h
      cases hl : lookupEntry c es with
      | none => simp [hl] at h
      | some child =>
        simp only [hl] at h
        cases hp : child.del (d :: cs) with
        | none => simp [hp] at h
        | some child2 =>
          simp only [hp, Option.some.injEq] at h
          subst h
          cases q with
          | nil => exact absurd List.nil_prefix hd.2
          | cons c2 qs =>
            rw [find_cons_dir, find_cons_dir, lookupEntry_setEntry]
            by_cases he : c2 = c
            · subst he
              rw [if_pos rfl, hl]
              exact find_del_diverge (d :: cs) child child2 qs hp (diverge_cons hd)
            · rw [if_neg he]
    | file _ _ => simp [Node.del] at h
    | symlink _ => simp [Node.del] at h

theorem find_append_some : ∀ (P : List GoString) (fs : Node) (x : GoString) (n : Node),
    fs.find (P ++ [x]) = some n → ∃ es, fs.find P = some (.dir es) ∧ lookupEntry x es = some n
  | [], fs, x, n, h => by
    cases fs with
    | dir es =>
      rw [List.nil_append, find_cons_dir] at h
      cases hl : lookupEntry x es with
      | none => simp [hl] at h
      | some child =>
        rw [hl] at h
        simp only [Option.bind, find_nil, Option.some.injEq] at h
        exact ⟨es, rfl, by rw [hl, h]⟩
    | file _ _ => simp [Node.find] at h
    | symlink _ => simp [Node.find] at h
  | c :: P, fs, x, n, h => by
    cases fs with
    | dir es =>
      rw [List.cons_append, find_cons_dir] at h
      rw [find_cons_dir]
      cases hl : lookupEntry c es with
      | none => simp [hl] at h
      | some child =>
        rw [hl] at h
        exact find_append_some P child x n h
    | file _ _ => simp [Node.find] at h
    | symlink _ => simp [Node.find] at h

theorem find_append_of_dir : ∀ (P : List GoString) (fs : Node) (x : GoString)
    (es : List (GoString × Node)), fs.find P = some (.dir es) →
    fs.find (P ++ [x]) = lookupEntry x es
  | [], fs, x, es, h => by
    rw [find_nil, Option.some.injEq] at h
    subst h
    rw [List.nil_append, find_cons_dir]
    cases lookupEntry x es <;> simp [find_nil]
  | c :: P, fs, x, es, h => by
    cases fs with
    | dir es0 =>
      rw [find_cons_dir] at h
      rw [List.cons_append, find_cons_dir]
      cases hl : lookupEntry c es0 with
      | none => simp [hl] at h
      | some child =>
        rw [hl] at h
        exact find_append_of_dir P child x es h
    | file _ _ => simp [Node.find] at h
    | symlink _ => simp [Node.find] at h

theorem put_append_of_dir : ∀ (P : List GoString) (fs : Node) (x : GoString) (new : Node)
    (es : List (GoString × Node)), fs.find P = some (.dir es) →
    ∃ fs2, fs.put (P ++ [x]) new = some fs2
  | [], fs, x, new, es, h => by
    rw [find_nil, Option.some.injEq] at h
    subst h
    exact ⟨_, rfl⟩
  | c :: P, fs, x, new, es, h => by
    cases fs with
    | dir es0 =>
      rw [find_cons_dir] at h
      cases hl : lookupEntry c es0 with
      | none => simp [hl] at h
      | some child =>
        rw [hl] at h
        obtain ⟨child2, hc⟩ := put_append_of_dir P child x new es h
        cases hP : P ++ [x] with
        | nil => simp at hP
        | cons d cs =>
          rw [hP] at hc
          exact ⟨.dir (setEntry c child2 es0), by
            rw [List.cons_append, hP]
            simp [Node.put, hl, hc]⟩
    | file _ _ => simp [Node.find] at h
    | symlink _ => simp [Node.find] at h

theorem del_append_keeps_dir : ∀ (P : List GoString) (fs fs1 : Node) (x : GoString),
    fs.del (P ++ [x]) = some fs1 → ∃ es, fs1.find P = some (.dir es)
  | [], fs, fs1, x, h => by
    cases fs with
    | dir es =>
      simp only [List.nil_append, Node.del] at h
      cases hl : lookupEntry x es with
      | none => simp [hl] at h
      | some child =>
        simp only [hl, Option.some.injEq] at h
        exact ⟨_, by rw [← h, find_nil]⟩
    | file _ _ => simp [Node.del] at h
    | symlink _ => simp [Node.del] at h
  | c :: P, fs, fs1, x, h => by
    cases fs with
    | dir es0 =>
      cases hP : P ++ [x] with
      | nil => simp at hP
      | cons d cs =>
        rw [List.cons_append, hP] at h
        simp only [Node.del] at h
        cases hl : lookupEntry c es0 with
        | none => simp [hl] at h
        | some child =>
          simp only [hl] at h
          cases hd : child.del (d :: cs) with
          | none => simp [hd] at h
          | some child2 =>
            simp only [hd, Option.some.injEq] at h
            rw [← hP] at hd
            obtain ⟨es, hes⟩ := del_append_keeps_dir P child child2 x hd
            refine ⟨es, ?_⟩
            rw [← h, find_cons_dir, lookupEntry_setEntry, if_pos rfl]
            exact hes
    | file _ _ => simp [Node.del] at h
    | symlink _ => simp [Node.del] at h

/-! ## `os.Rename` and `os.RemoveAll` on the tree -/

theorem Rename_effect (cwd : GoString) (fs fs2 : Node) (oldpath newpath : GoString)
    (hdiv : diverge (fsPath cwd oldpath) (fsPath cwd newpath))
    (h : Rename cwd fs oldpath newpath = some fs2) :
    ∃ src, fs.find (fsPath cwd oldpath) = some src ∧
      fs2.find (fsPath cwd newpath) = some src ∧ fs2.find (fsPath cwd oldpath) = none ∧
      ∀ q, diverge (fsPath cwd oldpath) q → diverge (fsPath cwd newpath) q →
        fs2.find q = fs.find q := by
  unfold Rename at h
  cases hsrc : fs.find (fsPath cwd oldpath) with
  | none => simp [hsrc] at h
  | some src =>
    simp only [hsrc, if_neg (diverge_ne hdiv)] at h
    split at h
    · cases hdel : fs.del (fsPath cwd oldpath) with
      | none => simp [hdel] at h
      | some fs1 =>
        simp only [hdel] at h
        refine ⟨src, rfl, find_put_same _ _ _ _ h, ?_, ?_⟩
        · rw [find_put_diverge _ _ _ _ _ h (diverge_symm hdiv)]
          exact find_del_same _ _ _ hdel
        · intro q h1 h2
          rw [find_put_diverge _ _ _ _ _ h h2, find_del_diverge _ _ _ _ hdel h1]
    · exact Option.noConfusion h

theorem Rename_sibling_ok (cwd : GoString) (fs : Node) (oldpath newpath : GoString)
    (P : List GoString) (a b : GoString) (src : Node) (hab : a ≠ b)
    (ho : fsPath cwd oldpath = P ++ [a]) (hn : fsPath cwd newpath = P ++ [b])
    (hsrc : fs.find (P ++ [a]) = some src) (hfree : fs.find (P ++ [b]) = none) :
    ∃ fs2, Rename cwd fs oldpath newpath = some fs2 := by
  have hne : P ++ [a] ≠ P ++ [b] := diverge_ne (diverge_siblings P a b hab)
  obtain ⟨fs1, hdel⟩ := del_of_find (P ++ [a]) fs src (by simp) hsrc
  obtain ⟨es, hdir⟩ := del_append_keeps_dir P fs fs1 a hdel
  obtain ⟨fs2, hput⟩ := put_append_of_dir P fs1 b src es hdir
  refine ⟨fs2, ?_⟩
  unfold Rename
  simp only [ho, hn, hsrc, if_neg hne, hfree, if_true, hdel, hput]

theorem RemoveAll_effect (cwd : GoString) (fs fs2 : Node) (path : GoString) (hne : path ≠ [])
    (h : RemoveAll cwd fs path = some fs2) :
    fs2.find (fsPath cwd path) = none ∧
      ∀ q, diverge (fsPath cwd path) q → fs2.find q = fs.find q := by
  unfold RemoveAll at h
  rw [if_neg hne] at h
  split at h
  · exact Option.noConfusion h
  · cases hf : fs.find (fsPath cwd path) with
    | some n =>
      simp only [hf] at h
      exact ⟨find_del_same _ _ _ h, fun q hq => find_del_diverge _ _ _ _ h hq⟩
    | none =>
      simp only [hf] at h
      split at h
      · injection h with h
        subst h
        exact ⟨hf, fun _ _ => rfl⟩
      · exact Option.noConfusion h

theorem RemoveAll_getD_frame (cwd : GoString) (fs : Node) (path : GoString) (hne : path ≠ [])
    (q : List GoString) (hq : diverge (fsPath cwd path) q) :
    ((RemoveAll cwd fs path).getD fs).find q = fs.find q := by
  cases h : RemoveAll cwd fs path with
  | none => rfl
  | some fs2 => exact (RemoveAll_effect cwd fs fs2 path hne h).2 q hq

theorem RemoveAll_of_find (cwd : GoString) (fs : Node) (path : GoString) (n : Node)
    (hne : path ≠ []) (hdot : endsWithDot path = false) (hp : fsPath cwd path ≠ [])
    (hf : fs.find (fsPath cwd path) = some n) :
    ∃ fs2, RemoveAll cwd fs path = some fs2 := by
  obtain ⟨fs2, hdel⟩ := del_of_find _ fs n hp hf
  refine ⟨fs2, ?_⟩
  simp [RemoveAll, hne, hdot, hf, hdel]

/-! ## `replaceDir` -/

theorem backup_name_ne (name : GoString) : name ≠ name ++ str ".cronctl-old" := by
  intro h
  have := congrArg List.length h
  simp [str] at this

theorem endsWithDot_backup (dst : GoString) : endsWithDot (dst ++ str ".cronctl-old") = false := by
  have e : str ".cronctl-old" = [46, 99, 114, 111, 110, 99, 116, 108, 45, 111, 108, 100] := by
    decide
  have e1 : str "." = [46] := by decide
  have e2 : str "/." = [47, 46] := by decide
  have h1 : (dst ++ str ".cronctl-old" == str ".") = false := by
    rw [beq_eq_false_iff_ne]
    intro h
    have := congrArg List.length h
    simp [str] at this
  have h2 : HasSuffix (dst ++ str ".cronctl-old") (str "/.") = false := by
    rw [e, e2, HasSuffix, List.isSuffixOf]
    simp [List.isPrefixOf]
  simp [endsWithDot, h1, h2]

/-- What `replaceDir` leaves behind, fault by fault, when the target, its backup
and the staged tree are three entries none of which lies below another. -/
theorem replaceDir_cases (cwd : GoString) (faults : SwapFaults) (fs : Node)
    (srcTmp dst : GoString) (P : List GoString) (name : GoString) (old : Node)
    (hd : fsPath cwd dst = P ++ [name])
    (hb : fsPath cwd (dst ++ str ".cronctl-old") = P ++ [name ++ str ".cronctl-old"])
    (ht1 : diverge (fsPath cwd srcTmp) (P ++ [name]))
    (ht2 : diverge (fsPath cwd srcTmp) (P ++ [name ++ str ".cronctl-old"]))
    (hold : fs.find (P ++ [name]) = some old) :
    ((replaceDir cwd faults false fs srcTmp dst).1 = none ∧
        ∃ staged, fs.find (fsPath cwd srcTmp) = some staged ∧
          (replaceDir cwd faults false fs srcTmp dst).2.find (P ++ [name]) = some staged ∧
          (replaceDir cwd faults false fs srcTmp dst).2.find (fsPath cwd srcTmp) = none ∧
          (faults.removeBackup = false →
            (replaceDir cwd faults false fs srcTmp dst).2.find
              (P ++ [name ++ str ".cronctl-old"]) = none)) ∨
      ((replaceDir cwd faults false fs srcTmp dst).1 = some .rename ∧
        (replaceDir cwd faults false fs srcTmp dst).2.find (P ++ [name]) = some old) ∨
      ((replaceDir cwd faults false fs srcTmp dst).1 = some .rename ∧
        faults.moveBack = true ∧
        (replaceDir cwd faults false fs srcTmp dst).2.find (P ++ [name]) = none ∧
        (replaceDir cwd faults false fs srcTmp dst).2.find
          (P ++ [name ++ str ".cronctl-old"]) = some old) := by
  have hdb : diverge (P ++ [name]) (P ++ [name ++ str ".cronctl-old"]) :=
    diverge_siblings P _ _ (backup_name_ne name)
  have hbne : dst ++ str ".cronctl-old" ≠ [] := by
    intro h
    have := congrArg List.length h
    simp [str] at this
  -- the tree after the first removal
  obtain ⟨fs1, hfs1, h1d, h1t⟩ : ∃ fs1,
      fs1 = (if faults.removeOld then fs else (RemoveAll cwd fs (dst ++ str ".cronctl-old")).getD fs) ∧
      fs1.find (P ++ [name]) = some old ∧
      fs1.find (fsPath cwd srcTmp) = fs.find (fsPath cwd srcTmp) := by
    refine ⟨_, rfl, ?_, ?_⟩
    · split
      · exact hold
      · rw [RemoveAll_getD_frame cwd fs _ hbne _ (by rw [hb]; exact diverge_symm hdb)]
        exact hold
    · split
      · rfl
      · exact RemoveAll_getD_frame cwd fs _ hbne _ (by rw [hb]; exact diverge_symm ht2)
  have hnotexist : RenameNotExist cwd fs1 dst (dst ++ str ".cronctl-old") = false := by
    obtain ⟨es, hes, _⟩ := find_append_some P fs1 name old h1d
    simp [RenameNotExist, hd, hb, h1d, hes]
  by_cases hfa : faults.moveAway = true
  · right; left
    have hres : replaceDir cwd faults false fs srcTmp dst = (some .rename, fs1) := by
      unfold replaceDir
      simp only [Bool.false_eq_true, if_false, ← hfs1, hfa, if_true]
    rw [hres]
    exact ⟨rfl, h1d⟩
  · cases hr1 : Rename cwd fs1 dst (dst ++ str ".cronctl-old") with
    | none =>
      right; left
      have hres : replaceDir cwd faults false fs srcTmp dst = (some .rename, fs1) := by
        unfold replaceDir
        simp only [Bool.false_eq_true, if_false, ← hfs1, hfa, hr1, hnotexist]
      rw [hres]
      exact ⟨rfl, h1d⟩
    | some fs2 =>
      obtain ⟨src, hsrc, h2b, h2d, h2f⟩ := Rename_effect cwd fs1 fs2 dst _
        (by rw [hd, hb]; exact hdb) hr1
      rw [hd] at hsrc h2d h2f
      rw [hb] at h2b h2f
      have hsrc2 : src = old := by
        rw [h1d] at hsrc
        exact (Option.some.inj hsrc).symm
      subst hsrc2
      have h2t : fs2.find (fsPath cwd srcTmp) = fs.find (fsPath cwd srcTmp) := by
        rw [h2f _ (diverge_symm ht1) (diverge_symm ht2), h1t]
      cases hr2 : (if faults.moveIn = true then none else Rename cwd fs2 srcTmp dst) with
      | none =>
        by_cases hfb : faults.moveBack = true
        · right; right
          have hres : replaceDir cwd faults false fs srcTmp dst = (some .rename, fs2) := by
            unfold replaceDir
            simp only [Bool.false_eq_true, if_false, ← hfs1, hfa, hr1, hr2, hfb, if_true]
          rw [hres]
          exact ⟨rfl, hfb, h2d, h2b⟩
        · right; left
          obtain ⟨fs3, hr3⟩ := Rename_sibling_ok cwd fs2 (dst ++ str ".cronctl-old") dst P
            (name ++ str ".cronctl-old") name src (Ne.symm (backup_name_ne name)) hb hd h2b h2d
          obtain ⟨src3, hsrc3, h3d, _, _⟩ := Rename_effect cwd fs2 fs3 _ dst
            (by rw [hd, hb]; exact diverge_symm hdb) hr3
          rw [hb, h2b] at hsrc3
          rw [hd] at h3d
          have hres : replaceDir cwd faults false fs srcTmp dst = (some .rename, fs3) := by
            unfold replaceDir
            simp only [Bool.false_eq_true, if_false, ← hfs1, hfa, hr1, hr2, hfb, hr3,
              Option.getD_some]
          rw [hres]
          exact ⟨rfl, by rw [h3d, ← hsrc3]⟩
      | some fs3 =>
        left
        have hin : faults.moveIn = false := by
          by_contra hc
          simp [hc] at hr2
        have hres : replaceDir cwd faults false fs srcTmp dst
            = (none, if faults.removeBackup = true then fs3
                else (RemoveAll cwd fs3 (dst ++ str ".cronctl-old")).getD fs3) := by
          unfold replaceDir
          simp only [Bool.false_eq_true, if_false, ← hfs1, hfa, hr1, hr2]
        rw [hres]
        simp only [hin, Bool.false_eq_true, if_false] at hr2
        obtain ⟨staged, hst, h3d, h3t, h3f⟩ := Rename_effect cwd fs2 fs3 srcTmp dst
          (by rw [hd]; exact ht1) hr2
        rw [hd] at h3d h3f
        have h3b : fs3.find (P ++ [name ++ str ".cronctl-old"]) = some src := by
          rw [h3f _ ht2 hdb, h2b]
        refine ⟨rfl, staged, by rw [← h2t, hst], ?_, ?_, ?_⟩
        · show (if faults.removeBackup = true then fs3 else _).find _ = _
          split
          · exact h3d
          · rw [RemoveAll_getD_frame cwd fs3 _ hbne _ (by rw [hb]; exact diverge_symm hdb)]
            exact h3d
        · show (if faults.removeBackup = true then fs3 else _).find _ = _
          split
          · exact h3t
          · rw [RemoveAll_getD_frame cwd fs3 _ hbne _ (by rw [hb]; exact diverge_symm ht2)]
            exact h3t
        · intro hrb
          obtain ⟨fs4, h4⟩ := RemoveAll_of_find cwd fs3 _ src hbne (endsWithDot_backup dst)
            (by rw [hb]; simp) (by rw [hb]; exact h3b)
          show (if faults.removeBackup = true then fs3 else _).find _ = _
          simp only [hrb, Bool.false_eq_true, if_false, h4, Option.getD_some]
          have := (RemoveAll_effect cwd fs3 fs4 _ hbne h4).1
          rw [hb] at this
          exact this

/-- C18 at a failing input: the rollback is best effort. When the rename of the
staged tree into place fails and the rename that should put the previous tree
back fails as well (its error is discarded), `replaceDir` returns an error and
the target is absent; the previous tree is at the backup path. And when the
staged tree is handed over under the backup path itself, the call removes it
first, returns no error, and the target holds its previous tree. -/
theorem replaceDir_leaves_target_absent :
    (replaceDir (str "/") noWayBack false swapFs (str "/opt/jobs/.cronctl-staging-a-1")
        (str "/opt/jobs/a")).1 = some .rename ∧
      Lstat (str "/") swapFs (str "/opt/jobs/a")
        = some (.dir [(str "run.sh", .file 493 (some (str "old\n")))]) ∧
      Lstat (str "/") (replaceDir (str "/") noWayBack false swapFs
        (str "/opt/jobs/.cronctl-staging-a-1") (str "/opt/jobs/a")).2 (str "/opt/jobs/a") = none ∧
      Lstat (str "/") (replaceDir (str "/") noWayBack false swapFs
        (str "/opt/jobs/.cronctl-staging-a-1") (str "/opt/jobs/a")).2
        (str "/opt/jobs/a.cronctl-old")
        = some (.dir [(str "run.sh", .file 493 (some (str "old\n")))]) ∧
      (replaceDir (str "/") SwapFaults.none false
        (.dir [(str "t", .dir [
          (str "a", .dir [(str "run.sh", .file 493 (some (str "old\n")))]),
          (str "a.cronctl-old", .dir [(str "run.sh", .file 493 (some (str "new\n")))])])])
        (str "/t/a.cronctl-old") (str "/t/a")).1 = none ∧
      Lstat (str "/") (replaceDir (str "/") SwapFaults.none false
        (.dir [(str "t", .dir [
          (str "a", .dir [(str "run.sh", .file 493 (some (str "old\n")))]),
          (str "a.cronctl-old", .dir [(str "run.sh", .file 493 (some (str "new\n")))])])])
        (str "/t/a.cronctl-old") (str "/t/a")).2 (str "/t/a")
        = some (.dir [(str "run.sh", .file 493 (some (str "old\n")))]) := by
  refine ⟨by decide, rfl, rfl, rfl, by decide, rfl⟩

/-- C18, amended. Let the target `dst` exist, and let the target, its backup
`dst + ".cronctl-old"` and the staged tree `srcTmp` be three entries none of which
is or lies below another. After a non-dry-run `replaceDir(srcTmp, dst)`: if the
call returns no error, the target holds the tree that was staged, `srcTmp` does
not remain, and the backup does not remain unless its removal failed; if the call
returns an error, the target holds its previous tree unless the rollback rename
failed as well, in which case the target is absent and the previous tree is at
the backup path. -/
theorem replaceDir_swap (cwd : GoString) (faults : SwapFaults) (fs : Node)
    (srcTmp dst : GoString) (P : List GoString) (name : GoString) (old : Node)
    (hd : fsPath cwd dst = P ++ [name])
    (hb : fsPath cwd (dst ++ str ".cronctl-old") = P ++ [name ++ str ".cronctl-old"])
    (ht1 : diverge (fsPath cwd srcTmp) (P ++ [name]))
    (ht2 : diverge (fsPath cwd srcTmp) (P ++ [name ++ str ".cronctl-old"]))
    (hold : fs.find (P ++ [name]) = some old) :
    ((replaceDir cwd faults false fs srcTmp dst).1 = none →
        ∃ staged, fs.find (fsPath cwd srcTmp) = some staged ∧
          (replaceDir cwd faults false fs srcTmp dst).2.find (P ++ [name]) = some staged ∧
          (replaceDir cwd faults false fs srcTmp dst).2.find (fsPath cwd srcTmp) = none ∧
          (faults.removeBackup = false →
            (replaceDir cwd faults false fs srcTmp dst).2.find
              (P ++ [name ++ str ".cronctl-old"]) = none)) ∧
      ((replaceDir cwd faults false fs srcTmp dst).1 ≠ none →
        (faults.moveBack = false →
          (replaceDir cwd faults false fs srcTmp dst).2.find (P ++ [name]) = some old) ∧
        ((replaceDir cwd faults false fs srcTmp dst).2.find (P ++ [name]) = some old ∨
          ((replaceDir cwd faults false fs srcTmp dst).2.find (P ++ [name]) = none ∧
            (replaceDir cwd faults false fs srcTmp dst).2.find
              (P ++ [name ++ str ".cronctl-old"]) = some old))) := by
  rcases replaceDir_cases cwd faults fs srcTmp dst P name old hd hb ht1 ht2 hold with
    ⟨h1, h2⟩ | ⟨h1, h2⟩ | ⟨h1, hf, h2, h3⟩
  · refine ⟨fun _ => h2, fun hne => absurd h1 hne⟩
  · refine ⟨fun h => ?_, fun _ => ⟨fun _ => h2, Or.inl h2⟩⟩
    rw [h1] at h
    exact Option.noConfusion h
  · refine ⟨fun h => ?_, fun _ => ⟨fun hb2 => ?_, Or.inr ⟨h2, h3⟩⟩⟩
    · rw [h1] at h
      exact Option.noConfusion h
    · rw [hf] at hb2
      exact Bool.noConfusion hb2

/-- Witness of C18: without faults the staged payload of job `a` replaces the
deployed one. -/
theorem replaceDir_swap_witness :
    ((replaceDir (str "/") SwapFaults.none false swapFs (str "/opt/jobs/.cronctl-staging-a-1")
          (str "/opt/jobs/a")).1 = none →
        ∃ staged, swapFs.find (fsPath (str "/") (str "/opt/jobs/.cronctl-staging-a-1"))
            = some staged ∧
          (replaceDir (str "/") SwapFaults.none false swapFs
            (str "/opt/jobs/.cronctl-staging-a-1") (str "/opt/jobs/a")).2.find
            ([str "opt", str "jobs"] ++ [str "a"]) = some staged ∧
          (replaceDir (str "/") SwapFaults.none false swapFs
            (str "/opt/jobs/.cronctl-staging-a-1") (str "/opt/jobs/a")).2.find
            (fsPath (str "/") (str "/opt/jobs/.cronctl-staging-a-1")) = none ∧
          (SwapFaults.none.removeBackup = false →
            (replaceDir (str "/") SwapFaults.none false swapFs
              (str "/opt/jobs/.cronctl-staging-a-1") (str "/opt/jobs/a")).2.find
              ([str "opt", str "jobs"] ++ [str "a" ++ str ".cronctl-old"]) = none)) ∧
      (replaceDir (str "/") SwapFaults.none false swapFs (str "/opt/jobs/.cronctl-staging-a-1")
          (str "/opt/jobs/a")).1 = none :=
  ⟨(replaceDir_swap (str "/") SwapFaults.none swapFs (str "/opt/jobs/.cronctl-staging-a-1")
      (str "/opt/jobs/a") [str "opt", str "jobs"] (str "a")
      (.dir [(str "run.sh", .file 493 (some (str "old\n")))])
      (by decide) (by decide) (by unfold diverge; decide) (by unfold diverge; decide) rfl).1,
    by decide⟩

/-! ## Paths below the target directory -/

theorem diverge_append : ∀ (p q x y : List GoString), diverge p q → diverge (p ++ x) (q ++ y)
  | [], _, _, _, h => absurd List.nil_prefix h.1
  | _ :: _, [], _, _, h => absurd List.nil_prefix h.2
  | c :: ps, d :: qs, x, y, h => by
    by_cases hcd : c = d
    · subst hcd
      have ih := diverge_append ps qs x y (diverge_cons h)
      constructor <;> intro hp
      · exact ih.1 (List.cons_prefix_cons.mp hp).2
      · exact ih.2 (List.cons_prefix_cons.mp hp).2
    · exact diverge_cons_ne c d _ _ hcd

theorem diverge_append_left (p q x : List GoString) (h : diverge p q) : diverge (p ++ x) q := by
  simpa using diverge_append p q x [] h

theorem diverge_append_right (p q y : List GoString) (h : diverge p q) : diverge p (q ++ y) := by
  simpa using diverge_append p q [] y h

theorem splitOn_ne_nil (sep : Nat) : ∀ s : GoString, splitOn sep s ≠ []
  | [] => by simp [splitOn]
  | c :: cs => by
    by_cases hc : c = sep
    · simp [splitOn, hc]
    · simp only [splitOn, hc, if_false]
      split <;> simp

theorem splitOn_append_sep (sep : Nat) (t : GoString) : ∀ s : GoString,
    splitOn sep (s ++ sep :: t) = splitOn sep s ++ splitOn sep t
  | [] => by simp [splitOn]
  | c :: cs => by
    have ih := splitOn_append_sep sep t cs
    by_cases hc : c = sep
    · simp [splitOn, hc, ih]
    · cases hs : splitOn sep cs with
      | nil => exact absurd hs (splitOn_ne_nil sep cs)
      | cons p ps =>
        rw [hs] at ih
        simp only [List.cons_append, splitOn, hc, if_false, List.append_eq, ih, hs]

theorem fsPath_child (cwd dir name : GoString) (hdir : dir ≠ []) (h47 : 47 ∉ name)
    (hne : name ≠ []) (hd1 : name ≠ str ".") (hd2 : name ≠ str "..") :
    fsPath cwd (dir ++ 47 :: name) = fsPath cwd dir ++ [name] := by
  have habs : IsAbs (dir ++ 47 :: name) = IsAbs dir := by
    cases dir with
    | nil => exact absurd rfl hdir
    | cons d ds => rfl
  unfold fsPath
  rw [habs, splitOn_append_sep, splitOn_no_sep 47 name h47, ← List.append_assoc,
    cleanElems_append]
  simp [cleanElems, hne, hd1, hd2]

/-! ## `stageJobDir` -/

/-- A name appended to a directory given with a trailing slash. -/
theorem fsPath_child_slash (cwd d name : GoString) (h47 : 47 ∉ name)
    (hne : name ≠ []) (hd1 : name ≠ str ".") (hd2 : name ≠ str "..") :
    fsPath cwd (d ++ 47 :: name) = fsPath cwd (d ++ [47]) ++ [name] := by
  have habs : IsAbs (d ++ 47 :: name) = IsAbs (d ++ [47]) := by
    cases d with
    | nil => rfl
    | cons c cs => rfl
  have e1 : splitOn 47 (d ++ [47]) = splitOn 47 d ++ [[]] := by
    rw [splitOn_append_sep]
    rfl
  have e2 : ∀ acc, cleanElems true acc [[]] = acc := by
    intro acc
    simp [cleanElems]
  have e3 : ∀ acc, cleanElems true acc [name] = acc ++ [name] := by
    intro acc
    simp [cleanElems, hne, hd1, hd2]
  unfold fsPath
  rw [habs, splitOn_append_sep, splitOn_no_sep 47 name h47, e1, ← List.append_assoc,
    ← List.append_assoc, cleanElems_append true _ [name], cleanElems_append true _ [[]],
    e2, e3]

theorem MkdirTemp_spec (cwd rand : GoString) (fs fs1 : Node) (dir pat tmpDir : GoString)
    (hT : dir ≠ []) (hstar : 42 ∉ pat)
    (hhead : pat.head? = some 46) (hlen : 3 ≤ pat.length)
    (h : MkdirTemp cwd rand fs dir pat = some (tmpDir, fs1)) :
    ∃ n, n.head? = some 46 ∧ fsPath cwd tmpDir = fsPath cwd dir ++ [n] ∧
      (∃ d, tmpDir = d ++ 47 :: n) ∧ 47 ∉ n ∧ 3 ≤ n.length ∧
      fs.find (fsPath cwd dir ++ [n]) = none ∧
      (∃ es, fs1.find (fsPath cwd dir ++ [n]) = some (.dir es)) ∧
      ∀ q, diverge (fsPath cwd dir ++ [n]) q → fs1.find q = fs.find q := by
  unfold MkdirTemp at h
  have hc42 : pat.contains 42 = false := by
    cases hc : pat.contains 42 with
    | false => rfl
    | true => exact absurd (by simpa using hc) hstar
  cases hc47 : pat.contains 47 with
  | true =>
    have hm : 47 ∈ pat := by simpa using hc47
    simp [prefixAndSuffix, hm] at h
  | false =>
    have h47 : 47 ∉ pat := by
      intro hm
      have : pat.contains 47 = true := by simpa using hm
      rw [this] at hc47
      exact Bool.noConfusion hc47
    have hps : prefixAndSuffix pat = some (pat, []) := by
      simp only [prefixAndSuffix, hc47, hc42, Bool.false_eq_true, if_false]
    rw [hps] at h
    simp only [List.append_nil] at h
    split at h
    · exact Option.noConfusion h
    · rename_i hrand
      have hrand2 : ∀ c ∈ rand, ¬ (c < 48 ∨ 57 < c) := by
        intro c hc hbad
        apply hrand
        right
        simp only [List.any_eq_true, decide_eq_true_eq]
        exact ⟨c, hc, hbad⟩
      have hname47 : 47 ∉ pat ++ rand := by
        intro hm
        rcases List.mem_append.mp hm with hm | hm
        · exact h47 hm
        · have := hrand2 47 hm
          omega
      have hlen2 : 3 ≤ (pat ++ rand).length := by
        simp only [List.length_append]
        omega
      have hne : pat ++ rand ≠ [] := by
        intro he
        rw [he] at hlen2
        simp at hlen2
      have hd1 : pat ++ rand ≠ str "." := by
        intro he
        rw [he] at hlen2
        simp [str] at hlen2
      have hd2 : pat ++ rand ≠ str ".." := by
        intro he
        rw [he] at hlen2
        simp [str] at hlen2
      have hpath : ∃ d, (if dir.getLast? = some 47 then dir ++ (pat ++ rand)
            else dir ++ 47 :: (pat ++ rand)) = d ++ 47 :: (pat ++ rand) ∧
          fsPath cwd (d ++ 47 :: (pat ++ rand)) = fsPath cwd dir ++ [pat ++ rand] := by
        by_cases hsl : dir.getLast? = some 47
        · obtain ⟨d, hd⟩ := List.getLast?_eq_some_iff.mp hsl
          refine ⟨d, ?_, ?_⟩
          · rw [if_pos hsl, hd]
            simp
          · rw [hd]
            exact fsPath_child_slash cwd d _ hname47 hne hd1 hd2
        · exact ⟨dir, by rw [if_neg hsl], fsPath_child cwd dir _ hT hname47 hne hd1 hd2⟩
      obtain ⟨d, hpd, hpath⟩ := hpath
      rw [hpd, hpath] at h
      cases hf : fs.find (fsPath cwd dir ++ [pat ++ rand]) with
      | some n => simp [hf] at h
      | none =>
        simp only [hf] at h
        cases hput : fs.put (fsPath cwd dir ++ [pat ++ rand]) (.dir []) with
        | none => simp [hput] at h
        | some fs2 =>
          simp only [hput, Option.map_some', Option.some.injEq, Prod.mk.injEq] at h
          obtain ⟨htmp, hfs⟩ := h
          subst htmp hfs
          refine ⟨pat ++ rand, ?_, hpath, ⟨d, rfl⟩, hname47, hlen2, hf,
            ⟨[], find_put_same _ _ _ _ hput⟩,
            fun q hq => find_put_diverge _ _ _ _ q hput hq⟩
          cases pat with
          | nil => simp at hhead
          | cons a as => simpa using hhead

theorem stageJobDir_spec (cwd rand : GoString) (fs fs1 : Node) (targetDir jobID tmpDir : GoString)
    (hT : targetDir ≠ []) (hstar : 42 ∉ jobID)
    (h : stageJobDir cwd rand false fs targetDir jobID = some (tmpDir, fs1)) :
    ∃ n, n.head? = some 46 ∧ fsPath cwd tmpDir = fsPath cwd targetDir ++ [n] ∧
      (∃ d, tmpDir = d ++ 47 :: n) ∧ 47 ∉ n ∧ 3 ≤ n.length ∧
      fs.find (fsPath cwd targetDir ++ [n]) = none ∧
      (∃ es, fs1.find (fsPath cwd targetDir ++ [n]) = some (.dir es)) ∧
      ∀ q, diverge (fsPath cwd targetDir ++ [n]) q → fs1.find q = fs.find q := by
  have e1 : str ".cronctl-staging-"
      = [46, 99, 114, 111, 110, 99, 116, 108, 45, 115, 116, 97, 103, 105, 110, 103, 45] := by
    decide
  have e2 : str "-" = [45] := by decide
  simp only [stageJobDir, Bool.false_eq_true, if_false] at h
  refine MkdirTemp_spec cwd rand fs fs1 targetDir _ tmpDir hT ?_ ?_ ?_ h
  · rw [e1, e2]
    simp [hstar]
  · rw [e1]
    rfl
  · rw [e1]
    simp only [List.length_append, List.length_cons, List.length_nil]
    omega

/-! ## What `replaceDir` touches -/

theorem replaceDir_eq (cwd : GoString) (faults : SwapFaults) (fs : Node) (srcTmp dst : GoString) :
    replaceDir cwd faults false fs srcTmp dst
      = if faults.moveAway = true then
          (some .rename, if faults.removeOld = true then fs
            else (RemoveAll cwd fs (dst ++ str ".cronctl-old")).getD fs)
        else
          match Rename cwd (if faults.removeOld = true then fs
              else (RemoveAll cwd fs (dst ++ str ".cronctl-old")).getD fs) dst
              (dst ++ str ".cronctl-old") with
          | some fs2 => swapIn cwd faults fs2 srcTmp dst
          | none =>
            if RenameNotExist cwd (if faults.removeOld = true then fs
                else (RemoveAll cwd fs (dst ++ str ".cronctl-old")).getD fs) dst
                (dst ++ str ".cronctl-old") = true then
              swapIn cwd faults (if faults.removeOld = true then fs
                else (RemoveAll cwd fs (dst ++ str ".cronctl-old")).getD fs) srcTmp dst
            else (some .rename, if faults.removeOld = true then fs
              else (RemoveAll cwd fs (dst ++ str ".cronctl-old")).getD fs) := by
  unfold replaceDir swapIn
  simp only [Bool.false_eq_true, if_false]
  by_cases hfa : faults.moveAway = true
  · simp only [hfa, if_true]
  · simp only [hfa, if_false]
    cases Rename cwd (if faults.removeOld = true then fs
        else (RemoveAll cwd fs (dst ++ str ".cronctl-old")).getD fs) dst
        (dst ++ str ".cronctl-old") with
    | some fs2 => rfl
    | none =>
      by_cases hn : RenameNotExist cwd (if faults.removeOld = true then fs
          else (RemoveAll cwd fs (dst ++ str ".cronctl-old")).getD fs) dst
          (dst ++ str ".cronctl-old") = true
      · simp only [hn, if_true, Bool.false_eq_true, if_false]
      · simp only [hn, if_false, Bool.false_eq_true]

theorem Rename_getD_frame (cwd : GoString) (fs : Node) (oldpath newpath : GoString)
    (hdiv : diverge (fsPath cwd oldpath) (fsPath cwd newpath)) (q : List GoString)
    (h1 : diverge (fsPath cwd oldpath) q) (h2 : diverge (fsPath cwd newpath) q) :
    ((Rename cwd fs oldpath newpath).getD fs).find q = fs.find q := by
  cases h : Rename cwd fs oldpath newpath with
  | none => rfl
  | some fs2 =>
    obtain ⟨_, _, _, _, hf⟩ := Rename_effect cwd fs fs2 oldpath newpath hdiv h
    exact hf q h1 h2

theorem swapIn_frame (cwd : GoString) (faults : SwapFaults) (fs2 : Node) (srcTmp dst : GoString)
    (hdb : diverge (fsPath cwd dst) (fsPath cwd (dst ++ str ".cronctl-old")))
    (htd : diverge (fsPath cwd srcTmp) (fsPath cwd dst))
    (htb : diverge (fsPath cwd srcTmp) (fsPath cwd (dst ++ str ".cronctl-old"))) :
    (∀ q, diverge (fsPath cwd dst) q → diverge (fsPath cwd (dst ++ str ".cronctl-old")) q →
        diverge (fsPath cwd srcTmp) q → (swapIn cwd faults fs2 srcTmp dst).2.find q = fs2.find q) ∧
      ((swapIn cwd faults fs2 srcTmp dst).1 = none →
        (swapIn cwd faults fs2 srcTmp dst).2.find (fsPath cwd srcTmp) = none) := by
  have hbne : dst ++ str ".cronctl-old" ≠ [] := by
    intro h
    have := congrArg List.length h
    simp [str] at this
  unfold swapIn
  cases hr2 : (if faults.moveIn = true then none else Rename cwd fs2 srcTmp dst) with
  | none =>
    refine ⟨fun q h1 h2 _ => ?_, fun h => Option.noConfusion h⟩
    show (if faults.moveBack = true then fs2 else _).find q = _
    split
    · rfl
    · exact Rename_getD_frame cwd fs2 _ dst (diverge_symm hdb) q h2 h1
  | some fs3 =>
    have hin : faults.moveIn = false := by
      by_contra hc
      simp [hc] at hr2
    simp only [hin, Bool.false_eq_true, if_false] at hr2
    obtain ⟨_, _, _, h3t, h3f⟩ := Rename_effect cwd fs2 fs3 srcTmp dst htd hr2
    refine ⟨fun q h1 h2 h3 => ?_, fun _ => ?_⟩
    · show (if faults.removeBackup = true then fs3 else _).find q = _
      split
      · exact h3f q h3 h1
      · rw [RemoveAll_getD_frame cwd fs3 _ hbne q h2]
        exact h3f q h3 h1
    · show (if faults.removeBackup = true then fs3 else _).find _ = _
      split
      · exact h3t
      · rw [RemoveAll_getD_frame cwd fs3 _ hbne _ (diverge_symm htb)]
        exact h3t

theorem replaceDir_frame (cwd : GoString) (faults : SwapFaults) (fs : Node) (srcTmp dst : GoString)
    (hdb : diverge (fsPath cwd dst) (fsPath cwd (dst ++ str ".cronctl-old")))
    (htd : diverge (fsPath cwd srcTmp) (fsPath cwd dst))
    (htb : diverge (fsPath cwd srcTmp) (fsPath cwd (dst ++ str ".cronctl-old"))) :
    (∀ q, diverge (fsPath cwd dst) q → diverge (fsPath cwd (dst ++ str ".cronctl-old")) q →
        diverge (fsPath cwd srcTmp) q →
        (replaceDir cwd faults false fs srcTmp dst).2.find q = fs.find q) ∧
      ((replaceDir cwd faults false fs srcTmp dst).1 = none →
        (replaceDir cwd faults false fs srcTmp dst).2.find (fsPath cwd srcTmp) = none) := by
  have hbne : dst ++ str ".cronctl-old" ≠ [] := by
    intro h
    have := congrArg List.length h
    simp [str] at this
  rw [replaceDir_eq]
  generalize hfs1 : (if faults.removeOld = true then fs
    else (RemoveAll cwd fs (dst ++ str ".cronctl-old")).getD fs) = fs1
  have h1 : ∀ q, diverge (fsPath cwd (dst ++ str ".cronctl-old")) q →
      fs1.find q = fs.find q := by
    intro q hq
    rw [← hfs1]
    split
    · rfl
    · exact RemoveAll_getD_frame cwd fs _ hbne q hq
  by_cases hfa : faults.moveAway = true
  · simp only [hfa, if_true]
    exact ⟨fun q _ h2 _ => h1 q h2, fun h => Option.noConfusion h⟩
  · simp only [hfa, if_false, Bool.false_eq_true]
    cases hr1 : Rename cwd fs1 dst (dst ++ str ".cronctl-old") with
    | some fs2 =>
      dsimp only
      obtain ⟨_, _, _, _, h2f⟩ := Rename_effect cwd fs1 fs2 dst _ hdb hr1
      obtain ⟨ha, hb⟩ := swapIn_frame cwd faults fs2 srcTmp dst hdb htd htb
      exact ⟨fun q hq1 hq2 hq3 => by rw [ha q hq1 hq2 hq3, h2f q hq1 hq2, h1 q hq2], hb⟩
    | none =>
      dsimp only
      by_cases hn : RenameNotExist cwd fs1 dst (dst ++ str ".cronctl-old") = true
      · simp only [hn, if_true]
        obtain ⟨ha, hb⟩ := swapIn_frame cwd faults fs1 srcTmp dst hdb htd htb
        exact ⟨fun q hq1 hq2 hq3 => by rw [ha q hq1 hq2 hq3, h1 q hq2], hb⟩
      · simp only [hn, if_false]
        exact ⟨fun q _ h2 _ => h1 q h2, fun h => Option.noConfusion h⟩

/-! ## The steps of the loop body -/

theorem Remove_effect (cwd : GoString) (fs fs2 : Node) (path : GoString)
    (h : Remove cwd fs path = some fs2) :
    fs2.find (fsPath cwd path) = none ∧
      ∀ q, diverge (fsPath cwd path) q → fs2.find q = fs.find q := by
  unfold Remove at h
  split at h
  · exact Option.noConfusion h
  · exact ⟨find_del_same _ _ _ h, fun q hq => find_del_diverge _ _ _ _ h hq⟩
  · exact Option.noConfusion h

theorem removeFileIfExists_spec (cwd : GoString) (fs : Node) (path : GoString) :
    (∀ q, diverge (fsPath cwd path) q →
        (removeFileIfExists cwd false fs path).2.find q = fs.find q) ∧
      ((removeFileIfExists cwd false fs path).1 = none →
        (removeFileIfExists cwd false fs path).2.find (fsPath cwd path) = none) ∧
      (fs.find (fsPath cwd path) = none →
        (removeFileIfExists cwd false fs path).2.find (fsPath cwd path) = none) := by
  unfold removeFileIfExists
  simp only [Bool.false_eq_true, if_false]
  cases hr : Remove cwd fs path with
  | some fs2 =>
    obtain ⟨h1, h2⟩ := Remove_effect cwd fs fs2 path hr
    exact ⟨h2, fun _ => h1, fun _ => h1⟩
  | none =>
    dsimp only
    by_cases hn : RemoveNotExist cwd fs path = true
    · rw [if_pos hn]
      refine ⟨fun _ _ => rfl, fun _ => ?_, fun h => h⟩
      unfold RemoveNotExist at hn
      cases hf : fs.find (fsPath cwd path) with
      | none => rfl
      | some n => simp [hf] at hn
    · rw [if_neg hn]
      exact ⟨fun _ _ => rfl, fun h => Option.noConfusion h, fun h => h⟩

theorem removeDirIfExists_frame (cwd : GoString) (fs : Node) (path : GoString)
    (q : List GoString) (hq : diverge (fsPath cwd path) q) :
    (removeDirIfExists cwd false fs path).2.find q = fs.find q := by
  unfold removeDirIfExists
  simp only [Bool.false_eq_true, if_false]
  cases hr : RemoveAll cwd fs path with
  | some fs2 =>
    by_cases hne : path = []
    · subst hne
      simp only [RemoveAll, if_true, Option.some.injEq] at hr
      rw [← hr]
    · exact (RemoveAll_effect cwd fs fs2 path hne hr).2 q hq
  | none => rfl

theorem fillStaging_frame (steps : SyncSteps) (cwd : GoString) (hF : steps.Framed cwd)
    (c : Bool) (opts : SyncOptions) (fs : Node) (j : Job) (tmpDir targetPath : GoString)
    (uid gid : Int) (q : List GoString) (hne : tmpDir ≠ [])
    (hq : diverge (fsPath cwd tmpDir) q) :
    (fillStaging steps c opts fs j tmpDir targetPath uid gid).fs.find q = fs.find q := by
  unfold fillStaging
  have e2 := hF.copy opts.DryRun fs j.Dir tmpDir q hne hq
  have e3 := hF.carry opts.DryRun (steps.copyJobDir opts.DryRun fs j.Dir tmpDir).2 targetPath
    tmpDir q hne hq
  dsimp only
  split
  · exact e2
  · split
    · rw [e3, e2]
    · have e4 : (if opts.Chown = true then
            steps.chownTree opts.DryRun (steps.carryOverFilehash opts.DryRun
              (steps.copyJobDir opts.DryRun fs j.Dir tmpDir).2 targetPath tmpDir).2 tmpDir uid gid
          else (none, (steps.carryOverFilehash opts.DryRun
              (steps.copyJobDir opts.DryRun fs j.Dir tmpDir).2 targetPath tmpDir).2)).2.find q
          = fs.find q := by
        split
        · rw [hF.chown _ _ _ _ _ q hq, e3, e2]
        · rw [e3, e2]
      split
      · exact e4
      · split
        · rw [hF.build _ _ _ _ _ _ _ _ _ _ q hne hq, e4]
        · exact e4

theorem settleJob_frame (steps : SyncSteps) (cwd : GoString) (hF : steps.Framed cwd)
    (opts : SyncOptions) (hdry : opts.DryRun = false) (fs : Node) (j : Job)
    (cronPath targetPath : GoString) (uid gid : Int) (q : List GoString)
    (hq1 : diverge (fsPath cwd targetPath) q) (hq2 : diverge (fsPath cwd cronPath) q)
    (hq3 : ∀ fsx, (steps.writeCronFile false fsx cronPath j targetPath).2.find q = fsx.find q) :
    (settleJob steps cwd opts fs j cronPath targetPath uid gid).2.find q = fs.find q := by
  unfold settleJob
  have e7 : (if opts.Chown = true then steps.chownTree opts.DryRun fs targetPath uid gid
      else (none, fs)).2.find q = fs.find q := by
    split
    · exact hF.chown _ _ _ _ _ q hq1
    · rfl
  dsimp only
  rw [hdry] at e7 ⊢
  split
  · exact e7
  · split
    · rw [(removeFileIfExists_spec cwd _ cronPath).1 q hq2, e7]
    · rw [hq3, e7]

theorem name_ne_of_head {n m : GoString} (hn : n.head? = some 46) (hm : m.head? ≠ some 46) :
    n ≠ m := by
  intro h
  rw [h] at hn
  exact hm hn

theorem backup_head (id : GoString) (hne : id ≠ []) (h : id.head? ≠ some 46) :
    (id ++ str ".cronctl-old").head? ≠ some 46 := by
  cases id with
  | nil => exact absurd rfl hne
  | cons a as => simpa using h

/-- What one pass of the loop body does to the staging directories: the one it
creates is an entry of the target directory whose name starts with a dot; the
pass leaves alone every entry that parts ways with the target of the job, with
its backup, with its registration and with that staging directory, provided the
write of the registration leaves it alone; and once the staging directory is
deployed its path is free again. -/
theorem syncJob_effect (steps : SyncSteps) (cwd : GoString) (hF : steps.Framed cwd)
    (faults : SyncFaults) (c : Bool) (opts : SyncOptions) (fs : Node) (j : Job)
    (hdry : opts.DryRun = false) (hT : opts.TargetDir ≠ [])
    (hCT : diverge (fsPath cwd opts.CronDir) (fsPath cwd opts.TargetDir))
    (hj : jobPlain cwd opts j) :
    (∀ s, (syncJob steps cwd faults c opts fs j).staged = some s →
        ∃ n, n.head? = some 46 ∧ fsPath cwd s = fsPath cwd opts.TargetDir ++ [n] ∧
          (∃ d, s = d ++ 47 :: n) ∧ 47 ∉ n ∧ 3 ≤ n.length) ∧
      (∀ q, diverge (fsPath cwd opts.TargetDir ++ [j.ID]) q →
        diverge (fsPath cwd opts.TargetDir ++ [j.ID ++ str ".cronctl-old"]) q →
        diverge (fsPath cwd opts.CronDir ++ [str "cronctl-" ++ j.ID]) q →
        (∀ fsx, (steps.writeCronFile false fsx (Join [opts.CronDir, str "cronctl-" ++ j.ID]) j
          (Join [opts.TargetDir, j.ID])).2.find q = fsx.find q) →
        (∀ s, (syncJob steps cwd faults c opts fs j).staged = some s →
          diverge (fsPath cwd s) q) →
        (syncJob steps cwd faults c opts fs j).fs.find q = fs.find q) ∧
      (((syncJob steps cwd faults c opts fs j).err = none ∨
          (syncJob steps cwd faults c opts fs j).deployed = true) →
        ∀ s, (syncJob steps cwd faults c opts fs j).staged = some s →
          (syncJob steps cwd faults c opts fs j).fs.find (fsPath cwd s) = none) := by
  obtain ⟨hd, hb, hcp, hidne, hidhead, hstar⟩ := hj
  have hCq : ∀ q, diverge (fsPath cwd opts.CronDir ++ [str "cronctl-" ++ j.ID]) q →
      diverge (fsPath cwd (Join [opts.CronDir, str "cronctl-" ++ j.ID])) q := by
    intro q hq
    rw [hcp]
    exact hq
  unfold syncJob
  dsimp only
  rw [hdry]
  by_cases hen : j.Spec.Enabled = true
  · simp only [hen, Bool.not_true, Bool.false_eq_true, if_false]
    cases hu : steps.resolveJobUser fs j.Spec.User with
    | none =>
      dsimp only
      exact ⟨fun s h => Option.noConfusion h, fun _ _ _ _ _ _ => rfl,
        fun _ s h => Option.noConfusion h⟩
    | some ug =>
      obtain ⟨uid, gid⟩ := ug
      dsimp only
      cases hst : stageJobDir cwd (steps.random fs) false fs opts.TargetDir j.ID with
      | none =>
        dsimp only
        exact ⟨fun s h => Option.noConfusion h, fun _ _ _ _ _ _ => rfl,
          fun _ s h => Option.noConfusion h⟩
      | some tf =>
        obtain ⟨tmpDir, fs1⟩ := tf
        dsimp only
        obtain ⟨n, hn, htp, hteq, hn47, hnlen, _, _, h1f⟩ :=
          stageJobDir_spec cwd _ fs fs1 opts.TargetDir j.ID tmpDir hT hstar hst
        have htd : diverge (fsPath cwd tmpDir) (fsPath cwd (Join [opts.TargetDir, j.ID])) := by
          rw [htp, hd]
          exact diverge_siblings _ _ _ (name_ne_of_head hn hidhead)
        have htb : diverge (fsPath cwd tmpDir)
            (fsPath cwd (Join [opts.TargetDir, j.ID] ++ str ".cronctl-old")) := by
          rw [htp, hb]
          exact diverge_siblings _ _ _ (name_ne_of_head hn (backup_head _ hidne hidhead))
        have hdb : diverge (fsPath cwd (Join [opts.TargetDir, j.ID]))
            (fsPath cwd (Join [opts.TargetDir, j.ID] ++ str ".cronctl-old")) := by
          rw [hd, hb]
          exact diverge_siblings _ _ _ (backup_name_ne _)
        have htC : diverge (fsPath cwd opts.CronDir) (fsPath cwd tmpDir) := by
          rw [htp]
          exact diverge_append_right _ _ _ hCT
        have htne : tmpDir ≠ [] := by
          obtain ⟨d, hd⟩ := hteq
          rw [hd]
          simp
        have hstaged : ∀ s, some tmpDir = some s →
            ∃ n, n.head? = some 46 ∧ fsPath cwd s = fsPath cwd opts.TargetDir ++ [n] ∧
              (∃ d, s = d ++ 47 :: n) ∧ 47 ∉ n ∧ 3 ≤ n.length := by
          intro s hs
          injection hs with hs
          subst hs
          exact ⟨n, hn, htp, hteq, hn47, hnlen⟩
        -- the trees after the steps, seen from an entry they leave alone
        have e5 : ∀ q, diverge (fsPath cwd tmpDir) q →
            (fillStaging steps c opts fs1 j tmpDir (Join [opts.TargetDir, j.ID]) uid gid).fs.find q
              = fs.find q := by
          intro q hq
          rw [fillStaging_frame steps cwd hF c opts fs1 j tmpDir _ uid gid q htne hq]
          exact h1f q (by rw [← htp]; exact hq)
        obtain ⟨h6f, h6t⟩ := replaceDir_frame cwd faults.swap
          (fillStaging steps c opts fs1 j tmpDir (Join [opts.TargetDir, j.ID]) uid gid).fs
          tmpDir (Join [opts.TargetDir, j.ID]) hdb htd htb
        have e6 : ∀ q, diverge (fsPath cwd opts.TargetDir ++ [j.ID]) q →
            diverge (fsPath cwd opts.TargetDir ++ [j.ID ++ str ".cronctl-old"]) q →
            diverge (fsPath cwd tmpDir) q →
            (replaceDir cwd faults.swap false
              (fillStaging steps c opts fs1 j tmpDir (Join [opts.TargetDir, j.ID]) uid gid).fs
              tmpDir (Join [opts.TargetDir, j.ID])).2.find q = fs.find q := by
          intro q hq1 hq2 hq3
          rw [h6f q (by rw [hd]; exact hq1) (by rw [hb]; exact hq2) hq3, e5 q hq3]
        have e8 : ∀ fsx q, diverge (fsPath cwd opts.TargetDir ++ [j.ID]) q →
            diverge (fsPath cwd opts.CronDir ++ [str "cronctl-" ++ j.ID]) q →
            (∀ fsx, (steps.writeCronFile false fsx (Join [opts.CronDir, str "cronctl-" ++ j.ID])
              j (Join [opts.TargetDir, j.ID])).2.find q = fsx.find q) →
            (settleJob steps cwd opts fsx j (Join [opts.CronDir, str "cronctl-" ++ j.ID])
              (Join [opts.TargetDir, j.ID]) uid gid).2.find q = fsx.find q := by
          intro fsx q hq1 hq2 hq3
          exact settleJob_frame steps cwd hF opts hdry fsx j _ _ uid gid q
            (by rw [hd]; exact hq1) (hCq q hq2) hq3
        split
        · refine ⟨hstaged, fun q _ _ _ _ hs => e5 q (hs tmpDir rfl), ?_⟩
          rintro (h | h)
          · exact Option.noConfusion h
          · exact Bool.noConfusion h
        · split
          · refine ⟨hstaged, fun q hq1 hq2 _ _ hs => e6 q hq1 hq2 (hs tmpDir rfl), ?_⟩
            rintro (h | h)
            · exact Option.noConfusion h
            · exact Bool.noConfusion h
          · rename_i h6ok
            refine ⟨hstaged, fun q hq1 hq2 hq3 hq4 hs => ?_, ?_⟩
            · rw [e8 _ q hq1 hq3 hq4]
              exact e6 q hq1 hq2 (hs tmpDir rfl)
            · intro _ s hs
              injection hs with hs
              subst hs
              rw [e8 _ _ (by rw [← hd]; exact diverge_symm htd)
                (by rw [htp]; exact diverge_append _ _ _ _ hCT)
                (fun fsx => hF.cron _ _ _ _ _ _ (by rw [hcp]; simpa using htC))]
              exact h6t h6ok
  · have hen2 : j.Spec.Enabled = false := by simpa using hen
    simp only [hen2, Bool.not_false, if_true]
    have e1 := (removeFileIfExists_spec cwd fs (Join [opts.CronDir, str "cronctl-" ++ j.ID])).1
    split
    · exact ⟨fun s h => Option.noConfusion h, fun q _ _ hq3 _ _ => e1 q (hCq q hq3),
        fun _ s h => Option.noConfusion h⟩
    · split
      · refine ⟨fun s h => Option.noConfusion h, fun q hq1 _ hq3 _ _ => ?_,
          fun _ s h => Option.noConfusion h⟩
        rw [removeDirIfExists_frame cwd _ _ q (by rw [hd]; exact hq1)]
        exact e1 q (hCq q hq3)
      · exact ⟨fun s h => Option.noConfusion h, fun q _ _ hq3 _ _ => e1 q (hCq q hq3),
          fun _ s h => Option.noConfusion h⟩

/-! ## The deferred removal and the loop -/

theorem endsWithDot_child (dir n : GoString) (h47 : 47 ∉ n) (hlen : 3 ≤ n.length) :
    endsWithDot (dir ++ 47 :: n) = false := by
  have e1 : str "." = [46] := by decide
  have e2 : str "/." = [47, 46] := by decide
  have h1 : (dir ++ 47 :: n == str ".") = false := by
    rw [beq_eq_false_iff_ne]
    intro h
    have := congrArg List.length h
    simp [str] at this
    omega
  have h2 : HasSuffix (dir ++ 47 :: n) (str "/.") = false := by
    cases hs : HasSuffix (dir ++ 47 :: n) (str "/.") with
    | false => rfl
    | true =>
      exfalso
      rw [HasSuffix, e2, List.isSuffixOf_iff_suffix] at hs
      obtain ⟨pre, hpre⟩ := hs
      have hn : ∃ m a b, n = m ++ [a, b] := by
        rcases List.eq_nil_or_concat n with h | ⟨l, b, h⟩
        · rw [h] at hlen
          simp at hlen
        · rcases List.eq_nil_or_concat l with h2 | ⟨m, a, h2⟩
          · rw [h, h2] at hlen
            simp at hlen
          · exact ⟨m, a, b, by rw [h, h2]; simp⟩
      obtain ⟨m, a, b, hmab⟩ := hn
      have heq : pre ++ [47, 46] = (dir ++ 47 :: m) ++ [a, b] := by
        rw [hpre, hmab]
        simp
      have := (List.append_inj' heq rfl).2
      simp only [List.cons.injEq, and_true] at this
      apply h47
      rw [hmab, ← this.1]
      simp
  simp [endsWithDot, h1, h2]

theorem cleanupStaging_spec (cwd : GoString) (faults : SyncFaults) (fs : Node)
    (dir n : GoString) (P : List GoString) (hc : faults.cleanup = false)
    (hp : fsPath cwd (dir ++ 47 :: n) = P ++ [n]) (h47 : 47 ∉ n) (hlen : 3 ≤ n.length) :
    (cleanupStaging cwd faults fs (some (dir ++ 47 :: n))).find (P ++ [n]) = none ∧
      ∀ q, diverge (P ++ [n]) q →
        (cleanupStaging cwd faults fs (some (dir ++ 47 :: n))).find q = fs.find q := by
  have hne : dir ++ 47 :: n ≠ [] := by simp
  simp only [cleanupStaging, hc, Bool.false_eq_true, if_false]
  refine ⟨?_, fun q hq => RemoveAll_getD_frame cwd fs _ hne q (by rw [hp]; exact hq)⟩
  cases hf : fs.find (P ++ [n]) with
  | some node =>
    obtain ⟨fs2, h2⟩ := RemoveAll_of_find cwd fs _ node hne (endsWithDot_child dir n h47 hlen)
      (by rw [hp]; simp) (by rw [hp]; exact hf)
    rw [h2, Option.getD_some]
    have := (RemoveAll_effect cwd fs fs2 _ hne h2).1
    rw [hp] at this
    exact this
  | none =>
    cases h2 : RemoveAll cwd fs (dir ++ 47 :: n) with
    | none => exact hf
    | some fs2 =>
      rw [Option.getD_some]
      have := (RemoveAll_effect cwd fs fs2 _ hne h2).1
      rw [hp] at this
      exact this

/-- The loop of `Sync` and the deferred removal together: an entry of the target
directory whose name starts with a dot is absent afterwards if it was absent
before or is one of the staging directories the loop created. -/
theorem syncLoop_staging (steps : SyncSteps) (cwd : GoString) (hF : steps.Framed cwd)
    (faults : SyncFaults) (ctx : SyncCtx) (opts : SyncOptions)
    (hclean : faults.cleanup = false) (hdry : opts.DryRun = false)
    (hT : opts.TargetDir ≠ [])
    (hCT : diverge (fsPath cwd opts.CronDir) (fsPath cwd opts.TargetDir)) :
    ∀ (jobs : List Job) (k : Nat) (fs : Node), (∀ j ∈ jobs, jobPlain cwd opts j) →
      (∀ s ∈ (syncLoop steps cwd faults ctx opts k jobs fs).staged,
        ∃ n, n.head? = some 46 ∧ fsPath cwd s = fsPath cwd opts.TargetDir ++ [n]) ∧
      (∀ n, n.head? = some 46 →
        (fs.find (fsPath cwd opts.TargetDir ++ [n]) = none ∨
          ∃ s ∈ (syncLoop steps cwd faults ctx opts k jobs fs).staged,
            fsPath cwd s = fsPath cwd opts.TargetDir ++ [n]) →
        (cleanupStaging cwd faults (syncLoop steps cwd faults ctx opts k jobs fs).fs
          (syncLoop steps cwd faults ctx opts k jobs fs).pending).find
            (fsPath cwd opts.TargetDir ++ [n]) = none) := by
  intro jobs
  induction jobs with
  | nil =>
    intro k fs _
    refine ⟨fun s hs => by simp [syncLoop] at hs, fun n _ h => ?_⟩
    simp only [syncLoop, cleanupStaging]
    rcases h with h | ⟨s, hs, _⟩
    · exact h
    · simp [syncLoop] at hs
  | cons j js ih =>
    intro k fs hjobs
    have hj := hjobs j (List.mem_cons_self _ _)
    have hjs : ∀ j2 ∈ js, jobPlain cwd opts j2 := fun j2 h => hjobs j2 (List.mem_cons_of_mem _ h)
    unfold syncLoop
    by_cases hcan : ctx.atJob k = true
    · simp only [hcan, if_true]
      refine ⟨fun s hs => by simp at hs, fun n _ h => ?_⟩
      simp only [cleanupStaging]
      rcases h with h | ⟨s, hs, _⟩
      · exact h
      · simp at hs
    · simp only [hcan, if_false, Bool.false_eq_true]
      obtain ⟨hJ1, hJ2, hJ3⟩ := syncJob_effect steps cwd hF faults (ctx.atBuild k) opts fs j hdry hT
        hCT hj
      obtain ⟨_, _, hcp0, hidne, hidhead, _⟩ := hj
      -- an entry with a dotted name parts ways with the target and its backup
      have hframe : ∀ n, n.head? = some 46 →
          (∀ s, (syncJob steps cwd faults (ctx.atBuild k) opts fs j).staged = some s →
            fsPath cwd s ≠ fsPath cwd opts.TargetDir ++ [n]) →
          (syncJob steps cwd faults (ctx.atBuild k) opts fs j).fs.find (fsPath cwd opts.TargetDir ++ [n])
            = fs.find (fsPath cwd opts.TargetDir ++ [n]) := by
        intro n hn hs
        apply hJ2
        · exact diverge_siblings _ _ _ (Ne.symm (name_ne_of_head hn hidhead))
        · exact diverge_siblings _ _ _
            (Ne.symm (name_ne_of_head hn (backup_head _ hidne hidhead)))
        · exact diverge_append _ _ _ _ hCT
        · intro fsx
          exact hF.cron _ _ _ _ _ _ (by
            rw [hcp0]
            simpa using diverge_append_right _ _ [n] hCT)
        · intro s hst
          obtain ⟨m, _, hm, _⟩ := hJ1 s hst
          rw [hm]
          apply diverge_siblings
          intro hmn
          exact hs s hst (by rw [hm, hmn])
      have hown : ∀ n, n.head? = some 46 →
          ((syncJob steps cwd faults (ctx.atBuild k) opts fs j).err = none ∨
            (syncJob steps cwd faults (ctx.atBuild k) opts fs j).deployed = true) →
          (fs.find (fsPath cwd opts.TargetDir ++ [n]) = none ∨
            ∃ s, (syncJob steps cwd faults (ctx.atBuild k) opts fs j).staged = some s ∧
              fsPath cwd s = fsPath cwd opts.TargetDir ++ [n]) →
          (syncJob steps cwd faults (ctx.atBuild k) opts fs j).fs.find (fsPath cwd opts.TargetDir ++ [n])
            = none := by
        intro n hn hok h
        by_cases hmine : ∃ s, (syncJob steps cwd faults (ctx.atBuild k) opts fs j).staged = some s ∧
            fsPath cwd s = fsPath cwd opts.TargetDir ++ [n]
        · obtain ⟨s, hs, hp⟩ := hmine
          rw [← hp]
          exact hJ3 hok s hs
        · rcases h with h | h
          · rw [hframe n hn (fun s hs hp => hmine ⟨s, hs, hp⟩)]
            exact h
          · exact absurd h hmine
      cases herr : (syncJob steps cwd faults (ctx.atBuild k) opts fs j).err with
      | some e =>
        dsimp only
        constructor
        · intro s hs
          have hs2 : (syncJob steps cwd faults (ctx.atBuild k) opts fs j).staged = some s :=
            Option.mem_def.mp (Option.mem_toList.mp hs)
          obtain ⟨n, hn, hp, _⟩ := hJ1 s hs2
          exact ⟨n, hn, hp⟩
        · intro n hn h
          have h2 : fs.find (fsPath cwd opts.TargetDir ++ [n]) = none ∨
              ∃ s, (syncJob steps cwd faults (ctx.atBuild k) opts fs j).staged = some s ∧
                fsPath cwd s = fsPath cwd opts.TargetDir ++ [n] := by
            rcases h with h | ⟨s, hs, hp⟩
            · exact Or.inl h
            · exact Or.inr ⟨s, Option.mem_def.mp (Option.mem_toList.mp hs), hp⟩
          by_cases hdep : (syncJob steps cwd faults (ctx.atBuild k) opts fs j).deployed = true
          · simp only [hdep, if_true, cleanupStaging]
            exact hown n hn (Or.inr hdep) h2
          · simp only [hdep, if_false, Bool.false_eq_true]
            cases hst : (syncJob steps cwd faults (ctx.atBuild k) opts fs j).staged with
            | none =>
              simp only [cleanupStaging]
              rw [hframe n hn (fun s hs => by rw [hst] at hs; exact Option.noConfusion hs)]
              rcases h2 with h2 | ⟨s, hs, _⟩
              · exact h2
              · rw [hst] at hs
                exact Option.noConfusion hs
            | some t =>
              obtain ⟨m, _, hm, ⟨d, hteq⟩, hm47, hmlen⟩ := hJ1 t hst
              subst hteq
              obtain ⟨hc1, hc2⟩ := cleanupStaging_spec cwd faults
                (syncJob steps cwd faults (ctx.atBuild k) opts fs j).fs d m
                (fsPath cwd opts.TargetDir) hclean hm hm47 hmlen
              by_cases hnm : n = m
              · rw [hnm]
                exact hc1
              · rw [hc2 _ (diverge_siblings _ _ _ (Ne.symm hnm))]
                rw [hframe n hn (fun s hs hp => by
                  rw [hst] at hs
                  injection hs with hs
                  rw [← hs, hm] at hp
                  have := List.append_cancel_left hp
                  simp only [List.cons.injEq, and_true] at this
                  exact hnm this.symm)]
                rcases h2 with h2 | ⟨s, hs, hp⟩
                · exact h2
                · rw [hst] at hs
                  injection hs with hs
                  rw [← hs, hm] at hp
                  have := List.append_cancel_left hp
                  simp only [List.cons.injEq, and_true] at this
                  exact absurd this.symm hnm
      | none =>
        dsimp only
        obtain ⟨ih1, ih2⟩ := ih (k + 1) (syncJob steps cwd faults (ctx.atBuild k) opts fs j).fs hjs
        constructor
        · intro s hs
          rcases List.mem_append.mp hs with hs | hs
          · obtain ⟨n, hn, hp, _⟩ := hJ1 s (Option.mem_def.mp (Option.mem_toList.mp hs))
            exact ⟨n, hn, hp⟩
          · exact ih1 s hs
        · intro n hn h
          apply ih2 n hn
          rcases h with h | ⟨s, hs, hp⟩
          · exact Or.inl (hown n hn (Or.inl herr) (Or.inl h))
          · rcases List.mem_append.mp hs with hs | hs
            · exact Or.inl (hown n hn (Or.inl herr)
                (Or.inr ⟨s, Option.mem_def.mp (Option.mem_toList.mp hs), hp⟩))
            · exact Or.inr ⟨s, hs, hp⟩

/-! ## Paths seen through their elements -/

theorem splitOn_mem_no_sep (sep : Nat) : ∀ (s x : GoString), x ∈ splitOn sep s → sep ∉ x
  | [], x, h => by
    simp only [splitOn, List.mem_singleton] at h
    subst h
    simp
  | c :: cs, x, h => by
    have ih := splitOn_mem_no_sep sep cs
    by_cases hc : c = sep
    · simp only [splitOn, hc, if_true, List.mem_cons] at h
      rcases h with h | h
      · subst h
        simp
      · exact ih x h
    · simp only [splitOn, hc, if_false] at h
      cases hs : splitOn sep cs with
      | nil => exact absurd hs (splitOn_ne_nil sep cs)
      | cons p ps =>
        rw [hs] at h
        simp only [List.mem_cons] at h
        rcases h with h | h
        · subst h
          have := ih p (by rw [hs]; simp)
          simp [this, Ne.symm hc]
        · exact ih x (by rw [hs]; simp [h])

theorem splitOn_head_le (sep : Nat) : ∀ (s p : GoString) (ps : List GoString),
    splitOn sep s = p :: ps → p <+: s
  | [], p, ps, h => by
    simp only [splitOn, List.cons.injEq] at h
    rw [← h.1]
  | c :: cs, p, ps, h => by
    by_cases hc : c = sep
    · simp only [splitOn, hc, if_true, List.cons.injEq] at h
      rw [← h.1]
      exact List.nil_prefix
    · simp only [splitOn, hc, if_false] at h
      cases hs : splitOn sep cs with
      | nil => exact absurd hs (splitOn_ne_nil sep cs)
      | cons p2 ps2 =>
        rw [hs] at h
        simp only [List.cons.injEq] at h
        rw [← h.1]
        exact List.cons_prefix_cons.mpr ⟨rfl, splitOn_head_le sep cs p2 ps2 hs⟩

theorem splitOn_joinSlash : ∀ L : List GoString, L ≠ [] → (∀ x ∈ L, 47 ∉ x) →
    splitOn 47 (joinSlash L) = L
  | [], h, _ => absurd rfl h
  | [p], _, h => splitOn_no_sep 47 p (h p (by simp))
  | p :: q :: ps, _, h => by
    show splitOn 47 (p ++ 47 :: joinSlash (q :: ps)) = _
    rw [splitOn_append_sep, splitOn_no_sep 47 p (h p (by simp)),
      splitOn_joinSlash (q :: ps) (by simp) (fun x hx => h x (List.mem_cons_of_mem _ hx))]
    rfl

theorem cleanElems_cons_skip (r : Bool) (acc : List GoString) (c : GoString)
    (cs : List GoString) (h : c = [] ∨ c = str ".") :
    cleanElems r acc (c :: cs) = cleanElems r acc cs := by
  simp only [cleanElems, h, if_true]

theorem cleanElems_cons_plain (r : Bool) (acc : List GoString) (c : GoString)
    (cs : List GoString) (h1 : c ≠ []) (h2 : c ≠ str ".") (h3 : c ≠ str "..") :
    cleanElems r acc (c :: cs) = cleanElems r (acc ++ [c]) cs := by
  simp only [cleanElems, h1, h2, h3, or_self, if_false]

theorem cleanElems_mem (r : Bool) : ∀ (xs acc : List GoString) (y : GoString),
    y ∈ cleanElems r acc xs → y ∈ acc ∨ y ∈ xs
  | [], acc, y, h => Or.inl h
  | c :: cs, acc, y, h => by
    have ih := fun a hy => cleanElems_mem r cs a y hy
    simp only [cleanElems] at h
    have hr : ∀ a, (y ∈ a → y ∈ acc ∨ y = c) → y ∈ cleanElems r a cs → y ∈ acc ∨ y ∈ c :: cs := by
      intro a ha hy
      rcases ih a hy with h1 | h1
      · rcases ha h1 with h2 | h2
        · exact Or.inl h2
        · exact Or.inr (by simp [h2])
      · exact Or.inr (List.mem_cons_of_mem _ h1)
    have happ : ∀ y, y ∈ acc ++ [c] → y ∈ acc ∨ y = c := by
      intro y hy
      simpa using hy
    split at h
    · exact hr acc Or.inl h
    · split at h
      · split at h
        · split at h
          · exact hr _ (happ y) h
          · exact hr _ (fun hy => Or.inl (List.mem_of_mem_dropLast hy)) h
        · split at h
          · exact hr acc Or.inl h
          · exact hr _ (happ y) h
      · exact hr _ (happ y) h

theorem cleanElems_ok (r : Bool) : ∀ (xs acc : List GoString),
    (∀ a ∈ acc, a ≠ [] ∧ a ≠ str ".") → ∀ y ∈ cleanElems r acc xs, y ≠ [] ∧ y ≠ str "."
  | [], acc, hacc, y, h => hacc y h
  | c :: cs, acc, hacc, y, h => by
    have ih := fun a ha => cleanElems_ok r cs a ha y
    simp only [cleanElems] at h
    have happ : c ≠ [] ∧ c ≠ str "." → ∀ a ∈ acc ++ [c], a ≠ [] ∧ a ≠ str "." := by
      intro hc a ha
      rcases List.mem_append.mp ha with h1 | h1
      · exact hacc a h1
      · rw [List.mem_singleton.mp h1]
        exact hc
    have hup : str ".." ≠ ([] : GoString) ∧ str ".." ≠ str "." := by decide
    split at h
    · exact ih acc hacc h
    · rename_i hc
      have hc2 : c ≠ [] ∧ c ≠ str "." := ⟨fun e => hc (Or.inl e), fun e => hc (Or.inr e)⟩
      split at h
      · split at h
        · split at h
          · exact ih _ (happ hc2) h
          · exact ih _ (fun a ha => hacc a (List.mem_of_mem_dropLast ha)) h
        · split at h
          · exact ih acc hacc h
          · exact ih _ (happ hc2) h
      · exact ih _ (happ hc2) h

theorem cleanElems_rooted_noUp : ∀ (xs acc : List GoString),
    (∀ a ∈ acc, a ≠ str "..") → ∀ y ∈ cleanElems true acc xs, y ≠ str ".."
  | [], acc, hacc, y, h => hacc y h
  | c :: cs, acc, hacc, y, h => by
    have ih := fun a ha => cleanElems_rooted_noUp cs a ha y
    simp only [cleanElems] at h
    have happ : c ≠ str ".." → ∀ a ∈ acc ++ [c], a ≠ str ".." := by
      intro hc a ha
      rcases List.mem_append.mp ha with h1 | h1
      · exact hacc a h1
      · rw [List.mem_singleton.mp h1]
        exact hc
    split at h
    · exact ih acc hacc h
    · split at h
      · split at h
        · rename_i l hl
          split at h
          · rename_i hl2
            exact absurd hl2 (hacc l (List.mem_of_getLast?_eq_some hl))
          · exact ih _ (fun a ha => hacc a (List.mem_of_mem_dropLast ha)) h
        · simp only [if_true] at h
          exact ih acc hacc h
      · rename_i hc
        exact ih _ (happ hc) h

/-- Elements without `..` are appended one by one, the empty ones and `.` dropped. -/
theorem cleanElems_noUp (r : Bool) : ∀ (xs acc : List GoString), (∀ x ∈ xs, x ≠ str "..") →
    cleanElems r acc xs = acc ++ xs.filter (fun c => decide (¬ (c = [] ∨ c = str ".")))
  | [], acc, _ => by simp [cleanElems]
  | c :: cs, acc, h => by
    have ih := fun a => cleanElems_noUp r cs a (fun x hx => h x (List.mem_cons_of_mem _ hx))
    have hc := h c (List.mem_cons_self _ _)
    by_cases h1 : c = [] ∨ c = str "."
    · rw [cleanElems_cons_skip r acc c cs h1, ih,
        List.filter_cons_of_neg (by simp only [decide_not, Bool.not_eq_true', decide_eq_false_iff_not, not_not]; exact h1)]
    · have h2 : c ≠ [] := fun e => h1 (Or.inl e)
      have h3 : c ≠ str "." := fun e => h1 (Or.inr e)
      rw [cleanElems_cons_plain r acc c cs h2 h3 hc, ih,
        List.filter_cons_of_pos (by simp only [decide_not, Bool.not_eq_true', decide_eq_false_iff_not]; exact h1)]
      simp

/-- A list of plain names is clean. -/
theorem cleanElems_plain (r : Bool) (acc L : List GoString)
    (h : ∀ x ∈ L, x ≠ [] ∧ x ≠ str "." ∧ x ≠ str "..") : cleanElems r acc L = acc ++ L := by
  rw [cleanElems_noUp r L acc (fun x hx => (h x hx).2.2)]
  congr 1
  apply List.filter_eq_self.mpr
  intro x hx
  have := h x hx
  simp [this.1, this.2.1]

theorem cleanElems_cons_up_pop (r : Bool) (acc : List GoString) (l : GoString)
    (cs : List GoString) (hl : l ≠ str "..") :
    cleanElems r (acc ++ [l]) (str ".." :: cs) = cleanElems r acc cs := by
  have h1 : ¬ (str ".." = ([] : GoString) ∨ str ".." = str ".") := by decide
  simp only [cleanElems, h1, if_false, if_true, List.getLast?_concat, hl, List.dropLast_concat]

theorem cleanElems_cons_up_up (r : Bool) (acc : List GoString) (cs : List GoString) :
    cleanElems r (acc ++ [str ".."]) (str ".." :: cs)
      = cleanElems r (acc ++ [str ".."] ++ [str ".."]) cs := by
  have h1 : ¬ (str ".." = ([] : GoString) ∨ str ".." = str ".") := by decide
  simp only [cleanElems, h1, if_false, if_true, List.getLast?_concat]

theorem cleanElems_cons_up_nil (cs : List GoString) :
    cleanElems false [] (str ".." :: cs) = cleanElems false [str ".."] cs := by
  have h1 : ¬ (str ".." = ([] : GoString) ∨ str ".." = str ".") := by decide
  simp only [cleanElems, h1, if_false, if_true, List.getLast?_nil, Bool.false_eq_true,
    List.nil_append]

/-- Cleaning a relative path first and resolving it against a directory afterwards
is resolving it against the directory: the cleaned elements are `..` elements
followed by plain names. -/
theorem cleanElems_relative (B : List GoString) : ∀ (xs : List GoString) (k : Nat)
    (P : List GoString), (∀ p ∈ P, p ≠ [] ∧ p ≠ str "." ∧ p ≠ str "..") →
    cleanElems true B (cleanElems false (List.replicate k (str "..") ++ P) xs)
      = cleanElems true (cleanElems true B (List.replicate k (str "..") ++ P)) xs
  | [], _, _, _ => rfl
  | c :: cs, k, P, hP => by
    have ih := cleanElems_relative B cs
    -- the element is appended to the cleaned elements
    have grow : ∀ k2 P2, (∀ p ∈ P2, p ≠ [] ∧ p ≠ str "." ∧ p ≠ str "..") →
        List.replicate k (str "..") ++ P ++ [c] = List.replicate k2 (str "..") ++ P2 →
        cleanElems true B (cleanElems false (List.replicate k (str "..") ++ P ++ [c]) cs)
          = cleanElems true (cleanElems true B (List.replicate k (str "..") ++ P)) (c :: cs) := by
      intro k2 P2 hP2 he
      rw [he, ih k2 P2 hP2, ← he, cleanElems_append true _ [c] B]
      exact (cleanElems_append true [c] cs _).symm
    by_cases h1 : c = [] ∨ c = str "."
    · rw [cleanElems_cons_skip false _ c cs h1, cleanElems_cons_skip true _ c cs h1]
      exact ih k P hP
    · have h2 : c ≠ [] := fun e => h1 (Or.inl e)
      have h3 : c ≠ str "." := fun e => h1 (Or.inr e)
      by_cases h4 : c = str ".."
      · subst h4
        rcases List.eq_nil_or_concat P with hPn | ⟨P1, l, hPl⟩
        · -- only `..` so far: one more
          subst hPn
          have hstep : cleanElems false (List.replicate k (str "..") ++ []) (str ".." :: cs)
              = cleanElems false (List.replicate k (str "..") ++ [] ++ [str ".."]) cs := by
            cases k with
            | zero => exact cleanElems_cons_up_nil cs
            | succ k1 =>
              rw [List.append_nil, List.replicate_succ']
              exact cleanElems_cons_up_up false _ cs
          rw [hstep]
          exact grow (k + 1) [] (by simp) (by
            rw [List.append_nil, List.append_nil, List.replicate_succ'])
        · -- a plain name is dropped
          rw [List.concat_eq_append] at hPl
          subst hPl
          have hl := hP l (by simp)
          have hP1 : ∀ p ∈ P1, p ≠ [] ∧ p ≠ str "." ∧ p ≠ str ".." :=
            fun p hp => hP p (by simp [hp])
          rw [← List.append_assoc, cleanElems_cons_up_pop false _ l cs hl.2.2, ih k P1 hP1,
            cleanElems_append true _ [l] B, cleanElems_cons_plain true _ l [] hl.1 hl.2.1 hl.2.2]
          show _ = cleanElems true (_ ++ [l]) (str ".." :: cs)
          rw [cleanElems_cons_up_pop true _ l cs hl.2.2]
      · rw [cleanElems_cons_plain false _ c cs h2 h3 h4]
        exact grow k (P ++ [c]) (fun p hp => by
          rcases List.mem_append.mp hp with hp | hp
          · exact hP p hp
          · rw [List.mem_singleton.mp hp]
            exact ⟨h2, h3, h4⟩) (by simp)

/-- The text `filepath.Clean` makes of cleaned elements. -/
theorem Clean_eq (path : GoString) :
    Clean path = if IsAbs path then 47 :: joinSlash (cleanElems true [] (splitOn 47 path))
      else if cleanElems false [] (splitOn 47 path) = [] then str "."
      else joinSlash (cleanElems false [] (splitOn 47 path)) := by
  unfold Clean
  by_cases hp : path = []
  · subst hp
    decide
  · simp only [hp, if_false]
    by_cases ha : IsAbs path = true
    · simp only [ha, if_true]
    · have ha2 : IsAbs path = false := by simpa using ha
      simp only [ha2, Bool.false_eq_true, if_false]

theorem joinSlash_head (L : List GoString) (x : GoString) (h : L.head? = some x) (hx : x ≠ []) :
    (joinSlash L).head? = x.head? := by
  cases L with
  | nil => simp at h
  | cons a as =>
    simp only [List.head?_cons, Option.some.injEq] at h
    subst h
    cases a with
    | nil => exact absurd rfl hx
    | cons c cs =>
      cases as with
      | nil => rfl
      | cons b bs => rfl

/-- The path `filepath.Clean` returns leads to the same entry. -/
theorem fsPath_Clean (cwd path : GoString) : fsPath cwd (Clean path) = fsPath cwd path := by
  rw [Clean_eq]
  by_cases ha : IsAbs path = true
  · simp only [ha, if_true]
    have hout : ∀ x ∈ cleanElems true [] (splitOn 47 path),
        x ≠ [] ∧ x ≠ str "." ∧ x ≠ str ".." := fun x hx =>
      ⟨(cleanElems_ok true _ [] (by simp) x hx).1, (cleanElems_ok true _ [] (by simp) x hx).2,
        cleanElems_rooted_noUp _ [] (by simp) x hx⟩
    have h47 : ∀ x ∈ cleanElems true [] (splitOn 47 path), 47 ∉ x := by
      intro x hx
      rcases cleanElems_mem true _ [] x hx with h | h
      · simp at h
      · exact splitOn_mem_no_sep 47 path x h
    unfold fsPath
    have habs : IsAbs (47 :: joinSlash (cleanElems true [] (splitOn 47 path))) = true := rfl
    rw [habs, ha]
    simp only [if_true, List.nil_append]
    have hs : splitOn 47 (47 :: joinSlash (cleanElems true [] (splitOn 47 path)))
        = [] :: splitOn 47 (joinSlash (cleanElems true [] (splitOn 47 path))) := by
      simp [splitOn]
    rw [hs, cleanElems_cons_skip true [] [] _ (Or.inl rfl)]
    by_cases hn : cleanElems true [] (splitOn 47 path) = []
    · rw [hn]
      rfl
    · rw [splitOn_joinSlash _ hn h47, cleanElems_plain true [] _ hout]
      simp
  · have ha2 : IsAbs path = false := by simpa using ha
    simp only [ha2, Bool.false_eq_true, if_false]
    have hrel := cleanElems_relative (cleanElems true [] (splitOn 47 cwd)) (splitOn 47 path) 0 []
      (by simp)
    simp only [List.replicate_zero, List.append_nil, cleanElems] at hrel
    have h47 : ∀ x ∈ cleanElems false [] (splitOn 47 path), 47 ∉ x := by
      intro x hx
      rcases cleanElems_mem false _ [] x hx with h | h
      · simp at h
      · exact splitOn_mem_no_sep 47 path x h
    unfold fsPath
    rw [ha2]
    simp only [Bool.false_eq_true, if_false]
    rw [cleanElems_append true (splitOn 47 cwd) (splitOn 47 path) [], ← hrel]
    by_cases hn : cleanElems false [] (splitOn 47 path) = []
    · simp only [hn, if_true]
      have : IsAbs (str ".") = false := by decide
      rw [this]
      simp only [Bool.false_eq_true, if_false]
      rw [cleanElems_append true (splitOn 47 cwd) _ []]
      rfl
    · simp only [hn, if_false]
      have hrelAbs : IsAbs (joinSlash (cleanElems false [] (splitOn 47 path))) = false := by
        cases hh : cleanElems false [] (splitOn 47 path) with
        | nil => exact absurd hh hn
        | cons x xs =>
          have hx : x ∈ cleanElems false [] (splitOn 47 path) := by rw [hh]; simp
          have hx1 := (cleanElems_ok false _ [] (by simp) x hx).1
          have hx2 := h47 x hx
          unfold IsAbs
          rw [joinSlash_head (x :: xs) x rfl hx1]
          cases x with
          | nil => exact absurd rfl hx1
          | cons c cs =>
            have : c ≠ 47 := fun e => hx2 (by simp [e])
            simp [this]
      rw [hrelAbs]
      simp only [Bool.false_eq_true, if_false]
      rw [cleanElems_append true (splitOn 47 cwd) _ [], splitOn_joinSlash _ hn h47]

theorem isAbs_append (a b : GoString) (ha : a ≠ []) : IsAbs (a ++ b) = IsAbs a := by
  cases a with
  | nil => exact absurd rfl ha
  | cons c cs => rfl

/-- What `filepath.Join` of a directory and a relative path leads to: the
elements of the relative path, resolved from the directory. -/
theorem fsPath_Join (cwd a b : GoString) (ha : a ≠ []) :
    fsPath cwd (Join [a, b]) = cleanElems true (fsPath cwd a) (splitOn 47 b) := by
  have hj : Join [a, b] = Clean (a ++ 47 :: b) := by
    cases a with
    | nil => exact absurd rfl ha
    | cons x xs => rfl
  rw [hj, fsPath_Clean]
  unfold fsPath
  rw [isAbs_append a _ ha, splitOn_append_sep, ← List.append_assoc, cleanElems_append]

theorem fsPath_Join3 (cwd a b c : GoString) (ha : a ≠ []) :
    fsPath cwd (Join [a, b, c])
      = cleanElems true (fsPath cwd a) (splitOn 47 b ++ splitOn 47 c) := by
  have hj : Join [a, b, c] = Clean (a ++ 47 :: (b ++ 47 :: c)) := by
    cases a with
    | nil => exact absurd rfl ha
    | cons x xs => rfl
  rw [hj, fsPath_Clean]
  unfold fsPath
  rw [isAbs_append a _ ha, splitOn_append_sep, splitOn_append_sep, ← List.append_assoc,
    cleanElems_append]

theorem Contains_cons (c : Nat) (cs sub : GoString) :
    Contains (c :: cs) sub = (sub.isPrefixOf (c :: cs) || Contains cs sub) := by
  simp [Contains, List.tails]

/-- A path with a `..` element has `..` in its text. -/
theorem splitOn_up_Contains : ∀ s : GoString, str ".." ∈ splitOn 47 s →
    Contains s (str "..") = true
  | [], h => by
    simp only [splitOn, List.mem_singleton] at h
    exact absurd h (by decide)
  | c :: cs, h => by
    have ih := splitOn_up_Contains cs
    rw [Contains_cons]
    by_cases hc : c = 47
    · simp only [splitOn, hc, if_true, List.mem_cons] at h
      rcases h with h | h
      · exact absurd h (by decide)
      · simp [ih h]
    · simp only [splitOn, hc, if_false] at h
      cases hs : splitOn 47 cs with
      | nil => exact absurd hs (splitOn_ne_nil 47 cs)
      | cons p ps =>
        rw [hs] at h
        simp only [List.mem_cons] at h
        rcases h with h | h
        · have e : str ".." = [46, 46] := by decide
          rw [e] at h
          simp only [List.cons.injEq] at h
          obtain ⟨hc46, hp⟩ := h
          have hpre := splitOn_head_le 47 cs p ps hs
          rw [← hp] at hpre
          obtain ⟨t, ht⟩ := hpre
          rw [← ht, ← hc46, e]
          simp [List.isPrefixOf]
        · rw [ih (by rw [hs]; simp [h])]
          simp

/-- Joining a relative path without `..` in its text to a directory stays in the
directory. -/
theorem fsPath_Join_below (cwd a b : GoString) (ha : a ≠ [])
    (hb : Contains b (str "..") = false) : fsPath cwd a <+: fsPath cwd (Join [a, b]) := by
  rw [fsPath_Join cwd a b ha, cleanElems_noUp true _ _ (fun x hx hup => by
    rw [hup] at hx
    rw [splitOn_up_Contains b hx] at hb
    exact Bool.noConfusion hb)]
  exact List.prefix_append _ _

theorem dropWhile_all {α : Type} (p : α → Bool) : ∀ (v rest : List α), (∀ x ∈ v, p x = true) →
    (v ++ rest).dropWhile p = rest.dropWhile p
  | [], _, _ => rfl
  | x :: v, rest, h => by
    rw [List.cons_append, List.dropWhile_cons_of_pos (h x (List.mem_cons_self _ _))]
    exact dropWhile_all p v rest (fun y hy => h y (List.mem_cons_of_mem _ hy))

theorem last_sep : ∀ p : GoString, 47 ∉ p ∨ ∃ u v, p = u ++ 47 :: v ∧ 47 ∉ v
  | [] => Or.inl (by simp)
  | c :: cs => by
    rcases last_sep cs with h | ⟨u, v, h, hv⟩
    · by_cases hc : c = 47
      · exact Or.inr ⟨[], cs, by simp [hc], h⟩
      · exact Or.inl (by simp [h, Ne.symm hc])
    · exact Or.inr ⟨c :: u, v, by simp [h], hv⟩

/-- The text `filepath.Dir` cleans, element by element: the last element is
replaced by an empty one. -/
theorem Dir_split (p : GoString) : ∃ init l, splitOn 47 p = init ++ [l] ∧
    splitOn 47 (p.reverse.dropWhile (· != 47)).reverse = init ++ [[]] ∧
    IsAbs (p.reverse.dropWhile (· != 47)).reverse = IsAbs p := by
  rcases last_sep p with h | ⟨u, v, h, hv⟩
  · have hr : p.reverse.dropWhile (· != 47) = [] := by
      have := dropWhile_all (· != 47) p.reverse [] (fun x hx => by
        have : x ≠ 47 := fun e => h (by rw [← e]; exact List.mem_reverse.mp hx)
        simpa using this)
      simpa using this
    refine ⟨[], p, by simpa using splitOn_no_sep 47 p h, by rw [hr]; rfl, ?_⟩
    rw [hr]
    cases p with
    | nil => rfl
    | cons c cs =>
      have : c ≠ 47 := fun e => h (by simp [e])
      simp [IsAbs, this]
  · have hr : (p.reverse.dropWhile (· != 47)).reverse = u ++ [47] := by
      rw [h, List.reverse_append, List.reverse_cons, List.append_assoc,
        dropWhile_all (· != 47) v.reverse _ (fun x hx => by
          have : x ≠ 47 := fun e => hv (by rw [← e]; exact List.mem_reverse.mp hx)
          simpa using this)]
      simp
    rw [hr]
    refine ⟨splitOn 47 u, v, ?_, ?_, ?_⟩
    · rw [h, splitOn_append_sep, splitOn_no_sep 47 v hv]
    · rw [splitOn_append_sep]
      rfl
    · rw [h]
      cases u with
      | nil => rfl
      | cons c cs => rfl

/-- The path is `filepath.Dir` of the path followed by one more element. -/
theorem fsPath_Dir (cwd p : GoString) :
    ∃ l, fsPath cwd p = cleanElems true (fsPath cwd (Dir p)) [l] := by
  obtain ⟨init, l, h1, h2, h3⟩ := Dir_split p
  refine ⟨l, ?_⟩
  unfold Dir
  rw [fsPath_Clean]
  unfold fsPath
  rw [h3, h1, h2, ← List.append_assoc, ← List.append_assoc,
    cleanElems_append true _ [l], cleanElems_append true _ [[]],
    cleanElems_cons_skip true _ [] [] (Or.inl rfl)]
  rfl

theorem fsPath_Dir_cases (cwd p : GoString) :
    fsPath cwd p = fsPath cwd (Dir p) ∨ fsPath cwd p = (fsPath cwd (Dir p)).dropLast ∨
      ∃ l, fsPath cwd p = fsPath cwd (Dir p) ++ [l] := by
  obtain ⟨l, h⟩ := fsPath_Dir cwd p
  rw [h]
  simp only [cleanElems]
  split
  · exact Or.inl rfl
  · split
    · split
      · split
        · exact Or.inr (Or.inr ⟨l, rfl⟩)
        · exact Or.inr (Or.inl rfl)
      · exact Or.inl rfl
    · exact Or.inr (Or.inr ⟨l, rfl⟩)

/-- An entry that parts ways with a directory is not on the way to the parent of
anything in that directory. -/
theorem not_prefix_Dir (cwd p : GoString) (P q : List GoString) (hq : diverge P q)
    (hp : P <+: fsPath cwd p) : ¬ q <+: fsPath cwd (Dir p) := by
  intro hqd
  have key : ∀ X, P <+: X → q <+: X → False := fun X h1 h2 =>
    (List.prefix_or_prefix_of_prefix h1 h2).elim hq.1 hq.2
  rcases fsPath_Dir_cases cwd p with h | h | ⟨l, h⟩
  · exact key _ (h ▸ hp) hqd
  · exact key _ ((h ▸ hp).trans (List.dropLast_prefix _)) hqd
  · exact key _ (h ▸ hp) (hqd.trans (List.prefix_append _ _))

/-! ## The steps of the syncer keep to their directories -/

/-- Creating directories changes nothing off the way to the last of them. -/
theorem find_mkdirAll_frame : ∀ (p : List GoString) (fs fs1 : Node) (q : List GoString),
    fs.mkdirAll p = some fs1 → ¬ q <+: p → fs1.find q = fs.find q
  | [], fs, fs1, q, h, _ => by
    cases fs with
    | dir es =>
      simp only [Node.mkdirAll, Option.some.injEq] at h
      rw [← h]
    | file _ _ => simp [Node.mkdirAll] at h
    | symlink _ => simp [Node.mkdirAll] at h
  | c :: cs, fs, fs1, q, h, hq => by
    cases fs with
    | dir es =>
      cases q with
      | nil => exact absurd List.nil_prefix hq
      | cons d ds =>
        simp only [Node.mkdirAll] at h
        have hds : d = c → ¬ ds <+: cs := fun e hp =>
          hq (List.cons_prefix_cons.mpr ⟨e, hp⟩)
        cases hl : lookupEntry c es with
        | some child =>
          simp only [hl] at h
          cases hm : child.mkdirAll cs with
          | none => simp [hm] at h
          | some child2 =>
            simp only [hm, Option.some.injEq] at h
            subst h
            rw [find_cons_dir, find_cons_dir, lookupEntry_setEntry]
            by_cases he : d = c
            · subst he
              rw [if_pos rfl, hl]
              exact find_mkdirAll_frame cs child child2 ds hm (hds rfl)
            · rw [if_neg he]
        | none =>
          simp only [hl] at h
          cases hm : (Node.dir []).mkdirAll cs with
          | none => simp [hm] at h
          | some child2 =>
            simp only [hm, Option.some.injEq] at h
            subst h
            rw [find_cons_dir, find_cons_dir, lookupEntry_setEntry]
            by_cases he : d = c
            · subst he
              rw [if_pos rfl, hl]
              have := find_mkdirAll_frame cs (.dir []) child2 ds hm (hds rfl)
              show child2.find ds = Option.bind none _
              rw [this]
              cases ds with
              | nil => exact absurd List.nil_prefix (hds rfl)
              | cons x xs => simp [Node.find, lookupEntry]
            · rw [if_neg he]
    | file _ _ => simp [Node.mkdirAll] at h
    | symlink _ => simp [Node.mkdirAll] at h

/-- Removing an entry brings none into being. -/
theorem find_del_none : ∀ (p : List GoString) (fs fs2 : Node) (q : List GoString),
    fs.del p = some fs2 → fs.find q = none → fs2.find q = none
  | [], fs, fs2, _, h, _ => by cases fs <;> simp [Node.del] at h
  | [c], fs, fs2, q, h, hq => by
    cases fs with
    | dir es =>
      simp only [Node.del] at h
      cases hl : lookupEntry c es with
      | none => simp [hl] at h
      | some child =>
        simp only [hl, Option.some.injEq] at h
        subst h
        cases q with
        | nil => simp [Node.find] at hq
        | cons d ds =>
          rw [find_cons_dir] at hq ⊢
          rw [lookupEntry_eraseEntry]
          by_cases he : d = c
          · rw [if_pos he]
            rfl
          · rw [if_neg he]
            exact hq
    | file _ _ => simp [Node.del] at h
    | symlink _ => simp [Node.del] at h
  | c :: d :: cs, fs, fs2, q, h, hq => by
    cases fs with
    | dir es =>
      simp only [Node.del] at h
      cases hl : lookupEntry c es with
      | none => simp [hl] at h
      | some child =>
        simp only [hl] at h
        cases hp : child.del (d :: cs) with
        | none => simp [hp] at h
        | some child2 =>
          simp only [hp, Option.some.injEq] at h
          subst h
          cases q with
          | nil => simp [Node.find] at hq
          | cons c2 qs =>
            rw [find_cons_dir] at hq ⊢
            rw [lookupEntry_setEntry]
            by_cases he : c2 = c
            · subst he
              rw [if_pos rfl]
              rw [hl] at hq
              exact find_del_none (d :: cs) child child2 qs hp hq
            · rw [if_neg he]
              exact hq
    | file _ _ => simp [Node.del] at h
    | symlink _ => simp [Node.del] at h

theorem MkdirAll_frame (cwd : GoString) (fs fs1 : Node) (path : GoString) (q : List GoString)
    (h : MkdirAll cwd fs path = some fs1) (hq : ¬ q <+: fsPath cwd path) :
    fs1.find q = fs.find q :=
  find_mkdirAll_frame _ fs fs1 q h hq

theorem WriteFile_frame (cwd : GoString) (fs fs1 : Node) (path : GoString) (d : List Nat)
    (q : List GoString) (hnl : ∀ t, Lstat cwd fs path ≠ some (.symlink t))
    (h : WriteFile cwd fs path d = some fs1)
    (hq : diverge (fsPath cwd path) q) : fs1.find q = fs.find q := by
  rw [WriteFile_plain cwd fs path d hnl] at h
  unfold writeAt at h
  split at h
  · exact find_put_diverge _ _ _ _ q h hq
  · exact find_put_diverge _ _ _ _ q h hq
  · exact Option.noConfusion h

theorem copyFile_frame (cwd : GoString) (fs fs1 : Node) (data : Option (List Nat))
    (dst : GoString) (perm : Nat) (q : List GoString)
    (hnl : ∀ t, Lstat cwd fs dst ≠ some (.symlink t))
    (h : copyFile cwd fs data dst perm = some fs1) (hq : diverge (fsPath cwd dst) q) :
    fs1.find q = fs.find q := by
  unfold copyFile at h
  split at h
  · exact Option.noConfusion h
  · rw [followLinks_plain fs maxLinks _ hnl] at h
    dsimp only at h
    split at h
    · exact find_put_diverge _ _ _ _ q h hq
    · exact find_put_diverge _ _ _ _ q h hq
    · exact Option.noConfusion h

theorem Symlink_frame (cwd : GoString) (fs fs1 : Node) (target path : GoString)
    (q : List GoString) (h : Symlink cwd fs target path = some fs1)
    (hq : diverge (fsPath cwd path) q) : fs1.find q = fs.find q := by
  unfold Symlink at h
  split at h
  · exact Option.noConfusion h
  · exact find_put_diverge _ _ _ _ q h hq

theorem diverge_below {P X q : List GoString} (hq : diverge P q) (hp : P <+: X) :
    diverge X q := by
  obtain ⟨t, rfl⟩ := hp
  exact diverge_append_left P q t hq

theorem copyVerdict_none (rel : GoString) (h : copyVerdict rel = none) :
    Contains rel (str "..") = false := by
  unfold copyVerdict at h
  by_cases hc : Contains rel (str "..") = true
  · rw [if_pos hc] at h
    exact Option.noConfusion h
  · simpa using hc

/-- Where an entry of a directory is copied to. -/
theorem fsPath_joinRel (cwd dst rel name : GoString) (hdst : dst ≠ [])
    (hname : entryName name = true) :
    fsPath cwd (Join [dst, joinRel rel name]) = fsPath cwd (Join [dst, rel]) ++ [name] := by
  simp only [entryName, Bool.and_eq_true, Bool.not_eq_true', bne_iff_ne, ne_eq] at hname
  obtain ⟨⟨⟨h47, h1⟩, h2⟩, h3⟩ := hname
  have h47m : 47 ∉ name := by
    intro hm
    have : name.contains 47 = true := List.elem_iff.mpr hm
    rw [h47] at this
    exact Bool.noConfusion this
  rw [fsPath_Join cwd dst _ hdst, fsPath_Join cwd dst _ hdst]
  unfold joinRel
  by_cases hr : rel = str "."
  · rw [if_pos hr, hr, splitOn_no_sep 47 name h47m]
    have e : splitOn 47 (str ".") = [str "."] := by decide
    rw [e, cleanElems_cons_skip true _ _ [] (Or.inr rfl),
      cleanElems_cons_plain true _ _ [] h1 h2 h3]
    rfl
  · rw [if_neg hr, splitOn_append_sep, cleanElems_append, splitOn_no_sep 47 name h47m,
      cleanElems_cons_plain true _ _ [] h1 h2 h3]
    rfl

theorem find_child_none (fs : Node) (P : List GoString) (x : GoString)
    (h : fs.find P = none) : fs.find (P ++ [x]) = none := by
  cases hf : fs.find (P ++ [x]) with
  | none => rfl
  | some n =>
    obtain ⟨es, he, _⟩ := find_append_some P fs x n hf
    rw [h] at he
    exact Option.noConfusion he

theorem listedEntries_cons (name : GoString) (n : Node) (es : List (GoString × Node))
    (h : listedEntries ((name, n) :: es) = true) :
    entryName name = true ∧ (∀ e ∈ es, e.1 ≠ name) ∧ n.listed = true ∧
      listedEntries es = true := by
  rw [listedEntries] at h
  simp only [Bool.and_eq_true, Bool.not_eq_true'] at h
  obtain ⟨⟨⟨h1, h2⟩, h3⟩, h4⟩ := h
  refine ⟨h1, ?_, h3, h4⟩
  intro e he hn
  have : (es.map Prod.fst).contains name = true :=
    List.elem_iff.mpr (List.mem_map.mpr ⟨e, he, hn⟩)
  rw [h2] at this
  exact Bool.noConfusion this

mutual
/-- The copy of one entry to a place where nothing stands writes at that place
and below it only. -/
theorem copyNode_frame (cwd dst : GoString) (hdst : dst ≠ []) :
    ∀ (rel : GoString) (n fs : Node) (q : List GoString), n.listed = true →
      fs.find (fsPath cwd (Join [dst, rel])) = none →
      diverge (fsPath cwd (Join [dst, rel])) q →
      (copyNode cwd dst rel n fs).2.find q = fs.find q
  | rel, .dir es, fs, q, hn, hfresh, hq => by
    rw [copyNode]
    cases hv : copyVerdict rel with
    | some r => rfl
    | none =>
      dsimp only
      cases hm : MkdirAll cwd fs (Join [dst, rel]) with
      | none => rfl
      | some fs1 =>
        dsimp only
        have hl : listedEntries es = true := by
          rw [Node.listed] at hn
          exact hn
        rw [copyEntries_frame cwd dst hdst rel es fs1 q hl (fun e _ => by
          rw [MkdirAll_frame cwd fs fs1 _ _ hm (by
            intro hp
            have := hp.length_le
            simp at this)]
          exact find_child_none fs _ _ hfresh) hq]
        exact MkdirAll_frame cwd fs fs1 _ q hm hq.2
  | rel, .symlink target, fs, q, _, _, hq => by
    rw [copyNode]
    cases hv : copyVerdict rel with
    | some r => rfl
    | none =>
      dsimp only
      cases hm : MkdirAll cwd fs (Dir (Join [dst, rel])) with
      | none => rfl
      | some fs1 =>
        have e1 := MkdirAll_frame cwd fs fs1 _ q hm
          (not_prefix_Dir cwd _ _ q hq (List.prefix_refl _))
        dsimp only
        cases hs : Symlink cwd fs1 target (Join [dst, rel]) with
        | none => exact e1
        | some fs2 =>
          dsimp only
          rw [Symlink_frame cwd fs1 fs2 _ _ q hs hq, e1]
  | rel, .file mode data, fs, q, _, hfresh, hq => by
    rw [copyNode]
    cases hv : copyVerdict rel with
    | some r => rfl
    | none =>
      dsimp only
      by_cases hreg : (!FileMode.IsRegular mode) = true
      · rw [if_pos hreg]
      · rw [if_neg hreg]
        cases hm : MkdirAll cwd fs (Dir (Join [dst, rel])) with
        | none => rfl
        | some fs1 =>
          have e1 := MkdirAll_frame cwd fs fs1 _ q hm
            (not_prefix_Dir cwd _ _ q hq (List.prefix_refl _))
          have hnl : ∀ t, Lstat cwd fs1 (Join [dst, rel]) ≠ some (.symlink t) :=
            MkdirAll_no_link cwd fs fs1 _ _ hm (fun t ht => by
              rw [Lstat, hfresh] at ht
              exact Option.noConfusion ht)
          dsimp only
          cases hs : copyFile cwd fs1 data (Join [dst, rel]) (mode &&& 511) with
          | none => exact e1
          | some fs2 =>
            dsimp only
            rw [copyFile_frame cwd fs1 fs2 _ _ _ q hnl hs hq, e1]
/-- The copy of the entries of a directory, none of which stands at the
destination yet, writes at the places of these entries and below them only. -/
theorem copyEntries_frame (cwd dst : GoString) (hdst : dst ≠ []) :
    ∀ (relDir : GoString) (es : List (GoString × Node)) (fs : Node) (q : List GoString),
      listedEntries es = true →
      (∀ e ∈ es, fs.find (fsPath cwd (Join [dst, relDir]) ++ [e.1]) = none) →
      diverge (fsPath cwd (Join [dst, relDir])) q →
      (copyEntries cwd dst relDir es fs).2.find q = fs.find q
  | _, [], fs, _, _, _, _ => by
    rw [copyEntries]
  | relDir, (name, n) :: es, fs, q, hl, hfresh, hq => by
    obtain ⟨hname, hnodup, hn, hrest⟩ := listedEntries_cons name n es hl
    have hout := fsPath_joinRel cwd dst relDir name hdst hname
    have hf1 : fs.find (fsPath cwd (Join [dst, joinRel relDir name])) = none := by
      rw [hout]
      exact hfresh (name, n) (List.mem_cons_self _ _)
    rw [copyEntries]
    have e1 := copyNode_frame cwd dst hdst (joinRel relDir name) n fs q hn hf1 (by
      rw [hout]
      exact diverge_append_left _ q _ hq)
    have e2 : ∀ e ∈ es, (copyNode cwd dst (joinRel relDir name) n fs).2.find
        (fsPath cwd (Join [dst, relDir]) ++ [e.1]) = none := by
      intro e he
      rw [copyNode_frame cwd dst hdst (joinRel relDir name) n fs _ hn hf1 (by
        rw [hout]
        exact diverge_siblings _ _ _ (Ne.symm (hnodup e he)))]
      exact hfresh e (List.mem_cons_of_mem _ he)
    cases hr : copyNode cwd dst (joinRel relDir name) n fs with
    | mk r fs1 =>
      rw [hr] at e1 e2
      cases r with
      | some e => exact e1
      | none =>
        dsimp only
        rw [copyEntries_frame cwd dst hdst relDir es fs1 q hrest e2 hq]
        exact e1
end

/-- The copy `copyJobDir` makes of a tree a filesystem can hold, into an empty
directory that does not lie in that tree, writes in the destination directory
only. -/
theorem copyJobDir_frame (cwd : GoString) (dry : Bool) (fs : Node) (src dst : GoString)
    (q : List GoString) (hdst : dst ≠ [])
    (hempty : Lstat cwd fs dst = some (.dir []))
    (hout : ¬ fsPath cwd src <+: fsPath cwd dst)
    (hsrc : ∀ n, Lstat cwd fs src = some n → n.listed = true)
    (hq : diverge (fsPath cwd dst) q) :
    (copyJobDir cwd dry fs src dst).2.find q = fs.find q := by
  unfold copyJobDir
  cases dry with
  | true => rfl
  | false =>
    simp only [Bool.false_eq_true, if_false]
    cases hm : MkdirAll cwd fs dst with
    | none => rfl
    | some fs1 =>
      have e1 := MkdirAll_frame cwd fs fs1 _ q hm hq.2
      have e2 : Lstat cwd fs1 src = Lstat cwd fs src := MkdirAll_frame cwd fs fs1 _ _ hm hout
      have hroot : fsPath cwd (Join [dst, str "."]) = fsPath cwd dst := by
        rw [fsPath_Join cwd dst _ hdst]
        have e : splitOn 47 (str ".") = [str "."] := by decide
        rw [e, cleanElems_cons_skip true _ _ [] (Or.inr rfl)]
        rfl
      dsimp only
      cases hl : Lstat cwd fs1 src with
      | none => exact e1
      | some n =>
        cases n with
        | dir es =>
          dsimp only
          have hlist : listedEntries es = true := by
            have := hsrc (.dir es) (e2 ▸ hl)
            rw [Node.listed] at this
            exact this
          rw [copyEntries_frame cwd dst hdst (str ".") es fs1 q hlist (fun e _ => by
            rw [hroot, MkdirAll_frame cwd fs fs1 _ _ hm (by
              intro hp
              have := hp.length_le
              simp at this), find_append_of_dir _ fs _ [] hempty]
            rfl) (by rw [hroot]; exact hq), e1]
        | file _ _ => exact e1
        | symlink _ => exact e1

theorem Clean_ne_nil (path : GoString) : Clean path ≠ [] := by
  rw [Clean_eq]
  by_cases ha : IsAbs path = true
  · simp [ha]
  · have ha2 : IsAbs path = false := by simpa using ha
    simp only [ha2, Bool.false_eq_true, if_false]
    cases hh : cleanElems false [] (splitOn 47 path) with
    | nil => decide
    | cons x xs =>
      have hx1 := (cleanElems_ok false (splitOn 47 path) [] (by simp) x (by rw [hh]; simp)).1
      simp only [reduceCtorEq, if_false]
      intro hj
      have := joinSlash_head (x :: xs) x rfl hx1
      rw [hj] at this
      cases x with
      | nil => exact absurd rfl hx1
      | cons c cs => simp at this

theorem Join_ne_nil (a b : GoString) (ha : a ≠ []) : Join [a, b] ≠ [] := by
  have hj : Join [a, b] = Clean (a ++ 47 :: b) := by
    cases a with
    | nil => exact absurd rfl ha
    | cons x xs => rfl
  rw [hj]
  exact Clean_ne_nil _

/-- The parent of a path in a directory, the directory itself apart, is in the
directory. -/
theorem prefix_Dir (cwd p : GoString) (P : List GoString) (hp : P <+: fsPath cwd p)
    (hne : P ≠ fsPath cwd p) : P <+: fsPath cwd (Dir p) := by
  rcases fsPath_Dir_cases cwd p with h | h | ⟨l, h⟩
  · exact h ▸ hp
  · exact (h ▸ hp).trans (List.dropLast_prefix _)
  · rw [h] at hp hne
    rcases List.prefix_concat_iff.mp hp with h2 | h2
    · exact absurd h2 hne
    · exact h2

/-- The temporary file of `WriteHash` lies in the directory of the state file. -/
theorem fsPath_tmp_Dir (cwd path : GoString) :
    ∃ l, fsPath cwd (path ++ str ".tmp") = fsPath cwd (Dir path) ++ [l ++ str ".tmp"] := by
  obtain ⟨init, l, h1, h2, h3⟩ := Dir_split path
  obtain ⟨init2, l2, h4, h5⟩ := splitOn_append 47 (str ".tmp") (by decide) path
  have he : init2 = init ∧ l2 = l := by
    rw [h1] at h4
    have := List.append_inj' h4 rfl
    exact ⟨this.1.symm, by simpa using this.2.symm⟩
  obtain ⟨rfl, rfl⟩ := he
  refine ⟨l2, ?_⟩
  have hl1 : l2 ++ str ".tmp" ≠ [] := by simp [str]
  have hlen : (l2 ++ str ".tmp").length = l2.length + 4 := by simp [str]
  have hl2 : l2 ++ str ".tmp" ≠ str "." := fun h => by
    have := congrArg List.length h
    rw [hlen] at this
    simp [str] at this
  have hl3 : l2 ++ str ".tmp" ≠ str ".." := fun h => by
    have := congrArg List.length h
    rw [hlen] at this
    simp [str] at this
  unfold Dir
  rw [fsPath_Clean]
  unfold fsPath
  rw [h3, isAbs_append_tmp, h5, h2, ← List.append_assoc, ← List.append_assoc,
    cleanElems_append true _ [l2 ++ str ".tmp"], cleanElems_append true _ [[]],
    cleanElems_cons_skip true _ [] [] (Or.inl rfl),
    cleanElems_cons_plain true _ _ [] hl1 hl2 hl3]
  rfl

theorem Rename_frame (cwd : GoString) (fs fs2 : Node) (oldpath newpath : GoString)
    (q : List GoString) (h : Rename cwd fs oldpath newpath = some fs2)
    (h1 : diverge (fsPath cwd oldpath) q) (h2 : diverge (fsPath cwd newpath) q) :
    fs2.find q = fs.find q := by
  unfold Rename at h
  cases hsrc : fs.find (fsPath cwd oldpath) with
  | none => simp [hsrc] at h
  | some src =>
    simp only [hsrc] at h
    by_cases he : fsPath cwd oldpath = fsPath cwd newpath
    · rw [if_pos he] at h
      split at h
      · exact Option.noConfusion h
      · injection h with h
        rw [← h]
    · rw [if_neg he] at h
      split at h
      · cases hdel : fs.del (fsPath cwd oldpath) with
        | none => simp [hdel] at h
        | some fs1 =>
          simp only [hdel] at h
          rw [find_put_diverge _ _ _ _ _ h h2, find_del_diverge _ _ _ _ hdel h1]
      · exact Option.noConfusion h

theorem Remove_frame (cwd : GoString) (fs fs2 : Node) (path : GoString) (q : List GoString)
    (h : Remove cwd fs path = some fs2) (hq : diverge (fsPath cwd path) q) :
    fs2.find q = fs.find q :=
  (Remove_effect cwd fs fs2 path h).2 q hq

/-- The write of a state file changes nothing off the directory `P` in which the
state file and its directory lie, when no link stands at the path of the
temporary file. -/
theorem WriteHashRun_frame (cwd : GoString) (faults : Faults) (fs : Node) (path hash : GoString)
    (P q : List GoString) (hq : diverge P q) (hD : P <+: fsPath cwd (Dir path))
    (hp : P <+: fsPath cwd path)
    (htmp : ∀ t, Lstat cwd fs (path ++ str ".tmp") ≠ some (.symlink t)) :
    ∀ s ∈ (WriteHashRun cwd faults fs path hash).states, s.find q = fs.find q := by
  obtain ⟨l, hl⟩ := fsPath_tmp_Dir cwd path
  have ht : diverge (fsPath cwd (path ++ str ".tmp")) q := by
    rw [hl]
    exact diverge_append_left _ q _ (diverge_below hq hD)
  have hpq : diverge (fsPath cwd path) q := diverge_below hq hp
  unfold WriteHashRun
  by_cases hh : TrimSpace hash = []
  · rw [if_pos hh]
    intro s hs
    simp at hs
  · rw [if_neg hh]
    cases hm : (if faults.mkdirAll = true then none else MkdirAll cwd fs (Dir path)) with
    | none =>
      intro s hs
      simp at hs
    | some fs1 =>
      have hm1 : MkdirAll cwd fs (Dir path) = some fs1 := by
        by_cases hf : faults.mkdirAll = true
        · rw [if_pos hf] at hm
          exact Option.noConfusion hm
        · rw [if_neg hf] at hm
          exact hm
      have e1 : fs1.find q = fs.find q :=
        MkdirAll_frame cwd fs fs1 _ q hm1 (diverge_below hq hD).2
      have hnl1 := MkdirAll_no_link cwd fs fs1 _ _ hm1 htmp
      have ews : ∀ k, ∀ s ∈ writeStates cwd fs1 (path ++ str ".tmp") (hash ++ str "\n") k,
          s.find q = fs.find q := by
        intro k s hs
        unfold writeStates at hs
        obtain ⟨i, _, hi⟩ := List.mem_filterMap.mp hs
        rw [WriteFile_frame cwd fs1 s _ _ q hnl1 hi ht, e1]
      dsimp only
      cases hw : WriteFile cwd fs1 (path ++ str ".tmp") (hash ++ str "\n") with
      | none =>
        cases faults.writeTemp <;>
        · intro s hs
          simp only [List.mem_singleton] at hs
          rw [hs, e1]
      | some fs2 =>
        have e2 : fs2.find q = fs.find q := by
          rw [WriteFile_frame cwd fs1 fs2 _ _ q hnl1 hw ht, e1]
        cases hft : faults.writeTemp with
        | atOpen =>
          intro s hs
          simp only [List.mem_singleton] at hs
          rw [hs, e1]
        | after k =>
          intro s hs
          simp only [List.mem_cons] at hs
          rcases hs with hs | hs
          · rw [hs, e1]
          · exact ews _ s hs
        | none =>
          dsimp only
          cases hr : (if faults.rename = true then none
              else Rename cwd fs2 (path ++ str ".tmp") path) with
          | some fs3 =>
            have e3 : fs3.find q = fs.find q := by
              by_cases hf : faults.rename = true
              · rw [if_pos hf] at hr
                exact Option.noConfusion hr
              · rw [if_neg hf] at hr
                rw [Rename_frame cwd fs2 fs3 _ _ q hr ht hpq, e2]
            intro s hs
            simp only [List.mem_append, List.mem_cons, List.mem_singleton,
              List.not_mem_nil, or_false] at hs
            rcases hs with (hs | hs) | hs
            · rw [hs, e1]
            · exact ews _ s hs
            · rw [hs, e3]
          | none =>
            dsimp only
            cases hrm : Remove cwd fs2 (path ++ str ".tmp") with
            | some fs4 =>
              intro s hs
              simp only [List.mem_append, List.mem_cons, List.mem_singleton,
                List.not_mem_nil, or_false] at hs
              rcases hs with (hs | hs) | hs
              · rw [hs, e1]
              · exact ews _ s hs
              · rw [hs, Remove_frame cwd fs2 fs4 _ q hrm ht, e2]
            | none =>
              intro s hs
              simp only [List.mem_cons] at hs
              rcases hs with hs | hs
              · rw [hs, e1]
              · exact ews _ s hs

theorem WriteHash_frame (cwd : GoString) (faults : Faults) (fs : Node) (path hash : GoString)
    (P q : List GoString) (hq : diverge P q) (hD : P <+: fsPath cwd (Dir path))
    (hp : P <+: fsPath cwd path)
    (htmp : ∀ t, Lstat cwd fs (path ++ str ".tmp") ≠ some (.symlink t)) :
    (WriteHash cwd faults fs path hash).2.find q = fs.find q := by
  unfold WriteHash
  dsimp only
  have := List.getLastD_mem_cons (WriteHashRun cwd faults fs path hash).states fs
  rcases List.mem_cons.mp this with h | h
  · rw [h]
  · exact WriteHashRun_frame cwd faults fs path hash P q hq hD hp htmp _ h

/-- Where the state file of a job directory lies. -/
theorem fsPath_statePath (cwd dir : GoString) (hdir : dir ≠ []) :
    fsPath cwd (Join [dir, str ".cronctl", str "filehash"])
      = fsPath cwd dir ++ [str ".cronctl", str "filehash"] := by
  rw [fsPath_Join3 cwd dir _ _ hdir]
  have e1 : splitOn 47 (str ".cronctl") ++ splitOn 47 (str "filehash")
      = [str ".cronctl", str "filehash"] := by decide
  rw [e1]
  exact cleanElems_plain true _ _ (by decide)

theorem fsPath_cacheDir (cwd dir : GoString) (hdir : dir ≠ []) :
    fsPath cwd (Join [dir, str ".cronctl"]) = fsPath cwd dir ++ [str ".cronctl"] := by
  rw [fsPath_Join cwd dir _ hdir]
  have e1 : splitOn 47 (str ".cronctl") = [str ".cronctl"] := by decide
  rw [e1]
  exact cleanElems_plain true _ _ (by decide)

theorem fsPath_child_Join (cwd dir name : GoString) (hdir : dir ≠ []) (h47 : 47 ∉ name)
    (hne : name ≠ []) (hd1 : name ≠ str ".") (hd2 : name ≠ str "..") :
    fsPath cwd (Join [dir, name]) = fsPath cwd dir ++ [name] := by
  rw [fsPath_Join cwd dir _ hdir, splitOn_no_sep 47 name h47]
  exact cleanElems_plain true _ _ (by
    intro x hx
    rw [List.mem_singleton.mp hx]
    exact ⟨hne, hd1, hd2⟩)

/-- The copy of the cache state `carryOverFilehash` makes writes in the staging
directory only, when no link stands at the path of the state file there. -/
theorem carryOverFilehash_frame (cwd : GoString) (dry : Bool) (fs : Node)
    (dep stg : GoString) (q : List GoString) (hstg : stg ≠ [])
    (hnl : ∀ t, Lstat cwd fs (Join [Join [stg, str ".cronctl"], str "filehash"])
      ≠ some (.symlink t))
    (hq : diverge (fsPath cwd stg) q) :
    (carryOverFilehash cwd dry fs dep stg).2.find q = fs.find q := by
  have hdir := fsPath_cacheDir cwd stg hstg
  have hfile : fsPath cwd (Join [Join [stg, str ".cronctl"], str "filehash"])
      = fsPath cwd stg ++ [str ".cronctl", str "filehash"] := by
    rw [fsPath_child_Join cwd _ _ (Join_ne_nil _ _ hstg) (by decide) (by decide) (by decide)
      (by decide), hdir]
    simp
  unfold carryOverFilehash
  dsimp only
  cases dry with
  | true => rfl
  | false =>
    simp only [Bool.false_eq_true, if_false]
    cases hr : ReadFile cwd fs (Join [dep, str ".cronctl", str "filehash"]) with
    | error e => cases e <;> rfl
    | ok b =>
      dsimp only
      cases hm : MkdirAll cwd fs (Join [stg, str ".cronctl"]) with
      | none => rfl
      | some fs1 =>
        have e1 := MkdirAll_frame cwd fs fs1 _ q hm (by
          rw [hdir]
          exact (diverge_append_left _ q _ hq).2)
        dsimp only
        cases hw : WriteFile cwd fs1 (Join [Join [stg, str ".cronctl"], str "filehash"]) b with
        | none => exact e1
        | some fs2 =>
          dsimp only
          rw [WriteFile_frame cwd fs1 fs2 _ _ q (MkdirAll_no_link cwd fs fs1 _ _ hm hnl) hw (by
            rw [hfile]
            exact diverge_append_left _ q _ hq), e1]

theorem chownTree_frame (w : SyncWorld) (dry : Bool) (fs : Node) (root : GoString)
    (uid gid : Int) : (chownTree w dry fs root uid gid).2 = fs := by
  unfold chownTree
  cases dry with
  | true => rfl
  | false =>
    simp only [Bool.false_eq_true, if_false]
    cases Lstat w.env.cwd fs root with
    | none => rfl
    | some n =>
      dsimp only
      split <;> rfl

/-- A build that keeps to its directory and puts no link at the path of the
temporary state file makes `runBuildIfNeeded` keep to the directory, when no such
link stands there before. -/
theorem runBuildIfNeeded_frame (w : SyncWorld) (c dry : Bool) (fs : Node)
    (id dir ep : GoString) (force asUser : Bool) (uid gid : Int) (q : List GoString)
    (hexec : ∀ fs0 cmd run, w.env.exec fs0 cmd dir = some run → run.done.find q = fs0.find q)
    (hkeep : ∀ fs0 cmd run, w.env.exec fs0 cmd dir = some run →
      linkAt w.env.cwd fs0 (Join [dir, str ".cronctl", str "filehash"] ++ str ".tmp") = false →
      linkAt w.env.cwd run.done (Join [dir, str ".cronctl", str "filehash"] ++ str ".tmp")
        = false)
    (hnl : linkAt w.env.cwd fs (Join [dir, str ".cronctl", str "filehash"] ++ str ".tmp")
      = false)
    (hdir : dir ≠ []) (hq : diverge (fsPath w.env.cwd dir) q) :
    (runBuildIfNeeded w c dry fs id dir ep force asUser uid gid).fs.find q = fs.find q := by
  have hstate := fsPath_statePath w.env.cwd dir hdir
  have hp : fsPath w.env.cwd dir <+: fsPath w.env.cwd (Join [dir, str ".cronctl", str "filehash"]) := by
    rw [hstate]
    exact List.prefix_append _ _
  have hD := prefix_Dir w.env.cwd _ _ hp (by
    rw [hstate]
    intro h
    have := congrArg List.length h
    simp at this)
  unfold runBuildIfNeeded
  dsimp only
  cases dry with
  | true => rfl
  | false =>
    simp only [Bool.false_eq_true, if_false]
    cases hi : InputsHash w.env c fs dir with
    | error e => rfl
    | ok curHash =>
      dsimp only
      split
      · rfl
      · split
        · rfl
        · split
          · rfl
          · cases hx : w.env.exec fs
                (Join [dir, if ep = [] then DefaultBuildEntrypoint else ep]) dir with
            | none => rfl
            | some run =>
              have e1 := hexec fs _ run hx
              dsimp only
              split
              · exact e1
              · cases hi2 : InputsHash w.env c run.done dir with
                | error e => exact e1
                | ok newHash =>
                  dsimp only
                  have e2 := WriteHash_frame w.env.cwd w.stateFaults run.done
                    (Join [dir, str ".cronctl", str "filehash"]) newHash _ q hq hD hp
                    (linkAt_false _ _ _ (hkeep fs _ run hx hnl))
                  split
                  · rw [e2, e1]
                  · rw [e2, e1]

/-- The loop of `pruneOrphans` brings no entry into being. -/
theorem pruneLoop_none (cwd : GoString) (dry : Bool) (cronDir : GoString) (keep : List GoString)
    (q : List GoString) : ∀ (names : List GoString) (fs : Node), fs.find q = none →
      (pruneLoop cwd dry cronDir keep names fs).2.find q = none
  | [], fs, h => h
  | name :: names, fs, h => by
    have ih := pruneLoop_none cwd dry cronDir keep q names
    rw [pruneLoop]
    split
    · exact ih fs h
    · split
      · exact ih fs h
      · split
        · exact ih fs h
        · cases hr : Remove cwd fs (Join [cronDir, name]) with
          | none => exact h
          | some fs1 =>
            dsimp only
            apply ih
            unfold Remove at hr
            split at hr
            · exact Option.noConfusion hr
            · exact find_del_none _ _ _ q hr h
            · exact Option.noConfusion hr

theorem pruneOrphans_none (cwd : GoString) (dry : Bool) (fs : Node) (cronDir : GoString)
    (keep : List GoString) (q : List GoString) (h : fs.find q = none) :
    (pruneOrphans cwd dry fs cronDir keep).2.find q = none := by
  unfold pruneOrphans
  split
  · exact pruneLoop_none cwd dry cronDir keep q _ fs h
  · exact h

theorem freshCopy_spec (cwd : GoString) (fs : Node) (src dst : GoString)
    (h : freshCopy cwd fs src dst = true) :
    Lstat cwd fs dst = some (.dir []) ∧ ¬ fsPath cwd src <+: fsPath cwd dst ∧
      ∀ n, Lstat cwd fs src = some n → n.listed = true := by
  unfold freshCopy at h
  simp only [Bool.and_eq_true, Bool.not_eq_true'] at h
  obtain ⟨⟨h1, h2⟩, h3⟩ := h
  refine ⟨?_, ?_, ?_⟩
  · split at h1
    · assumption
    · exact Bool.noConfusion h1
  · intro hp
    have hb : (fsPath cwd src).isPrefixOf (fsPath cwd dst) = true := by
      simpa using hp
    rw [hb] at h2
    exact Bool.noConfusion h2
  · intro n hn
    rw [hn] at h3
    exact h3

/-- The steps of the syncer that do not write through a link keep to their
directories when the build processes and the write of a registration do, and the
build processes put no link at the path of the temporary state file. -/
theorem plainSteps_framed (w : SyncWorld)
    (writeCron : Bool → Node → GoString → Job → GoString → Option SyncError × Node)
    (hexec : ∀ fs cmd dir run q, w.env.exec fs cmd dir = some run → dir ≠ [] →
      diverge (fsPath w.env.cwd dir) q → run.done.find q = fs.find q)
    (hkeep : ∀ fs cmd dir run, w.env.exec fs cmd dir = some run →
      linkAt w.env.cwd fs (Join [dir, str ".cronctl", str "filehash"] ++ str ".tmp") = false →
      linkAt w.env.cwd run.done (Join [dir, str ".cronctl", str "filehash"] ++ str ".tmp")
        = false)
    (hcron : ∀ dry fs cronPath j target q, diverge (fsPath w.env.cwd cronPath).dropLast q →
      (writeCron dry fs cronPath j target).2.find q = fs.find q) :
    (plainSteps w writeCron).Framed w.env.cwd where
  copy := fun dry fs src dst q hdst hq => by
    show (if (dry || freshCopy w.env.cwd fs src dst) = true
      then copyJobDir w.env.cwd dry fs src dst
      else (some SyncError.copy, fs)).2.find q = fs.find q
    cases dry with
    | true => rfl
    | false =>
      cases hf : freshCopy w.env.cwd fs src dst with
      | false => rfl
      | true =>
        simp only [Bool.or_true, if_true]
        obtain ⟨h1, h2, h3⟩ := freshCopy_spec w.env.cwd fs src dst hf
        exact copyJobDir_frame w.env.cwd false fs src dst q hdst h1 h2 h3 hq
  carry := fun dry fs dep stg q hstg hq => by
    show (if linkAt w.env.cwd fs (Join [Join [stg, str ".cronctl"], str "filehash"]) = true
      then (some SyncError.carryOver, fs)
      else carryOverFilehash w.env.cwd dry fs dep stg).2.find q = fs.find q
    cases hl : linkAt w.env.cwd fs (Join [Join [stg, str ".cronctl"], str "filehash"]) with
    | true => rfl
    | false =>
      simp only [Bool.false_eq_true, if_false]
      exact carryOverFilehash_frame w.env.cwd dry fs dep stg q hstg (linkAt_false _ _ _ hl) hq
  chown := fun dry fs root uid gid q _ => by
    show (chownTree w dry fs root uid gid).2.find q = fs.find q
    rw [chownTree_frame]
  build := fun c dry fs id dir ep force asUser uid gid q hdir hq => by
    show (if linkAt w.env.cwd fs (Join [dir, str ".cronctl", str "filehash"] ++ str ".tmp")
        = true
      then ({ err := some SyncError.build, fs := fs } : BuildOutcome)
      else runBuildIfNeeded w c dry fs id dir ep force asUser uid gid).fs.find q = fs.find q
    cases hl : linkAt w.env.cwd fs
        (Join [dir, str ".cronctl", str "filehash"] ++ str ".tmp") with
    | true => rfl
    | false =>
      simp only [Bool.false_eq_true, if_false]
      exact runBuildIfNeeded_frame w c dry fs id dir ep force asUser uid gid q
        (fun fs0 cmd run hx => hexec fs0 cmd dir run q hx hdir hq)
        (fun fs0 cmd run hx => hkeep fs0 cmd dir run hx) hl hdir hq
  cron := hcron
  prune := fun dry fs cronDir keep q h => pruneOrphans_none w.env.cwd dry fs cronDir keep q h


/-! ## Jobs with plain identifiers -/

theorem plainName_ne (id : GoString) (h : plainName id) :
    id ≠ [] ∧ id ≠ str "." ∧ id ≠ str ".." := by
  obtain ⟨h1, _, _, h4⟩ := h
  refine ⟨h1, ?_, ?_⟩ <;>
  · intro he
    rw [he] at h4
    exact h4 (by decide)

theorem splitOn_Clean_last (p x : GoString)
    (hx : (cleanElems (IsAbs p) [] (splitOn 47 p)).getLast? = some x) :
    (splitOn 47 (Clean p)).getLast? = some x := by
  have h47 : ∀ r, ∀ y ∈ cleanElems r [] (splitOn 47 p), 47 ∉ y := by
    intro r y hy
    rcases cleanElems_mem r _ [] y hy with h | h
    · simp at h
    · exact splitOn_mem_no_sep 47 p y h
  rw [Clean_eq]
  by_cases ha : IsAbs p = true
  · rw [ha] at hx
    simp only [ha, if_true]
    have hne : cleanElems true [] (splitOn 47 p) ≠ [] := by
      intro h
      rw [h] at hx
      simp at hx
    have hs : splitOn 47 (47 :: joinSlash (cleanElems true [] (splitOn 47 p)))
        = [] :: splitOn 47 (joinSlash (cleanElems true [] (splitOn 47 p))) := by
      simp [splitOn]
    rw [hs, splitOn_joinSlash _ hne (h47 true)]
    cases hh : cleanElems true [] (splitOn 47 p) with
    | nil => exact absurd hh hne
    | cons a as =>
      rw [hh] at hx
      rw [List.getLast?_cons_cons]
      exact hx
  · have ha2 : IsAbs p = false := by simpa using ha
    rw [ha2] at hx
    simp only [ha2, Bool.false_eq_true, if_false]
    have hne : cleanElems false [] (splitOn 47 p) ≠ [] := by
      intro h
      rw [h] at hx
      simp at hx
    simp only [hne, if_false]
    rw [splitOn_joinSlash _ hne (h47 false)]
    exact hx

/-- Where a path made of `filepath.Join(dir, name)` and a suffix leads. -/
theorem fsPath_Join_suffix (cwd dir name t : GoString) (hdir : dir ≠ [])
    (hn : plainName name) (ht : 47 ∉ t) :
    fsPath cwd (Join [dir, name] ++ t) = fsPath cwd dir ++ [name ++ t] := by
  obtain ⟨hn1, hn2, hn3⟩ := plainName_ne name hn
  have hnt : name ++ t ≠ [] ∧ name ++ t ≠ str "." ∧ name ++ t ≠ str ".." := by
    obtain ⟨h1, h2, h3, h4⟩ := hn
    cases name with
    | nil => exact absurd rfl h1
    | cons c cs =>
      have hc : c ≠ 46 := fun e => h4 (by simp [e])
      refine ⟨by simp, ?_, ?_⟩ <;>
      · intro he
        have e1 : str "." = [46] := by decide
        have e2 : str ".." = [46, 46] := by decide
        simp only [e1, e2, List.cons_append, List.cons.injEq] at he
        exact hc he.1
  have hj : Join [dir, name] = Clean (dir ++ 47 :: name) := by
    cases dir with
    | nil => exact absurd rfl hdir
    | cons x xs => rfl
  have hchild := fsPath_child_Join cwd dir name hdir hn.2.1 hn1 hn2 hn3
  -- the last element of the joined path is the name
  have hlast : (splitOn 47 (Join [dir, name])).getLast? = some name := by
    rw [hj]
    apply splitOn_Clean_last
    rw [splitOn_append_sep, splitOn_no_sep 47 name hn.2.1, cleanElems_append,
      cleanElems_cons_plain _ _ name [] hn1 hn2 hn3]
    simp [cleanElems]
  obtain ⟨init, l, h1, h2⟩ := splitOn_append 47 t ht (Join [dir, name])
  have hl : l = name := by
    rw [h1, List.getLast?_concat] at hlast
    exact Option.some.inj hlast
  rw [hl] at h1 h2
  have hne : Join [dir, name] ≠ [] := Join_ne_nil dir name hdir
  have hp : fsPath cwd (Join [dir, name])
      = cleanElems true [] ((if IsAbs (Join [dir, name]) then [] else splitOn 47 cwd) ++ init)
        ++ [name] := by
    unfold fsPath
    rw [h1, ← List.append_assoc, cleanElems_append true _ [name],
      cleanElems_cons_plain true _ name [] hn1 hn2 hn3]
    rfl
  have hD := List.append_cancel_right (hp.symm.trans hchild)
  unfold fsPath
  rw [isAbs_append _ _ hne, h2, ← List.append_assoc, cleanElems_append true _ [name ++ t],
    cleanElems_cons_plain true _ _ [] hnt.1 hnt.2.1 hnt.2.2, hD]
  rfl

/-- A job with a plain identifier has its target, the backup of its target and
its registration where `jobPlain` says. -/
theorem jobPlain_of_plainName (cwd : GoString) (opts : SyncOptions) (j : Job)
    (hT : opts.TargetDir ≠ []) (hC : opts.CronDir ≠ []) (h : plainName j.ID) :
    jobPlain cwd opts j := by
  obtain ⟨hn1, hn2, hn3⟩ := plainName_ne j.ID h
  have hc : plainName (str "cronctl-" ++ j.ID) := by
    obtain ⟨h1, h2, h3, h4⟩ := h
    refine ⟨by simp [str], ?_, ?_, by
      have : str "cronctl-" = 99 :: str "ronctl-" := by decide
      rw [this]
      simp⟩
    · intro hm
      rcases List.mem_append.mp hm with hm | hm
      · exact absurd hm (by decide)
      · exact h2 hm
    · intro hm
      rcases List.mem_append.mp hm with hm | hm
      · exact absurd hm (by decide)
      · exact h3 hm
  obtain ⟨hc1, hc2, hc3⟩ := plainName_ne _ hc
  exact ⟨fsPath_child_Join cwd _ _ hT h.2.1 hn1 hn2 hn3,
    fsPath_Join_suffix cwd _ _ _ hT h (by decide),
    fsPath_child_Join cwd _ _ hC hc.2.1 hc1 hc2 hc3, h.1, h.2.2.2, h.2.2.1⟩

theorem withDefaults_TargetDir (opts : SyncOptions) : opts.withDefaults.TargetDir ≠ [] := by
  unfold SyncOptions.withDefaults
  dsimp only
  split
  · decide
  · assumption

theorem withDefaults_CronDir (opts : SyncOptions) : opts.withDefaults.CronDir ≠ [] := by
  unfold SyncOptions.withDefaults
  dsimp only
  split
  · decide
  · assumption

/-! ## `Sync` and the staging directories -/

theorem syncLoop_pending (steps : SyncSteps) (cwd : GoString) (faults : SyncFaults)
    (ctx : SyncCtx) (opts : SyncOptions) : ∀ (jobs : List Job) (k : Nat) (fs : Node),
      (syncLoop steps cwd faults ctx opts k jobs fs).err = none →
      (syncLoop steps cwd faults ctx opts k jobs fs).pending = none
  | [], _, _, _ => rfl
  | j :: js, k, fs, h => by
    rw [syncLoop] at h ⊢
    by_cases hc : ctx.atJob k = true
    · rw [if_pos hc] at h
      exact Option.noConfusion h
    · rw [if_neg hc] at h ⊢
      dsimp only at h ⊢
      cases he : (syncJob steps cwd faults (ctx.atBuild k) opts fs j).err with
      | some e =>
        rw [he] at h
        exact Option.noConfusion h
      | none =>
        rw [he] at h
        exact syncLoop_pending steps cwd faults ctx opts js (k + 1) _ h

set_option maxRecDepth 200000 in
/-- C19 at a failing input: the deferred removal of a staging directory is best
effort. Job `a` is staged in `/opt/jobs/.cronctl-staging-a-1`, its build exits
with status 1, `Sync` returns the build error, and the removal of the staging
directory fails, which the deferred function does not report: the staging
directory remains under the target directory, and nothing is at `/opt/jobs/a`. -/
theorem Sync_leaves_staging :
    (Sync (worldSteps failingBuildWorld cronRefused) (str "/") stuckStaging liveSyncCtx
        demoOptions payloadFs [builtJobA]).err = some .build ∧
      (Sync (worldSteps failingBuildWorld cronRefused) (str "/") stuckStaging liveSyncCtx
        demoOptions payloadFs [builtJobA]).staged = [str "/opt/jobs/.cronctl-staging-a-1"] ∧
      Lstat (str "/") payloadFs (str "/opt/jobs/.cronctl-staging-a-1") = none ∧
      Lstat (str "/") (Sync (worldSteps failingBuildWorld cronRefused) (str "/") stuckStaging
        liveSyncCtx demoOptions payloadFs [builtJobA]).fs (str "/opt/jobs/.cronctl-staging-a-1")
        = some (.dir [(str "build.sh", .file 493 (some (str "#!/bin/sh\n")))]) ∧
      Lstat (str "/") (Sync (worldSteps failingBuildWorld cronRefused) (str "/") stuckStaging
        liveSyncCtx demoOptions payloadFs [builtJobA]).fs (str "/opt/jobs/a") = none := by
  refine ⟨by decide, by decide, rfl, rfl, rfl⟩

/-- C19, amended. Let the steps keep to their directories, let the identifiers
of the jobs be plain names that do not start with a dot, let the target directory
lie apart from the cron directory, and let the deferred removal of a staging
directory not fail. Then after a non-dry-run `Sync`, with or without an error and
for every job list, every staging directory the call created was an entry of the
target directory under a name that starts with a dot, and nothing is at its path
any more. -/
theorem Sync_staging_gone (steps : SyncSteps) (cwd : GoString) (hF : steps.Framed cwd)
    (faults : SyncFaults) (hclean : faults.cleanup = false) (ctx : SyncCtx)
    (opts : SyncOptions) (hdry : opts.DryRun = false) (fs : Node) (jobs : List Job)
    (hCT : diverge (fsPath cwd opts.withDefaults.CronDir)
      (fsPath cwd opts.withDefaults.TargetDir))
    (hids : ∀ j ∈ jobs, plainName j.ID) :
    ∀ s ∈ (Sync steps cwd faults ctx opts fs jobs).staged,
      (∃ n, n.head? = some 46 ∧ fsPath cwd s = fsPath cwd opts.withDefaults.TargetDir ++ [n]) ∧
      (Sync steps cwd faults ctx opts fs jobs).fs.find (fsPath cwd s) = none := by
  have hdry2 : opts.withDefaults.DryRun = false := hdry
  have hjobs : ∀ j ∈ jobs, jobPlain cwd opts.withDefaults j := fun j hj =>
    jobPlain_of_plainName cwd _ j (withDefaults_TargetDir opts) (withDefaults_CronDir opts)
      (hids j hj)
  unfold Sync
  by_cases hs : ctx.atStart = true
  · rw [if_pos hs]
    intro s hm
    simp at hm
  · rw [if_neg hs]
    dsimp only
    by_cases hl : jobs.length = 0
    · rw [if_pos hl]
      intro s hm
      simp at hm
    · rw [if_neg hl]
      cases hm : MkdirAll cwd fs opts.withDefaults.TargetDir with
      | none =>
        intro s hm
        simp at hm
      | some fs0 =>
        dsimp only
        obtain ⟨h1, h2⟩ := syncLoop_staging steps cwd hF faults ctx opts.withDefaults hclean hdry2
          (withDefaults_TargetDir opts) hCT jobs 0 fs0 hjobs
        have habs : ∀ s ∈ (syncLoop steps cwd faults ctx opts.withDefaults 0 jobs fs0).staged,
            (cleanupStaging cwd faults
              (syncLoop steps cwd faults ctx opts.withDefaults 0 jobs fs0).fs
              (syncLoop steps cwd faults ctx opts.withDefaults 0 jobs fs0).pending).find
                (fsPath cwd s) = none := by
          intro s hs
          obtain ⟨n, hn, hp⟩ := h1 s hs
          rw [hp]
          exact h2 n hn (Or.inr ⟨s, hs, hp⟩)
        cases he : (syncLoop steps cwd faults ctx opts.withDefaults 0 jobs fs0).err with
        | some e =>
          dsimp only
          exact fun s hs => ⟨h1 s hs, habs s hs⟩
        | none =>
          have hp := syncLoop_pending steps cwd faults ctx opts.withDefaults jobs 0 fs0 he
          rw [hp] at habs
          dsimp only
          split
          · exact fun s hs => ⟨h1 s hs, hF.prune _ _ _ _ _ (habs s hs)⟩
          · exact fun s hs => ⟨h1 s hs, habs s hs⟩

theorem quietWorld_framed : (plainSteps quietWorld cronRefused).Framed (str "/") :=
  plainSteps_framed quietWorld cronRefused
    (fun fs _ _ run _ h _ _ => by
      have : run.done = fs := by
        simp only [quietWorld, quietEnv, Option.some.injEq] at h
        rw [← h]
      rw [this])
    (fun fs _ _ run h hl => by
      have : run.done = fs := by
        simp only [quietWorld, quietEnv, Option.some.injEq] at h
        rw [← h]
      rw [this]
      exact hl)
    (fun _ _ _ _ _ _ _ => rfl)

/-- The loop body on a disabled job calls none of the steps. -/
theorem syncJob_disabled_steps (s1 s2 : SyncSteps) (cwd : GoString) (faults : SyncFaults)
    (c : Bool) (opts : SyncOptions) (fs : Node) (j : Job) (h : j.Spec.Enabled = false) :
    syncJob s1 cwd faults c opts fs j = syncJob s2 cwd faults c opts fs j := by
  unfold syncJob
  simp only [h, Bool.not_false, if_true]

theorem syncLoop_disabled_steps (s1 s2 : SyncSteps) (cwd : GoString) (faults : SyncFaults)
    (ctx : SyncCtx) (opts : SyncOptions) : ∀ (jobs : List Job) (k : Nat) (fs : Node),
      (∀ j ∈ jobs, j.Spec.Enabled = false) →
      syncLoop s1 cwd faults ctx opts k jobs fs = syncLoop s2 cwd faults ctx opts k jobs fs
  | [], _, _, _ => by simp [syncLoop]
  | j :: js, k, fs, h => by
    have ih := syncLoop_disabled_steps s1 s2 cwd faults ctx opts js (k + 1)
    rw [syncLoop, syncLoop, syncJob_disabled_steps s1 s2 cwd faults _ opts fs j
      (h j (List.mem_cons_self _ _))]
    simp only [ih _ (fun j hj => h j (List.mem_cons_of_mem _ hj))]

/-- A `Sync` over disabled jobs depends on the steps through `pruneOrphans`
only. -/
theorem Sync_disabled_steps (s1 s2 : SyncSteps) (cwd : GoString) (faults : SyncFaults)
    (ctx : SyncCtx) (opts : SyncOptions) (fs : Node) (jobs : List Job)
    (hp : s1.pruneOrphans = s2.pruneOrphans) (h : ∀ j ∈ jobs, j.Spec.Enabled = false) :
    Sync s1 cwd faults ctx opts fs jobs = Sync s2 cwd faults ctx opts fs jobs := by
  unfold Sync
  simp only [hp, syncLoop_disabled_steps s1 s2 cwd faults ctx _ jobs 0 _ h]

set_option maxRecDepth 200000 in
/-- Witness of C19: job `a` without build step is staged in
`/opt/jobs/.cronctl-staging-a-1` and deployed; the staging directory is gone. No
link stands in the way of a write in this run, the steps are those of
`plainSteps`. -/
theorem Sync_staging_gone_witness :
    (Sync (worldSteps quietWorld cronRefused) (str "/") SyncFaults.none liveSyncCtx demoOptions
        payloadFs [plainJobA]).staged = [str "/opt/jobs/.cronctl-staging-a-1"] ∧
      ∀ s ∈ (Sync (worldSteps quietWorld cronRefused) (str "/") SyncFaults.none liveSyncCtx
          demoOptions payloadFs [plainJobA]).staged,
        (∃ n, n.head? = some 46 ∧
          fsPath (str "/") s = fsPath (str "/") demoOptions.withDefaults.TargetDir ++ [n]) ∧
        (Sync (worldSteps quietWorld cronRefused) (str "/") SyncFaults.none liveSyncCtx
          demoOptions payloadFs [plainJobA]).fs.find (fsPath (str "/") s) = none := by
  have e : Sync (worldSteps quietWorld cronRefused) (str "/") SyncFaults.none liveSyncCtx
      demoOptions payloadFs [plainJobA]
      = Sync (plainSteps quietWorld cronRefused) (str "/") SyncFaults.none liveSyncCtx
        demoOptions payloadFs [plainJobA] := rfl
  rw [e]
  exact ⟨by decide,
    Sync_staging_gone (plainSteps quietWorld cronRefused) (str "/") quietWorld_framed
      SyncFaults.none rfl liveSyncCtx demoOptions rfl payloadFs [plainJobA]
      (by unfold diverge; decide)
      (fun j hj => by
        rw [List.mem_singleton.mp hj]
        unfold plainName
        decide)⟩


/-! ## `Sync` and the registrations -/

/-- A job that is disabled or has no schedule: when its pass of the loop returns
no error, its registration is absent. -/
theorem syncJob_unregisters (steps : SyncSteps) (cwd : GoString)
    (faults : SyncFaults) (c : Bool) (opts : SyncOptions) (fs : Node) (j : Job)
    (hdry : opts.DryRun = false)
    (hCT : diverge (fsPath cwd opts.CronDir) (fsPath cwd opts.TargetDir))
    (hj : jobPlain cwd opts j)
    (hoff : j.Spec.Enabled = false ∨ j.Spec.Schedule = [])
    (hok : (syncJob steps cwd faults c opts fs j).err = none) :
    (syncJob steps cwd faults c opts fs j).fs.find
      (fsPath cwd opts.CronDir ++ [str "cronctl-" ++ j.ID]) = none := by
  obtain ⟨hd, hb, hcp, hidne, hidhead, hstar⟩ := hj
  have hTq : diverge (fsPath cwd (Join [opts.TargetDir, j.ID]))
      (fsPath cwd opts.CronDir ++ [str "cronctl-" ++ j.ID]) := by
    rw [hd]
    exact diverge_append _ _ _ _ (diverge_symm hCT)
  have hrm := fun fsx =>
    (removeFileIfExists_spec cwd fsx (Join [opts.CronDir, str "cronctl-" ++ j.ID])).2.1
  rw [hcp] at hrm
  revert hok
  unfold syncJob
  dsimp only
  rw [hdry]
  by_cases hen : j.Spec.Enabled = true
  · have hsched : j.Spec.Schedule = [] := by
      rcases hoff with h | h
      · rw [hen] at h
        exact Bool.noConfusion h
      · exact h
    simp only [hen, Bool.not_true, Bool.false_eq_true, if_false]
    cases hu : steps.resolveJobUser fs j.Spec.User with
    | none => exact fun h => Option.noConfusion h
    | some ug =>
      obtain ⟨uid, gid⟩ := ug
      dsimp only
      cases hst : stageJobDir cwd (steps.random fs) false fs opts.TargetDir j.ID with
      | none => exact fun h => Option.noConfusion h
      | some tf =>
        obtain ⟨tmpDir, fs1⟩ := tf
        dsimp only
        cases h5 : (fillStaging steps c opts fs1 j tmpDir (Join [opts.TargetDir, j.ID])
            uid gid).err with
        | some e => exact fun h => Option.noConfusion h
        | none =>
          dsimp only
          cases h6 : (replaceDir cwd faults.swap false
              (fillStaging steps c opts fs1 j tmpDir (Join [opts.TargetDir, j.ID]) uid gid).fs
              tmpDir (Join [opts.TargetDir, j.ID])).1 with
          | some e => exact fun h => Option.noConfusion h
          | none =>
            dsimp only
            unfold settleJob
            dsimp only
            rw [hdry]
            split
            · exact fun h => Option.noConfusion h
            · simp only [hsched, List.length_nil, if_true]
              exact hrm _
  · have hen2 : j.Spec.Enabled = false := by simpa using hen
    simp only [hen2, Bool.not_false, if_true]
    cases h1 : (removeFileIfExists cwd false fs
        (Join [opts.CronDir, str "cronctl-" ++ j.ID])).1 with
    | some e => exact fun h => Option.noConfusion h
    | none =>
      dsimp only
      split
      · intro _
        rw [removeDirIfExists_frame cwd _ _ _ hTq]
        exact hrm fs h1
      · intro _
        exact hrm fs h1

/-- A pass of the loop leaves the registrations of other jobs as they are. -/
theorem syncJob_cron_frame (steps : SyncSteps) (cwd : GoString) (hF : steps.Framed cwd)
    (hown : ∀ dry fs cronPath j target q, diverge (fsPath cwd cronPath) q →
      (steps.writeCronFile dry fs cronPath j target).2.find q = fs.find q)
    (faults : SyncFaults) (c : Bool) (opts : SyncOptions) (fs : Node) (j : Job)
    (hdry : opts.DryRun = false) (hT : opts.TargetDir ≠ [])
    (hCT : diverge (fsPath cwd opts.CronDir) (fsPath cwd opts.TargetDir))
    (hj : jobPlain cwd opts j) (m : GoString) (hm : m ≠ str "cronctl-" ++ j.ID) :
    (syncJob steps cwd faults c opts fs j).fs.find (fsPath cwd opts.CronDir ++ [m])
      = fs.find (fsPath cwd opts.CronDir ++ [m]) := by
  obtain ⟨hJ1, hJ2, _⟩ := syncJob_effect steps cwd hF faults c opts fs j hdry hT hCT hj
  obtain ⟨_, _, hcp, _, _, _⟩ := hj
  apply hJ2
  · exact diverge_append _ _ _ _ (diverge_symm hCT)
  · exact diverge_append _ _ _ _ (diverge_symm hCT)
  · exact diverge_siblings _ _ _ (Ne.symm hm)
  · intro fsx
    apply hown
    rw [hcp]
    exact diverge_siblings _ _ _ (Ne.symm hm)
  · intro s hs
    obtain ⟨n, _, hp, _⟩ := hJ1 s hs
    rw [hp]
    exact diverge_append _ _ _ _ (diverge_symm hCT)

/-- The loop leaves the registrations of jobs that are not in the list as they
are. -/
theorem syncLoop_cron_frame (steps : SyncSteps) (cwd : GoString) (hF : steps.Framed cwd)
    (hown : ∀ dry fs cronPath j target q, diverge (fsPath cwd cronPath) q →
      (steps.writeCronFile dry fs cronPath j target).2.find q = fs.find q)
    (faults : SyncFaults) (ctx : SyncCtx) (opts : SyncOptions)
    (hdry : opts.DryRun = false) (hT : opts.TargetDir ≠ [])
    (hCT : diverge (fsPath cwd opts.CronDir) (fsPath cwd opts.TargetDir)) (m : GoString) :
    ∀ (jobs : List Job) (k : Nat) (fs : Node), (∀ j ∈ jobs, jobPlain cwd opts j) →
      (∀ j ∈ jobs, m ≠ str "cronctl-" ++ j.ID) →
      (syncLoop steps cwd faults ctx opts k jobs fs).fs.find (fsPath cwd opts.CronDir ++ [m])
        = fs.find (fsPath cwd opts.CronDir ++ [m])
  | [], _, _, _, _ => rfl
  | j :: js, k, fs, hjobs, hm => by
    have e1 := syncJob_cron_frame steps cwd hF hown faults (ctx.atBuild k) opts fs j hdry hT
      hCT (hjobs j (List.mem_cons_self _ _)) m (hm j (List.mem_cons_self _ _))
    rw [syncLoop]
    by_cases hc : ctx.atJob k = true
    · rw [if_pos hc]
    · rw [if_neg hc]
      dsimp only
      cases (syncJob steps cwd faults (ctx.atBuild k) opts fs j).err with
      | some e => exact e1
      | none =>
        dsimp only
        rw [syncLoop_cron_frame steps cwd hF hown faults ctx opts hdry hT hCT m js (k + 1)
          _ (fun j2 h => hjobs j2 (List.mem_cons_of_mem _ h))
          (fun j2 h => hm j2 (List.mem_cons_of_mem _ h))]
        exact e1

/-- After a loop that returns no error, the registration of every job of the
list that is disabled or has no schedule is absent. -/
theorem syncLoop_unregisters (steps : SyncSteps) (cwd : GoString) (hF : steps.Framed cwd)
    (hown : ∀ dry fs cronPath j target q, diverge (fsPath cwd cronPath) q →
      (steps.writeCronFile dry fs cronPath j target).2.find q = fs.find q)
    (faults : SyncFaults) (ctx : SyncCtx) (opts : SyncOptions)
    (hdry : opts.DryRun = false) (hT : opts.TargetDir ≠ [])
    (hCT : diverge (fsPath cwd opts.CronDir) (fsPath cwd opts.TargetDir)) :
    ∀ (jobs : List Job) (k : Nat) (fs : Node), (∀ j ∈ jobs, jobPlain cwd opts j) →
      (jobs.map (·.ID)).Nodup →
      (syncLoop steps cwd faults ctx opts k jobs fs).err = none →
      ∀ j ∈ jobs, (j.Spec.Enabled = false ∨ j.Spec.Schedule = []) →
        (syncLoop steps cwd faults ctx opts k jobs fs).fs.find
          (fsPath cwd opts.CronDir ++ [str "cronctl-" ++ j.ID]) = none
  | [], _, _, _, _, _, j, hj, _ => by simp at hj
  | j0 :: js, k, fs, hjobs, hnd, hok, j, hj, hoff => by
    have hjs : ∀ j2 ∈ js, jobPlain cwd opts j2 := fun j2 h => hjobs j2 (List.mem_cons_of_mem _ h)
    have hnd2 : (js.map (·.ID)).Nodup := (List.nodup_cons.mp hnd).2
    have hfresh : ∀ j2 ∈ js, str "cronctl-" ++ j0.ID ≠ str "cronctl-" ++ j2.ID := by
      intro j2 h2 he
      have := List.append_cancel_left he
      exact (List.nodup_cons.mp hnd).1 (List.mem_map.mpr ⟨j2, h2, this.symm⟩)
    revert hok
    rw [syncLoop]
    by_cases hc : ctx.atJob k = true
    · rw [if_pos hc]
      exact fun h => Option.noConfusion h
    · rw [if_neg hc]
      dsimp only
      cases he : (syncJob steps cwd faults (ctx.atBuild k) opts fs j0).err with
      | some e => exact fun h => Option.noConfusion h
      | none =>
        dsimp only
        intro hok
        rcases List.mem_cons.mp hj with h | h
        · subst h
          rw [syncLoop_cron_frame steps cwd hF hown faults ctx opts hdry hT hCT _ js
            (k + 1) _ hjs hfresh]
          exact syncJob_unregisters steps cwd faults (ctx.atBuild k) opts fs j hdry hCT
            (hjobs j (List.mem_cons_self _ _)) hoff he
        · exact syncLoop_unregisters steps cwd hF hown faults ctx opts hdry hT hCT js
            (k + 1) _ hjs hnd2 hok j h hoff

/-! ## Running `Sync` again on disabled jobs -/

theorem missing_cons_dir (es : List (GoString × Node)) (c : GoString) (cs : List GoString) :
    (Node.dir es).missing (c :: cs)
      = ((lookupEntry c es).map fun child => child.missing cs).getD true := by
  simp only [Node.missing]
  cases lookupEntry c es <;> rfl

theorem missing_del_same : ∀ (p : List GoString) (fs fs2 : Node),
    fs.del p = some fs2 → fs2.missing p = true
  | [], fs, fs2, h => by cases fs <;> simp [Node.del] at h
  | [c], fs, fs2, h => by
    cases fs with
    | dir es =>
      simp only [Node.del] at h
      cases hl : lookupEntry c es with
      | none => simp [hl] at h
      | some child =>
        simp only [hl, Option.some.injEq] at h
        subst h
        rw [missing_cons_dir, lookupEntry_eraseEntry, if_pos rfl]
        rfl
    | file _ _ => simp [Node.del] at h
    | symlink _ => simp [Node.del] at h
  | c :: d :: cs, fs, fs2, h => by
    cases fs with
    | dir es =>
      simp only [Node.del] at h
      cases hl : lookupEntry c es with
      | none => simp [hl] at h
      | some child =>
        simp only [hl] at h
        cases hp : child.del (d :: cs) with
        | none => simp [hp] at h
        | some child2 =>
          simp only [hp, Option.some.injEq] at h
          subst h
          rw [missing_cons_dir, lookupEntry_setEntry, if_pos rfl]
          exact missing_del_same (d :: cs) child child2 hp
    | file _ _ => simp [Node.del] at h
    | symlink _ => simp [Node.del] at h

theorem missing_del_keeps : ∀ (p : List GoString) (fs fs2 : Node) (q : List GoString),
    fs.del p = some fs2 → fs.find q = none → fs.missing q = true → fs2.missing q = true
  | [], fs, fs2, _, h, _, _ => by cases fs <;> simp [Node.del] at h
  | [c], fs, fs2, q, h, hf, hm => by
    cases fs with
    | dir es =>
      simp only [Node.del] at h
      cases hl : lookupEntry c es with
      | none => simp [hl] at h
      | some child =>
        simp only [hl, Option.some.injEq] at h
        subst h
        cases q with
        | nil => rfl
        | cons d ds =>
          rw [missing_cons_dir] at hm ⊢
          rw [lookupEntry_eraseEntry]
          by_cases he : d = c
          · rw [if_pos he]
            rfl
          · rw [if_neg he]
            exact hm
    | file _ _ => simp [Node.del] at h
    | symlink _ => simp [Node.del] at h
  | c :: d :: cs, fs, fs2, q, h, hf, hm => by
    cases fs with
    | dir es =>
      simp only [Node.del] at h
      cases hl : lookupEntry c es with
      | none => simp [hl] at h
      | some child =>
        simp only [hl] at h
        cases hp : child.del (d :: cs) with
        | none => simp [hp] at h
        | some child2 =>
          simp only [hp, Option.some.injEq] at h
          subst h
          cases q with
          | nil => rfl
          | cons c2 qs =>
            rw [missing_cons_dir] at hm ⊢
            rw [find_cons_dir] at hf
            rw [lookupEntry_setEntry]
            by_cases he : c2 = c
            · subst he
              rw [if_pos rfl]
              rw [hl] at hm hf
              exact missing_del_keeps (d :: cs) child child2 qs hp hf hm
            · rw [if_neg he]
              exact hm
    | file _ _ => simp [Node.del] at h
    | symlink _ => simp [Node.del] at h

theorem gone_del_same (p : List GoString) (fs fs2 : Node) (h : fs.del p = some fs2) :
    fs2.gone p :=
  ⟨find_del_same p fs fs2 h, missing_del_same p fs fs2 h⟩

theorem gone_del (p : List GoString) (fs fs2 : Node) (q : List GoString)
    (h : fs.del p = some fs2) (hq : fs.gone q) : fs2.gone q :=
  ⟨find_del_none p fs fs2 q h hq.1, missing_del_keeps p fs fs2 q h hq.1 hq.2⟩

/-- Creating directories that exist brings no entry into being. -/
theorem mkdirAll_of_dir : ∀ (p : List GoString) (fs : Node) (es : List (GoString × Node)),
    fs.find p = some (.dir es) →
    ∃ fs1, fs.mkdirAll p = some fs1 ∧ (∃ es1, fs1.find p = some (.dir es1)) ∧
      ∀ q, fs.gone q → fs1.gone q
  | [], fs, es, h => by
    rw [find_nil] at h
    injection h with h
    subst h
    exact ⟨.dir es, rfl, ⟨es, rfl⟩, fun q hq => hq⟩
  | c :: cs, fs, es, h => by
    cases fs with
    | dir es0 =>
      rw [find_cons_dir] at h
      cases hl : lookupEntry c es0 with
      | none => simp [hl] at h
      | some child =>
        rw [hl] at h
        obtain ⟨child2, hm, ⟨es1, hd⟩, hg⟩ := mkdirAll_of_dir cs child es h
        refine ⟨.dir (setEntry c child2 es0), by simp only [Node.mkdirAll, hl, hm], ⟨es1, ?_⟩, ?_⟩
        · rw [find_cons_dir, lookupEntry_setEntry, if_pos rfl]
          exact hd
        · intro q hq
          cases q with
          | nil => exact absurd hq.1 (by simp [Node.find])
          | cons d ds =>
            obtain ⟨hq1, hq2⟩ := hq
            rw [find_cons_dir] at hq1
            rw [missing_cons_dir] at hq2
            unfold Node.gone
            rw [find_cons_dir, missing_cons_dir, lookupEntry_setEntry]
            by_cases he : d = c
            · subst he
              rw [if_pos rfl]
              rw [hl] at hq1 hq2
              exact hg ds ⟨hq1, hq2⟩
            · rw [if_neg he]
              exact ⟨hq1, hq2⟩
    | file _ _ => simp [Node.find] at h
    | symlink _ => simp [Node.find] at h

/-- The directories `os.MkdirAll` has created are there. -/
theorem find_mkdirAll_self : ∀ (p : List GoString) (fs fs1 : Node),
    fs.mkdirAll p = some fs1 → ∃ es, fs1.find p = some (.dir es)
  | [], fs, fs1, h => by
    cases fs with
    | dir es =>
      simp only [Node.mkdirAll, Option.some.injEq] at h
      exact ⟨es, by rw [← h, find_nil]⟩
    | file _ _ => simp [Node.mkdirAll] at h
    | symlink _ => simp [Node.mkdirAll] at h
  | c :: cs, fs, fs1, h => by
    cases fs with
    | dir es =>
      simp only [Node.mkdirAll] at h
      cases hl : lookupEntry c es with
      | some child =>
        simp only [hl] at h
        cases hm : child.mkdirAll cs with
        | none => simp [hm] at h
        | some child2 =>
          simp only [hm, Option.some.injEq] at h
          subst h
          obtain ⟨es1, h1⟩ := find_mkdirAll_self cs child child2 hm
          exact ⟨es1, by rw [find_cons_dir, lookupEntry_setEntry, if_pos rfl]; exact h1⟩
      | none =>
        simp only [hl] at h
        cases hm : (Node.dir []).mkdirAll cs with
        | none => simp [hm] at h
        | some child2 =>
          simp only [hm, Option.some.injEq] at h
          subst h
          obtain ⟨es1, h1⟩ := find_mkdirAll_self cs (.dir []) child2 hm
          exact ⟨es1, by rw [find_cons_dir, lookupEntry_setEntry, if_pos rfl]; exact h1⟩
    | file _ _ => simp [Node.mkdirAll] at h
    | symlink _ => simp [Node.mkdirAll] at h

theorem removeFileIfExists_gone (cwd : GoString) (fs : Node) (path : GoString) :
    ((removeFileIfExists cwd false fs path).1 = none →
        (removeFileIfExists cwd false fs path).2.gone (fsPath cwd path)) ∧
      (∀ q, fs.gone q → (removeFileIfExists cwd false fs path).2.gone q) ∧
      (fs.gone (fsPath cwd path) → removeFileIfExists cwd false fs path = (none, fs)) := by
  unfold removeFileIfExists
  simp only [Bool.false_eq_true, if_false]
  cases hr : Remove cwd fs path with
  | some fs2 =>
    dsimp only
    have hdel : fs.del (fsPath cwd path) = some fs2 := by
      unfold Remove at hr
      split at hr
      · exact Option.noConfusion hr
      · exact hr
      · exact Option.noConfusion hr
    refine ⟨fun _ => gone_del_same _ fs fs2 hdel, fun q hq => gone_del _ fs fs2 q hdel hq, ?_⟩
    intro hg
    unfold Remove at hr
    rw [hg.1] at hr
    exact Option.noConfusion hr
  | none =>
    dsimp only
    by_cases hn : RemoveNotExist cwd fs path = true
    · rw [if_pos hn]
      refine ⟨fun _ => ?_, fun q hq => hq, fun _ => rfl⟩
      unfold RemoveNotExist at hn
      cases hf : fs.find (fsPath cwd path) with
      | none =>
        rw [hf] at hn
        exact ⟨hf, hn⟩
      | some n =>
        rw [hf] at hn
        exact Bool.noConfusion hn
    · rw [if_neg hn]
      refine ⟨fun h => Option.noConfusion h, fun q hq => hq, fun hg => ?_⟩
      exfalso
      apply hn
      unfold RemoveNotExist
      rw [hg.1]
      exact hg.2

theorem removeDirIfExists_gone (cwd : GoString) (fs : Node) (path : GoString)
    (hne : path ≠ []) :
    ((removeDirIfExists cwd false fs path).1 = none →
        (removeDirIfExists cwd false fs path).2.gone (fsPath cwd path) ∧
          endsWithDot path = false) ∧
      (∀ q, fs.gone q → (removeDirIfExists cwd false fs path).2.gone q) ∧
      (fs.gone (fsPath cwd path) → endsWithDot path = false →
        removeDirIfExists cwd false fs path = (none, fs)) := by
  unfold removeDirIfExists RemoveAll
  simp only [Bool.false_eq_true, if_false, if_neg hne]
  cases hd : endsWithDot path with
  | true =>
    simp only [if_true]
    exact ⟨fun h => Option.noConfusion h, fun q hq => hq, fun _ h => Bool.noConfusion h⟩
  | false =>
    simp only [Bool.false_eq_true, if_false]
    cases hf : fs.find (fsPath cwd path) with
    | some n =>
      dsimp only
      cases hdel : fs.del (fsPath cwd path) with
      | none =>
        dsimp only
        refine ⟨fun h => Option.noConfusion h, fun q hq => hq, fun hg => ?_⟩
        rw [hg.1] at hf
        exact Option.noConfusion hf
      | some fs2 =>
        dsimp only
        refine ⟨fun _ => ⟨gone_del_same _ fs fs2 hdel, trivial⟩,
          fun q hq => gone_del _ fs fs2 q hdel hq, fun hg => ?_⟩
        rw [hg.1] at hf
        exact Option.noConfusion hf
    | none =>
      dsimp only
      by_cases hm : fs.missing (fsPath cwd path) = true
      · rw [if_pos hm]
        exact ⟨fun _ => ⟨⟨hf, hm⟩, trivial⟩, fun q hq => hq, fun _ _ => rfl⟩
      · rw [if_neg hm]
        exact ⟨fun h => Option.noConfusion h, fun q hq => hq, fun hg => absurd hg.2 hm⟩

theorem removeDirIfExists_keeps_dir (cwd : GoString) (fs : Node) (path : GoString)
    (P : List GoString) (x : GoString) (hp : fsPath cwd path = P ++ [x])
    (h : ∃ es, fs.find P = some (.dir es)) :
    ∃ es, (removeDirIfExists cwd false fs path).2.find P = some (.dir es) := by
  unfold removeDirIfExists
  simp only [Bool.false_eq_true, if_false]
  cases hr : RemoveAll cwd fs path with
  | none => exact h
  | some fs2 =>
    dsimp only
    unfold RemoveAll at hr
    by_cases hne : path = []
    · rw [if_pos hne] at hr
      injection hr with hr
      rw [← hr]
      exact h
    · rw [if_neg hne] at hr
      by_cases hd : endsWithDot path = true
      · rw [if_pos hd] at hr
        exact Option.noConfusion hr
      · rw [if_neg hd] at hr
        cases hf : fs.find (fsPath cwd path) with
        | some n =>
          rw [hf] at hr
          dsimp only at hr
          rw [hp] at hr
          exact del_append_keeps_dir P fs fs2 x hr
        | none =>
          rw [hf] at hr
          dsimp only at hr
          by_cases hm : fs.missing (fsPath cwd path) = true
          · rw [if_pos hm] at hr
            injection hr with hr
            rw [← hr]
            exact h
          · rw [if_neg hm] at hr
            exact Option.noConfusion hr

theorem jobSettled_mono (cwd : GoString) (opts : SyncOptions) (fs fs2 : Node) (j : Job)
    (h : ∀ q, fs.gone q → fs2.gone q) (hs : jobSettled cwd opts fs j) :
    jobSettled cwd opts fs2 j :=
  ⟨h _ hs.1, fun hr => ⟨h _ (hs.2 hr).1, (hs.2 hr).2⟩⟩

/-- The pass of the loop for a disabled job: when it returns no error the job is at
rest; it brings nothing into being and leaves the target directory a directory;
and on a job at rest it returns no error and changes nothing. -/
theorem syncJob_disabled (steps : SyncSteps) (cwd : GoString) (faults : SyncFaults) (c : Bool)
    (opts : SyncOptions) (fs : Node) (j : Job) (hdry : opts.DryRun = false)
    (hT : opts.TargetDir ≠ [])
    (hCT : diverge (fsPath cwd opts.CronDir) (fsPath cwd opts.TargetDir))
    (hj : jobPlain cwd opts j) (hen : j.Spec.Enabled = false) :
    ((syncJob steps cwd faults c opts fs j).err = none →
        jobSettled cwd opts (syncJob steps cwd faults c opts fs j).fs j) ∧
      (∀ q, fs.gone q → (syncJob steps cwd faults c opts fs j).fs.gone q) ∧
      ((∃ es, fs.find (fsPath cwd opts.TargetDir) = some (.dir es)) →
        ∃ es, (syncJob steps cwd faults c opts fs j).fs.find (fsPath cwd opts.TargetDir)
          = some (.dir es)) ∧
      (jobSettled cwd opts fs j →
        (syncJob steps cwd faults c opts fs j).err = none ∧
          (syncJob steps cwd faults c opts fs j).fs = fs) := by
  obtain ⟨hd, _, hcp, _, _, _⟩ := hj
  have hne : Join [opts.TargetDir, j.ID] ≠ [] := Join_ne_nil _ _ hT
  obtain ⟨f1, f2, f3⟩ :=
    removeFileIfExists_gone cwd fs (Join [opts.CronDir, str "cronctl-" ++ j.ID])
  have f4 := (removeFileIfExists_spec cwd fs (Join [opts.CronDir, str "cronctl-" ++ j.ID])).1
    (fsPath cwd opts.TargetDir) (by
      rw [hcp]
      exact diverge_append_left _ _ _ hCT)
  unfold syncJob
  dsimp only
  rw [hdry]
  simp only [hen, Bool.not_false, if_true]
  cases h1 : (removeFileIfExists cwd false fs
      (Join [opts.CronDir, str "cronctl-" ++ j.ID])).1 with
  | some e =>
    dsimp only
    refine ⟨fun h => Option.noConfusion h, f2, fun h => by rw [f4]; exact h, fun hs => ?_⟩
    rw [f3 hs.1] at h1
    exact Option.noConfusion h1
  | none =>
    dsimp only
    by_cases hr : opts.RemovePayloadOnDisable = true
    · rw [if_pos hr]
      dsimp only
      obtain ⟨g1, g2, g3⟩ := removeDirIfExists_gone cwd
        (removeFileIfExists cwd false fs (Join [opts.CronDir, str "cronctl-" ++ j.ID])).2
        (Join [opts.TargetDir, j.ID]) hne
      refine ⟨fun h => ⟨g2 _ (f1 h1), fun _ => g1 h⟩, fun q hq => g2 q (f2 q hq),
        fun h => removeDirIfExists_keeps_dir cwd _ _ _ _ hd (by rw [f4]; exact h), fun hs => ?_⟩
      rw [f3 hs.1]
      dsimp only
      rw [(removeDirIfExists_gone cwd fs _ hne).2.2 (hs.2 hr).1 (hs.2 hr).2]
      exact ⟨rfl, rfl⟩
    · rw [if_neg hr]
      dsimp only
      refine ⟨fun _ => ⟨f1 h1, fun h => absurd h hr⟩, f2, fun h => by rw [f4]; exact h,
        fun hs => ⟨rfl, ?_⟩⟩
      rw [f3 hs.1]

/-- The loop over disabled jobs: when it returns no error every job is at rest, it
brings nothing into being and leaves the target directory a directory. -/
theorem syncLoop_disabled (steps : SyncSteps) (cwd : GoString) (faults : SyncFaults)
    (ctx : SyncCtx) (opts : SyncOptions) (hdry : opts.DryRun = false) (hT : opts.TargetDir ≠ [])
    (hCT : diverge (fsPath cwd opts.CronDir) (fsPath cwd opts.TargetDir)) :
    ∀ (jobs : List Job) (k : Nat) (fs : Node),
      (∀ j ∈ jobs, jobPlain cwd opts j ∧ j.Spec.Enabled = false) →
      ((syncLoop steps cwd faults ctx opts k jobs fs).err = none →
        ∀ j ∈ jobs, jobSettled cwd opts (syncLoop steps cwd faults ctx opts k jobs fs).fs j) ∧
      (∀ q, fs.gone q → (syncLoop steps cwd faults ctx opts k jobs fs).fs.gone q) ∧
      ((∃ es, fs.find (fsPath cwd opts.TargetDir) = some (.dir es)) →
        ∃ es, (syncLoop steps cwd faults ctx opts k jobs fs).fs.find (fsPath cwd opts.TargetDir)
          = some (.dir es))
  | [], _, _, _ => ⟨fun _ j hj => by simp at hj, fun _ hq => hq, fun h => h⟩
  | j0 :: js, k, fs, hjobs => by
    obtain ⟨hp0, hen0⟩ := hjobs j0 (List.mem_cons_self _ _)
    obtain ⟨s1, s2, s3, _⟩ :=
      syncJob_disabled steps cwd faults (ctx.atBuild k) opts fs j0 hdry hT hCT hp0 hen0
    obtain ⟨r1, r2, r3⟩ := syncLoop_disabled steps cwd faults ctx opts hdry hT hCT js (k + 1)
      (syncJob steps cwd faults (ctx.atBuild k) opts fs j0).fs
      (fun j hj => hjobs j (List.mem_cons_of_mem _ hj))
    rw [syncLoop]
    by_cases hc : ctx.atJob k = true
    · rw [if_pos hc]
      exact ⟨fun h => Option.noConfusion h, fun _ hq => hq, fun h => h⟩
    · rw [if_neg hc]
      dsimp only
      cases he : (syncJob steps cwd faults (ctx.atBuild k) opts fs j0).err with
      | some e => exact ⟨fun h => Option.noConfusion h, s2, s3⟩
      | none =>
        dsimp only
        refine ⟨fun hok j hj => ?_, fun q hq => r2 q (s2 q hq), fun h => r3 (s3 h)⟩
        rcases List.mem_cons.mp hj with h | h
        · rw [h]
          exact jobSettled_mono cwd opts _ _ j0 r2 (s1 he)
        · exact r1 hok j h

/-- The loop over disabled jobs at rest returns no error and changes nothing. -/
theorem syncLoop_settled (steps : SyncSteps) (cwd : GoString) (faults : SyncFaults)
    (ctx : SyncCtx) (opts : SyncOptions) (hdry : opts.DryRun = false) (hT : opts.TargetDir ≠ [])
    (hCT : diverge (fsPath cwd opts.CronDir) (fsPath cwd opts.TargetDir))
    (hlive : ∀ k, ctx.atJob k = false) :
    ∀ (jobs : List Job) (k : Nat) (fs : Node),
      (∀ j ∈ jobs, jobPlain cwd opts j ∧ j.Spec.Enabled = false) →
      (∀ j ∈ jobs, jobSettled cwd opts fs j) →
      (syncLoop steps cwd faults ctx opts k jobs fs).err = none ∧
        (syncLoop steps cwd faults ctx opts k jobs fs).fs = fs
  | [], _, _, _, _ => ⟨rfl, rfl⟩
  | j0 :: js, k, fs, hjobs, hset => by
    obtain ⟨hp0, hen0⟩ := hjobs j0 (List.mem_cons_self _ _)
    obtain ⟨_, _, _, s4⟩ :=
      syncJob_disabled steps cwd faults (ctx.atBuild k) opts fs j0 hdry hT hCT hp0 hen0
    obtain ⟨e1, e2⟩ := s4 (hset j0 (List.mem_cons_self _ _))
    obtain ⟨r1, r2⟩ := syncLoop_settled steps cwd faults ctx opts hdry hT hCT hlive js (k + 1) fs
      (fun j hj => hjobs j (List.mem_cons_of_mem _ hj))
      (fun j hj => hset j (List.mem_cons_of_mem _ hj))
    rw [syncLoop, if_neg (by rw [hlive k]; exact Bool.false_ne_true)]
    dsimp only
    rw [e1]
    dsimp only
    rw [e2]
    exact ⟨r1, r2⟩

/-- Disabled jobs and no pruning: when a non-dry-run `Sync` has returned without
error, the same `Sync` run again on the result, with a context that is not
cancelled, returns without error as well. -/
theorem Sync_disabled_again (steps : SyncSteps) (cwd : GoString) (opts : SyncOptions)
    (hdry : opts.DryRun = false) (hno : opts.RemoveOrphans = false) (jobs : List Job)
    (hCT : diverge (fsPath cwd opts.withDefaults.CronDir)
      (fsPath cwd opts.withDefaults.TargetDir))
    (hids : ∀ j ∈ jobs, plainName j.ID) (hdis : ∀ j ∈ jobs, j.Spec.Enabled = false)
    (faults : SyncFaults) (ctx : SyncCtx) (fs : Node)
    (hok : (Sync steps cwd faults ctx opts fs jobs).err = none)
    (faults2 : SyncFaults) (ctx2 : SyncCtx) (hstart : ctx2.atStart = false)
    (hlive : ∀ k, ctx2.atJob k = false) :
    (Sync steps cwd faults2 ctx2 opts (Sync steps cwd faults ctx opts fs jobs).fs jobs).err
      = none := by
  have hdry2 : opts.withDefaults.DryRun = false := hdry
  have hno2 : opts.withDefaults.RemoveOrphans = false := hno
  have hT := withDefaults_TargetDir opts
  have hjobs : ∀ j ∈ jobs, jobPlain cwd opts.withDefaults j ∧ j.Spec.Enabled = false :=
    fun j hj => ⟨jobPlain_of_plainName cwd _ j hT (withDefaults_CronDir opts) (hids j hj),
      hdis j hj⟩
  -- what the first run leaves
  have hfirst : jobs.length = 0 ∨
      ((∀ j ∈ jobs, jobSettled cwd opts.withDefaults (Sync steps cwd faults ctx opts fs jobs).fs j) ∧
        ∃ es, (Sync steps cwd faults ctx opts fs jobs).fs.find
          (fsPath cwd opts.withDefaults.TargetDir) = some (.dir es)) := by
    by_cases hl : jobs.length = 0
    · exact Or.inl hl
    · right
      revert hok
      unfold Sync
      by_cases hs : ctx.atStart = true
      · rw [if_pos hs]
        exact fun h => Option.noConfusion h
      · rw [if_neg hs]
        dsimp only
        rw [if_neg hl]
        cases hm : MkdirAll cwd fs opts.withDefaults.TargetDir with
        | none => exact fun h => Option.noConfusion h
        | some fs0 =>
          dsimp only
          obtain ⟨r1, _, r3⟩ := syncLoop_disabled steps cwd faults ctx opts.withDefaults hdry2 hT
            hCT jobs 0 fs0 hjobs
          cases he : (syncLoop steps cwd faults ctx opts.withDefaults 0 jobs fs0).err with
          | some e => exact fun h => Option.noConfusion h
          | none =>
            dsimp only
            rw [hno2]
            simp only [Bool.false_eq_true, if_false]
            intro _
            exact ⟨r1 he, r3 (find_mkdirAll_self _ fs fs0 hm)⟩
  clear hok
  generalize (Sync steps cwd faults ctx opts fs jobs).fs = fs2 at hfirst ⊢
  unfold Sync
  rw [if_neg (by rw [hstart]; exact Bool.false_ne_true)]
  dsimp only
  by_cases hl : jobs.length = 0
  · rw [if_pos hl]
  · rw [if_neg hl]
    rcases hfirst with h | ⟨hset, es, hdir⟩
    · exact absurd h hl
    · obtain ⟨fs1, hm, _, hg⟩ := mkdirAll_of_dir _ _ es hdir
      have hm2 : MkdirAll cwd fs2 opts.withDefaults.TargetDir = some fs1 := hm
      rw [hm2]
      dsimp only
      obtain ⟨e1, _⟩ := syncLoop_settled steps cwd faults2 ctx2 opts.withDefaults hdry2 hT hCT
        hlive jobs 0 fs1 hjobs
        (fun j hj => jobSettled_mono cwd _ _ _ j hg (hset j hj))
      rw [e1]
      dsimp only
      rw [hno2]
      simp only [Bool.false_eq_true, if_false]

/-- C20, amended. Let the steps keep to their directories, let `writeCronFile`
change nothing but the registration it is given, let the identifiers of the jobs
be pairwise distinct plain names, and let the target directory lie apart from the
cron directory. Then after every non-dry-run `Sync` that returns without error,
each job of the list that is disabled or has an empty schedule has no entry
`cronctl-<id>` in the cron directory, whatever was there before, and every re-run
of the same `Sync` that returns without error leaves that absence unchanged. When
all jobs of the list are disabled and no pruning is asked for, the re-run, with a
context that is not cancelled, does return without error. -/
theorem Sync_unregisters (steps : SyncSteps) (cwd : GoString) (hF : steps.Framed cwd)
    (hown : ∀ dry fs cronPath j target q, diverge (fsPath cwd cronPath) q →
      (steps.writeCronFile dry fs cronPath j target).2.find q = fs.find q)
    (opts : SyncOptions) (hdry : opts.DryRun = false) (jobs : List Job)
    (hCT : diverge (fsPath cwd opts.withDefaults.CronDir)
      (fsPath cwd opts.withDefaults.TargetDir))
    (hids : ∀ j ∈ jobs, plainName j.ID)
    (hnd : (jobs.map (·.ID)).Nodup)
    (faults : SyncFaults) (ctx : SyncCtx) (fs : Node)
    (hok : (Sync steps cwd faults ctx opts fs jobs).err = none) :
    (∀ j ∈ jobs, (j.Spec.Enabled = false ∨ j.Spec.Schedule = []) →
      (Sync steps cwd faults ctx opts fs jobs).fs.find
        (fsPath cwd opts.withDefaults.CronDir ++ [str "cronctl-" ++ j.ID]) = none ∧
      ∀ faults2 ctx2,
        (Sync steps cwd faults2 ctx2 opts (Sync steps cwd faults ctx opts fs jobs).fs jobs).err
          = none →
        (Sync steps cwd faults2 ctx2 opts (Sync steps cwd faults ctx opts fs jobs).fs jobs).fs.find
          (fsPath cwd opts.withDefaults.CronDir ++ [str "cronctl-" ++ j.ID]) = none) ∧
    ((∀ j ∈ jobs, j.Spec.Enabled = false) → opts.RemoveOrphans = false →
      ∀ faults2 ctx2, ctx2.atStart = false → (∀ k, ctx2.atJob k = false) →
        (Sync steps cwd faults2 ctx2 opts (Sync steps cwd faults ctx opts fs jobs).fs jobs).err
          = none) := by
  have hdry2 : opts.withDefaults.DryRun = false := hdry
  have hjobs : ∀ j ∈ jobs, jobPlain cwd opts.withDefaults j := fun j hj =>
    jobPlain_of_plainName cwd _ j (withDefaults_TargetDir opts) (withDefaults_CronDir opts)
      (hids j hj)
  have key : ∀ (faults : SyncFaults) (ctx : SyncCtx) (fs : Node),
      (Sync steps cwd faults ctx opts fs jobs).err = none →
      ∀ j ∈ jobs, (j.Spec.Enabled = false ∨ j.Spec.Schedule = []) →
        (Sync steps cwd faults ctx opts fs jobs).fs.find
          (fsPath cwd opts.withDefaults.CronDir ++ [str "cronctl-" ++ j.ID]) = none := by
    intro faults ctx fs hok j hj hoff
    revert hok
    unfold Sync
    by_cases hs : ctx.atStart = true
    · rw [if_pos hs]
      exact fun h => Option.noConfusion h
    · rw [if_neg hs]
      dsimp only
      by_cases hl : jobs.length = 0
      · have : jobs = [] := List.length_eq_zero.mp hl
        rw [this] at hj
        simp at hj
      · rw [if_neg hl]
        cases hm : MkdirAll cwd fs opts.withDefaults.TargetDir with
        | none => exact fun h => Option.noConfusion h
        | some fs0 =>
          dsimp only
          have hu := syncLoop_unregisters steps cwd hF hown faults ctx opts.withDefaults hdry2
            (withDefaults_TargetDir opts) hCT jobs 0 fs0 hjobs hnd
          cases he : (syncLoop steps cwd faults ctx opts.withDefaults 0 jobs fs0).err with
          | some e => exact fun h => Option.noConfusion h
          | none =>
            dsimp only
            split
            · intro _
              exact hF.prune _ _ _ _ _ (hu he j hj hoff)
            · intro _
              exact hu he j hj hoff
  exact ⟨fun j hj hoff =>
      ⟨key faults ctx fs hok j hj hoff, fun faults2 ctx2 h2 => key faults2 ctx2 _ h2 j hj hoff⟩,
    fun hdis hno faults2 ctx2 hstart hlive =>
      Sync_disabled_again steps cwd opts hdry hno jobs hCT hids hdis faults ctx fs hok faults2
        ctx2 hstart hlive⟩

set_option maxRecDepth 200000 in
/-- C20 at two failing inputs. First: job `a` has a build step and no schedule,
and its build script succeeds only while nothing is deployed at `/opt/jobs/a`.
With a forced build the first `Sync` returns without error and the same `Sync`,
run again on the result, returns the build error. Second: the payloads and the
registrations share the directory `/srv`, and the jobs are `a` and `cronctl-a`,
both enabled and without schedule. The `Sync` returns without error and leaves
the payload of job `cronctl-a` as the entry `cronctl-a` of the cron directory;
the same `Sync`, run again, fails to remove that entry for job `a`. -/
theorem Sync_rerun_fails :
    ([builtJobA].map (·.ID)).Nodup ∧
      (Sync (worldSteps firstInstallWorld cronRefused) (str "/") SyncFaults.none liveSyncCtx
        forcedOptions payloadFs [builtJobA]).err = none ∧
      (Sync (worldSteps firstInstallWorld cronRefused) (str "/") SyncFaults.none liveSyncCtx
        forcedOptions
        (Sync (worldSteps firstInstallWorld cronRefused) (str "/") SyncFaults.none liveSyncCtx
          forcedOptions payloadFs [builtJobA]).fs [builtJobA]).err = some .build ∧
      ([plainJobA, plainJobCronctlA].map (·.ID)).Nodup ∧
      (Sync (worldSteps quietWorld cronRefused) (str "/") SyncFaults.none liveSyncCtx
        sharedDirOptions payloadFs [plainJobA, plainJobCronctlA]).err = none ∧
      Lstat (str "/") (Sync (worldSteps quietWorld cronRefused) (str "/") SyncFaults.none
        liveSyncCtx sharedDirOptions payloadFs [plainJobA, plainJobCronctlA]).fs
        (str "/srv/cronctl-a")
        = some (.dir [(str "build.sh", .file 493 (some (str "#!/bin/sh\n")))]) ∧
      (Sync (worldSteps quietWorld cronRefused) (str "/") SyncFaults.none liveSyncCtx
        sharedDirOptions
        (Sync (worldSteps quietWorld cronRefused) (str "/") SyncFaults.none liveSyncCtx
          sharedDirOptions payloadFs [plainJobA, plainJobCronctlA]).fs
        [plainJobA, plainJobCronctlA]).err = some .remove := by
  refine ⟨by decide, by decide, by decide, by decide, by decide, rfl, by decide⟩

set_option maxRecDepth 200000 in
/-- Witness of C20: job `a` is disabled and has a registration from before; the
`Sync` returns without error and the registration is gone. A disabled job calls
none of the steps that write a state file, the steps are those of `plainSteps`. -/
theorem Sync_unregisters_witness :
    Lstat (str "/") registeredFs (str "/etc/cron.d/cronctl-a")
        = some (.file 420 (some (str "# old cron\n"))) ∧
      (∀ j ∈ [disabledJobA], (j.Spec.Enabled = false ∨ j.Spec.Schedule = []) →
        (Sync (worldSteps quietWorld cronRefused) (str "/") SyncFaults.none liveSyncCtx
          demoOptions registeredFs [disabledJobA]).fs.find
          (fsPath (str "/") demoOptions.withDefaults.CronDir ++ [str "cronctl-" ++ j.ID])
          = none ∧
        ∀ faults2 ctx2,
          (Sync (worldSteps quietWorld cronRefused) (str "/") faults2 ctx2 demoOptions
            (Sync (worldSteps quietWorld cronRefused) (str "/") SyncFaults.none liveSyncCtx
              demoOptions registeredFs [disabledJobA]).fs [disabledJobA]).err = none →
          (Sync (worldSteps quietWorld cronRefused) (str "/") faults2 ctx2 demoOptions
            (Sync (worldSteps quietWorld cronRefused) (str "/") SyncFaults.none liveSyncCtx
              demoOptions registeredFs [disabledJobA]).fs [disabledJobA]).fs.find
            (fsPath (str "/") demoOptions.withDefaults.CronDir ++ [str "cronctl-" ++ j.ID])
            = none) ∧
      ((∀ j ∈ [disabledJobA], j.Spec.Enabled = false) → demoOptions.RemoveOrphans = false →
        ∀ faults2 ctx2, ctx2.atStart = false → (∀ k, ctx2.atJob k = false) →
          (Sync (worldSteps quietWorld cronRefused) (str "/") faults2 ctx2 demoOptions
            (Sync (worldSteps quietWorld cronRefused) (str "/") SyncFaults.none liveSyncCtx
              demoOptions registeredFs [disabledJobA]).fs [disabledJobA]).err = none) := by
  have e : ∀ faults ctx fs,
      Sync (worldSteps quietWorld cronRefused) (str "/") faults ctx demoOptions fs [disabledJobA]
      = Sync (plainSteps quietWorld cronRefused) (str "/") faults ctx demoOptions fs
        [disabledJobA] :=
    fun faults ctx fs => Sync_disabled_steps _ _ (str "/") faults ctx demoOptions fs
      [disabledJobA] rfl (by decide)
  refine ⟨rfl, ?_⟩
  simp only [e]
  exact Sync_unregisters (plainSteps quietWorld cronRefused) (str "/") quietWorld_framed
      (fun _ _ _ _ _ _ _ => rfl) demoOptions rfl [disabledJobA]
      (by unfold diverge; decide)
      (fun j hj => by
        rw [List.mem_singleton.mp hj]
        unfold plainName
        decide)
      (by decide) SyncFaults.none liveSyncCtx registeredFs (by decide)

/-! ## The byte stream as an encoding (C30) -/

theorem FileMode.String_no_nul (m : Nat) : 0 ∉ FileMode.String m := by
  unfold FileMode.String
  intro h
  simp only [List.mem_append] at h
  rcases h with h | h
  · split at h
    · simp at h
    · rw [List.mem_filterMap] at h
      obtain ⟨i, hi, h2⟩ := h
      split at h2
      · have h3 := List.get?_mem h2
        revert h3
        decide
      · cases h2
  · rw [List.mem_map] at h
    obtain ⟨i, hi, h2⟩ := h
    rw [List.mem_range] at hi
    split at h2
    · revert h2
      interval_cases i <;> decide
    · cases h2

theorem nul_split {a b r s : List Nat} (ha : 0 ∉ a) (hb : 0 ∉ b)
    (h : a ++ 0 :: r = b ++ 0 :: s) : a = b ∧ r = s := by
  induction a generalizing b with
  | nil =>
    cases b with
    | nil => simpa using h
    | cons y ys =>
      simp only [List.nil_append, List.cons_append, List.cons.injEq] at h
      exact absurd (h.1 ▸ List.mem_cons_self _ _) hb
  | cons x xs ih =>
    cases b with
    | nil =>
      simp only [List.nil_append, List.cons_append, List.cons.injEq] at h
      exact absurd (h.1 ▸ List.mem_cons_self _ _) ha
    | cons y ys =>
      simp only [List.cons_append, List.cons.injEq] at h
      have := ih (fun hx => ha (List.mem_cons_of_mem _ hx)) (fun hy => hb (List.mem_cons_of_mem _ hy)) h.2
      exact ⟨by rw [h.1, this.1], this.2⟩

theorem encodeItem_split {x y : item} {r s : List Nat}
    (hx : 0 ∉ x.path ∧ 0 ∉ x.data) (hy : 0 ∉ y.path ∧ 0 ∉ y.data)
    (h : encodeItem x ++ r = encodeItem y ++ s) : x.triple = y.triple ∧ r = s := by
  unfold encodeItem at h
  simp only [List.append_assoc, List.cons_append, List.nil_append] at h
  have h1 := nul_split hx.1 hy.1 h
  have h2 := nul_split (FileMode.String_no_nul _) (FileMode.String_no_nul _) h1.2
  have h3 := nul_split hx.2 hy.2 h2.2
  exact ⟨by unfold item.triple; rw [h1.1, h2.1, h3.1], h3.2⟩

theorem encodeItem_ne_nil (x : item) (r : List Nat) : encodeItem x ++ r ≠ [] := by
  unfold encodeItem
  cases x.path <;> simp

/-- C30, counterexample: two path-sorted lists with distinct paths that differ (one
file `a` against two files `a` and `b`) and feed the same byte stream to the
digest, hence get the same fingerprint under every digest function: the content of
the single file holds NUL bytes and spells out the rest of the other stream. -/
theorem foldItems_not_injective :
    nulFileItems.Pairwise pathLt ∧ twoFileItems.Pairwise pathLt ∧
      nulFileItems.map item.triple ≠ twoFileItems.map item.triple ∧
      foldItems nulFileItems = foldItems twoFileItems ∧
      hashStream nulFileItems = hashStream twoFileItems ∧
      ∀ sha256hex, hashItems sha256hex nulFileItems = hashItems sha256hex twoFileItems := by
  have h : hashStream nulFileItems = hashStream twoFileItems := by decide
  refine ⟨by decide, by decide, by decide, by decide, h, ?_⟩
  intro sha
  unfold hashItems
  rw [h]

/-- C30, amended: on lists of items whose paths and contents hold no NUL byte, the
byte stream (path, NUL, mode string, NUL, content, NUL per item) determines the
list of (path, mode string, content) triples: equal streams come from equal
lists. -/
theorem foldItems_injective (a b : List item)
    (ha : ∀ it ∈ a, 0 ∉ it.path ∧ 0 ∉ it.data) (hb : ∀ it ∈ b, 0 ∉ it.path ∧ 0 ∉ it.data)
    (h : foldItems a = foldItems b) : a.map item.triple = b.map item.triple := by
  induction a generalizing b with
  | nil =>
    cases b with
    | nil => rfl
    | cons y ys =>
      simp only [foldItems, List.map_nil, List.flatten_nil, List.map_cons, List.flatten_cons] at h
      exact absurd h.symm (encodeItem_ne_nil _ _)
  | cons x xs ih =>
    cases b with
    | nil =>
      simp only [foldItems, List.map_nil, List.flatten_nil, List.map_cons, List.flatten_cons] at h
      exact absurd h (encodeItem_ne_nil _ _)
    | cons y ys =>
      simp only [foldItems, List.map_cons, List.flatten_cons] at h
      have h1 := encodeItem_split (ha x (List.mem_cons_self _ _)) (hb y (List.mem_cons_self _ _)) h
      have h2 := ih ys (fun it hit => ha it (List.mem_cons_of_mem _ hit))
        (fun it hit => hb it (List.mem_cons_of_mem _ hit)) h1.2
      simp only [List.map_cons, h1.1, h2]

/-- C30, witness: the two-file list, whose paths and contents hold no NUL byte. -/
theorem foldItems_injective_witness :
    (∀ it ∈ twoFileItems, 0 ∉ it.path ∧ 0 ∉ it.data) ∧
      foldItems twoFileItems = foldItems twoFileItems ∧
      twoFileItems.map item.triple = twoFileItems.map item.triple :=
  ⟨by decide, rfl, foldItems_injective twoFileItems twoFileItems (by decide) (by decide) rfl⟩

/-! ## `exec.go`: the structured failure (C29) -/

theorem trimOneLine_no_break (s : GoString) : 10 ∉ trimOneLine s ∧ 13 ∉ trimOneLine s := by
  induction s with
  | nil => simp [trimOneLine]
  | cons c s ih =>
    unfold trimOneLine
    split
    · simp
    · rename_i h
      simp only [not_or] at h
      simp only [List.mem_cons, not_or]
      exact ⟨⟨fun e => h.1 e.symm, ih.1⟩, ⟨fun e => h.2 e.symm, ih.2⟩⟩

theorem trimOneLine_eq_self (s : GoString) : trimOneLine s = s ↔ 10 ∉ s ∧ 13 ∉ s := by
  constructor
  · intro h
    rw [← h]
    exact trimOneLine_no_break s
  · intro h
    induction s with
    | nil => rfl
    | cons c s ih =>
      simp only [List.mem_cons, not_or] at h
      unfold trimOneLine
      rw [if_neg (by
        intro e
        rcases e with e | e
        · exact h.1.1 e.symm
        · exact h.2.1 e.symm), ih ⟨h.1.2, h.2.2⟩]

/-- What `runBuild` returns when the process exits with a nonzero status: an
`execError` with the absolute path, the exit code, the captured standard output,
and of the captured standard error the first line only. -/
theorem runBuild_exit_nonzero (env : Env) (fs : Node) (jobDir entrypoint : GoString) (run : Run)
    (code : Int) (hexec : env.exec fs (Abs env.cwd (Join [jobDir, entrypoint])) jobDir = some run)
    (hexit : run.exit = some code) (hcode : code ≠ 0) :
    (runBuild env false false fs jobDir entrypoint).err
      = some (.exitError { Path := Abs env.cwd (Join [jobDir, entrypoint]), Code := code,
                           Stdout := run.stdout, Stderr := trimOneLine run.stderr }) := by
  unfold runBuild
  simp only [Bool.false_eq_true, if_false, hexec, hexit, if_neg hcode]

/-- C29 at a failing input: the build script writes two lines to standard error
and exits with status 2. The `execError` returned carries the absolute path, the
exit code and the standard output, and its `Stderr` field holds the first line
only; the second line is in no field of the value, and the message shows the
first line. -/
theorem runBuild_stderr_cut :
    ((noisyEnv.exec plainFs (str "/job/build.sh") (str "/job")).map fun r => (r.stdout, r.stderr))
        = some (str "compiling\n", str "boom\nstack trace\n") ∧
      (runBuild noisyEnv false false plainFs (str "/job") (str "build.sh")).err
        = some (.exitError { Path := str "/job/build.sh", Code := 2, Stdout := str "compiling\n",
                             Stderr := str "boom" }) ∧
      execError.Error { Path := str "/job/build.sh", Code := 2, Stdout := str "compiling\n",
                        Stderr := str "boom" } = str "exit 2: boom" := by
  decide

/-! ## `lookupPasswd` (C28) -/

theorem scanRun_of_scanLines (b : List Nat) (lines : List GoString)
    (h : scanLines b = some lines) : scanRun b = (lines, false) := by
  unfold scanLines at h
  unfold scanRun
  simp only at h ⊢
  generalize (if (splitOn 10 b).getLast? = some [] then (splitOn 10 b).dropLast
    else splitOn 10 b) = ls at h ⊢
  by_cases hany : (ls.any fun l => decide (maxScanTokenSize ≤ l.length)) = true
  · rw [if_pos hany] at h
    cases h
  · rw [if_neg hany] at h
    simp only [Option.some.injEq] at h
    have hall : ∀ l ∈ ls, decide (l.length < maxScanTokenSize) = true := by
      intro l hl
      simp only [List.any_eq_true, decide_eq_true_eq, not_exists, not_and, not_le] at hany
      exact decide_eq_true (hany l hl)
    rw [List.takeWhile_eq_self_iff.mpr hall, h]
    simp

theorem passwdLoop_eq (username : GoString) : ∀ lines : List GoString,
    passwdLoop username lines = (passwdMatch username lines).map fun p => passwdResult (some p) := by
  intro lines
  induction lines with
  | nil => rfl
  | cons raw rest ih =>
    unfold passwdMatch passwdEntries at ih ⊢
    rw [passwdLoop]
    simp only [List.map_cons]
    by_cases h1 : TrimSpace raw = [] ∨ HasPrefix (TrimSpace raw) (str "#") = true
    · rw [if_pos h1, ih, List.filter_cons_of_neg]
      rcases h1 with h1 | h1
      · simp [h1]
      · simp [h1]
    · rw [if_neg h1]
      simp only [not_or] at h1
      rw [List.filter_cons_of_pos (by simp [h1.1, h1.2])]
      simp only [List.map_cons]
      by_cases h2 : (splitOn 58 (TrimSpace raw)).length < 4
      · rw [if_pos h2, ih, List.filter_cons_of_neg (by simpa using h2)]
      · rw [if_neg h2, List.filter_cons_of_pos (by simpa using h2)]
        by_cases h3 : (splitOn 58 (TrimSpace raw)).getD 0 [] ≠ username
        · rw [if_pos h3, ih, List.find?_cons_of_neg]
          cases hs : splitOn 58 (TrimSpace raw) with
          | nil => simp
          | cons p ps =>
            rw [hs] at h3
            simpa using h3
        · rw [if_neg h3, List.find?_cons_of_pos]
          · simp only [Option.map_some', passwdResult]
            cases Atoi ((splitOn 58 (TrimSpace raw)).getD 2 []) with
            | none => rfl
            | some uid =>
              cases Atoi ((splitOn 58 (TrimSpace raw)).getD 3 []) with
              | none => rfl
              | some gid => rfl
          · cases hs : splitOn 58 (TrimSpace raw) with
            | nil => exact absurd hs (splitOn_ne_nil _ _)
            | cons p ps =>
              rw [hs] at h3
              simpa using h3

theorem passwdResult_some_ne (p : List GoString) : passwdResult (some p) ≠ .error .userNotFound := by
  simp only [passwdResult]
  split <;> simp

theorem lookupPasswd_scan_error (cwd : GoString) (fs : Node) (mode : Nat) (line : List Nat)
    (username : GoString)
    (hfile : Stat cwd fs (str "/etc/passwd") = some (.file mode (some line)))
    (hnl : 10 ∉ line) (hlen : maxScanTokenSize ≤ line.length) :
    lookupPasswd cwd fs username = .error .scanPasswd := by
  have hsplit : splitOn 10 line = [line] := splitOn_no_sep 10 _ hnl
  have hne : line ≠ [] := by
    intro h
    rw [h] at hlen
    simp [maxScanTokenSize] at hlen
  have hrun : scanRun line = ([], true) := by
    unfold scanRun
    rw [hsplit]
    have hne2 : ([line] : List GoString).getLast? ≠ some [] := by
      simp only [List.getLast?_singleton, ne_eq, Option.some.injEq]
      exact hne
    simp only [if_neg hne2]
    rw [List.takeWhile_cons_of_neg (by simpa using hlen)]
    simp
  unfold lookupPasswd
  rw [hfile]
  simp only [hrun]
  rfl

/-- C28, counterexample: a user database of one line too long for the scanner.
No line matches the name, and the result is the scan error, not the not-found
error. -/
theorem lookupPasswd_long_line :
    lookupPasswd (str "/") longLineFs (str "alice") = .error .scanPasswd := by
  apply lookupPasswd_scan_error (str "/") longLineFs 420 (List.replicate 65536 120)
  · rfl
  · intro h
    have := List.eq_of_mem_replicate h
    omega
  · rw [List.length_replicate]
    exact Nat.le_refl _

/-- C28, amended: when the user database can be read and none of its lines is too
long for the scanner, the result of `lookupPasswd` is determined by the first
line (trimmed; blank lines, `#` lines and lines with fewer than four fields
skipped) whose first field is the name: uid and gid from its third and fourth
field when `strconv.Atoi` accepts both, the parse error of the first field it
does not accept otherwise, and the not-found error exactly when there is no
such line. -/
theorem lookupPasswd_spec (cwd : GoString) (fs : Node) (mode : Nat) (text : List Nat)
    (lines : List GoString) (username : GoString)
    (hfile : Stat cwd fs (str "/etc/passwd") = some (.file mode (some text)))
    (hlines : scanLines text = some lines) :
    lookupPasswd cwd fs username = passwdResult (passwdMatch username lines) ∧
      (lookupPasswd cwd fs username = .error .userNotFound ↔ passwdMatch username lines = none) := by
  have h1 : lookupPasswd cwd fs username = passwdResult (passwdMatch username lines) := by
    unfold lookupPasswd
    rw [hfile]
    simp only [scanRun_of_scanLines text lines hlines, passwdLoop_eq]
    cases passwdMatch username lines with
    | none => rfl
    | some p => rfl
  refine ⟨h1, ?_⟩
  rw [h1]
  cases h : passwdMatch username lines with
  | none => simp [passwdResult]
  | some p => simp [passwdResult_some_ne]

/-- C28, witness: a database of four lines; `alice` is found on the indented third
line, `bob` has a malformed uid, `carol` is not there. -/
theorem lookupPasswd_spec_witness :
    (lookupPasswd (str "/") passwdFs (str "alice") = .ok (1000, 100) ∧
      lookupPasswd (str "/") passwdFs (str "bob") = .error .parseUid ∧
      lookupPasswd (str "/") passwdFs (str "carol") = .error .userNotFound) ∧
    (lookupPasswd (str "/") passwdFs (str "alice")
        = passwdResult (passwdMatch (str "alice")
            [str "root:x:0:0:root:/root:/bin/sh", str "# staff",
             str "  alice:x:1000:100::/home/alice:/bin/sh", str "bob:x:abc:1"]) ∧
      (lookupPasswd (str "/") passwdFs (str "alice") = .error .userNotFound ↔
        passwdMatch (str "alice")
            [str "root:x:0:0:root:/root:/bin/sh", str "# staff",
             str "  alice:x:1000:100::/home/alice:/bin/sh", str "bob:x:abc:1"] = none)) :=
  ⟨by decide, lookupPasswd_spec (str "/") passwdFs 420 passwdText _ (str "alice") rfl (by decide)⟩

/-! ## `copyJobDir`: the path-traversal test (C25, C26) -/

theorem Contains_nil_dots : Contains [] (str "..") = false := by decide

theorem Contains_append_sep (a b : GoString) :
    Contains (a ++ 47 :: b) (str "..") = (Contains a (str "..") || Contains b (str "..")) := by
  induction a with
  | nil =>
    rw [List.nil_append, Contains_cons, Contains_nil_dots]
    have : (str "..").isPrefixOf (47 :: b) = false := by
      show ([46, 46] : List Nat).isPrefixOf (47 :: b) = false
      simp [List.isPrefixOf]
    rw [this]
  | cons c a ih =>
    rw [List.cons_append, Contains_cons, Contains_cons, ih]
    have : (str "..").isPrefixOf (c :: (a ++ 47 :: b)) = (str "..").isPrefixOf (c :: a) := by
      show ([46, 46] : List Nat).isPrefixOf (c :: (a ++ 47 :: b))
        = ([46, 46] : List Nat).isPrefixOf (c :: a)
      cases a with
      | nil => simp [List.isPrefixOf]
      | cons d a2 => simp [List.isPrefixOf]
    rw [this, Bool.or_assoc]

theorem Contains_joinRel (relDir name : GoString) (h1 : Contains relDir (str "..") = false)
    (h2 : Contains name (str "..") = false) : Contains (joinRel relDir name) (str "..") = false := by
  unfold joinRel
  split
  · exact h2
  · rw [Contains_append_sep, h1, h2]
    rfl

theorem copyVerdict_clean (rel : GoString) (h : Contains rel (str "..") = false) (r : Option SyncError)
    (hv : copyVerdict rel = some r) : r = none := by
  unfold copyVerdict at hv
  rw [if_neg (by simp [h])] at hv
  split at hv
  · simpa using hv.symm
  · split at hv
    · simpa using hv.symm
    · cases hv

/-- The callback of `copyJobDir` on an entry whose relative path holds `..`
returns the path-traversal error and writes nothing. -/
theorem copyNode_traversal (cwd dst rel : GoString) (n fs : Node)
    (h : Contains rel (str "..") = true) :
    copyNode cwd dst rel n fs = (some .pathTraversal, fs) := by
  have hv : copyVerdict rel = some (some .pathTraversal) := by
    unfold copyVerdict
    rw [if_pos h]
  cases n with
  | dir es => rw [copyNode, hv]
  | symlink t => rw [copyNode, hv]
  | file m d => rw [copyNode, hv]

mutual
theorem copyNode_no_traversal (cwd dst : GoString) :
    ∀ (rel : GoString) (n fs : Node), Contains rel (str "..") = false → n.dotted = false →
      (copyNode cwd dst rel n fs).1 ≠ some .pathTraversal
  | rel, .dir es, fs, hrel, hn => by
    rw [copyNode]
    cases hv : copyVerdict rel with
    | some r =>
      rw [copyVerdict_clean rel hrel r hv]
      simp
    | none =>
      dsimp only
      cases hm : MkdirAll cwd fs (Join [dst, rel]) with
      | none => simp
      | some fs1 =>
        dsimp only
        rw [Node.dotted] at hn
        exact copyEntries_no_traversal cwd dst rel es fs1 hrel hn
  | rel, .symlink target, fs, hrel, _ => by
    rw [copyNode]
    cases hv : copyVerdict rel with
    | some r =>
      rw [copyVerdict_clean rel hrel r hv]
      simp
    | none =>
      dsimp only
      cases hm : MkdirAll cwd fs (Dir (Join [dst, rel])) with
      | none => simp
      | some fs1 =>
        dsimp only
        cases hs : Symlink cwd fs1 target (Join [dst, rel]) with
        | none => simp
        | some fs2 => simp
  | rel, .file mode data, fs, hrel, _ => by
    rw [copyNode]
    cases hv : copyVerdict rel with
    | some r =>
      rw [copyVerdict_clean rel hrel r hv]
      simp
    | none =>
      dsimp only
      by_cases hreg : (!FileMode.IsRegular mode) = true
      · rw [if_pos hreg]
        simp
      · rw [if_neg hreg]
        cases hm : MkdirAll cwd fs (Dir (Join [dst, rel])) with
        | none => simp
        | some fs1 =>
          dsimp only
          cases hs : copyFile cwd fs1 data (Join [dst, rel]) (mode &&& 511) with
          | none => simp
          | some fs2 => simp
theorem copyEntries_no_traversal (cwd dst : GoString) :
    ∀ (relDir : GoString) (es : List (GoString × Node)) (fs : Node),
      Contains relDir (str "..") = false → entriesDotted es = false →
      (copyEntries cwd dst relDir es fs).1 ≠ some .pathTraversal
  | _, [], fs, _, _ => by
    rw [copyEntries]
    simp
  | relDir, (name, n) :: es, fs, hrel, hes => by
    rw [copyEntries]
    rw [entriesDotted] at hes
    simp only [Bool.or_eq_false_iff] at hes
    have e1 := copyNode_no_traversal cwd dst (joinRel relDir name) n fs
      (Contains_joinRel relDir name hrel hes.1.1) hes.1.2
    cases hr : copyNode cwd dst (joinRel relDir name) n fs with
    | mk r fs1 =>
      rw [hr] at e1
      cases r with
      | some e => exact e1
      | none =>
        dsimp only
        exact copyEntries_no_traversal cwd dst relDir es fs1 hrel hes.2
end

theorem copyEntries_append (cwd dst relDir : GoString) :
    ∀ (pre post : List (GoString × Node)) (fs : Node),
      (copyEntries cwd dst relDir pre fs).1 = none →
      copyEntries cwd dst relDir (pre ++ post) fs
        = copyEntries cwd dst relDir post (copyEntries cwd dst relDir pre fs).2
  | [], post, fs, _ => by
    rw [List.nil_append, copyEntries]
  | (name, n) :: pre, post, fs, h => by
    rw [List.cons_append, copyEntries, copyEntries]
    rw [copyEntries] at h
    revert h
    cases hr : copyNode cwd dst (joinRel relDir name) n fs with
    | mk r fs1 =>
      cases r with
      | some e =>
        intro h
        cases h
      | none =>
        intro h
        dsimp only at h ⊢
        exact copyEntries_append cwd dst relDir pre post fs1 h

/-- C25, counterexample: a job directory with a file called `a..b`. No relative
path of the walk has a `..` segment, and `copyJobDir` fails with the
path-traversal error. -/
theorem copyJobDir_rejects_dotted_name :
    (copyJobDir (str "/") false dottedFs (str "/job") (str "/stage")).1 = some .pathTraversal ∧
      str ".." ∉ splitOn 47 (str "a..b") ∧ str ".." ∉ splitOn 47 (str "build.sh") := by
  decide

/-- C25, amended: the test is on the text of the relative path. The callback of
the walk returns the path-traversal error, writing nothing, on every entry whose
relative path holds the two characters `..`; `copyJobDir` fails with that error
when such an entry stands in the job directory after entries that were copied
without error; and a job directory in which no entry name holds `..` is never
rejected with that error. -/
theorem copyJobDir_traversal (cwd : GoString) (fs fs1 : Node) (src dst : GoString)
    (es : List (GoString × Node)) (hm : MkdirAll cwd fs dst = some fs1)
    (hl : Lstat cwd fs1 src = some (.dir es)) :
    (∀ rel n fs2, Contains rel (str "..") = true →
        copyNode cwd dst rel n fs2 = (some .pathTraversal, fs2)) ∧
      (∀ pre name n post, es = pre ++ (name, n) :: post →
        (copyEntries cwd dst (str ".") pre fs1).1 = none → Contains name (str "..") = true →
        (copyJobDir cwd false fs src dst).1 = some .pathTraversal) ∧
      (entriesDotted es = false →
        (copyJobDir cwd false fs src dst).1 ≠ some .pathTraversal) := by
  have hcopy : copyJobDir cwd false fs src dst = copyEntries cwd dst (str ".") es fs1 := by
    unfold copyJobDir
    simp only [Bool.false_eq_true, if_false, hm, hl]
  refine ⟨fun rel n fs2 h => copyNode_traversal cwd dst rel n fs2 h, ?_, ?_⟩
  · intro pre name n post hes hpre hname
    rw [hcopy, hes, copyEntries_append cwd dst (str ".") pre _ fs1 hpre, copyEntries]
    have hj : joinRel (str ".") name = name := by
      unfold joinRel
      rw [if_pos rfl]
    rw [hj, copyNode_traversal cwd dst name n _ hname]
  · intro hes
    rw [hcopy]
    exact copyEntries_no_traversal cwd dst (str ".") es fs1 (by decide) hes

/-- C25, witness: the job directory with the file `a..b` is rejected at its first
entry. -/
theorem copyJobDir_traversal_witness :
    (∀ rel n fs2, Contains rel (str "..") = true →
        copyNode (str "/") (str "/stage") rel n fs2 = (some .pathTraversal, fs2)) ∧
      (∀ pre name n post,
        [(str "a..b", Node.file 420 (some (str "x"))),
          (str "build.sh", Node.file 493 (some (str "#!/bin/sh\n")))] = pre ++ (name, n) :: post →
        (copyEntries (str "/") (str "/stage") (str ".") pre
          (Node.dir [(str "job", .dir [
            (str "a..b", .file 420 (some (str "x"))),
            (str "build.sh", .file 493 (some (str "#!/bin/sh\n")))]),
            (str "stage", .dir [])])).1 = none →
        Contains name (str "..") = true →
        (copyJobDir (str "/") false dottedFs (str "/job") (str "/stage")).1 = some .pathTraversal) ∧
      (entriesDotted [(str "a..b", Node.file 420 (some (str "x"))),
          (str "build.sh", Node.file 493 (some (str "#!/bin/sh\n")))] = false →
        (copyJobDir (str "/") false dottedFs (str "/job") (str "/stage")).1 ≠ some .pathTraversal) :=
  copyJobDir_traversal (str "/") dottedFs _ (str "/job") (str "/stage") _ rfl rfl

theorem Symlink_find (cwd : GoString) (fs fs1 : Node) (target path : GoString)
    (h : Symlink cwd fs target path = some fs1) :
    fs1.find (fsPath cwd path) = some (.symlink target) := by
  unfold Symlink at h
  cases hf : fs.find (fsPath cwd path) with
  | some n =>
    rw [hf] at h
    cases h
  | none =>
    rw [hf] at h
    exact find_put_same _ fs _ fs1 h

set_option maxRecDepth 200000 in
/-- A copy into a staging directory that is not new can leave it: `/stage` holds a
link `x` to `/victim` when the file `/job/x` is copied; `copyFile` opens
`/stage/x` with `O_TRUNC`, the link is followed, and `/victim` is overwritten,
keeping its mode. -/
theorem copyJobDir_through_link :
    freshCopy (str "/") linkedStageFs (str "/job") (str "/stage") = false ∧
      (copyJobDir (str "/") false linkedStageFs (str "/job") (str "/stage")).1 = none ∧
      (copyJobDir (str "/") false linkedStageFs (str "/job") (str "/stage")).2.find
          [str "victim"] = some (.file 384 (some (str "new\n"))) ∧
      (copyJobDir (str "/") false linkedStageFs (str "/job") (str "/stage")).2.find
          [str "stage", str "x"] = some (.symlink (str "/victim")) :=
  ⟨by decide, by decide, rfl, rfl⟩

/-- C26, counterexample: the job directory holds a link `escape` to
`../etc/passwd`, which resolves to `/etc/passwd` outside the job directory.
`copyJobDir` returns no error and the staging directory holds the link with the
same target. -/
theorem copyJobDir_stages_escaping_link :
    linkPath [str "job"] (str "../etc/passwd") = [str "etc", str "passwd"] ∧
      (copyJobDir (str "/") false escapeFs (str "/job") (str "/stage")).1 = none ∧
      (copyJobDir (str "/") false escapeFs (str "/job") (str "/stage")).2.find
          [str "stage", str "escape"] = some (.symlink (str "../etc/passwd")) :=
  ⟨by decide, by decide, rfl⟩

/-- C26, amended: the target of a link is not looked at. For a link at a relative
path without `..` the callback never returns the path-traversal error, whatever
the target, and when it returns no error and the path is not one of the skipped
ones the staging directory holds a link with the same target. A copy into a
staging root `dst` that is an empty directory outside the job directory, as
`os.MkdirTemp` leaves it, leaves every path alone that is neither below `dst`
nor on the way to it; the job directory is a tree a filesystem can hold, with
every name once in its directory. -/
theorem copyJobDir_link_verbatim (cwd dst : GoString) (hdst : dst ≠ []) :
    (∀ rel target fs, Contains rel (str "..") = false →
        (copyNode cwd dst rel (.symlink target) fs).1 ≠ some .pathTraversal ∧
        (copyVerdict rel = none → (copyNode cwd dst rel (.symlink target) fs).1 = none →
          (copyNode cwd dst rel (.symlink target) fs).2.find (fsPath cwd (Join [dst, rel]))
            = some (.symlink target))) ∧
      (∀ dry fs src q, Lstat cwd fs dst = some (.dir []) →
        ¬ fsPath cwd src <+: fsPath cwd dst →
        (∀ n, Lstat cwd fs src = some n → n.listed = true) →
        diverge (fsPath cwd dst) q →
        (copyJobDir cwd dry fs src dst).2.find q = fs.find q) := by
  refine ⟨?_, fun dry fs src q h1 h2 h3 hq =>
    copyJobDir_frame cwd dry fs src dst q hdst h1 h2 h3 hq⟩
  intro rel target fs hrel
  refine ⟨copyNode_no_traversal cwd dst rel (.symlink target) fs hrel rfl, ?_⟩
  intro hv
  rw [copyNode, hv]
  dsimp only
  cases hm : MkdirAll cwd fs (Dir (Join [dst, rel])) with
  | none =>
    intro h
    cases h
  | some fs1 =>
    dsimp only
    cases hs : Symlink cwd fs1 target (Join [dst, rel]) with
    | none =>
      intro h
      cases h
    | some fs2 =>
      intro _
      exact Symlink_find cwd fs1 fs2 target _ hs

/-- C26, witness: staging into `/stage`. -/
theorem copyJobDir_link_verbatim_witness :
    (∀ rel target fs, Contains rel (str "..") = false →
        (copyNode (str "/") (str "/stage") rel (.symlink target) fs).1 ≠ some .pathTraversal ∧
        (copyVerdict rel = none →
          (copyNode (str "/") (str "/stage") rel (.symlink target) fs).1 = none →
          (copyNode (str "/") (str "/stage") rel (.symlink target) fs).2.find
              (fsPath (str "/") (Join [str "/stage", rel]))
            = some (.symlink target))) ∧
      (∀ dry fs src q, Lstat (str "/") fs (str "/stage") = some (.dir []) →
        ¬ fsPath (str "/") src <+: fsPath (str "/") (str "/stage") →
        (∀ n, Lstat (str "/") fs src = some n → n.listed = true) →
        diverge (fsPath (str "/") (str "/stage")) q →
        (copyJobDir (str "/") dry fs src (str "/stage")).2.find q = fs.find q) :=
  copyJobDir_link_verbatim (str "/") (str "/stage") (by decide)

/-! ## `pruneOrphans` (C21) -/

theorem eraseEntry_eq_filter (x : GoString) : ∀ es : List (GoString × Node),
    eraseEntry x es = es.filter fun e => !decide (e.1 = x)
  | [] => rfl
  | (k, v) :: es => by
    rw [eraseEntry]
    by_cases h : k = x
    · rw [if_pos h, List.filter_cons_of_neg (by simp [h]), eraseEntry_eq_filter x es]
    · rw [if_neg h, List.filter_cons_of_pos (by simp [h]), eraseEntry_eq_filter x es]

/-- Removing the entry `x` of the directory at `P` leaves the directory with the
entries not called `x`. -/
theorem del_child_listing : ∀ (P : List GoString) (fs fs2 : Node) (x : GoString)
    (es : List (GoString × Node)), fs.find P = some (.dir es) → fs.del (P ++ [x]) = some fs2 →
    fs2.find P = some (.dir (eraseEntry x es))
  | [], fs, fs2, x, es, hf, h => by
    rw [find_nil] at hf
    simp only [Option.some.injEq] at hf
    rw [hf] at h
    simp only [List.nil_append, Node.del] at h
    cases hl : lookupEntry x es with
    | none => simp [hl] at h
    | some child =>
      simp only [hl, Option.some.injEq] at h
      rw [← h, find_nil]
  | c :: P, fs, fs2, x, es, hf, h => by
    cases fs with
    | dir es0 =>
      cases hP : P ++ [x] with
      | nil => simp at hP
      | cons d cs =>
        rw [List.cons_append, hP] at h
        simp only [Node.del] at h
        rw [find_cons_dir] at hf
        cases hl : lookupEntry c es0 with
        | none => simp [hl] at h
        | some child =>
          simp only [hl] at h hf
          cases hd : child.del (d :: cs) with
          | none => simp [hd] at h
          | some child2 =>
            simp only [hd, Option.some.injEq] at h
            rw [← hP] at hd
            have ih := del_child_listing P child child2 x es hf hd
            rw [← h, find_cons_dir, lookupEntry_setEntry, if_pos rfl]
            exact ih
    | file _ _ => simp [Node.del] at h
    | symlink _ => simp [Node.del] at h

/-- A name that starts with `cronctl-` is not empty, not `.` and not `..`. -/
theorem cronctl_name (name : GoString) (h : HasPrefix name (str "cronctl-") = true) :
    name ≠ [] ∧ name ≠ str "." ∧ name ≠ str ".." := by
  unfold HasPrefix at h
  rw [List.isPrefixOf_iff_prefix] at h
  obtain ⟨t, ht⟩ := h
  have e : str "cronctl-" = 99 :: str "ronctl-" := by decide
  rw [e] at ht
  subst ht
  refine ⟨by simp, ?_, ?_⟩
  · intro h2
    have := congrArg List.head? h2
    revert this
    simp only [List.cons_append, List.head?_cons]
    decide
  · intro h2
    have := congrArg List.head? h2
    revert this
    simp only [List.cons_append, List.head?_cons]
    decide

/-- What the loop of `pruneOrphans` does when it returns no error: the cron
directory keeps the entries that are not orphans named in the list, and nothing
changes off the cron directory. -/
theorem pruneLoop_effect (cwd cronDir : GoString) (keep : List GoString) (hdir : cronDir ≠ []) :
    ∀ (names : List GoString) (fs : Node) (es : List (GoString × Node)),
      fs.find (fsPath cwd cronDir) = some (.dir es) → (∀ n ∈ names, 47 ∉ n) →
      (pruneLoop cwd false cronDir keep names fs).1 = none →
      (pruneLoop cwd false cronDir keep names fs).2.find (fsPath cwd cronDir)
          = some (.dir (es.filter fun e => !(orphanName keep e.1 && names.contains e.1))) ∧
        ∀ q, diverge (fsPath cwd cronDir) q →
          (pruneLoop cwd false cronDir keep names fs).2.find q = fs.find q
  | [], fs, es, hf, _, _ => by
    rw [pruneLoop]
    refine ⟨?_, fun q _ => rfl⟩
    rw [hf]
    have : (es.filter fun e => !(orphanName keep e.1 && ([] : List GoString).contains e.1)) = es := by
      rw [List.filter_eq_self]
      intro e _
      simp
    rw [this]
  | name :: names, fs, es, hf, hn, hok => by
    have ih := pruneLoop_effect cwd cronDir keep hdir names
    have hn2 : ∀ n ∈ names, 47 ∉ n := fun n h => hn n (List.mem_cons_of_mem _ h)
    rw [pruneLoop] at hok ⊢
    by_cases h1 : (!HasPrefix name (str "cronctl-")) = true
    · rw [if_pos h1] at hok ⊢
      have := ih fs es hf hn2 hok
      refine ⟨?_, this.2⟩
      rw [this.1]
      congr 2
      apply List.filter_congr
      intro e _
      by_cases he : e.1 = name
      · have : orphanName keep e.1 = false := by
          unfold orphanName
          rw [he]
          simp only [Bool.not_eq_true'] at h1
          rw [h1]
          rfl
        rw [this]
        rfl
      · simp [List.contains_cons, he]
    · rw [if_neg h1] at hok ⊢
      simp only [Bool.not_eq_true, Bool.not_eq_false'] at h1
      by_cases h2 : keep.contains (TrimPrefix name (str "cronctl-")) = true
      · rw [if_pos h2] at hok ⊢
        have := ih fs es hf hn2 hok
        refine ⟨?_, this.2⟩
        rw [this.1]
        congr 2
        apply List.filter_congr
        intro e _
        by_cases he : e.1 = name
        · have : orphanName keep e.1 = false := by
            unfold orphanName
            rw [he, h2]
            simp
          rw [this]
          rfl
        · simp [List.contains_cons, he]
      · rw [if_neg h2] at hok ⊢
        simp only [Bool.false_eq_true, if_false] at hok ⊢
        have hname := cronctl_name name h1
        have hpath : fsPath cwd (Join [cronDir, name]) = fsPath cwd cronDir ++ [name] :=
          fsPath_child_Join cwd cronDir name hdir (hn name (List.mem_cons_self _ _))
            hname.1 hname.2.1 hname.2.2
        have horph : orphanName keep name = true := by
          unfold orphanName
          rw [h1]
          simpa using h2
        revert hok
        cases hr : Remove cwd fs (Join [cronDir, name]) with
        | none =>
          intro hok
          cases hok
        | some fs1 =>
          intro hok
          dsimp only at hok ⊢
          have hdel : fs.del (fsPath cwd cronDir ++ [name]) = some fs1 := by
            unfold Remove at hr
            rw [hpath] at hr
            split at hr
            · exact Option.noConfusion hr
            · exact hr
            · exact Option.noConfusion hr
          have hf1 := del_child_listing _ fs fs1 name es hf hdel
          have := ih fs1 _ hf1 hn2 hok
          constructor
          · rw [this.1, eraseEntry_eq_filter, List.filter_filter]
            congr 2
            apply List.filter_congr
            intro e _
            by_cases he : e.1 = name
            · rw [he, horph]
              simp
            · simp [List.contains_cons, he]
          · intro q hq
            rw [this.2 q hq]
            exact find_del_diverge _ fs fs1 q hdel (diverge_append_left _ _ _ hq)

theorem Stat_of_dir (cwd : GoString) (fs : Node) (path : GoString) (es : List (GoString × Node))
    (h : Lstat cwd fs path = some (.dir es)) : Stat cwd fs path = some (.dir es) := by
  unfold Lstat at h
  unfold Stat maxLinks
  rw [statAt, h]

/-- What a non-dry-run `pruneOrphans` that returns no error does to a cron
directory whose entry names are file names. -/
theorem pruneOrphans_listing (cwd : GoString) (fs : Node) (cronDir : GoString)
    (keep : List GoString) (es : List (GoString × Node)) (hdir : cronDir ≠ [])
    (hls : Lstat cwd fs cronDir = some (.dir es)) (hnames : ∀ e ∈ es, 47 ∉ e.1)
    (hok : (pruneOrphans cwd false fs cronDir keep).1 = none) :
    Lstat cwd (pruneOrphans cwd false fs cronDir keep).2 cronDir
        = some (.dir (es.filter fun e => !orphanName keep e.1)) ∧
      ∀ q, diverge (fsPath cwd cronDir) q →
        (pruneOrphans cwd false fs cronDir keep).2.find q = fs.find q := by
  have hst := Stat_of_dir cwd fs cronDir es hls
  unfold pruneOrphans at hok ⊢
  rw [hst] at hok ⊢
  dsimp only at hok ⊢
  have := pruneLoop_effect cwd cronDir keep hdir (es.map Prod.fst) fs es hls
    (by
      intro n hn
      rw [List.mem_map] at hn
      obtain ⟨e, he, rfl⟩ := hn
      exact hnames e he) hok
  refine ⟨?_, this.2⟩
  unfold Lstat
  rw [this.1]
  congr 2
  apply List.filter_congr
  intro e he
  have : (es.map Prod.fst).contains e.1 = true := by
    rw [List.contains_eq_any_beq, List.any_eq_true]
    exact ⟨e.1, List.mem_map_of_mem _ he, by simp⟩
  rw [this, Bool.and_true]

/-- C21: a non-dry-run `pruneOrphans` that returns no error leaves the cron
directory with exactly the entries that are not orphans, each as it was (an
orphan is an entry whose name starts with `cronctl-` and whose remainder is not
in the keep set), and changes nothing off the cron directory. The cron directory
is a directory with file names as entry names. -/
theorem pruneOrphans_effect (cwd : GoString) (fs : Node) (cronDir : GoString)
    (keep : List GoString) (es : List (GoString × Node)) (hdir : cronDir ≠ [])
    (hls : Lstat cwd fs cronDir = some (.dir es)) (hnames : ∀ e ∈ es, 47 ∉ e.1)
    (hok : (pruneOrphans cwd false fs cronDir keep).1 = none) :
    Lstat cwd (pruneOrphans cwd false fs cronDir keep).2 cronDir
        = some (.dir (es.filter fun e => !orphanName keep e.1)) ∧
      ∀ q, diverge (fsPath cwd cronDir) q →
        (pruneOrphans cwd false fs cronDir keep).2.find q = fs.find q :=
  pruneOrphans_listing cwd fs cronDir keep es hdir hls hnames hok

/-- C21, witness: with the registrations `cronctl-a` and `cronctl-b` and the file
`other-file` in the cron directory and the keep set `a`, the call succeeds and
leaves `cronctl-a` and `other-file`. -/
theorem pruneOrphans_effect_witness :
    (pruneOrphans (str "/") false cronFs (str "/etc/cron.d") [str "a"]).1 = none ∧
    (Lstat (str "/") (pruneOrphans (str "/") false cronFs (str "/etc/cron.d") [str "a"]).2
        (str "/etc/cron.d")
        = some (.dir ([
            (str "cronctl-a", Node.file 420 (some (str "* * * * * root /opt/jobs/a/run.sh\n"))),
            (str "cronctl-b", Node.file 420 (some (str "* * * * * root /opt/jobs/b/run.sh\n"))),
            (str "other-file", Node.file 420 (some (str "MAILTO=root\n")))].filter
              fun e => !orphanName [str "a"] e.1)) ∧
      ∀ q, diverge (fsPath (str "/") (str "/etc/cron.d")) q →
        (pruneOrphans (str "/") false cronFs (str "/etc/cron.d") [str "a"]).2.find q
          = cronFs.find q) :=
  ⟨by decide, pruneOrphans_effect (str "/") cronFs (str "/etc/cron.d") [str "a"] _ (by decide) rfl
    (by decide) (by decide)⟩

/-! ## `runBuildIfNeeded` without privilege (C27) -/

/-- C27, counterexample: a forced build (so the cache-skip condition does not
hold) with user switching asked for by a process that is not root, in a job
directory with an unreadable file. The fingerprint cannot be computed and the
call returns the error of the hashing, not the build-requires-root error. -/
theorem runBuildIfNeeded_hash_error_first :
    (runBuildIfNeeded unprivilegedWorld false false unreadableFs (str "a") (str "/stage/a") []
        true true 1000 1000).err = some .build ∧
      (runBuildIfNeeded unprivilegedWorld false false unreadableFs (str "a") (str "/stage/a") []
        true true 1000 1000).err ≠ some .buildNeedsRoot := by
  decide

/-- C27, amended: a non-dry-run `runBuildIfNeeded` with user switching asked for
while the effective uid is not 0 starts no program and leaves the filesystem, the
state file included, as it is; and when the fingerprint of the inputs can be
computed and the cache-skip condition does not hold, it returns the
build-requires-root error. -/
theorem runBuildIfNeeded_needs_root (w : SyncWorld) (cancelled : Bool) (fs : Node)
    (jobID jobDir entrypoint : GoString) (force : Bool) (uid gid : Int) (heuid : w.euid ≠ 0) :
    (runBuildIfNeeded w cancelled false fs jobID jobDir entrypoint force true uid gid).started = [] ∧
      (runBuildIfNeeded w cancelled false fs jobID jobDir entrypoint force true uid gid).fs = fs ∧
      ∀ curHash, InputsHash w.env cancelled fs jobDir = .ok curHash →
        cacheHit force (ReadHash w.env.cwd fs (Join [jobDir, str ".cronctl", str "filehash"]))
          curHash = false →
        (runBuildIfNeeded w cancelled false fs jobID jobDir entrypoint force true uid gid).err
          = some .buildNeedsRoot := by
  have hroot : (true && w.euid != 0) = true := by simpa using heuid
  unfold runBuildIfNeeded
  simp only [Bool.false_eq_true, if_false]
  cases hi : InputsHash w.env cancelled fs jobDir with
  | error e =>
    refine ⟨rfl, rfl, ?_⟩
    intro curHash h
    cases h
  | ok h0 =>
    dsimp only
    by_cases hc : cacheHit force
        (ReadHash w.env.cwd fs (Join [jobDir, str ".cronctl", str "filehash"])) h0 = true
    · rw [if_pos hc]
      refine ⟨rfl, rfl, ?_⟩
      intro curHash h hc2
      injection h with h
      rw [← h, hc] at hc2
      cases hc2
    · rw [if_neg hc, if_pos hroot]
      exact ⟨rfl, rfl, fun _ _ _ => rfl⟩

/-- C27, witness: a forced build in `/src/a` asked for by a process with euid
1000. -/
theorem runBuildIfNeeded_needs_root_witness :
    (runBuildIfNeeded unprivilegedWorld false false payloadFs (str "a") (str "/src/a") []
        true true 1000 1000).err = some .buildNeedsRoot ∧
    ((runBuildIfNeeded unprivilegedWorld false false payloadFs (str "a") (str "/src/a") []
        true true 1000 1000).started = [] ∧
      (runBuildIfNeeded unprivilegedWorld false false payloadFs (str "a") (str "/src/a") []
        true true 1000 1000).fs = payloadFs ∧
      ∀ curHash, InputsHash unprivilegedWorld.env false payloadFs (str "/src/a") = .ok curHash →
        cacheHit true (ReadHash unprivilegedWorld.env.cwd payloadFs
          (Join [str "/src/a", str ".cronctl", str "filehash"])) curHash = false →
        (runBuildIfNeeded unprivilegedWorld false false payloadFs (str "a") (str "/src/a") []
          true true 1000 1000).err = some .buildNeedsRoot) :=
  ⟨by decide, runBuildIfNeeded_needs_root unprivilegedWorld false payloadFs (str "a")
    (str "/src/a") [] true 1000 1000 (by decide)⟩

/-! ## Dry run (C23, C24) -/

theorem pruneLoop_dry (cwd cronDir : GoString) (keep : List GoString) :
    ∀ (names : List GoString) (fs : Node), pruneLoop cwd true cronDir keep names fs = (none, fs)
  | [], fs => by rw [pruneLoop]
  | name :: names, fs => by
    have ih := pruneLoop_dry cwd cronDir keep names fs
    rw [pruneLoop]
    split
    · exact ih
    · split
      · exact ih
      · simp only [if_true]
        exact ih

theorem pruneOrphans_dry (cwd : GoString) (fs : Node) (cronDir : GoString) (keep : List GoString) :
    (pruneOrphans cwd true fs cronDir keep).2 = fs := by
  unfold pruneOrphans
  split
  · rw [pruneLoop_dry]
  · rfl

/-- The steps of the syncer are quiet in a dry run when the write of a
registration is. -/
theorem worldSteps_dryQuiet (w : SyncWorld)
    (writeCron : Bool → Node → GoString → Job → GoString → Option SyncError × Node)
    (hcron : ∀ fs cronPath j target, (writeCron true fs cronPath j target).2 = fs) :
    (worldSteps w writeCron).DryQuiet where
  copy := fun _ _ _ => rfl
  carry := fun _ _ _ => rfl
  chown := fun _ _ _ _ => rfl
  build := fun _ _ _ _ _ _ _ _ _ => ⟨rfl, rfl⟩
  cron := hcron
  prune := fun fs cronDir keep => pruneOrphans_dry w.env.cwd fs cronDir keep

theorem fillStaging_dry (steps : SyncSteps) (hQ : steps.DryQuiet) (c : Bool) (opts : SyncOptions)
    (hdry : opts.DryRun = true) (fs : Node) (j : Job) (tmpDir targetPath : GoString)
    (uid gid : Int) :
    (fillStaging steps c opts fs j tmpDir targetPath uid gid).fs = fs ∧
      (fillStaging steps c opts fs j tmpDir targetPath uid gid).started = [] := by
  unfold fillStaging
  rw [hdry]
  dsimp only
  have e2 := hQ.copy fs j.Dir tmpDir
  have e3 := hQ.carry fs targetPath tmpDir
  have e4 := hQ.chown fs tmpDir uid gid
  rw [e2]
  split
  · exact ⟨rfl, rfl⟩
  · rw [e3]
    split
    · exact ⟨rfl, rfl⟩
    · have e5 : (if opts.Chown = true then steps.chownTree true fs tmpDir uid gid
          else (none, fs)).2 = fs := by
        split
        · exact e4
        · rfl
      rw [e5]
      split
      · exact ⟨rfl, rfl⟩
      · split
        · exact hQ.build _ _ _ _ _ _ _ _ _
        · exact ⟨rfl, rfl⟩

theorem settleJob_dry (steps : SyncSteps) (cwd : GoString) (hQ : steps.DryQuiet)
    (opts : SyncOptions) (hdry : opts.DryRun = true) (fs : Node) (j : Job)
    (cronPath targetPath : GoString) (uid gid : Int) :
    (settleJob steps cwd opts fs j cronPath targetPath uid gid).2 = fs := by
  unfold settleJob
  rw [hdry]
  dsimp only
  have e7 : (if opts.Chown = true then steps.chownTree true fs targetPath uid gid
      else (none, fs)).2 = fs := by
    split
    · exact hQ.chown _ _ _ _
    · rfl
  rw [e7]
  split
  · rfl
  · split
    · unfold removeFileIfExists
      rw [if_pos rfl]
    · exact hQ.cron _ _ _ _

/-- In a dry run the body of the loop leaves the filesystem as it is, stages
nothing and starts no program. -/
theorem syncJob_dry (steps : SyncSteps) (cwd : GoString) (hQ : steps.DryQuiet)
    (faults : SyncFaults) (c : Bool) (opts : SyncOptions) (hdry : opts.DryRun = true)
    (fs : Node) (j : Job) :
    (syncJob steps cwd faults c opts fs j).fs = fs ∧
      (syncJob steps cwd faults c opts fs j).started = [] ∧
      (syncJob steps cwd faults c opts fs j).staged = none := by
  unfold syncJob
  rw [hdry]
  dsimp only
  have hrm : ∀ p, removeFileIfExists cwd true fs p = (none, fs) := by
    intro p
    unfold removeFileIfExists
    rw [if_pos rfl]
  have hrd : ∀ p, removeDirIfExists cwd true fs p = (none, fs) := by
    intro p
    unfold removeDirIfExists
    rw [if_pos rfl]
  split
  · rw [hrm]
    dsimp only
    split
    · rw [hrd]
      exact ⟨rfl, rfl, rfl⟩
    · exact ⟨rfl, rfl, rfl⟩
  · cases hu : steps.resolveJobUser fs j.Spec.User with
    | none => exact ⟨rfl, rfl, rfl⟩
    | some ug =>
      obtain ⟨uid, gid⟩ := ug
      dsimp only
      have hst : stageJobDir cwd (steps.random fs) true fs opts.TargetDir j.ID
          = some (Join [opts.TargetDir, str ".cronctl-staging-" ++ j.ID], fs) := by
        unfold stageJobDir
        rw [if_pos rfl]
      rw [hst]
      dsimp only
      have e5 := fillStaging_dry steps hQ c opts hdry fs j
        (Join [opts.TargetDir, str ".cronctl-staging-" ++ j.ID]) (Join [opts.TargetDir, j.ID])
        uid gid
      have e6 : ∀ fsx s d, replaceDir cwd faults.swap true fsx s d = (none, fsx) := by
        intro fsx s d
        unfold replaceDir
        rw [if_pos rfl]
      simp only [if_true]
      split
      · exact ⟨e5.1, e5.2, rfl⟩
      · rw [e6]
        dsimp only
        rw [e5.1]
        exact ⟨settleJob_dry steps cwd hQ opts hdry fs j _ _ uid gid, e5.2, rfl⟩

theorem syncLoop_dry (steps : SyncSteps) (cwd : GoString) (hQ : steps.DryQuiet)
    (faults : SyncFaults) (ctx : SyncCtx) (opts : SyncOptions) (hdry : opts.DryRun = true) :
    ∀ (k : Nat) (jobs : List Job) (fs : Node),
      (syncLoop steps cwd faults ctx opts k jobs fs).fs = fs ∧
        (syncLoop steps cwd faults ctx opts k jobs fs).started = [] ∧
        (syncLoop steps cwd faults ctx opts k jobs fs).staged = [] ∧
        (syncLoop steps cwd faults ctx opts k jobs fs).pending = none
  | _, [], fs => by
    rw [syncLoop]
    exact ⟨rfl, rfl, rfl, rfl⟩
  | k, j :: js, fs => by
    rw [syncLoop]
    have e := syncJob_dry steps cwd hQ faults (ctx.atBuild k) opts hdry fs j
    split
    · exact ⟨rfl, rfl, rfl, rfl⟩
    · dsimp only
      split
      · dsimp only
        rw [e.2.2]
        refine ⟨e.1, e.2.1, rfl, ?_⟩
        split <;> rfl
      · dsimp only
        have ih := syncLoop_dry steps cwd hQ faults ctx opts hdry (k + 1) js
          (syncJob steps cwd faults (ctx.atBuild k) opts fs j).fs
        rw [e.1] at ih
        rw [e.1, e.2.1, e.2.2, ih.1, ih.2.1, ih.2.2.1, ih.2.2.2]
        exact ⟨rfl, rfl, rfl, rfl⟩

/-- A dry run of `Sync` creates the target directory, unless the context is
cancelled or there is no job, and does nothing else. -/
theorem Sync_dry (steps : SyncSteps) (cwd : GoString) (hQ : steps.DryQuiet)
    (faults : SyncFaults) (ctx : SyncCtx) (opts : SyncOptions) (hdry : opts.DryRun = true)
    (fs : Node) (jobs : List Job) :
    (Sync steps cwd faults ctx opts fs jobs).fs
        = (if ctx.atStart = true ∨ jobs.length = 0 then fs
          else (MkdirAll cwd fs opts.withDefaults.TargetDir).getD fs) ∧
      (Sync steps cwd faults ctx opts fs jobs).started = [] ∧
      (Sync steps cwd faults ctx opts fs jobs).staged = [] := by
  have hdry2 : opts.withDefaults.DryRun = true := hdry
  unfold Sync
  by_cases hs : ctx.atStart = true
  · rw [if_pos hs, if_pos (Or.inl hs)]
    exact ⟨rfl, rfl, rfl⟩
  · rw [if_neg hs]
    dsimp only
    by_cases hj : jobs.length = 0
    · rw [if_pos hj, if_pos (Or.inr hj)]
      exact ⟨rfl, rfl, rfl⟩
    · rw [if_neg hj, if_neg (not_or.mpr ⟨hs, hj⟩)]
      cases hm : MkdirAll cwd fs opts.withDefaults.TargetDir with
      | none => exact ⟨rfl, rfl, rfl⟩
      | some fs0 =>
        dsimp only
        have l := syncLoop_dry steps cwd hQ faults ctx opts.withDefaults hdry2 0 jobs fs0
        split
        · dsimp only
          rw [l.2.2.2, l.1, l.2.1, l.2.2.1]
          exact ⟨rfl, rfl, rfl⟩
        · split
          · dsimp only
            rw [hdry2, l.1, hQ.prune, l.2.1, l.2.2.1]
            exact ⟨rfl, rfl, rfl⟩
          · dsimp only
            rw [l.1, l.2.1, l.2.2.1]
            exact ⟨rfl, rfl, rfl⟩
theorem find_append : ∀ (p q : List GoString) (fs : Node),
    fs.find (p ++ q) = (fs.find p).bind fun n => n.find q
  | [], q, fs => by
    rw [List.nil_append, find_nil]
    rfl
  | c :: p, q, fs => by
    cases fs with
    | dir es =>
      rw [List.cons_append, find_cons_dir, find_cons_dir]
      cases lookupEntry c es with
      | none => rfl
      | some child => exact find_append p q child
    | file m d => simp [Node.find]
    | symlink t => simp [Node.find]

/-- A directory `os.MkdirAll` creates is empty. -/
theorem find_mkdirAll_fresh : ∀ (p : List GoString) (fs fs1 : Node),
    fs.find p = none → fs.mkdirAll p = some fs1 → fs1.find p = some (.dir [])
  | [], fs, fs1, hf, _ => by
    rw [find_nil] at hf
    cases hf
  | c :: cs, fs, fs1, hf, h => by
    cases fs with
    | dir es =>
      rw [find_cons_dir] at hf
      simp only [Node.mkdirAll] at h
      cases hl : lookupEntry c es with
      | some child =>
        simp only [hl] at h hf
        cases hm : child.mkdirAll cs with
        | none => simp [hm] at h
        | some child2 =>
          simp only [hm, Option.some.injEq] at h
          rw [← h, find_cons_dir, lookupEntry_setEntry, if_pos rfl]
          exact find_mkdirAll_fresh cs child child2 hf hm
      | none =>
        simp only [hl] at h
        cases hm : (Node.dir []).mkdirAll cs with
        | none => simp [hm] at h
        | some child2 =>
          simp only [hm, Option.some.injEq] at h
          rw [← h, find_cons_dir, lookupEntry_setEntry, if_pos rfl]
          cases cs with
          | nil =>
            simp only [Node.mkdirAll, Option.some.injEq] at hm
            rw [← hm]
            rfl
          | cons d ds =>
            exact find_mkdirAll_fresh (d :: ds) (Node.dir []) child2
              (by simp [Node.find, lookupEntry]) hm
    | file m d => simp [Node.mkdirAll] at h
    | symlink t => simp [Node.mkdirAll] at h

/-- C23, counterexample: a dry run for the job `a` with the target directory
`/opt/jobs`, which does not exist. The call returns no error and the target
directory is there afterwards. -/
theorem Sync_dry_run_creates_target :
    payloadFs.find [str "opt"] = none ∧
      (Sync (worldSteps quietWorld cronDryOnly) (str "/") SyncFaults.none liveSyncCtx dryOptions
        payloadFs [scheduledJobA]).err = none ∧
      (Sync (worldSteps quietWorld cronDryOnly) (str "/") SyncFaults.none liveSyncCtx dryOptions
        payloadFs [scheduledJobA]).fs.find [str "opt", str "jobs"] = some (.dir []) :=
  ⟨rfl, by decide, rfl⟩

/-- C23, amended: with `DryRun` set, and a `writeCronFile` that writes nothing in
a dry run, `Sync` changes the filesystem by the call `os.MkdirAll(TargetDir)`
alone, which it makes unless the context is cancelled or the job list is empty:
the target directory and its missing parents are created, every path that does
not lead to the target directory is as before, and no file or link changes. -/
theorem Sync_dry_run (w : SyncWorld)
    (writeCron : Bool → Node → GoString → Job → GoString → Option SyncError × Node)
    (faults : SyncFaults) (ctx : SyncCtx) (opts : SyncOptions) (fs : Node) (jobs : List Job)
    (hdry : opts.DryRun = true)
    (hcron : ∀ fs cronPath j target, (writeCron true fs cronPath j target).2 = fs) :
    (Sync (worldSteps w writeCron) w.env.cwd faults ctx opts fs jobs).fs
        = (if ctx.atStart = true ∨ jobs.length = 0 then fs
          else (MkdirAll w.env.cwd fs opts.withDefaults.TargetDir).getD fs) ∧
      (∀ q, ¬ q <+: fsPath w.env.cwd opts.withDefaults.TargetDir →
        (Sync (worldSteps w writeCron) w.env.cwd faults ctx opts fs jobs).fs.find q = fs.find q) ∧
      (∀ q n, fs.find q = some n → n.isDir = false →
        (Sync (worldSteps w writeCron) w.env.cwd faults ctx opts fs jobs).fs.find q = some n) := by
  have h := (Sync_dry (worldSteps w writeCron) w.env.cwd (worldSteps_dryQuiet w writeCron hcron)
    faults ctx opts hdry fs jobs).1
  refine ⟨h, ?_, ?_⟩
  · intro q hq
    rw [h]
    split
    · rfl
    · cases hm : MkdirAll w.env.cwd fs opts.withDefaults.TargetDir with
      | none => rfl
      | some fs0 => exact MkdirAll_frame _ fs fs0 _ q hm hq
  · intro q n hq hn
    rw [h]
    split
    · exact hq
    · cases hm : MkdirAll w.env.cwd fs opts.withDefaults.TargetDir with
      | none => exact hq
      | some fs0 => exact find_mkdirAll _ fs fs0 q n hm hq hn

/-- C23, witness: the dry run of the counterexample. -/
theorem Sync_dry_run_witness :
    (Sync (worldSteps quietWorld cronDryOnly) quietWorld.env.cwd SyncFaults.none liveSyncCtx
        dryOptions payloadFs [scheduledJobA]).fs
        = (if liveSyncCtx.atStart = true ∨ [scheduledJobA].length = 0 then payloadFs
          else (MkdirAll quietWorld.env.cwd payloadFs dryOptions.withDefaults.TargetDir).getD
            payloadFs) ∧
      (∀ q, ¬ q <+: fsPath quietWorld.env.cwd dryOptions.withDefaults.TargetDir →
        (Sync (worldSteps quietWorld cronDryOnly) quietWorld.env.cwd SyncFaults.none liveSyncCtx
          dryOptions payloadFs [scheduledJobA]).fs.find q = payloadFs.find q) ∧
      (∀ q n, payloadFs.find q = some n → n.isDir = false →
        (Sync (worldSteps quietWorld cronDryOnly) quietWorld.env.cwd SyncFaults.none liveSyncCtx
          dryOptions payloadFs [scheduledJobA]).fs.find q = some n) :=
  Sync_dry_run quietWorld cronDryOnly SyncFaults.none liveSyncCtx dryOptions payloadFs
    [scheduledJobA] rfl (fun _ _ _ _ => rfl)

/-- C24, counterexample: a dry run with the cron directory `/srv` and the target
directory `/srv/jobs`, neither of which exists. The call returns no error and
has created the cron directory, as a parent of the target directory. -/
theorem Sync_dry_run_creates_cron_dir :
    payloadFs.find [str "srv"] = none ∧
      (Sync (worldSteps quietWorld cronDryOnly) (str "/") SyncFaults.none liveSyncCtx
        nestedDirOptions payloadFs [scheduledJobA]).err = none ∧
      (Sync (worldSteps quietWorld cronDryOnly) (str "/") SyncFaults.none liveSyncCtx
        nestedDirOptions payloadFs [scheduledJobA]).fs.find [str "srv"]
          = some (.dir [(str "jobs", .dir [])]) :=
  ⟨rfl, by decide, rfl⟩

/-- C24, amended: a dry run of `Sync`, with a `writeCronFile` that writes nothing
in a dry run, against a target directory and a cron directory that do not exist,
the cron directory not being the target directory or on the way to it: there is
nothing below the target directory afterwards (no job subtree, no staging
directory), the cron directory does not exist and nothing is below it (no
registration), no program was started and no staging directory was made. -/
theorem Sync_dry_run_fresh (w : SyncWorld)
    (writeCron : Bool → Node → GoString → Job → GoString → Option SyncError × Node)
    (faults : SyncFaults) (ctx : SyncCtx) (opts : SyncOptions) (fs : Node) (jobs : List Job)
    (hdry : opts.DryRun = true)
    (hcron : ∀ fs cronPath j target, (writeCron true fs cronPath j target).2 = fs)
    (hT : fs.find (fsPath w.env.cwd opts.withDefaults.TargetDir) = none)
    (hC : fs.find (fsPath w.env.cwd opts.withDefaults.CronDir) = none)
    (hCT : ¬ fsPath w.env.cwd opts.withDefaults.CronDir
      <+: fsPath w.env.cwd opts.withDefaults.TargetDir) :
    (∀ rest, rest ≠ [] →
        (Sync (worldSteps w writeCron) w.env.cwd faults ctx opts fs jobs).fs.find
          (fsPath w.env.cwd opts.withDefaults.TargetDir ++ rest) = none) ∧
      (∀ rest, (Sync (worldSteps w writeCron) w.env.cwd faults ctx opts fs jobs).fs.find
          (fsPath w.env.cwd opts.withDefaults.CronDir ++ rest) = none) ∧
      (Sync (worldSteps w writeCron) w.env.cwd faults ctx opts fs jobs).started = [] ∧
      (Sync (worldSteps w writeCron) w.env.cwd faults ctx opts fs jobs).staged = [] := by
  have h := Sync_dry (worldSteps w writeCron) w.env.cwd (worldSteps_dryQuiet w writeCron hcron)
    faults ctx opts hdry fs jobs
  refine ⟨?_, ?_, h.2.1, h.2.2⟩
  · intro rest hrest
    rw [h.1, find_append]
    split
    · rw [hT]
      rfl
    · cases hm : MkdirAll w.env.cwd fs opts.withDefaults.TargetDir with
      | none =>
        show (fs.find _).bind _ = none
        rw [hT]
        rfl
      | some fs0 =>
        show (fs0.find _).bind _ = none
        rw [find_mkdirAll_fresh _ fs fs0 hT hm]
        cases rest with
        | nil => exact absurd rfl hrest
        | cons x xs => rfl
  · intro rest
    rw [h.1, find_append]
    have : (if ctx.atStart = true ∨ jobs.length = 0 then fs
        else (MkdirAll w.env.cwd fs opts.withDefaults.TargetDir).getD fs).find
          (fsPath w.env.cwd opts.withDefaults.CronDir) = none := by
      split
      · exact hC
      · cases hm : MkdirAll w.env.cwd fs opts.withDefaults.TargetDir with
        | none => exact hC
        | some fs0 =>
          show fs0.find _ = none
          rw [MkdirAll_frame _ fs fs0 _ _ hm hCT]
          exact hC
    rw [this]
    rfl

/-- C24, witness: a dry run for the job `a`, which has a build step and a
schedule, with the cron directory `/var/cron.d` and the target directory
`/opt/jobs`. -/
theorem Sync_dry_run_fresh_witness :
    (∀ rest, rest ≠ [] →
        (Sync (worldSteps quietWorld cronDryOnly) quietWorld.env.cwd SyncFaults.none liveSyncCtx
          freshDirOptions payloadFs [scheduledJobA]).fs.find
          (fsPath quietWorld.env.cwd freshDirOptions.withDefaults.TargetDir ++ rest) = none) ∧
      (∀ rest, (Sync (worldSteps quietWorld cronDryOnly) quietWorld.env.cwd SyncFaults.none
          liveSyncCtx freshDirOptions payloadFs [scheduledJobA]).fs.find
          (fsPath quietWorld.env.cwd freshDirOptions.withDefaults.CronDir ++ rest) = none) ∧
      (Sync (worldSteps quietWorld cronDryOnly) quietWorld.env.cwd SyncFaults.none liveSyncCtx
        freshDirOptions payloadFs [scheduledJobA]).started = [] ∧
      (Sync (worldSteps quietWorld cronDryOnly) quietWorld.env.cwd SyncFaults.none liveSyncCtx
        freshDirOptions payloadFs [scheduledJobA]).staged = [] :=
  Sync_dry_run_fresh quietWorld cronDryOnly SyncFaults.none liveSyncCtx freshDirOptions payloadFs
    [scheduledJobA] rfl (fun _ _ _ _ => rfl) rfl rfl (by decide)

/-! ## `Sync` with pruning (C22) -/

theorem syncJob_orphans_flag (steps : SyncSteps) (cwd : GoString) (faults : SyncFaults) (c : Bool)
    (opts : SyncOptions) (b : Bool) (fs : Node) (j : Job) :
    syncJob steps cwd faults c { opts with RemoveOrphans := b } fs j
      = syncJob steps cwd faults c opts fs j := rfl

theorem syncLoop_orphans_flag (steps : SyncSteps) (cwd : GoString) (faults : SyncFaults)
    (ctx : SyncCtx) (opts : SyncOptions) (b : Bool) :
    ∀ (k : Nat) (jobs : List Job) (fs : Node),
      syncLoop steps cwd faults ctx { opts with RemoveOrphans := b } k jobs fs
        = syncLoop steps cwd faults ctx opts k jobs fs
  | _, [], _ => by
    rw [syncLoop, syncLoop]
  | k, j :: js, fs => by
    rw [syncLoop, syncLoop, syncJob_orphans_flag]
    simp only [syncLoop_orphans_flag steps cwd faults ctx opts b (k + 1) js]

/-- `Sync` with pruning is `Sync` without it followed by `pruneOrphans`, when the
latter returns no error. -/
theorem Sync_then_prune (steps : SyncSteps) (cwd : GoString) (faults : SyncFaults)
    (ctx : SyncCtx) (opts : SyncOptions) (fs : Node) (jobs : List Job)
    (hjobs : jobs.length ≠ 0)
    (hok : (Sync steps cwd faults ctx { opts with RemoveOrphans := true } fs jobs).err = none) :
    (Sync steps cwd faults ctx { opts with RemoveOrphans := true } fs jobs).err
        = (steps.pruneOrphans opts.DryRun
            (Sync steps cwd faults ctx { opts with RemoveOrphans := false } fs jobs).fs
            opts.withDefaults.CronDir (jobs.map (·.ID))).1 ∧
      (Sync steps cwd faults ctx { opts with RemoveOrphans := true } fs jobs).fs
        = (steps.pruneOrphans opts.DryRun
            (Sync steps cwd faults ctx { opts with RemoveOrphans := false } fs jobs).fs
            opts.withDefaults.CronDir (jobs.map (·.ID))).2 := by
  have e1 : ({ opts with RemoveOrphans := true } : SyncOptions).withDefaults
      = { opts.withDefaults with RemoveOrphans := true } := rfl
  have e0 : ({ opts with RemoveOrphans := false } : SyncOptions).withDefaults
      = { opts.withDefaults with RemoveOrphans := false } := rfl
  revert hok
  unfold Sync
  by_cases hs : ctx.atStart = true
  · simp only [hs, if_true]
    intro h
    cases h
  · simp only [hs, Bool.false_eq_true, if_false, if_neg hjobs, e1, e0]
    cases hm : MkdirAll cwd fs opts.withDefaults.TargetDir with
    | none =>
      intro h
      cases h
    | some fs0 =>
      simp only [syncLoop_orphans_flag]
      cases hl : (syncLoop steps cwd faults ctx opts.withDefaults 0 jobs fs0).err with
      | some e =>
        intro h
        cases h
      | none =>
        intro _
        exact ⟨rfl, rfl⟩

theorem lookupEntry_filter (f : GoString → Bool) (x : GoString) :
    ∀ es : List (GoString × Node),
      lookupEntry x (es.filter fun e => f e.1) = if f x = true then lookupEntry x es else none
  | [] => by simp [lookupEntry]
  | (k, v) :: es => by
    have ih := lookupEntry_filter f x es
    by_cases hx : k = x
    · subst hx
      by_cases hk : f k = true
      · rw [List.filter_cons_of_pos (by simpa using hk), lookupEntry, if_pos rfl, if_pos hk,
          lookupEntry, if_pos rfl]
      · rw [List.filter_cons_of_neg (by simpa using hk), ih, if_neg hk, if_neg hk]
    · by_cases hk : f k = true
      · rw [List.filter_cons_of_pos (by simpa using hk), lookupEntry, if_neg hx, ih]
        conv => rhs; rw [lookupEntry, if_neg hx]
      · rw [List.filter_cons_of_neg (by simpa using hk), ih]
        conv => rhs; rw [lookupEntry, if_neg hx]

theorem orphanName_cronctl (keep : List GoString) (id : GoString) :
    orphanName keep (str "cronctl-" ++ id) = !keep.contains id := by
  have h1 : HasPrefix (str "cronctl-" ++ id) (str "cronctl-") = true := by
    unfold HasPrefix
    rw [List.isPrefixOf_iff_prefix]
    exact List.prefix_append _ _
  unfold orphanName TrimPrefix
  rw [h1, if_pos rfl, List.drop_left]
  rfl

/-- C22 at a failing input: `Sync` with pruning asked for and an empty job list,
on a cron directory with the registrations of the jobs `a` and `b`. `Sync`
returns at `len(jobs) == 0`, before the pruning is reached: the call returns no
error and both registrations are still there, though neither job is in the
selection, against the help of `--remove-orphans`, `Remove cronctl-managed cron
files not present in selection.` -/
theorem Sync_empty_list_keeps_orphans :
    (Sync (worldSteps quietWorld cronRefused) (str "/") SyncFaults.none liveSyncCtx pruneOptions
        cronFs []).err = none ∧
      ((Sync (worldSteps quietWorld cronRefused) (str "/") SyncFaults.none liveSyncCtx pruneOptions
        cronFs []).fs.find [str "etc", str "cron.d", str "cronctl-a"]).isSome = true ∧
      ((Sync (worldSteps quietWorld cronRefused) (str "/") SyncFaults.none liveSyncCtx pruneOptions
        cronFs []).fs.find [str "etc", str "cron.d", str "cronctl-b"]).isSome = true := by
  decide

/-- Pruning after the loop of `Sync`, for a job list that is not empty, where the
code does what C22 says. When a non-dry-run `Sync` with
pruning returns no error, and the cron directory, as the processing of the jobs
has left it, is a directory with file names as entry names, then the cron
directory holds in the end exactly the entries the processing left that are not
orphans: there is no entry `cronctl-<id>` with `id` outside the identifiers of
the job list, and the entry `cronctl-<id>` of every job of the list is as the
processing left it. -/
theorem Sync_prunes_orphans (w : SyncWorld)
    (writeCron : Bool → Node → GoString → Job → GoString → Option SyncError × Node)
    (faults : SyncFaults) (ctx : SyncCtx) (opts : SyncOptions) (fs : Node) (jobs : List Job)
    (es : List (GoString × Node)) (hdry : opts.DryRun = false) (hjobs : jobs.length ≠ 0)
    (hok : (Sync (worldSteps w writeCron) w.env.cwd faults ctx
      { opts with RemoveOrphans := true } fs jobs).err = none)
    (hls : Lstat w.env.cwd (Sync (worldSteps w writeCron) w.env.cwd faults ctx
      { opts with RemoveOrphans := false } fs jobs).fs opts.withDefaults.CronDir = some (.dir es))
    (hnames : ∀ e ∈ es, 47 ∉ e.1) :
    Lstat w.env.cwd (Sync (worldSteps w writeCron) w.env.cwd faults ctx
        { opts with RemoveOrphans := true } fs jobs).fs opts.withDefaults.CronDir
        = some (.dir (es.filter fun e => !orphanName (jobs.map (·.ID)) e.1)) ∧
      (∀ id, id ∉ jobs.map (·.ID) →
        (Sync (worldSteps w writeCron) w.env.cwd faults ctx
          { opts with RemoveOrphans := true } fs jobs).fs.find
          (fsPath w.env.cwd opts.withDefaults.CronDir ++ [str "cronctl-" ++ id]) = none) ∧
      (∀ j ∈ jobs,
        (Sync (worldSteps w writeCron) w.env.cwd faults ctx
          { opts with RemoveOrphans := true } fs jobs).fs.find
          (fsPath w.env.cwd opts.withDefaults.CronDir ++ [str "cronctl-" ++ j.ID])
        = (Sync (worldSteps w writeCron) w.env.cwd faults ctx
          { opts with RemoveOrphans := false } fs jobs).fs.find
          (fsPath w.env.cwd opts.withDefaults.CronDir ++ [str "cronctl-" ++ j.ID])) := by
  obtain ⟨herr, hfs⟩ := Sync_then_prune (worldSteps w writeCron) w.env.cwd faults ctx opts fs jobs
    hjobs hok
  rw [hok] at herr
  generalize (Sync (worldSteps w writeCron) w.env.cwd faults ctx
    { opts with RemoveOrphans := false } fs jobs).fs = dfs at herr hfs hls ⊢
  generalize (Sync (worldSteps w writeCron) w.env.cwd faults ctx
    { opts with RemoveOrphans := true } fs jobs).fs = ofs at hfs ⊢
  rw [hdry] at herr hfs
  have herr2 : (pruneOrphans w.env.cwd false dfs opts.withDefaults.CronDir
      (jobs.map (·.ID))).1 = none := herr.symm
  have hfs2 : ofs = (pruneOrphans w.env.cwd false dfs opts.withDefaults.CronDir
      (jobs.map (·.ID))).2 := hfs
  have hp := (pruneOrphans_listing w.env.cwd dfs opts.withDefaults.CronDir (jobs.map (·.ID)) es
    (withDefaults_CronDir opts) hls hnames herr2).1
  have hfinal : Lstat w.env.cwd ofs opts.withDefaults.CronDir
      = some (.dir (es.filter fun e => !orphanName (jobs.map (·.ID)) e.1)) := by
    rw [hfs2]
    exact hp
  refine ⟨hfinal, ?_, ?_⟩
  · intro id hid
    unfold Lstat at hfinal
    rw [find_append_of_dir _ _ _ _ hfinal,
      lookupEntry_filter (fun n => !orphanName (jobs.map (·.ID)) n), orphanName_cronctl]
    have : (jobs.map (·.ID)).contains id = false := by
      rw [List.contains_eq_any_beq, List.any_eq_false]
      intro x hx
      simp only [beq_iff_eq]
      intro h
      exact hid (h ▸ hx)
    rw [this]
    rfl
  · intro j hj
    unfold Lstat at hfinal hls
    rw [find_append_of_dir _ _ _ _ hfinal, find_append_of_dir _ _ _ _ hls,
      lookupEntry_filter (fun n => !orphanName (jobs.map (·.ID)) n), orphanName_cronctl]
    have : (jobs.map (·.ID)).contains j.ID = true := by
      rw [List.contains_eq_any_beq, List.any_eq_true]
      exact ⟨j.ID, List.mem_map_of_mem _ hj, by simp⟩
    rw [this]
    rfl

set_option maxRecDepth 200000 in
/-- An example of `Sync_prunes_orphans`: `Sync` with pruning for the job `a`,
which has a schedule, on a cron directory with the registrations of `a` and `b` and a file `other-file`. The
registration of `a` is rewritten and stays, the one of `b` goes, `other-file`
stays. -/
theorem Sync_prunes_orphans_witness :
    (Sync (worldSteps quietWorld cronWritten) (str "/") SyncFaults.none liveSyncCtx pruneOptions
        cronPayloadFs [scheduledJobA]).err = none ∧
    (Lstat (str "/") (Sync (worldSteps quietWorld cronWritten) quietWorld.env.cwd SyncFaults.none
        liveSyncCtx { demoOptions with RemoveOrphans := true } cronPayloadFs [scheduledJobA]).fs
        demoOptions.withDefaults.CronDir
        = some (.dir ([
            (str "cronctl-a", Node.file 420 (some (str "* * * * * root run\n"))),
            (str "cronctl-b", Node.file 420 (some (str "* * * * * root /opt/jobs/b/run.sh\n"))),
            (str "other-file", Node.file 420 (some (str "MAILTO=root\n")))].filter
              fun e => !orphanName ([scheduledJobA].map (·.ID)) e.1)) ∧
      (∀ id, id ∉ [scheduledJobA].map (·.ID) →
        (Sync (worldSteps quietWorld cronWritten) quietWorld.env.cwd SyncFaults.none liveSyncCtx
          { demoOptions with RemoveOrphans := true } cronPayloadFs [scheduledJobA]).fs.find
          (fsPath quietWorld.env.cwd demoOptions.withDefaults.CronDir ++ [str "cronctl-" ++ id])
            = none) ∧
      (∀ j ∈ [scheduledJobA],
        (Sync (worldSteps quietWorld cronWritten) quietWorld.env.cwd SyncFaults.none liveSyncCtx
          { demoOptions with RemoveOrphans := true } cronPayloadFs [scheduledJobA]).fs.find
          (fsPath quietWorld.env.cwd demoOptions.withDefaults.CronDir ++ [str "cronctl-" ++ j.ID])
        = (Sync (worldSteps quietWorld cronWritten) quietWorld.env.cwd SyncFaults.none liveSyncCtx
          { demoOptions with RemoveOrphans := false } cronPayloadFs [scheduledJobA]).fs.find
          (fsPath quietWorld.env.cwd demoOptions.withDefaults.CronDir
            ++ [str "cronctl-" ++ j.ID]))) :=
  ⟨by decide, Sync_prunes_orphans quietWorld cronWritten SyncFaults.none liveSyncCtx demoOptions
    cronPayloadFs [scheduledJobA] _ rfl (by decide) (by decide) rfl (by decide)⟩

end Cronctl
